import Mathlib

/-!
Columnix: column buffer, column cursor and match kernels.

A shallow embedding of `lib/column.c` and `lib/match.c`.

Conventions of the embedding.

* A byte is a natural number below 256; memory is a `List Nat` of bytes and a
  pointer into a column buffer is the byte offset from the buffer head.
* A C function that can stop without returning (a failed `assert`, undefined
  behaviour such as an out-of-bounds access) returns an `Option`; `none` is "the
  call does not return normally".  A function that returns `bool` next to a
  mutated column returns `Bool × cx_column`.
* `size_t` values are naturals.  Object sizes and offsets are sizes of objects
  that exist in memory, so their sums are taken in `Nat`; the places where the
  code itself computes past the 64-bit range (the doubling in
  `cx_column_resize`, the subtraction in `cx_column_cursor_skip_bit`, the shift
  in `cx_column_put_bit`) are modelled with explicit 64-bit arithmetic.  A shift
  by 64 or more, undefined in C, yields what the target's shifter yields
  (`Build.shift_masks`).
* The allocator is an oracle passed to each call that allocates.
-/

namespace Columnix

/-! ## Build configuration -/

/-- The build and its target.  Compile-time switches: `CX_SSE42` (over-allocation and
vectorised strlen), `CX_SIMD_WIDTH` (16, 32 or 64 bytes when an AVX flavour is
compiled in) and `CX_PCMPISTRM` (the 16-byte compare paths of the string kernels).
Target: `shift_masks` says what a 64-bit left shift by 64 or more
yields, which C leaves undefined (C11 6.5.7p3): `true` for a shifter that uses the
count modulo 64 (x86-64 `shl`, AArch64 `lsl`), `false` for one that shifts the bit
out and yields 0 (PowerPC `sld`, the value of the shift modulo 2^64). -/
structure Build where
  sse42 : Bool
  simd : Option Nat
  shift_masks : Bool
  pcmpistrm : Bool
deriving DecidableEq, Repr

/-- The macro `CX_COLUMN_OVER_ALLOC`: 16 with SSE4.2, absent (no pad) otherwise. -/
def CX_COLUMN_OVER_ALLOC (cfg : Build) : Nat := if cfg.sse42 then 16 else 0

/-- The constant `CX_BATCH_SIZE`. -/
def CX_BATCH_SIZE : Nat := 64

/-- Two to the 64: the modulus of `size_t` and `uint64_t`. -/
def WORD : Nat := 2 ^ 64

/-- The C expression `(uint64_t)x << n` on the target. -/
def shl64 (cfg : Build) (x n : Nat) : Nat :=
  (x <<< (if cfg.shift_masks then n % 64 else n)) % WORD

/-! ## Types (`include/types.h`) -/

inductive cx_column_type where
  | BIT | I32 | I64 | FLT | DBL | STR
deriving DecidableEq, Repr

inductive cx_encoding_type where
  | NONE
deriving DecidableEq, Repr

/-- The record `struct cx_string`; `ptr` is a byte offset into the column buffer. -/
structure cx_string where
  ptr : Nat
  len : Nat
deriving DecidableEq, Repr

/-! ## Match kernels (`lib/match.c`) -/

/-- The comparison a kernel is instantiated with (`==`, `<`, `>`). -/
inductive MatchOp where
  | eq | lt | gt
deriving DecidableEq, Repr

/-- The C expression `a op b` on signed integers. -/
def MatchOp.test : MatchOp → Int → Int → Bool
  | .eq, a, b => decide (a = b)
  | .lt, a, b => decide (a < b)
  | .gt, a, b => decide (a > b)

/-- One iteration of the scalar loop: `if (batch[i] op cmp) mask |= 1 << i`.
Reading `batch[i]` outside the array is undefined. -/
def naive_step (op : MatchOp) (batch : List Int) (cmp : Int) (mask i : Nat) : Option Nat :=
  match batch[i]? with
  | none => none
  | some x => some (if op.test x cmp then mask ||| ((1 <<< i) % WORD) else mask)

/-- The function `cx_match_<T>_<op>_naive` (CX_NAIVE_MATCH_DEFINITION): asserts `size <= 64`,
then scans `i = 0 .. size-1`. -/
def cx_match_naive (op : MatchOp) (size : Nat) (batch : List Int) (cmp : Int) : Option Nat :=
  if size ≤ 64 then (List.range size).foldlM (naive_step op batch cmp) 0 else none

/-- Modelled from the spec: the per-chunk primitive `cx_simd_<T>_<op>(cmp_vec, chunk)`
of the absent headers avx.h / avx2.h / avx512.h, "computing per-chunk lane masks":
bit `j` of the result is set iff lane `j` of the chunk satisfies `chunk[j] op cmp`. -/
def cx_simd_lane_mask (op : MatchOp) (cmp : Int) (chunk : List Int) : Nat :=
  (List.range chunk.length).foldl
    (fun m j => if op.test (chunk.getD j 0) cmp then m ||| (1 <<< j) else m) 0

/-- Modelled from the spec: `cx_simd_<T>_load(&batch[k])` of the absent headers, a
vector of `lanes` elements read at index `k`; reading past the array is undefined. -/
def cx_simd_load (batch : List Int) (k lanes : Nat) : Option (List Int) :=
  if k + lanes ≤ batch.length then some ((batch.drop k).take lanes) else none

/-- The first loop of `cx_match_<T>_<op>_simd`: the array `partial_mask[0 .. n)`, entry
`i` being the lane mask of the chunk loaded at `&batch[i * lanes]`. -/
def cx_simd_masks (op : MatchOp) (batch : List Int) (cmp : Int) (lanes : Nat) :
    Nat → Option (List Nat)
  | 0 => some []
  | n + 1 =>
    match cx_simd_masks op batch cmp lanes n, cx_simd_load batch (n * lanes) lanes with
    | some masks, some chunk => some (masks ++ [cx_simd_lane_mask op cmp chunk])
    | _, _ => none

/-- The function `cx_match_<T>_<op>_simd` (CX_SIMD_MATCH_DEFINITION) for vector width `width`
bytes and element size `sz` bytes: `64 / width * sz` chunks of `width / sz` lanes;
the second loop ORs the masks of the chunks in, each shifted by `i * (width / sz)`. -/
def cx_match_simd (width sz : Nat) (op : MatchOp) (batch : List Int) (cmp : Int) : Option Nat :=
  match cx_simd_masks op batch cmp (width / sz) (64 / width * sz) with
  | none => none
  | some masks =>
    some ((List.range (64 / width * sz)).foldl
      (fun mask i => mask ||| ((masks.getD i 0 <<< (i * (width / sz))) % WORD)) 0)

/-- The function `cx_match_<T>_<op>` (CX_MATCH_DEFINITION): with a SIMD width compiled in, a full
batch of 64 goes to the SIMD variant, everything else to the scalar one. -/
def cx_match (cfg : Build) (sz : Nat) (op : MatchOp) (size : Nat) (batch : List Int)
    (cmp : Int) : Option Nat :=
  match cfg.simd with
  | some width =>
    if size = 64 then cx_match_simd width sz op batch cmp
    else cx_match_naive op size batch cmp
  | none => cx_match_naive op size batch cmp

def cx_match_i32_eq (cfg : Build) := cx_match cfg 4 MatchOp.eq
def cx_match_i32_lt (cfg : Build) := cx_match cfg 4 MatchOp.lt
def cx_match_i32_gt (cfg : Build) := cx_match cfg 4 MatchOp.gt
def cx_match_i64_eq (cfg : Build) := cx_match cfg 8 MatchOp.eq
def cx_match_i64_lt (cfg : Build) := cx_match cfg 8 MatchOp.lt
def cx_match_i64_gt (cfg : Build) := cx_match cfg 8 MatchOp.gt

/-- The builds of the library: SIMD absent, or one of the three vector widths. -/
def Build.valid (cfg : Build) : Prop :=
  cfg.simd = none ∨ cfg.simd = some 16 ∨ cfg.simd = some 32 ∨ cfg.simd = some 64

instance (cfg : Build) : Decidable cfg.valid := by
  unfold Build.valid; infer_instance

/-- What a kernel owes for a batch: it returns a 64-bit mask whose bit `i`, for
`i < size`, is set iff `rel batch[i] cmp`, and whose bits from `size` up are zero. -/
def IsMatchMask (rel : Int → Int → Prop) (size : Nat) (batch : List Int) (cmp : Int)
    (r : Option Nat) : Prop :=
  ∃ mask, r = some mask ∧ mask < 2 ^ 64 ∧
    (∀ i (h : i < batch.length), i < size → (mask.testBit i = true ↔ rel batch[i] cmp)) ∧
    (∀ i, size ≤ i → mask.testBit i = false)

/-! ## Memory and the allocator -/

/-- The allocator as seen by one call: `ok` says whether the allocations of the call
succeed, `junk i` is the indeterminate byte found at index `i` of memory the call
obtains fresh. -/
structure Alloc where
  ok : Bool
  junk : Nat → Nat

/-- The `n` indeterminate bytes of fresh memory starting at index `base`. -/
def fresh (a : Alloc) (base n : Nat) : List Nat :=
  (List.range n).map (fun i => a.junk (base + i) % 256)

/-- The function `realloc(old, n)`: NULL (`none`, the old block untouched) on failure, otherwise a
block of `n` bytes that keeps the old contents up to the smaller of the two sizes. -/
def realloc (a : Alloc) (old : List Nat) (n : Nat) : Option (List Nat) :=
  if a.ok then some (old.take n ++ fresh a old.length (n - old.length)) else none

/-- The function `memcpy(mem + p, src, |src|)`; writing outside the block is undefined. -/
def memcpy (mem : List Nat) (p : Nat) (src : List Nat) : Option (List Nat) :=
  if p + src.length ≤ mem.length then
    some (mem.take p ++ src ++ mem.drop (p + src.length))
  else none

/-- The function `memset(mem + p, byte, n)`; writing outside the block is undefined. -/
def memset (mem : List Nat) (p : Nat) (byte n : Nat) : Option (List Nat) :=
  memcpy mem p (List.replicate n byte)

/-- The `n` bytes at `mem + p`; reading outside the block is undefined. -/
def read_bytes (mem : List Nat) (p n : Nat) : Option (List Nat) :=
  if p + n ≤ mem.length then some ((mem.drop p).take n) else none

/-- The little-endian object representation of an unsigned value in `n` bytes. -/
def le_bytes : Nat → Nat → List Nat
  | 0, _ => []
  | n + 1, v => (v % 256) :: le_bytes n (v / 256)

/-- The unsigned value of a little-endian byte sequence. -/
def le_value : List Nat → Nat
  | [] => 0
  | b :: bs => b + 256 * le_value bs

/-- The object representation of a signed integer of `n` bytes (two's complement). -/
def int_bytes (n : Nat) (v : Int) : List Nat :=
  le_bytes n (v % (2 : Int) ^ (8 * n)).toNat

/-- The signed integer read from its `n`-byte object representation. -/
def int_value (n : Nat) (bytes : List Nat) : Int :=
  if le_value bytes < 2 ^ (8 * n - 1) then (le_value bytes : Int)
  else (le_value bytes : Int) - (2 : Int) ^ (8 * n)

/-- The `n` elements of `sz` bytes each read through a pointer into `mem`. -/
def view_bytes (mem : List Nat) (sz ptr : Nat) : Nat → Option (List (List Nat))
  | 0 => some []
  | n + 1 =>
    match read_bytes mem ptr sz, view_bytes mem sz (ptr + sz) n with
    | some x, some xs => some (x :: xs)
    | _, _ => none

/-- An `int32_t` view of `n` elements at `ptr`. -/
def view_i32 (mem : List Nat) (ptr n : Nat) : Option (List Int) :=
  (view_bytes mem 4 ptr n).map (List.map (int_value 4))

/-- An `int64_t` view of `n` elements at `ptr`. -/
def view_i64 (mem : List Nat) (ptr n : Nat) : Option (List Int) :=
  (view_bytes mem 8 ptr n).map (List.map (int_value 8))

/-- A `uint64_t` view of `n` words at `ptr`. -/
def view_u64 (mem : List Nat) (ptr n : Nat) : Option (List Nat) :=
  (view_bytes mem 8 ptr n).map (List.map le_value)

/-- The function `strlen` of the C string held in `s`: the bytes before the first NUL. -/
def c_strlen (s : List Nat) : Nat := (s.takeWhile (fun b => b != 0)).length

/-! ## Column buffer (`lib/column.c`) -/

def cx_column_initial_size : Nat := 64

/-- The record `struct cx_column`.  `buffer` is the memory block behind
`buffer.mutable` / `buffer.mmapped`; `size` is the capacity recorded in the struct. -/
structure cx_column where
  buffer : List Nat
  count : Nat
  offset : Nat
  size : Nat
  type : cx_column_type
  encoding : cx_encoding_type
  mmapped : Bool
deriving DecidableEq, Repr

/-- The function `cx_column_new_size`: NULL when the struct or the buffer cannot be allocated.
With over-allocation the buffer is 16 bytes longer and zeroed. -/
def cx_column_new_size (cfg : Build) (a : Alloc) (type : cx_column_type)
    (encoding : cx_encoding_type) (size count : Nat) : Option cx_column :=
  if !a.ok then none
  else if size ≠ 0 then
    let size := size + CX_COLUMN_OVER_ALLOC cfg
    let buffer := if cfg.sse42 then List.replicate size 0 else fresh a 0 size
    some { buffer := buffer, count := count, offset := 0, size := size, type := type,
           encoding := encoding, mmapped := false }
  else
    some { buffer := [], count := count, offset := 0, size := 0, type := type,
           encoding := encoding, mmapped := false }

def cx_column_new (cfg : Build) (a : Alloc) (type : cx_column_type)
    (encoding : cx_encoding_type) : Option cx_column :=
  cx_column_new_size cfg a type encoding cx_column_initial_size 0

/-- The function `cx_column_new_mmapped`: `ptr` is the caller's memory, of which the column is
told `size` bytes and `count` rows. -/
def cx_column_new_mmapped (cfg : Build) (a : Alloc) (type : cx_column_type)
    (encoding : cx_encoding_type) (ptr : List Nat) (size count : Nat) : Option cx_column :=
  match cx_column_new_size cfg a type encoding 0 count with
  | none => none
  | some column =>
    some { column with offset := size, size := size, mmapped := true, buffer := ptr }

/-- The function `cx_column_new_compressed`: a heap column of `size` used bytes whose buffer the
caller fills afterwards through the returned pointer (the buffer head). -/
def cx_column_new_compressed (cfg : Build) (a : Alloc) (type : cx_column_type)
    (encoding : cx_encoding_type) (size count : Nat) : Option cx_column :=
  if size = 0 then none
  else
    match cx_column_new_size cfg a type encoding size count with
    | none => none
    | some column => some { column with offset := size }

/-- The function `cx_column_export`: the buffer head and, through `*size`, the used byte count. -/
def cx_column_export (column : cx_column) : List Nat × Nat :=
  (column.buffer, column.offset)

def cx_column_count (column : cx_column) : Nat := column.count

/-- The `while (size < required_size)` loop of `cx_column_resize`, `size * 2` taken
in 64-bit arithmetic.  `none` when `assert(size * 2 > size)` fails; the fuel is the
number of iterations allowed, and 64 of them always suffice (`resize_loop_fuel`). -/
def resize_loop : Nat → Nat → Nat → Option Nat
  | 0, size, required => if size < required then none else some size
  | fuel + 1, size, required =>
    if size < required then
      if size * 2 % WORD > size then resize_loop fuel (size * 2 % WORD) required
      else none
    else some size

/-- The function `cx_column_resize`. -/
def cx_column_resize (cfg : Build) (a : Alloc) (column : cx_column) (alloc_size : Nat) :
    Option (Bool × cx_column) :=
  let required_size := column.offset + alloc_size + CX_COLUMN_OVER_ALLOC cfg
  match resize_loop 64 column.size required_size with
  | none => none
  | some size =>
    match realloc a column.buffer size with
    | none => some (false, column)
    | some buffer =>
      if cfg.sse42 then
        match memset buffer column.offset 0 (size - column.offset) with
        | none => none
        | some buffer => some (true, { column with buffer := buffer, size := size })
      else some (true, { column with buffer := buffer, size := size })

/-- The function `cx_column_put`: `value` is the object the pointer designates (`none` for a null
pointer), of which `size` bytes are copied to the tail. -/
def cx_column_put (cfg : Build) (a : Alloc) (column : cx_column) (type : cx_column_type)
    (value : Option (List Nat)) (size : Nat) : Option (Bool × cx_column) :=
  if column.mmapped || column.type != type || value.isNone then some (false, column)
  else
    let resized :=
      if column.offset + size > column.size then cx_column_resize cfg a column size
      else some (true, column)
    match resized with
    | none => none
    | some (false, _) => some (false, column)
    | some (true, column) =>
      match memcpy column.buffer column.offset ((value.getD []).take size) with
      | none => none
      | some buffer =>
        some (true, { column with buffer := buffer, count := column.count + 1,
                                  offset := column.offset + size })

/-- The function `cx_column_put_bit`.  The shift `(uint64_t)1 << column->count` is by `count`,
not by `count % 64`. -/
def cx_column_put_bit (cfg : Build) (a : Alloc) (column : cx_column) (value : Bool) :
    Option (Bool × cx_column) :=
  if column.count % 64 = 0 then
    cx_column_put cfg a column cx_column_type.BIT
      (some (le_bytes 8 (if value then 1 else 0))) 8
  else if column.type != cx_column_type.BIT || column.mmapped then some (false, column)
  else if value then
    if column.offset < 8 then none
    else
      match read_bytes column.buffer (column.offset - 8) 8 with
      | none => none
      | some word =>
        match memcpy column.buffer (column.offset - 8)
            (le_bytes 8 (le_value word ||| shl64 cfg 1 column.count)) with
        | none => none
        | some buffer =>
          some (true, { column with buffer := buffer, count := column.count + 1 })
  else some (true, { column with count := column.count + 1 })

def cx_column_put_i32 (cfg : Build) (a : Alloc) (column : cx_column) (value : Int) :
    Option (Bool × cx_column) :=
  cx_column_put cfg a column cx_column_type.I32 (some (int_bytes 4 value)) 4

def cx_column_put_i64 (cfg : Build) (a : Alloc) (column : cx_column) (value : Int) :
    Option (Bool × cx_column) :=
  cx_column_put cfg a column cx_column_type.I64 (some (int_bytes 8 value)) 8

/-- The function `cx_column_put_flt`; the float is given by its 32-bit object representation. -/
def cx_column_put_flt (cfg : Build) (a : Alloc) (column : cx_column) (value : Nat) :
    Option (Bool × cx_column) :=
  cx_column_put cfg a column cx_column_type.FLT (some (le_bytes 4 value)) 4

/-- The function `cx_column_put_dbl`; the double is given by its 64-bit object representation. -/
def cx_column_put_dbl (cfg : Build) (a : Alloc) (column : cx_column) (value : Nat) :
    Option (Bool × cx_column) :=
  cx_column_put cfg a column cx_column_type.DBL (some (le_bytes 8 value)) 8

/-- The function `cx_column_put_str`; `value` holds the bytes at the pointer, a NUL terminator
following them: `strlen(value) + 1` bytes are copied, terminator included. -/
def cx_column_put_str (cfg : Build) (a : Alloc) (column : cx_column) (value : List Nat) :
    Option (Bool × cx_column) :=
  cx_column_put cfg a column cx_column_type.STR (some (value ++ [0])) (c_strlen value + 1)

/-- One call of the append interface. -/
inductive PutCall where
  | bit (value : Bool)
  | i32 (value : Int)
  | i64 (value : Int)
  | flt (value : Nat)
  | dbl (value : Nat)
  | str (value : List Nat)

def cx_column_put_call (cfg : Build) (a : Alloc) (column : cx_column) :
    PutCall → Option (Bool × cx_column)
  | .bit v => cx_column_put_bit cfg a column v
  | .i32 v => cx_column_put_i32 cfg a column v
  | .i64 v => cx_column_put_i64 cfg a column v
  | .flt v => cx_column_put_flt cfg a column v
  | .dbl v => cx_column_put_dbl cfg a column v
  | .str v => cx_column_put_str cfg a column v

/-- A client issuing a sequence of appends, each with the allocator behaviour it
meets: the return values in order and the column afterwards. -/
def cx_column_put_all (cfg : Build) (column : cx_column) :
    List (Alloc × PutCall) → Option (List Bool × cx_column)
  | [] => some ([], column)
  | (a, call) :: rest =>
    match cx_column_put_call cfg a column call with
    | none => none
    | some (r, column) =>
      match cx_column_put_all cfg column rest with
      | none => none
      | some (rs, column) => some (r :: rs, column)

/-! ## Column cursor (`lib/column.c`) -/

/-- The record `struct cx_column_cursor`; `start`, `end_` and `position` are byte
offsets from the head of the column buffer (so `start` is 0).  The scratch array
`buffer` of the C struct is the list a string batch returns. -/
structure cx_column_cursor where
  column : cx_column
  start : Nat
  end_ : Nat
  position : Nat
deriving DecidableEq, Repr

/-- The function `cx_column_madvise`; `madvise_ok` is what the system call answers when made. -/
def cx_column_madvise (madvise_ok : Bool) (column : cx_column) : Bool :=
  if !column.mmapped || column.size = 0 then true else madvise_ok

def cx_column_cursor_rewind (cursor : cx_column_cursor) : cx_column_cursor :=
  { cursor with position := cursor.start }

/-- The function `cx_column_cursor_new`: NULL when the cursor cannot be allocated or the
advice fails. -/
def cx_column_cursor_new (a : Alloc) (madvise_ok : Bool) (column : cx_column) :
    Option cx_column_cursor :=
  if !a.ok then none
  else if !cx_column_madvise madvise_ok column then none
  else
    some (cx_column_cursor_rewind
      { column := column, start := 0, end_ := column.offset, position := 0 })

def cx_column_cursor_valid (cursor : cx_column_cursor) : Bool :=
  decide (cursor.position < cursor.end_)

/-- The function `cx_column_cursor_advance`; `none` when `assert(position <= end)` fails. -/
def cx_column_cursor_advance (cursor : cx_column_cursor) (size : Nat) :
    Option cx_column_cursor :=
  if cursor.position + size ≤ cursor.end_ then
    some { cursor with position := cursor.position + size }
  else none

/-- The function `cx_column_cursor_skip`: the number of elements skipped and the cursor after. -/
def cx_column_cursor_skip (cursor : cx_column_cursor) (type : cx_column_type)
    (size count : Nat) : Option (Nat × cx_column_cursor) :=
  if cursor.column.type != type then none
  else
    let remaining := (cursor.end_ - cursor.position) / size
    let count := if remaining < count then remaining else count
    match cx_column_cursor_advance cursor (size * count) with
    | none => none
    | some cursor => some (count, cursor)

/-- The function `cx_column_cursor_skip_bit`; `skipped -= 64 - trailing_bits` is a `size_t`
subtraction and wraps modulo 2^64. -/
def cx_column_cursor_skip_bit (cursor : cx_column_cursor) (count : Nat) :
    Option (Nat × cx_column_cursor) :=
  if count % 64 ≠ 0 then none
  else
    match cx_column_cursor_skip cursor cx_column_type.BIT 8 (count / 64) with
    | none => none
    | some (skipped, cursor) =>
      let skipped := skipped * 64
      if !cx_column_cursor_valid cursor then
        let trailing_bits := cursor.column.count % 64
        if trailing_bits ≠ 0 then
          some ((skipped + WORD - (64 - trailing_bits)) % WORD, cursor)
        else some (skipped, cursor)
      else some (skipped, cursor)

def cx_column_cursor_skip_i32 (cursor : cx_column_cursor) (count : Nat) :
    Option (Nat × cx_column_cursor) :=
  cx_column_cursor_skip cursor cx_column_type.I32 4 count

def cx_column_cursor_skip_i64 (cursor : cx_column_cursor) (count : Nat) :
    Option (Nat × cx_column_cursor) :=
  cx_column_cursor_skip cursor cx_column_type.I64 8 count

def cx_column_cursor_skip_flt (cursor : cx_column_cursor) (count : Nat) :
    Option (Nat × cx_column_cursor) :=
  cx_column_cursor_skip cursor cx_column_type.FLT 4 count

def cx_column_cursor_skip_dbl (cursor : cx_column_cursor) (count : Nat) :
    Option (Nat × cx_column_cursor) :=
  cx_column_cursor_skip cursor cx_column_type.DBL 8 count

/-- The byte of memory at address `p`, for the string scans; addresses past the
block read as NUL (what the over-allocation pad provides). -/
def mem_byte (mem : List Nat) (p : Nat) : Nat := mem.getD p 0

/-- The intrinsic `_mm_cmpistri(v_str, v_null, UBYTE_OPS | CMP_EQUAL_EACH)` on the 16
bytes at `p`: the index of the first NUL byte of the chunk, 16 when it has none. -/
def mm_cmpistri_null (mem : List Nat) (p : Nat) : Nat :=
  (((List.range 16).map (fun j => mem_byte mem (p + j))).takeWhile (fun b => b != 0)).length

/-- The `for (;;)` loop of the SSE4.2 `cx_strlen`: 16 bytes per round, stopping at
the first chunk that holds a NUL. -/
def cx_strlen_sse42 : Nat → List Nat → Nat → Nat → Option Nat
  | 0, _, _, _ => none
  | fuel + 1, mem, string, length =>
    let result := mm_cmpistri_null mem (string + length)
    if result < 16 then some (length + result)
    else cx_strlen_sse42 fuel mem string (length + result)

/-- The function `cx_strlen` of the string at address `string`: the vectorised scan with
`CX_SSE42`, libc `strlen` otherwise. -/
def cx_strlen (cfg : Build) (mem : List Nat) (string : Nat) : Option Nat :=
  if cfg.sse42 then cx_strlen_sse42 (mem.length + 1) mem string 0
  else some (c_strlen (mem.drop string))

/-- The loop of `cx_column_cursor_skip_str`, `fuel` being `count - skipped`. -/
def cx_column_cursor_skip_str_loop (cfg : Build) :
    Nat → cx_column_cursor → Nat → Option (Nat × cx_column_cursor)
  | 0, cursor, skipped => some (skipped, cursor)
  | fuel + 1, cursor, skipped =>
    if cx_column_cursor_valid cursor then
      match cx_strlen cfg cursor.column.buffer cursor.position with
      | none => none
      | some len =>
        match cx_column_cursor_advance cursor (len + 1) with
        | none => none
        | some cursor => cx_column_cursor_skip_str_loop cfg fuel cursor (skipped + 1)
    else some (skipped, cursor)

def cx_column_cursor_skip_str (cfg : Build) (cursor : cx_column_cursor) (count : Nat) :
    Option (Nat × cx_column_cursor) :=
  if cursor.column.type != cx_column_type.STR then none
  else cx_column_cursor_skip_str_loop cfg count cursor 0

/-- A batch of a fixed-width or bit cursor: the returned pointer and `*available`. -/
structure Batch where
  values : Nat
  available : Nat
deriving DecidableEq, Repr

def cx_column_cursor_next_batch_bit (cursor : cx_column_cursor) :
    Option (Batch × cx_column_cursor) :=
  let values := cursor.position
  match cx_column_cursor_skip_bit cursor CX_BATCH_SIZE with
  | none => none
  | some (available, cursor) => some (⟨values, available⟩, cursor)

def cx_column_cursor_next_batch_i32 (cursor : cx_column_cursor) :
    Option (Batch × cx_column_cursor) :=
  let values := cursor.position
  match cx_column_cursor_skip_i32 cursor CX_BATCH_SIZE with
  | none => none
  | some (available, cursor) => some (⟨values, available⟩, cursor)

def cx_column_cursor_next_batch_i64 (cursor : cx_column_cursor) :
    Option (Batch × cx_column_cursor) :=
  let values := cursor.position
  match cx_column_cursor_skip_i64 cursor CX_BATCH_SIZE with
  | none => none
  | some (available, cursor) => some (⟨values, available⟩, cursor)

/-- The loop of `cx_column_cursor_next_batch_str`, `fuel` being
`CX_BATCH_SIZE - i`; `strings` are the records written so far. -/
def cx_column_cursor_next_batch_str_loop (cfg : Build) :
    Nat → cx_column_cursor → List cx_string → Option (List cx_string × cx_column_cursor)
  | 0, cursor, strings => some (strings, cursor)
  | fuel + 1, cursor, strings =>
    if cx_column_cursor_valid cursor then
      match cx_strlen cfg cursor.column.buffer cursor.position with
      | none => none
      | some len =>
        match cx_column_cursor_advance cursor (len + 1) with
        | none => none
        | some next =>
          cx_column_cursor_next_batch_str_loop cfg fuel next
            (strings ++ [{ ptr := cursor.position, len := len }])
    else some (strings, cursor)

/-- The function `cx_column_cursor_next_batch_str`: the records `strings[0 .. available)`. -/
def cx_column_cursor_next_batch_str (cfg : Build) (cursor : cx_column_cursor) :
    Option (List cx_string × cx_column_cursor) :=
  if cursor.column.type != cx_column_type.STR then none
  else cx_column_cursor_next_batch_str_loop cfg CX_BATCH_SIZE cursor []

/-- A client reading a cursor to the end,
`while (cx_column_cursor_valid(cursor)) next_batch(cursor)`: the batches in order.
`none` when a call does not return or `fuel` calls do not exhaust the cursor. -/
def cx_column_cursor_drain {β : Type}
    (next_batch : cx_column_cursor → Option (β × cx_column_cursor)) :
    Nat → cx_column_cursor → Option (List β)
  | 0, cursor => if cx_column_cursor_valid cursor then none else some []
  | fuel + 1, cursor =>
    if cx_column_cursor_valid cursor then
      match next_batch cursor with
      | none => none
      | some (batch, cursor) =>
        match cx_column_cursor_drain next_batch fuel cursor with
        | none => none
        | some batches => some (batch :: batches)
    else some []

/-- The elements a client reads from fixed-width batches: each view cut to its
available count, one after the other. -/
def read_batches (view : Nat → Nat → Option (List α)) : List Batch → Option (List α)
  | [] => some []
  | b :: bs =>
    match view b.values b.available, read_batches view bs with
    | some xs, some ys => some (xs ++ ys)
    | _, _ => none

/-- The bytes a string record designates: `len` bytes at `ptr`. -/
def read_string (mem : List Nat) (s : cx_string) : Option (List Nat) :=
  read_bytes mem s.ptr s.len

/-! ## Well-formed columns -/

/-- What holds of every heap column, one made by `cx_column_new` or
`cx_column_new_compressed` and then grown by appends: it is not externally backed,
the struct records the size of its block, the used bytes lie inside the block, and
the capacity is a positive `size_t`. -/
def cx_column.heap_wf (c : cx_column) : Prop :=
  c.mmapped = false ∧ c.buffer.length = c.size ∧ c.offset ≤ c.size ∧ 0 < c.size ∧
    c.size < WORD

instance (c : cx_column) : Decidable c.heap_wf := by
  unfold cx_column.heap_wf; infer_instance

/-- The bit columns the append interface builds keep one 8-byte word per 64 rows. -/
def cx_column.bit_wf (c : cx_column) : Prop :=
  c.type = cx_column_type.BIT → c.offset = (c.count + 63) / 64 * 8

instance (c : cx_column) : Decidable c.bit_wf := by
  unfold cx_column.bit_wf; infer_instance

/-- The column type an append function is for: the `T` of `cx_column_put_T`. -/
def PutCall.type : PutCall → cx_column_type
  | .bit _ => cx_column_type.BIT
  | .i32 _ => cx_column_type.I32
  | .i64 _ => cx_column_type.I64
  | .flt _ => cx_column_type.FLT
  | .dbl _ => cx_column_type.DBL
  | .str _ => cx_column_type.STR

/-- The encoded bytes of the value of an append: 4 bytes for i32 and flt, 8 for i64
and dbl, the string and its terminator (`strlen + 1` bytes) for str; for bit, the
8-byte word a new word starts with. -/
def PutCall.bytes : PutCall → List Nat
  | .bit v => le_bytes 8 (if v then 1 else 0)
  | .i32 v => int_bytes 4 v
  | .i64 v => int_bytes 8 v
  | .flt v => le_bytes 4 v
  | .dbl v => le_bytes 8 v
  | .str s => s.takeWhile (fun b => b != 0) ++ [0]

/-- A small heap column of type I32, full at one row: the state
`cx_column_new_compressed(I32, NONE, &ptr, 4, 1)` leaves in a build without
over-allocation. -/
def sample_i32_column : cx_column :=
  { buffer := [1, 0, 0, 0], count := 1, offset := 4, size := 4,
    type := cx_column_type.I32, encoding := cx_encoding_type.NONE, mmapped := false }

/-- An allocator that serves every request, fresh memory holding 0xAA bytes. -/
def alloc_ok : Alloc := { ok := true, junk := fun _ => 170 }

/-- An allocator that fails. -/
def alloc_fail : Alloc := { ok := false, junk := fun _ => 0 }

/-- The width `sizeof(T)` of the element of a fixed-width column type. -/
def cx_column_type.fixed_width : cx_column_type → Option Nat
  | .I32 => some 4
  | .I64 => some 8
  | .FLT => some 4
  | .DBL => some 8
  | .BIT => none
  | .STR => none

/-- The column `cx_column_new(type, NONE)` returns in a build without
over-allocation when the allocator hands out memory holding 0xAA bytes. -/
def sample_new_column (type : cx_column_type) : cx_column :=
  { buffer := List.replicate 64 170, count := 0, offset := 0, size := 64,
    type := type, encoding := cx_encoding_type.NONE, mmapped := false }

/-- A client that drains `cursor` with `next_batch` and reads every batch through
`view` gets the elements `vs`: the calls return (within any fuel of at least one call
per element) and the views, each cut to its available count, concatenate to `vs`. -/
def Yields {α : Type} (next_batch : cx_column_cursor → Option (Batch × cx_column_cursor))
    (view : List Nat → Nat → Nat → Option (List α)) (cursor : cx_column_cursor)
    (vs : List α) : Prop :=
  ∀ fuel, vs.length ≤ fuel →
    ∃ batches, cx_column_cursor_drain next_batch fuel cursor = some batches ∧
      (∀ b ∈ batches, b.available ≤ CX_BATCH_SIZE) ∧
      read_batches (view cursor.column.buffer) batches = some vs

/-- The records of the strings `ss` stored one after the other from address `p`,
each followed by its terminator: the `k`-th points at the `k`-th string and carries
its length. -/
def str_records (p : Nat) : List (List Nat) → List cx_string
  | [] => []
  | s :: ss => { ptr := p, len := s.length } :: str_records (p + s.length + 1) ss

/-- The bytes of the strings `ss` as a string column stores them. -/
def str_bytes (ss : List (List Nat)) : List Nat := (ss.map (fun s => s ++ [0])).flatten

/-- A client that drains a string cursor gets the strings `ss`: the successive
`cx_column_cursor_next_batch_str` calls return (within any fuel of at least one call
per string), each with at most 64 records, and the records taken in order are as
many as the strings, the `k`-th with `len == strlen(s_k)` and the `len` bytes at
`ptr` equal to `s_k`. -/
def YieldsStr (cfg : Build) (cursor : cx_column_cursor) (ss : List (List Nat)) : Prop :=
  ∀ fuel, ss.length ≤ fuel →
    ∃ batches, cx_column_cursor_drain (cx_column_cursor_next_batch_str cfg) fuel cursor
        = some batches ∧
      (∀ b ∈ batches, b.length ≤ CX_BATCH_SIZE) ∧
      batches.flatten.length = ss.length ∧
      List.Forall₂ (fun r s => r.len = c_strlen s ∧ read_string cursor.column.buffer r = some s)
        batches.flatten ss

/-- A client that drains a bit cursor over a column of `n` rows gets the packed words:
the successive `cx_column_cursor_next_batch_bit` calls return (within any fuel of at
least one call per word), one word per call and at most 64 rows each, the available
counts sum to `n`, and the words read in order are the `ceil(n / 64)` words of the
column's buffer. -/
def YieldsBits (cursor : cx_column_cursor) (n : Nat) : Prop :=
  ∀ fuel, (n + 63) / 64 ≤ fuel →
    ∃ batches words,
      cx_column_cursor_drain cx_column_cursor_next_batch_bit fuel cursor = some batches ∧
      (∀ b ∈ batches, b.available ≤ CX_BATCH_SIZE) ∧
      (batches.map (fun b => b.available)).sum = n ∧
      read_batches (fun p _ => view_u64 cursor.column.buffer p 1) batches = some words ∧
      view_u64 cursor.column.buffer 0 ((n + 63) / 64) = some words

/-- The column `sample_new_column I32` after the int32 values 1 and -2 were
appended. -/
def sample_i32_appended : cx_column :=
  { buffer := [1, 0, 0, 0, 254, 255, 255, 255] ++ List.replicate 56 170, count := 2,
    offset := 8, size := 64, type := cx_column_type.I32,
    encoding := cx_encoding_type.NONE, mmapped := false }

/-- The externally backed column built from the export of `sample_i32_appended`. -/
def sample_i32_mapped : cx_column :=
  { sample_i32_appended with size := 8, mmapped := true }

/-- The word a run of at most 64 rows packs to: bit `i` is row `i`. -/
def pack_bits : List Bool → Nat
  | [] => 0
  | b :: bs => (if b then 1 else 0) + 2 * pack_bits bs

/-- The words a bit column of the rows `bits` holds when every row is packed at bit
`i mod 64` of word `i / 64`: word `j` packs the rows `64 j .. 64 j + 63`. -/
def packed_words (bits : List Bool) : List Nat :=
  (List.range ((bits.length + 63) / 64)).map
    (fun j => pack_bits ((bits.drop (64 * j)).take 64))

/-- The buffer of the bit column `c` holds the rows `bits`, packed: `count` is their
number and word `j` is the little-endian word that packs rows `64 j .. 64 j + 63`,
the bits past the last row being zero. -/
def bit_packed (c : cx_column) (bits : List Bool) : Prop :=
  c.count = bits.length ∧
    ∀ j, j < (bits.length + 63) / 64 →
      (c.buffer.drop (8 * j)).take 8 = le_bytes 8 (pack_bits ((bits.drop (64 * j)).take 64))

/-! ## Index match (`lib/predicate.h`) -/

/-- The answers of the index match phase (`enum cx_index_match`). -/
inductive cx_index_match where
  | NONE | UNKNOWN | ALL
deriving DecidableEq, Repr

/-- Modelled from the spec: the rule of the index match phase (`cx_index_match_indexes`,
whose file `predicate.c` is absent) for a leaf `CMP(c, op, v)` over a column whose
index records `min` and `max`.  EQ: "if `v < min(c) ∨ v > max(c)` → NONE; else if
`min(c) == max(c) == v` → ALL; else UNKNOWN".  LT: "if `v > max(c)` → ALL; if
`v ≤ min(c)` → NONE; else UNKNOWN".  GT: "symmetric". -/
def cx_index_match_cmp : MatchOp → Int → Int → Int → cx_index_match
  | .eq, min, max, v =>
    if v < min ∨ v > max then .NONE else if min = max ∧ max = v then .ALL else .UNKNOWN
  | .lt, min, max, v =>
    if v > max then .ALL else if v ≤ min then .NONE else .UNKNOWN
  | .gt, min, max, v =>
    if v < min then .ALL else if v ≥ max then .NONE else .UNKNOWN

/-! ## Clients of a cursor -/

/-- One call of the cursor interface that may move the cursor. -/
inductive CursorCall where
  | next_batch_bit
  | next_batch_i32
  | next_batch_i64
  | next_batch_str
  | skip_bit (count : Nat)
  | skip_i32 (count : Nat)
  | skip_i64 (count : Nat)
  | skip_flt (count : Nat)
  | skip_dbl (count : Nat)
  | skip_str (count : Nat)
  | rewind
deriving DecidableEq, Repr

/-- The cursor after one call of the interface; `none` when the call does not return. -/
def cx_column_cursor_call (cfg : Build) (cursor : cx_column_cursor) :
    CursorCall → Option cx_column_cursor
  | .next_batch_bit => (cx_column_cursor_next_batch_bit cursor).map (fun r => r.2)
  | .next_batch_i32 => (cx_column_cursor_next_batch_i32 cursor).map (fun r => r.2)
  | .next_batch_i64 => (cx_column_cursor_next_batch_i64 cursor).map (fun r => r.2)
  | .next_batch_str => (cx_column_cursor_next_batch_str cfg cursor).map (fun r => r.2)
  | .skip_bit count => (cx_column_cursor_skip_bit cursor count).map (fun r => r.2)
  | .skip_i32 count => (cx_column_cursor_skip_i32 cursor count).map (fun r => r.2)
  | .skip_i64 count => (cx_column_cursor_skip_i64 cursor count).map (fun r => r.2)
  | .skip_flt count => (cx_column_cursor_skip_flt cursor count).map (fun r => r.2)
  | .skip_dbl count => (cx_column_cursor_skip_dbl cursor count).map (fun r => r.2)
  | .skip_str count => (cx_column_cursor_skip_str cfg cursor count).map (fun r => r.2)
  | .rewind => some (cx_column_cursor_rewind cursor)

/-- A client making a sequence of calls on a cursor: the cursor afterwards. -/
def cx_column_cursor_calls (cfg : Build) :
    cx_column_cursor → List CursorCall → Option cx_column_cursor
  | cursor, [] => some cursor
  | cursor, call :: rest =>
    match cx_column_cursor_call cfg cursor call with
    | none => none
    | some cursor => cx_column_cursor_calls cfg cursor rest

/-- A client making `k` successive `next_batch` calls, whatever `valid` says: the
batches in order and the cursor afterwards. -/
def cx_column_cursor_take {β : Type}
    (next_batch : cx_column_cursor → Option (β × cx_column_cursor)) :
    Nat → cx_column_cursor → Option (List β × cx_column_cursor)
  | 0, cursor => some ([], cursor)
  | k + 1, cursor =>
    match next_batch cursor with
    | none => none
    | some (batch, cursor) =>
      match cx_column_cursor_take next_batch k cursor with
      | none => none
      | some (batches, cursor) => some (batch :: batches, cursor)

/-- The fields of a cursor that no call moves: the column and the window. -/
def cx_column_cursor.same_window (a b : cx_column_cursor) : Prop :=
  b.column = a.column ∧ b.start = a.start ∧ b.end_ = a.end_

/-- What the claim on batch yield says of a cursor over a column of `n` values of
`sz` bytes.  Whatever the number `k` of successive `next_batch` calls, they return;
call `j` returns the view at the position before it, `sz * min (64 j) n`, and reports
`min 64 (n - 64 j)` values, the smaller of what remains and 64; the position after
`k` calls is `sz * min (64 k) n`, and `valid` holds there iff fewer than `n` values
were consumed.  The loop `while valid: next_batch` makes `ceil(n / 64)` calls, none
of them for an empty batch, batch `j` being the rows `[64 j, 64 j + available)`. -/
def BatchYield (next_batch : cx_column_cursor → Option (Batch × cx_column_cursor))
    (sz : Nat) (cursor : cx_column_cursor) (n : Nat) : Prop :=
  (∀ k, ∃ cursor_k,
    cx_column_cursor_take next_batch k cursor
      = some ((List.range k).map
          (fun j => (⟨sz * min (64 * j) n, min 64 (n - 64 * j)⟩ : Batch)), cursor_k) ∧
    cursor_k.position = sz * min (64 * k) n ∧
    (cx_column_cursor_valid cursor_k = true ↔ min (64 * k) n < n)) ∧
  (∀ fuel, (n + 63) / 64 ≤ fuel →
    cx_column_cursor_drain next_batch fuel cursor
      = some ((List.range ((n + 63) / 64)).map
          (fun j => (⟨sz * (64 * j), min 64 (n - 64 * j)⟩ : Batch)))) ∧
  (∀ j, j < (n + 63) / 64 → 1 ≤ min 64 (n - 64 * j) ∧
    64 * j + min 64 (n - 64 * j) = min (64 * (j + 1)) n) ∧
  (∀ j, j < n / 64 → min 64 (n - 64 * j) = 64) ∧
  (n % 64 ≠ 0 → min 64 (n - 64 * (n / 64)) = n % 64)

/-- The column `sample_new_column BIT` after 65 rows, all false, were appended: two
words, both 0, the second one started by row 64. -/
def sample_bit_column_65 : cx_column :=
  { buffer := List.replicate 16 0 ++ List.replicate 48 170, count := 65, offset := 16,
    size := 64, type := cx_column_type.BIT, encoding := cx_encoding_type.NONE,
    mmapped := false }

/-! ## String kernels (`lib/match.c`) -/

/-- The enumeration `enum cx_str_location`. -/
inductive cx_str_location where
  | START | END | ANY
deriving DecidableEq, Repr

/-- The function `tolower` in the C locale: `'A'..'Z'` go to `'a'..'z'`, every other byte
stays. -/
def c_tolower (b : Nat) : Nat := if 65 ≤ b ∧ b ≤ 90 then b + 32 else b

/-- The difference of the first pair of bytes that differ, 0 when there is none. -/
def cmp_bytes : List Nat → List Nat → Int
  | a :: as, b :: bs => if a = b then cmp_bytes as bs else (a : Int) - (b : Int)
  | _, _ => 0

/-- The function `memcmp(mem + p, mem + q, n)`: the bytes compare as `unsigned char`; reading
outside the memory is undefined. -/
def memcmp (mem : List Nat) (p q n : Nat) : Option Int :=
  match read_bytes mem p n, read_bytes mem q n with
  | some x, some y => some (cmp_bytes x y)
  | _, _ => none

/-- The loop of `strcmp` (`f` the identity) and of `strcasecmp` (`f` is `tolower`): the
difference of the first pair of characters that differ under `f`, 0 when the
terminator is reached first.  The fuel bounds the characters compared. -/
def str_cmp_loop (f : Nat → Nat) (mem : List Nat) : Nat → Nat → Nat → Option Int
  | 0, _, _ => none
  | fuel + 1, p, q =>
    match mem[p]?, mem[q]? with
    | some a, some b =>
      if f a ≠ f b then some ((f a : Int) - (f b : Int))
      else if a = 0 then some 0
      else str_cmp_loop f mem fuel (p + 1) (q + 1)
    | _, _ => none

/-- The function `strcmp(mem + p, mem + q)`. -/
def strcmp (mem : List Nat) (p q : Nat) : Option Int :=
  str_cmp_loop (fun b => b) mem (mem.length + 1) p q

/-- The function `strcasecmp(mem + p, mem + q)`, in the C locale. -/
def strcasecmp (mem : List Nat) (p q : Nat) : Option Int :=
  str_cmp_loop c_tolower mem (mem.length + 1) p q

/-- The function `strncasecmp(mem + p, mem + q, n)`, in the C locale: as `strcasecmp`, over at
most `n` characters. -/
def strncasecmp (mem : List Nat) : Nat → Nat → Nat → Option Int
  | _, _, 0 => some 0
  | p, q, n + 1 =>
    match mem[p]?, mem[q]? with
    | some a, some b =>
      if c_tolower a ≠ c_tolower b then some ((c_tolower a : Int) - (c_tolower b : Int))
      else if a = 0 then some 0
      else strncasecmp mem (p + 1) (q + 1) n
    | _, _ => none

/-- The C string at address `p`: the bytes before the first NUL; `none` when the
memory ends before a terminator. -/
def c_string (mem : List Nat) (p : Nat) : Option (List Nat) :=
  if p + c_strlen (mem.drop p) < mem.length then
    some ((mem.drop p).take (c_strlen (mem.drop p)))
  else none

/-- The search of `strstr`: the first index from `j` on at which `needle` starts in
the `hay` that is left. -/
def find_sub (needle : List Nat) : List Nat → Nat → Option Nat
  | [], j => if needle.isEmpty then some j else none
  | h :: hs, j =>
    if needle.isPrefixOf (h :: hs) then some j else find_sub needle hs (j + 1)

/-- The function `strstr(mem + p, mem + q)`: the address of the first occurrence of the second
string in the first, `none` for NULL; the outer `none` is an unterminated argument. -/
def strstr (mem : List Nat) (p q : Nat) : Option (Option Nat) :=
  match c_string mem p, c_string mem q with
  | some hay, some needle => some ((find_sub needle hay 0).map (fun j => p + j))
  | _, _ => none

/-- The function `strcasestr(mem + p, mem + q)`, in the C locale: `strstr` ignoring the case of
both arguments. -/
def strcasestr (mem : List Nat) (p q : Nat) : Option (Option Nat) :=
  match c_string mem p, c_string mem q with
  | some hay, some needle =>
    some ((find_sub (needle.map c_tolower) (hay.map c_tolower) 0).map (fun j => p + j))
  | _, _ => none

/-- The intrinsic `_mm_loadu_si128((__m128i *)(mem + p))`: the 16 bytes at `p`.  The load is
taken not to fault; bytes past the memory read as 0. -/
def mm_loadu_si128 (mem : List Nat) (p : Nat) : List Nat :=
  (List.range 16).map (fun j => mem_byte mem (p + j))

/-- The aggregation operations of PCMPISTRx the kernels use (bits 3:2 of the control
byte): `_SIDD_CMP_EQUAL_EACH` and `_SIDD_CMP_EQUAL_ORDERED`, both with
`_SIDD_UBYTE_OPS`, positive polarity and `_SIDD_BIT_MASK`. -/
inductive SiddCmp where
  | EQUAL_EACH | EQUAL_ORDERED
deriving DecidableEq, Repr

/-- The implicit length of a 16-byte string operand: the number of bytes before its
first NUL; these are its valid elements. -/
def pcmpistr_len (v : List Nat) : Nat := (v.takeWhile (fun b => b != 0)).length

/-- Bit `j` of `IntRes2` of PCMPISTRx on the operands `a` (first, xmm1) and `b`
(second, xmm2/m128), after the Intel SDM (vol. 2, PCMPISTRI, sections 4.1.3 to
4.1.5).  Equal each: bit `j` compares `a[j]` and `b[j]`, forced true when both are
invalid and false when one is.  Equal ordered: bit `j` is the conjunction over
`i = 0 .. 15 - j` of `b[j + i] == a[i]`, forced true when `a[i]` is invalid and false
when `a[i]` is valid and `b[j + i]` is not. -/
def pcmpistr_intres2 (mode : SiddCmp) (a b : List Nat) (j : Nat) : Bool :=
  match mode with
  | .EQUAL_EACH =>
    if j < pcmpistr_len a then decide (j < pcmpistr_len b) && (a.getD j 0 == b.getD j 0)
    else !decide (j < pcmpistr_len b)
  | .EQUAL_ORDERED =>
    (List.range (16 - j)).all (fun i =>
      if i < pcmpistr_len a then
        decide (j + i < pcmpistr_len b) && (b.getD (j + i) 0 == a.getD i 0)
      else true)

/-- The intrinsic `_mm_cmpistro(a, b, mode)`: the overflow flag, bit 0 of `IntRes2`. -/
def mm_cmpistro (a b : List Nat) (mode : SiddCmp) : Bool := pcmpistr_intres2 mode a b 0

/-- The intrinsic `_mm_cmpistrc(a, b, mode)`: the carry flag, set iff `IntRes2` is not zero. -/
def mm_cmpistrc (a b : List Nat) (mode : SiddCmp) : Bool :=
  (List.range 16).any (pcmpistr_intres2 mode a b)

/-- The function `cx_str_eq`.  The strings and `cmp` live in the memory `mem`. -/
def cx_str_eq (cfg : Build) (mem : List Nat) (a b : cx_string) : Option Bool :=
  if a.len ≠ b.len then some false
  else if cfg.pcmpistrm && decide (a.len < 16) then
    let a_vec := mm_loadu_si128 mem b.ptr
    let b_vec := mm_loadu_si128 mem a.ptr
    some (mm_cmpistro a_vec b_vec SiddCmp.EQUAL_EACH)
  else (memcmp mem a.ptr b.ptr a.len).map (fun r => decide (r = 0))

def cx_str_eq_ci (mem : List Nat) (a b : cx_string) : Option Bool :=
  if a.len = b.len then (strcasecmp mem a.ptr b.ptr).map (fun r => decide (r = 0))
  else some false

def cx_str_contains_any (cfg : Build) (mem : List Nat) (a b : cx_string) : Option Bool :=
  if a.len < b.len then some false
  else if cfg.pcmpistrm && decide (a.len < 16 ∧ b.len < 16) then
    let a_vec := mm_loadu_si128 mem b.ptr
    let b_vec := mm_loadu_si128 mem a.ptr
    some (mm_cmpistrc a_vec b_vec SiddCmp.EQUAL_ORDERED)
  else (strstr mem a.ptr b.ptr).map (fun r => r.isSome)

def cx_str_contains_any_ci (mem : List Nat) (a b : cx_string) : Option Bool :=
  if a.len ≥ b.len then (strcasestr mem a.ptr b.ptr).map (fun r => r.isSome)
  else some false

def cx_str_contains_start (cfg : Build) (mem : List Nat) (a b : cx_string) : Option Bool :=
  if a.len < b.len then some false
  else if cfg.pcmpistrm && decide (b.len < 16) then
    let a_vec := mm_loadu_si128 mem b.ptr
    let b_vec := mm_loadu_si128 mem a.ptr
    some (mm_cmpistro a_vec b_vec SiddCmp.EQUAL_ORDERED)
  else (memcmp mem a.ptr b.ptr b.len).map (fun r => decide (r = 0))

def cx_str_contains_start_ci (mem : List Nat) (a b : cx_string) : Option Bool :=
  if a.len ≥ b.len then (strncasecmp mem a.ptr b.ptr b.len).map (fun r => decide (r = 0))
  else some false

def cx_str_contains_end (cfg : Build) (mem : List Nat) (a b : cx_string) : Option Bool :=
  if a.len < b.len then some false
  else if cfg.pcmpistrm && decide (b.len < 16) then
    let a_vec := mm_loadu_si128 mem b.ptr
    let b_vec := mm_loadu_si128 mem (a.ptr + a.len - b.len)
    some (mm_cmpistro a_vec b_vec SiddCmp.EQUAL_ORDERED)
  else (memcmp mem (a.ptr + a.len - b.len) b.ptr b.len).map (fun r => decide (r = 0))

def cx_str_contains_end_ci (mem : List Nat) (a b : cx_string) : Option Bool :=
  if a.len ≥ b.len then
    (strncasecmp mem (a.ptr + a.len - b.len) b.ptr b.len).map (fun r => decide (r = 0))
  else some false

def cx_str_lt (mem : List Nat) (a b : cx_string) : Option Bool :=
  (strcmp mem a.ptr b.ptr).map (fun r => decide (r < 0))

def cx_str_gt (mem : List Nat) (a b : cx_string) : Option Bool :=
  (strcmp mem a.ptr b.ptr).map (fun r => decide (r > 0))

def cx_str_lt_ci (mem : List Nat) (a b : cx_string) : Option Bool :=
  (strcasecmp mem a.ptr b.ptr).map (fun r => decide (r < 0))

def cx_str_gt_ci (mem : List Nat) (a b : cx_string) : Option Bool :=
  (strcasecmp mem a.ptr b.ptr).map (fun r => decide (r > 0))

/-- One iteration of a loop of CX_STR_MATCH: `if (test(&strings[i], cmp)) mask |= 1 << i`.
Reading `strings[i]` outside the array is undefined. -/
def str_match_step (test : cx_string → Option Bool) (strings : List cx_string)
    (mask i : Nat) : Option Nat :=
  match strings[i]? with
  | none => none
  | some s =>
    match test s with
    | none => none
    | some hit => some (if hit then mask ||| ((1 <<< i) % WORD) else mask)

/-- The function `cx_match_str_<name>` (CX_STR_MATCH): asserts `size <= 64`, then scans with
`cx_str_<name>` or, when not case sensitive, with `cx_str_<name>_ci`. -/
def CX_STR_MATCH (name name_ci : List Nat → cx_string → cx_string → Option Bool)
    (mem : List Nat) (size : Nat) (strings : List cx_string) (cmp : cx_string)
    (case_sensitive : Bool) : Option Nat :=
  if size ≤ 64 then
    if case_sensitive then
      (List.range size).foldlM (str_match_step (fun s => name mem s cmp) strings) 0
    else
      (List.range size).foldlM (str_match_step (fun s => name_ci mem s cmp) strings) 0
  else none

def cx_match_str_eq (cfg : Build) := CX_STR_MATCH (cx_str_eq cfg) cx_str_eq_ci
def cx_match_str_lt := CX_STR_MATCH cx_str_lt cx_str_lt_ci
def cx_match_str_gt := CX_STR_MATCH cx_str_gt cx_str_gt_ci
def cx_match_str_contains_any (cfg : Build) :=
  CX_STR_MATCH (cx_str_contains_any cfg) cx_str_contains_any_ci
def cx_match_str_contains_start (cfg : Build) :=
  CX_STR_MATCH (cx_str_contains_start cfg) cx_str_contains_start_ci
def cx_match_str_contains_end (cfg : Build) :=
  CX_STR_MATCH (cx_str_contains_end cfg) cx_str_contains_end_ci

/-- The function `cx_match_str_contains`. -/
def cx_match_str_contains (cfg : Build) (mem : List Nat) (size : Nat)
    (strings : List cx_string) (cmp : cx_string) (case_sensitive : Bool)
    (location : cx_str_location) : Option Nat :=
  match location with
  | .START => cx_match_str_contains_start cfg mem size strings cmp case_sensitive
  | .END => cx_match_str_contains_end cfg mem size strings cmp case_sensitive
  | .ANY => cx_match_str_contains_any cfg mem size strings cmp case_sensitive

/-- The memory at address `p` holds the C string `x`: the bytes of `x`, none of them
NUL, followed by the terminator. -/
def StrAt (mem : List Nat) (p : Nat) (x : List Nat) : Prop :=
  (∀ b ∈ x, b ≠ 0) ∧ (mem.drop p).take (x.length + 1) = x ++ [0]

/-- A well-formed record: `ptr` points at the C string `x` and `len` is its
NUL-terminated length. -/
def cx_string.holds (s : cx_string) (mem : List Nat) (x : List Nat) : Prop :=
  s.len = x.length ∧ StrAt mem s.ptr x

/-- What a string kernel owes for a batch whose record `i` holds the string `x i`: it
returns a 64-bit mask whose bit `i`, for `i < size`, is set iff `rel (x i) y`, and
whose bits from `size` up are zero. -/
def IsStrMask (rel : List Nat → List Nat → Prop) (size : Nat) (x : Nat → List Nat)
    (y : List Nat) (r : Option Nat) : Prop :=
  ∃ mask, r = some mask ∧ mask < 2 ^ 64 ∧
    (∀ i, i < size → (mask.testBit i = true ↔ rel (x i) y)) ∧
    (∀ i, size ≤ i → mask.testBit i = false)

/-- A memory holding the strings "ab" (at 0), "ac" (at 3), "Ab" (at 6), "b" (at 9),
"" (at 11) and the 16 characters "abcdefghijklmnop" (at 12). -/
def sample_str_mem : List Nat :=
  [97, 98, 0, 97, 99, 0, 65, 98, 0, 98, 0, 0,
   97, 98, 99, 100, 101, 102, 103, 104, 105, 106, 107, 108, 109, 110, 111, 112, 0]

instance (mem : List Nat) (p : Nat) (x : List Nat) : Decidable (StrAt mem p x) := by
  unfold StrAt; infer_instance

instance (s : cx_string) (mem : List Nat) (x : List Nat) : Decidable (s.holds mem x) := by
  unfold cx_string.holds; infer_instance

/-- The bytes past the used region of a column are all zero. -/
def cx_column.zero_tail (c : cx_column) : Prop :=
  c.buffer.drop c.offset = List.replicate (c.size - c.offset) 0

instance (c : cx_column) : Decidable c.zero_tail := by
  unfold cx_column.zero_tail; infer_instance

/-- The calls that the assertions of the cursor interface admit on a cursor over a
column of type `t`: every `next_batch` and `skip` asserts the type of the column, and
a bit skip asserts `count % 64 == 0`. -/
def CursorCall.fits (t : cx_column_type) : CursorCall → Prop
  | .next_batch_bit => t = cx_column_type.BIT
  | .next_batch_i32 => t = cx_column_type.I32
  | .next_batch_i64 => t = cx_column_type.I64
  | .next_batch_str => t = cx_column_type.STR
  | .skip_bit count => t = cx_column_type.BIT ∧ count % 64 = 0
  | .skip_i32 _ => t = cx_column_type.I32
  | .skip_i64 _ => t = cx_column_type.I64
  | .skip_flt _ => t = cx_column_type.FLT
  | .skip_dbl _ => t = cx_column_type.DBL
  | .skip_str _ => t = cx_column_type.STR
  | .rewind => True

instance (t : cx_column_type) (call : CursorCall) : Decidable (CursorCall.fits t call) := by
  cases call <;> unfold CursorCall.fits <;> infer_instance

/-- A string cursor stands on a record boundary: the window holds NUL-free strings
one after the other, each followed by its terminator, and the position is where one
of them starts, or the end of the window. -/
def cx_column_cursor.at_record (cur : cx_column_cursor) : Prop :=
  ∃ pre post : List (List Nat), (∀ s ∈ pre ++ post, ∀ b ∈ s, b ≠ 0) ∧
    cur.position = (str_bytes pre).length ∧
    cur.end_ = (str_bytes (pre ++ post)).length ∧
    cur.column.buffer.take cur.end_ = str_bytes (pre ++ post)

/-- What holds of a cursor over a column of type `t` built by appends, whatever the
calls made on it: it stays inside its window, which starts at the head of the
buffer, and a string cursor stands on a record boundary. -/
def cx_column_cursor.wf (t : cx_column_type) (cur : cx_column_cursor) : Prop :=
  cur.column.type = t ∧ cur.start = 0 ∧ cur.position ≤ cur.end_ ∧
    (t = cx_column_type.STR → cur.at_record)

/-! ## Theorems -/

/-! ### Bit masks built by a scan -/

theorem testBit_step (m n i : Nat) (q : Nat → Bool) (b : Bool)
    (hm : m.testBit i = (decide (i < n) && q i)) (hb : q n = b) :
    (if b = true then m ||| 2 ^ n else m).testBit i = (decide (i < n + 1) && q i) := by
  rcases Nat.lt_trichotomy i n with h | h | h
  · have h1 : i < n + 1 := by omega
    have h2 : ¬ n = i := by omega
    cases b <;> simp [hm, h, h1, h2, Nat.testBit_or, Nat.testBit_two_pow]
  · subst h
    cases b <;> simp [hm, hb, Nat.testBit_or, Nat.testBit_two_pow]
  · have h1 : ¬ i < n + 1 := by omega
    have h2 : ¬ n = i := by omega
    have h3 : ¬ i < n := by omega
    cases b <;> simp [hm, h1, h2, h3, Nat.testBit_or, Nat.testBit_two_pow]

theorem testBit_scan (p : Nat → Bool) (n i : Nat) :
    ((List.range n).foldl (fun m j => if p j then m ||| (1 <<< j) else m) 0).testBit i
      = (decide (i < n) && p i) := by
  induction n with
  | zero => simp
  | succ n ih =>
    rw [List.range_succ, List.foldl_append, List.foldl_cons, List.foldl_nil]
    generalize List.foldl _ 0 (List.range n) = m at ih ⊢
    rw [Nat.one_shiftLeft]
    exact testBit_step m n i p (p n) ih rfl

theorem testBit_lane_mask (op : MatchOp) (cmp : Int) (chunk : List Int) (j : Nat) :
    (cx_simd_lane_mask op cmp chunk).testBit j
      = (decide (j < chunk.length) && op.test (chunk.getD j 0) cmp) := by
  unfold cx_simd_lane_mask
  exact testBit_scan (fun j => op.test (chunk.getD j 0) cmp) chunk.length j

/-- The scalar loop over the first `n` elements succeeds when the batch has them and
`n <= 64`, and bit `i` of its result is `i < n && batch[i] op cmp`. -/
theorem naive_scan (op : MatchOp) (batch : List Int) (cmp : Int) (n : Nat)
    (hn : n ≤ batch.length) (h64 : n ≤ 64) :
    ∃ mask, (List.range n).foldlM (naive_step op batch cmp) 0 = some mask ∧
      ∀ i, mask.testBit i = (decide (i < n) && op.test (batch.getD i 0) cmp) := by
  induction n with
  | zero => exact ⟨0, rfl, by simp⟩
  | succ n ih =>
    obtain ⟨m, hm, hbits⟩ := ih (by omega) (by omega)
    have hlt : n < batch.length := by omega
    have hpow : (2:Nat) ^ n < 2 ^ 64 := Nat.pow_lt_pow_right (by norm_num) (by omega)
    have hD : batch.getD n 0 = batch[n] := List.getD_eq_getElem batch 0 hlt
    have hmod : (1 <<< n) % WORD = 2 ^ n := by
      rw [Nat.one_shiftLeft]; exact Nat.mod_eq_of_lt hpow
    refine ⟨if op.test batch[n] cmp = true then m ||| 2 ^ n else m, ?_, ?_⟩
    · rw [List.range_succ, List.foldlM_append, hm]
      simp [naive_step, List.getElem?_eq_getElem hlt, hmod]
    · intro i
      exact testBit_step m n i (fun i => op.test (batch.getD i 0) cmp) _ (hbits i)
        (by simp only [hD])

theorem getD_chunk (batch : List Int) (k L j : Nat) (hj : j < L) :
    ((batch.drop k).take L).getD j 0 = batch.getD (k + j) 0 := by
  simp [List.getD_eq_getElem?_getD, List.getElem?_take, hj, List.getElem?_drop]

/-- The first SIMD loop succeeds when the batch has `n * L` elements; entry `i` of
its result is the lane mask of chunk `i`. -/
theorem simd_masks_spec (op : MatchOp) (batch : List Int) (cmp : Int) (L n : Nat)
    (hn : n * L ≤ batch.length) :
    ∃ masks, cx_simd_masks op batch cmp L n = some masks ∧ masks.length = n ∧
      ∀ i, i < n →
        masks.getD i 0 = cx_simd_lane_mask op cmp ((batch.drop (i * L)).take L) := by
  induction n with
  | zero => exact ⟨[], rfl, rfl, by intro i hi; omega⟩
  | succ n ih =>
    have hmul : (n + 1) * L = n * L + L := by ring
    obtain ⟨ms, hms, hlen, hget⟩ := ih (by omega)
    have hload : cx_simd_load batch (n * L) L = some ((batch.drop (n * L)).take L) := by
      unfold cx_simd_load; rw [if_pos (by omega)]
    refine ⟨ms ++ [cx_simd_lane_mask op cmp ((batch.drop (n * L)).take L)], ?_, ?_, ?_⟩
    · simp only [cx_simd_masks, hms, hload]
    · simp [hlen]
    · intro i hi
      rcases Nat.lt_or_ge i n with h | h
      · rw [List.getD_append _ _ _ _ (by omega)]
        exact hget i h
      · have hi' : i = n := by omega
        subst hi'
        rw [List.getD_append_right _ _ _ _ (by omega), hlen, Nat.sub_self]
        rfl

/-- The second SIMD loop over the first `k` of `n` chunks of `L` lanes: bit `b` of
its result is `b < k * L && batch[b] op cmp`. -/
theorem simd_scan (op : MatchOp) (batch : List Int) (cmp : Int) (L n : Nat)
    (masks : List Nat) (hn : n * L ≤ batch.length) (h64 : n * L ≤ 64)
    (hget : ∀ i, i < n →
      masks.getD i 0 = cx_simd_lane_mask op cmp ((batch.drop (i * L)).take L))
    (k : Nat) (hk : k ≤ n) (b : Nat) :
    ((List.range k).foldl
        (fun mask i => mask ||| ((masks.getD i 0 <<< (i * L)) % WORD)) 0).testBit b
      = (decide (b < k * L) && op.test (batch.getD b 0) cmp) := by
  induction k with
  | zero => simp
  | succ k ih =>
    have hmul : (k + 1) * L = k * L + L := by ring
    have hkn : k * L + L ≤ n * L := by
      rw [← hmul]; exact Nat.mul_le_mul_right L hk
    have hlen : ((batch.drop (k * L)).take L).length = L := by
      rw [List.length_take, List.length_drop]; omega
    rw [List.range_succ, List.foldl_append, List.foldl_cons, List.foldl_nil,
      Nat.testBit_or, ih (by omega), hget k (by omega), WORD, Nat.testBit_mod_two_pow,
      Nat.testBit_shiftLeft, testBit_lane_mask, hlen, hmul]
    by_cases h1 : b < k * L
    · have h2 : ¬ b ≥ k * L := by omega
      have h3 : b < k * L + L := by omega
      simp [h1, h2, h3]
    · by_cases h3 : b < k * L + L
      · have h2 : b ≥ k * L := by omega
        have h4 : b - k * L < L := by omega
        have h5 : b < 64 := by omega
        have h6 : k * L + (b - k * L) = b := by omega
        rw [getD_chunk batch (k * L) L _ h4, h6]
        simp [h1, h2, h3, h4, h5]
      · have h4 : ¬ b - k * L < L := by omega
        simp [h1, h3, h4]

/-- Every kernel, in every build, computes the mask of its comparison. -/
theorem cx_match_mask (cfg : Build) (hcfg : cfg.valid) (sz : Nat) (hsz : sz = 4 ∨ sz = 8)
    (op : MatchOp) (size : Nat) (batch : List Int) (cmp : Int)
    (hsize : size ≤ 64) (hlen : batch.length = size) :
    ∃ mask, cx_match cfg sz op size batch cmp = some mask ∧
      ∀ i, mask.testBit i = (decide (i < size) && op.test (batch.getD i 0) cmp) := by
  have hnaive := naive_scan op batch cmp size (by omega) hsize
  have hsimd : ∀ width, width = 16 ∨ width = 32 ∨ width = 64 → size = 64 →
      ∃ mask, cx_match_simd width sz op batch cmp = some mask ∧
        ∀ i, mask.testBit i = (decide (i < size) && op.test (batch.getD i 0) cmp) := by
    intro width hw h
    have key : 64 / width * sz * (width / sz) = 64 := by
      rcases hw with rfl | rfl | rfl <;> rcases hsz with rfl | rfl <;> rfl
    obtain ⟨masks, hmasks, _, hget⟩ := simd_masks_spec op batch cmp (width / sz)
      (64 / width * sz) (by omega)
    refine ⟨_, by unfold cx_match_simd; rw [hmasks], ?_⟩
    intro b
    rw [simd_scan op batch cmp (width / sz) (64 / width * sz) masks (by omega) (by omega)
      hget (64 / width * sz) (le_refl _) b, key, h]
  unfold cx_match
  rcases hcfg with h | h | h | h <;> rw [h] <;> simp only
  · simpa [cx_match_naive, hsize] using hnaive
  all_goals
    by_cases h64 : size = 64
    · rw [if_pos h64]; exact hsimd _ (by simp) h64
    · rw [if_neg h64]; simpa [cx_match_naive, hsize] using hnaive

theorem isMatchMask_of_bits (rel : Int → Int → Prop) (op : MatchOp)
    (hop : ∀ a b, op.test a b = true ↔ rel a b) (size : Nat) (batch : List Int) (cmp : Int)
    (hsize : size ≤ 64) (r : Option Nat)
    (h : ∃ mask, r = some mask ∧
      ∀ i, mask.testBit i = (decide (i < size) && op.test (batch.getD i 0) cmp)) :
    IsMatchMask rel size batch cmp r := by
  obtain ⟨mask, hr, hb⟩ := h
  have hz : ∀ i, size ≤ i → mask.testBit i = false := by
    intro i hi
    have : ¬ i < size := by omega
    simp [hb, this]
  refine ⟨mask, hr, ?_, ?_, hz⟩
  · exact Nat.lt_pow_two_of_testBit mask (fun i hi => hz i (by omega))
  · intro i hi his
    rw [hb, List.getD_eq_getElem batch 0 hi]
    simp [his, hop]

/-- C1. For every build, every `size <= 64`, every batch of that length and every
`cmp`, each of `cx_match_i32_eq/_lt/_gt` and `cx_match_i64_eq/_lt/_gt` returns a
64-bit mask whose bit `i < size` is set iff `batch[i] == cmp` / `< cmp` / `> cmp`
and whose bits at positions `>= size` are zero; an empty batch gives mask 0. -/
theorem cx_match_numeric_spec (cfg : Build) (hcfg : cfg.valid) (size : Nat)
    (batch : List Int) (cmp : Int) (hsize : size ≤ 64) (hlen : batch.length = size) :
    IsMatchMask (fun a b => a = b) size batch cmp (cx_match_i32_eq cfg size batch cmp) ∧
    IsMatchMask (fun a b => a < b) size batch cmp (cx_match_i32_lt cfg size batch cmp) ∧
    IsMatchMask (fun a b => a > b) size batch cmp (cx_match_i32_gt cfg size batch cmp) ∧
    IsMatchMask (fun a b => a = b) size batch cmp (cx_match_i64_eq cfg size batch cmp) ∧
    IsMatchMask (fun a b => a < b) size batch cmp (cx_match_i64_lt cfg size batch cmp) ∧
    IsMatchMask (fun a b => a > b) size batch cmp (cx_match_i64_gt cfg size batch cmp) ∧
    (size = 0 → cx_match_i32_eq cfg size batch cmp = some 0 ∧
      cx_match_i32_lt cfg size batch cmp = some 0 ∧
      cx_match_i32_gt cfg size batch cmp = some 0 ∧
      cx_match_i64_eq cfg size batch cmp = some 0 ∧
      cx_match_i64_lt cfg size batch cmp = some 0 ∧
      cx_match_i64_gt cfg size batch cmp = some 0) := by
  have heq : ∀ a b : Int, MatchOp.eq.test a b = true ↔ a = b := by
    intro a b; simp [MatchOp.test]
  have hlt : ∀ a b : Int, MatchOp.lt.test a b = true ↔ a < b := by
    intro a b; simp [MatchOp.test]
  have hgt : ∀ a b : Int, MatchOp.gt.test a b = true ↔ a > b := by
    intro a b; simp [MatchOp.test]
  have hzero : ∀ sz, sz = 4 ∨ sz = 8 → ∀ op, size = 0 →
      cx_match cfg sz op size batch cmp = some 0 := by
    intro sz hsz op h0
    obtain ⟨m, hm, hb⟩ := cx_match_mask cfg hcfg sz hsz op size batch cmp hsize hlen
    rw [hm]
    congr 1
    apply Nat.eq_of_testBit_eq
    intro i
    simp [hb, h0]
  refine ⟨?_, ?_, ?_, ?_, ?_, ?_, ?_⟩
  · exact isMatchMask_of_bits _ _ heq size batch cmp hsize _
      (cx_match_mask cfg hcfg 4 (Or.inl rfl) _ size batch cmp hsize hlen)
  · exact isMatchMask_of_bits _ _ hlt size batch cmp hsize _
      (cx_match_mask cfg hcfg 4 (Or.inl rfl) _ size batch cmp hsize hlen)
  · exact isMatchMask_of_bits _ _ hgt size batch cmp hsize _
      (cx_match_mask cfg hcfg 4 (Or.inl rfl) _ size batch cmp hsize hlen)
  · exact isMatchMask_of_bits _ _ heq size batch cmp hsize _
      (cx_match_mask cfg hcfg 8 (Or.inr rfl) _ size batch cmp hsize hlen)
  · exact isMatchMask_of_bits _ _ hlt size batch cmp hsize _
      (cx_match_mask cfg hcfg 8 (Or.inr rfl) _ size batch cmp hsize hlen)
  · exact isMatchMask_of_bits _ _ hgt size batch cmp hsize _
      (cx_match_mask cfg hcfg 8 (Or.inr rfl) _ size batch cmp hsize hlen)
  · intro h0
    exact ⟨hzero 4 (Or.inl rfl) _ h0, hzero 4 (Or.inl rfl) _ h0, hzero 4 (Or.inl rfl) _ h0,
      hzero 8 (Or.inr rfl) _ h0, hzero 8 (Or.inr rfl) _ h0, hzero 8 (Or.inr rfl) _ h0⟩

/-- Witness for C1: the `lt` kernel of an AVX2 build on the batch `[1, 5, 3]`. -/
theorem cx_match_numeric_spec_witness :
    (Build.valid ⟨false, some 32, true, false⟩ ∧ 3 ≤ 64 ∧ [1, 5, 3].length = 3) ∧
    IsMatchMask (fun a b => a < b) 3 [1, 5, 3] 3
      (cx_match_i32_lt ⟨false, some 32, true, false⟩ 3 [1, 5, 3] 3) :=
  ⟨⟨by decide, by decide, rfl⟩,
    (cx_match_numeric_spec ⟨false, some 32, true, false⟩ (by decide) 3 [1, 5, 3] 3 (by decide) rfl).2.1⟩

/-- The boundary scenarios S1, S2 and S3 of the specification, on every kind of build. -/
theorem cx_match_scenarios :
    cx_match_i32_lt ⟨false, none, true, false⟩ 10 [0, 1, 2, 3, 4, 5, 6, 7, 8, 9] 10 = some 0x3FF ∧
    cx_match_i32_lt ⟨false, some 16, false, false⟩ 10 [0, 1, 2, 3, 4, 5, 6, 7, 8, 9] 0 = some 0 ∧
    cx_match_i32_eq ⟨true, some 64, true, false⟩ 10 [0, 1, 2, 3, 4, 5, 6, 7, 8, 9] 3 = some 8 := by
  decide

/-- The SIMD variants evaluated on full batches: AVX2 on int32, AVX-512 on int64. -/
theorem cx_match_simd_scenarios :
    cx_match_i32_lt ⟨false, some 32, true, false⟩ 64 ((List.range 64).map (fun i => (i : Int))) 10
      = some 1023 ∧
    cx_match_i64_gt ⟨false, some 64, true, false⟩ 64 ((List.range 64).map (fun i => (i : Int))) 61
      = some (2 ^ 62 + 2 ^ 63) :=
  ⟨rfl, rfl⟩

/-! ### Object representations -/

theorem le_bytes_length (n v : Nat) : (le_bytes n v).length = n := by
  induction n generalizing v with
  | zero => rfl
  | succ n ih => simp [le_bytes, ih]

theorem le_value_le_bytes (n v : Nat) : le_value (le_bytes n v) = v % 256 ^ n := by
  induction n generalizing v with
  | zero => simp [le_bytes, le_value, Nat.mod_one]
  | succ n ih =>
    simp only [le_bytes, le_value, ih]
    rw [pow_succ, Nat.mul_comm (256 ^ n) 256, Nat.mod_mul]

theorem le_value_lt (bs : List Nat) (h : ∀ b ∈ bs, b < 256) : le_value bs < 256 ^ bs.length := by
  induction bs with
  | nil => simp [le_value]
  | cons b bs ih =>
    have hb : b < 256 := h b (by simp)
    have := ih (fun x hx => h x (by simp [hx]))
    simp only [le_value, List.length_cons, pow_succ]
    omega

theorem le_bytes_le_value (bs : List Nat) (h : ∀ b ∈ bs, b < 256) :
    le_bytes bs.length (le_value bs) = bs := by
  induction bs with
  | nil => rfl
  | cons b bs ih =>
    have hb : b < 256 := h b (by simp)
    have := ih (fun x hx => h x (by simp [hx]))
    simp only [le_value, List.length_cons, le_bytes]
    have h1 : (b + 256 * le_value bs) % 256 = b := by omega
    have h2 : (b + 256 * le_value bs) / 256 = le_value bs := by omega
    rw [h1, h2, this]

theorem le_bytes_lt (n v : Nat) : ∀ b ∈ le_bytes n v, b < 256 := by
  induction n generalizing v with
  | zero => simp [le_bytes]
  | succ n ih =>
    intro b hb
    simp only [le_bytes, List.mem_cons] at hb
    rcases hb with rfl | hb
    · exact Nat.mod_lt _ (by norm_num)
    · exact ih _ b hb

theorem int_bytes_length (n : Nat) (v : Int) : (int_bytes n v).length = n :=
  le_bytes_length n _

/-- Reading back a 4-byte integer gives the integer written. -/
theorem int_value_int_bytes_4 (v : Int) (h1 : -2 ^ 31 ≤ v) (h2 : v < 2 ^ 31) :
    int_value 4 (int_bytes 4 v) = v := by
  unfold int_value int_bytes
  rw [le_value_le_bytes]
  have hmod : ((v % (2 : Int) ^ (8 * 4)).toNat % 256 ^ 4 : Nat) = (v % (2 : Int) ^ (8 * 4)).toNat := by
    apply Nat.mod_eq_of_lt
    have : v % (2 : Int) ^ (8 * 4) < (2 : Int) ^ (8 * 4) := Int.emod_lt_of_pos _ (by norm_num)
    have h0 : 0 ≤ v % (2 : Int) ^ (8 * 4) := Int.emod_nonneg _ (by norm_num)
    omega
  rw [hmod]
  have h0 : 0 ≤ v % (2 : Int) ^ (8 * 4) := Int.emod_nonneg _ (by norm_num)
  have hcast : ((v % (2 : Int) ^ (8 * 4)).toNat : Int) = v % (2 : Int) ^ (8 * 4) :=
    Int.toNat_of_nonneg h0
  split
  · rename_i hlt
    rw [hcast]
    have : (v % (2 : Int) ^ (8 * 4)).toNat < 2 ^ (8 * 4 - 1) := hlt
    omega
  · rename_i hge
    rw [hcast]
    have : ¬ (v % (2 : Int) ^ (8 * 4)).toNat < 2 ^ (8 * 4 - 1) := hge
    omega

/-- Reading back an 8-byte integer gives the integer written. -/
theorem int_value_int_bytes_8 (v : Int) (h1 : -2 ^ 63 ≤ v) (h2 : v < 2 ^ 63) :
    int_value 8 (int_bytes 8 v) = v := by
  unfold int_value int_bytes
  rw [le_value_le_bytes]
  have hmod : ((v % (2 : Int) ^ (8 * 8)).toNat % 256 ^ 8 : Nat) = (v % (2 : Int) ^ (8 * 8)).toNat := by
    apply Nat.mod_eq_of_lt
    have : v % (2 : Int) ^ (8 * 8) < (2 : Int) ^ (8 * 8) := Int.emod_lt_of_pos _ (by norm_num)
    have h0 : 0 ≤ v % (2 : Int) ^ (8 * 8) := Int.emod_nonneg _ (by norm_num)
    omega
  rw [hmod]
  have h0 : 0 ≤ v % (2 : Int) ^ (8 * 8) := Int.emod_nonneg _ (by norm_num)
  have hcast : ((v % (2 : Int) ^ (8 * 8)).toNat : Int) = v % (2 : Int) ^ (8 * 8) :=
    Int.toNat_of_nonneg h0
  split
  · rename_i hlt
    rw [hcast]
    have : (v % (2 : Int) ^ (8 * 8)).toNat < 2 ^ (8 * 8 - 1) := hlt
    omega
  · rename_i hge
    rw [hcast]
    have : ¬ (v % (2 : Int) ^ (8 * 8)).toNat < 2 ^ (8 * 8 - 1) := hge
    omega

/-! ### Memory operations -/

theorem fresh_length (a : Alloc) (base n : Nat) : (fresh a base n).length = n := by
  simp [fresh]

theorem memcpy_length (mem : List Nat) (p : Nat) (src out : List Nat)
    (h : memcpy mem p src = some out) : out.length = mem.length := by
  unfold memcpy at h
  split at h
  · rename_i hle
    injection h with h
    subst h
    simp only [List.length_append, List.length_take, List.length_drop]
    omega
  · cases h

theorem memcpy_take (mem : List Nat) (p : Nat) (src out : List Nat)
    (h : memcpy mem p src = some out) : out.take p = mem.take p := by
  unfold memcpy at h
  split at h
  · rename_i hle
    injection h with h
    subst h
    have hp : (mem.take p).length = p := by rw [List.length_take]; omega
    rw [List.append_assoc, List.take_append_of_le_length (by omega)]
    rw [List.take_of_length_le (by omega)]
  · cases h

theorem memcpy_written (mem : List Nat) (p : Nat) (src out : List Nat)
    (h : memcpy mem p src = some out) : (out.drop p).take src.length = src := by
  unfold memcpy at h
  split at h
  · rename_i hle
    injection h with h
    subst h
    have hp : (mem.take p).length = p := by rw [List.length_take]; omega
    rw [List.append_assoc, List.drop_append_of_le_length (by omega)]
    rw [List.drop_of_length_le (by omega), List.nil_append, List.take_left']
    rfl
  · cases h

theorem memcpy_take_end (mem : List Nat) (p : Nat) (src out : List Nat)
    (h : memcpy mem p src = some out) : out.take (p + src.length) = mem.take p ++ src := by
  unfold memcpy at h
  split at h
  · rename_i hle
    injection h with h
    subst h
    have hp : (mem.take p ++ src).length = p + src.length := by
      rw [List.length_append, List.length_take]; omega
    rw [← hp, List.take_left']
    rfl
  · cases h

theorem memcpy_drop_end (mem : List Nat) (p : Nat) (src out : List Nat)
    (h : memcpy mem p src = some out) :
    out.drop (p + src.length) = mem.drop (p + src.length) := by
  unfold memcpy at h
  split at h
  · rename_i hle
    injection h with h
    subst h
    have hp : (mem.take p ++ src).length = p + src.length := by
      rw [List.length_append, List.length_take]; omega
    conv_lhs => rw [← hp]
    rw [List.drop_left' rfl, hp]
  · cases h

theorem memcpy_some (mem : List Nat) (p : Nat) (src : List Nat)
    (h : p + src.length ≤ mem.length) : ∃ out, memcpy mem p src = some out := by
  unfold memcpy
  rw [if_pos h]
  exact ⟨_, rfl⟩

theorem realloc_length (a : Alloc) (old : List Nat) (n : Nat) (out : List Nat)
    (h : realloc a old n = some out) : out.length = n := by
  unfold realloc at h
  split at h
  · injection h with h
    subst h
    simp only [List.length_append, List.length_take, fresh_length]
    omega
  · cases h

theorem realloc_take (a : Alloc) (old : List Nat) (n : Nat) (out : List Nat)
    (h : realloc a old n = some out) (hn : old.length ≤ n) :
    out.take old.length = old := by
  unfold realloc at h
  split at h
  · injection h with h
    subst h
    rw [List.take_of_length_le hn, List.take_left']
    rfl
  · cases h

theorem realloc_ok (a : Alloc) (old : List Nat) (n : Nat) (h : a.ok = true) :
    ∃ out, realloc a old n = some out := by
  unfold realloc
  rw [if_pos h]
  exact ⟨_, rfl⟩

theorem realloc_fail (a : Alloc) (old : List Nat) (n : Nat) (h : a.ok = false) :
    realloc a old n = none := by
  unfold realloc
  simp [h]

/-! ### The doubling loop of `cx_column_resize` -/

theorem word_eq : WORD = 18446744073709551616 := by norm_num [WORD]

/-- A doubling passes the assertion exactly when it does not wrap (and is not 0). -/
theorem double_ok (size : Nat) (hs : size < WORD) :
    size * 2 % WORD > size ↔ 0 < size ∧ size * 2 < WORD := by
  rw [word_eq] at *
  omega

/-- What the loop returns: the capacity doubled `k` times without wrapping, `k`
being the least number of doublings that reaches the required size. -/
theorem resize_loop_spec (fuel size required s : Nat) (hs : size < WORD)
    (h : resize_loop fuel size required = some s) :
    ∃ k, s = size * 2 ^ k ∧ required ≤ s ∧ s < WORD ∧ ∀ j, j < k → size * 2 ^ j < required := by
  induction fuel generalizing size with
  | zero =>
    unfold resize_loop at h
    split at h
    · cases h
    · injection h with h
      exact ⟨0, by simp [h], by omega, by omega, by intro j hj; omega⟩
  | succ fuel ih =>
    unfold resize_loop at h
    split at h
    · rename_i hlt
      split at h
      · rename_i hdbl
        have hd := (double_ok size hs).1 hdbl
        have hmod : size * 2 % WORD = size * 2 := Nat.mod_eq_of_lt hd.2
        rw [hmod] at h
        obtain ⟨k, hk, hreq, hw, hmin⟩ := ih (size * 2) hd.2 h
        refine ⟨k + 1, ?_, hreq, hw, ?_⟩
        · rw [hk, pow_succ]; ring
        · intro j hj
          cases j with
          | zero => simpa using hlt
          | succ j =>
            have := hmin j (by omega)
            rw [pow_succ]
            calc size * (2 ^ j * 2) = size * 2 * 2 ^ j := by ring
              _ < required := this
      · cases h
    · injection h with h
      exact ⟨0, by simp [h], by omega, by omega, by intro j hj; omega⟩

/-- The loop returns when the capacity is positive and the required size is at most
2^63: no doubling wraps, so no assertion fails, and `fuel` doublings reach it. -/
theorem resize_loop_total (fuel size required : Nat) (hpos : 0 < size)
    (hreq : required ≤ 2 ^ 63) (hfuel : required ≤ size * 2 ^ fuel) :
    ∃ s, resize_loop fuel size required = some s := by
  induction fuel generalizing size with
  | zero =>
    unfold resize_loop
    rw [if_neg (by simpa using hfuel)]
    exact ⟨_, rfl⟩
  | succ fuel ih =>
    unfold resize_loop
    split
    · rename_i hlt
      have h63 : (2 : Nat) ^ 63 = 9223372036854775808 := by norm_num
      have hd : size * 2 % WORD > size := by
        rw [word_eq]; omega
      rw [if_pos hd]
      have hmod : size * 2 % WORD = size * 2 := by
        rw [word_eq]; omega
      rw [hmod]
      apply ih (size * 2) (by omega)
      calc required ≤ size * 2 ^ (fuel + 1) := hfuel
        _ = size * 2 * 2 ^ fuel := by rw [pow_succ]; ring
    · exact ⟨_, rfl⟩

/-- One more iteration changes nothing once `fuel` doublings would leave the 64-bit
range: the loop has returned or failed its assertion by then. -/
theorem resize_loop_succ (fuel size required : Nat) (hs : size < WORD)
    (h : size = 0 ∨ WORD ≤ size * 2 ^ fuel) :
    resize_loop (fuel + 1) size required = resize_loop fuel size required := by
  induction fuel generalizing size with
  | zero =>
    have h0 : size = 0 := by
      rcases h with h | h
      · exact h
      · simp at h; omega
    subst h0
    simp [resize_loop]
  | succ fuel ih =>
    rw [resize_loop]
    conv_rhs => rw [resize_loop]
    split
    · split
      · rename_i hdbl
        have hd := (double_ok size hs).1 hdbl
        have hmod : size * 2 % WORD = size * 2 := Nat.mod_eq_of_lt hd.2
        rw [hmod]
        apply ih (size * 2) hd.2
        right
        rcases h with h | h
        · omega
        · calc WORD ≤ size * 2 ^ (fuel + 1) := h
            _ = size * 2 * 2 ^ fuel := by rw [pow_succ]; ring
      · rfl
    · rfl

/-- Sixty-four iterations always suffice: more fuel gives the same answer. -/
theorem resize_loop_fuel (fuel size required : Nat) (hs : size < WORD) (hf : 64 ≤ fuel) :
    resize_loop fuel size required = resize_loop 64 size required := by
  induction fuel with
  | zero => omega
  | succ fuel ih =>
    rcases Nat.eq_or_lt_of_le hf with h | h
    · rw [← h]
    · have h64 : 64 ≤ fuel := by omega
      rw [← ih h64]
      apply resize_loop_succ fuel size required hs
      rcases Nat.eq_zero_or_pos size with h0 | h0
      · exact Or.inl h0
      · right
        calc WORD = 1 * 2 ^ 64 := by simp [WORD]
          _ ≤ size * 2 ^ fuel :=
            Nat.mul_le_mul h0 (Nat.pow_le_pow_right (by norm_num) h64)

/-! ### `cx_column_resize` -/

theorem cx_column_resize_false (cfg : Build) (a : Alloc) (c : cx_column) (n : Nat)
    (c' : cx_column) (h : cx_column_resize cfg a c n = some (false, c')) : c' = c := by
  unfold cx_column_resize at h
  simp only at h
  split at h
  · cases h
  · split at h
    · injection h with h
      injection h with _ h
      exact h.symm
    · split at h
      · split at h
        · cases h
        · injection h with h
          injection h with h _
          cases h
      · injection h with h
        injection h with h _
        cases h

theorem cx_column_resize_true (cfg : Build) (a : Alloc) (c : cx_column) (n : Nat)
    (c' : cx_column) (hwf : c.heap_wf) (h : cx_column_resize cfg a c n = some (true, c')) :
    a.ok = true ∧ c'.heap_wf ∧ c.offset + n + CX_COLUMN_OVER_ALLOC cfg ≤ c'.size ∧
      c.size ≤ c'.size ∧ c'.buffer.take c.offset = c.buffer.take c.offset ∧
      c'.count = c.count ∧ c'.offset = c.offset ∧ c'.type = c.type ∧
      c'.encoding = c.encoding ∧
      (cfg.sse42 = true → c'.buffer.drop c.offset = List.replicate (c'.size - c.offset) 0) ∧
      ∃ k, c'.size = c.size * 2 ^ k ∧
        ∀ j, j < k → c.size * 2 ^ j < c.offset + n + CX_COLUMN_OVER_ALLOC cfg := by
  obtain ⟨hm, hlen, hoff, hpos, hword⟩ := hwf
  unfold cx_column_resize at h
  simp only at h
  split at h
  · cases h
  · rename_i s hloop
    obtain ⟨k, hk, hreq, hw, hmin⟩ := resize_loop_spec 64 c.size _ s hword hloop
    have hge : c.size ≤ s := by
      rw [hk]; exact Nat.le_mul_of_pos_right _ (by positivity)
    split at h
    · injection h with h
      injection h with h _
      cases h
    · rename_i buf hre
      have hok : a.ok = true := by
        by_contra hno
        rw [realloc_fail a _ _ (by simpa using hno)] at hre
        cases hre
      have hblen := realloc_length a _ _ _ hre
      have hbtake := realloc_take a _ _ _ hre (by omega)
      have hpre : buf.take c.offset = c.buffer.take c.offset := by
        have : (buf.take c.buffer.length).take c.offset = buf.take c.offset := by
          rw [List.take_take]; congr 1; omega
        rw [← this, hbtake]
      split at h
      · rename_i hsse
        split at h
        · cases h
        · rename_i buf2 hset
          injection h with h
          injection h with _ h
          subst h
          unfold memset at hset
          have hl2 := memcpy_length _ _ _ _ hset
          have ht2 := memcpy_take _ _ _ _ hset
          have hd2 := memcpy_take_end _ _ _ _ hset
          refine ⟨hok, ⟨hm, by simp; omega, by simp; omega, by simp; omega, by simpa using hw⟩,
            by simpa using by omega, by simpa using hge, by simp [ht2, hpre],
            rfl, rfl, rfl, rfl, ?_, k, by simpa using hk, hmin⟩
          intro _
          simp only
          have hfull : buf2.take (c.offset + (s - c.offset)) = buf2 := by
            apply List.take_of_length_le; omega
          have hrl : (List.replicate (s - c.offset) 0).length = s - c.offset := by simp
          rw [hrl, hfull] at hd2
          rw [hd2, List.drop_left']
          rw [List.length_take]; omega
      · injection h with h
        injection h with _ h
        subst h
        refine ⟨hok, ⟨hm, by simpa using hblen, by simp; omega, by simp; omega,
          by simpa using hw⟩, by simpa using by omega, by simpa using hge,
          by simpa using hpre, rfl, rfl, rfl, rfl, ?_, k, by simpa using hk, hmin⟩
        intro hs
        contradiction

/-- The resize returns when the column is well formed and
`offset + alloc_size + pad <= 2^63`; it returns what the allocator answers. -/
theorem cx_column_resize_returns (cfg : Build) (a : Alloc) (c : cx_column) (n : Nat)
    (hwf : c.heap_wf) (hreq : c.offset + n + CX_COLUMN_OVER_ALLOC cfg ≤ 2 ^ 63) :
    ∃ c', cx_column_resize cfg a c n = some (a.ok, c') := by
  obtain ⟨hm, hlen, hoff, hpos, hword⟩ := hwf
  have hfuel : c.offset + n + CX_COLUMN_OVER_ALLOC cfg ≤ c.size * 2 ^ 64 := by
    calc c.offset + n + CX_COLUMN_OVER_ALLOC cfg ≤ 2 ^ 63 := hreq
      _ ≤ 1 * 2 ^ 64 := by norm_num
      _ ≤ c.size * 2 ^ 64 := Nat.mul_le_mul hpos (le_refl _)
  obtain ⟨s, hs⟩ := resize_loop_total 64 c.size _ hpos hreq hfuel
  obtain ⟨k, hk, hreq2, hw, hmin⟩ := resize_loop_spec 64 c.size _ s hword hs
  unfold cx_column_resize
  simp only [hs]
  cases hok : a.ok with
  | false =>
    rw [realloc_fail a _ _ hok]
    exact ⟨_, rfl⟩
  | true =>
    obtain ⟨buf, hbuf⟩ := realloc_ok a c.buffer s hok
    have hblen := realloc_length a _ _ _ hbuf
    rw [hbuf]
    simp only
    split
    · obtain ⟨buf2, hb2⟩ := memcpy_some buf c.offset (List.replicate (s - c.offset) 0)
        (by simp; omega)
      unfold memset
      rw [hb2]
      exact ⟨_, rfl⟩
    · exact ⟨_, rfl⟩

/-! ### `cx_column_put` -/

theorem cx_column_put_false (cfg : Build) (a : Alloc) (c : cx_column) (t : cx_column_type)
    (value : Option (List Nat)) (n : Nat) (c' : cx_column)
    (h : cx_column_put cfg a c t value n = some (false, c')) : c' = c := by
  unfold cx_column_put at h
  split at h
  · injection h with h
    injection h with _ h
    exact h.symm
  · simp only at h
    split at h
    · cases h
    · injection h with h
      injection h with _ h
      exact h.symm
    · split at h
      · cases h
      · injection h with h
        injection h with h _
        cases h

/-- A rejected append: externally backed column, or a column of another type. -/
theorem cx_column_put_reject (cfg : Build) (a : Alloc) (c : cx_column) (t : cx_column_type)
    (value : Option (List Nat)) (n : Nat) (h : c.mmapped = true ∨ c.type ≠ t) :
    cx_column_put cfg a c t value n = some (false, c) := by
  unfold cx_column_put
  rw [if_pos]
  rcases h with h | h
  · simp [h]
  · simp [h]

theorem cx_column_put_true (cfg : Build) (a : Alloc) (c : cx_column) (t : cx_column_type)
    (bytes : List Nat) (n : Nat) (c' : cx_column) (hwf : c.heap_wf) (hbytes : n ≤ bytes.length)
    (h : cx_column_put cfg a c t (some bytes) n = some (true, c')) :
    c.type = t ∧ c'.heap_wf ∧ c'.count = c.count + 1 ∧ c'.offset = c.offset + n ∧
      c'.type = c.type ∧ c'.encoding = c.encoding ∧
      (bytes.take n).length = n ∧
      c'.buffer.take (c.offset + n) = c.buffer.take c.offset ++ bytes.take n ∧
      c.size ≤ c'.size ∧ (c.offset + n ≤ c.size → c'.size = c.size) := by
  unfold cx_column_put at h
  split at h
  · injection h with h
    injection h with h _
    cases h
  · rename_i hguard
    simp only [Bool.or_eq_true, not_or, Option.isNone_some, Bool.false_eq_true,
      not_false_eq_true, and_true, bne_iff_ne, ne_eq, Decidable.not_not,
      Bool.not_eq_true] at hguard
    have htype : c.type = t := hguard.2
    simp only at h
    -- the column after the optional resize
    have key : ∀ c1 : cx_column, c1.heap_wf → c.offset + n ≤ c1.size →
        c1.buffer.take c.offset = c.buffer.take c.offset → c1.count = c.count →
        c1.offset = c.offset → c1.type = c.type → c1.encoding = c.encoding →
        c.size ≤ c1.size → (c.offset + n ≤ c.size → c1.size = c.size) →
        (match memcpy c1.buffer c1.offset ((Option.getD (some bytes) []).take n) with
          | none => none
          | some buffer =>
            some (true, { c1 with buffer := buffer, count := c1.count + 1,
                                  offset := c1.offset + n })) = some (true, c') →
        c.type = t ∧ c'.heap_wf ∧ c'.count = c.count + 1 ∧ c'.offset = c.offset + n ∧
          c'.type = c.type ∧ c'.encoding = c.encoding ∧ (bytes.take n).length = n ∧
          c'.buffer.take (c.offset + n) = c.buffer.take c.offset ++ bytes.take n ∧
          c.size ≤ c'.size ∧ (c.offset + n ≤ c.size → c'.size = c.size) := by
      intro c1 hwf1 hfit hpre hcnt hoff hty henc hsz hsame hc
      obtain ⟨hm1, hlen1, hoff1, hpos1, hword1⟩ := hwf1
      simp only [Option.getD_some] at hc
      split at hc
      · cases hc
      · rename_i buf hcpy
        injection hc with hc
        injection hc with _ hc
        subst hc
        have hl := memcpy_length _ _ _ _ hcpy
        have hte := memcpy_take_end _ _ _ _ hcpy
        have hsrc : (bytes.take n).length = n := by
          rw [List.length_take]; omega
        refine ⟨htype, ⟨hm1, by simp [hl, hlen1], by simp; omega, hpos1, hword1⟩,
          by simp [hcnt], by simp [hoff], hty, henc, hsrc, ?_, hsz, hsame⟩
        simp only
        rw [hsrc, hoff] at hte
        rw [hte, hpre]
    split at h
    · cases h
    · injection h with h
      injection h with h _
      cases h
    · rename_i c1 hres
      split at hres
      · rename_i hgrow
        obtain ⟨_, hwf1, hreq, hge, hpre, hcnt, hoff, hty, henc, _, _⟩ :=
          cx_column_resize_true cfg a c n c1 hwf hres
        exact key c1 hwf1 (by omega) hpre hcnt hoff hty henc hge (by intro hh; omega) h
      · rename_i hfit
        injection hres with hres
        injection hres with _ hres
        subst hres
        exact key c hwf (by omega) rfl rfl rfl rfl rfl (le_refl _) (fun _ => rfl) h

/-- An append to a well-formed heap column of the right type returns when
`offset + size + pad <= 2^63`: `true` when the bytes fit or the allocator succeeds,
`false` otherwise. -/
theorem cx_column_put_returns (cfg : Build) (a : Alloc) (c : cx_column) (t : cx_column_type)
    (bytes : List Nat) (n : Nat) (hwf : c.heap_wf) (htype : c.type = t)
    (hbytes : n ≤ bytes.length) (hreq : c.offset + n + CX_COLUMN_OVER_ALLOC cfg ≤ 2 ^ 63) :
    ∃ c', cx_column_put cfg a c t (some bytes) n
      = some (decide (c.offset + n ≤ c.size) || a.ok, c') := by
  have hm : c.mmapped = false := hwf.1
  have hsrc : (bytes.take n).length = n := by rw [List.length_take]; omega
  unfold cx_column_put
  rw [if_neg (by simp [hm, htype])]
  simp only [Option.getD_some]
  by_cases hfit : c.offset + n ≤ c.size
  · rw [if_neg (by omega)]
    simp only
    obtain ⟨buf, hbuf⟩ := memcpy_some c.buffer c.offset (bytes.take n)
      (by rw [hsrc, hwf.2.1]; exact hfit)
    rw [hbuf]
    refine ⟨{ c with buffer := buf, count := c.count + 1, offset := c.offset + n }, ?_⟩
    simp only [hfit, decide_True, Bool.true_or]
  · rw [if_pos (by omega)]
    obtain ⟨c1, hc1⟩ := cx_column_resize_returns cfg a c n hwf hreq
    rw [hc1]
    cases hok : a.ok with
    | false => exact ⟨c, by simp [hfit]⟩
    | true =>
      rw [hok] at hc1
      obtain ⟨_, hwf1, hreq1, _, _, _, hoff1, _⟩ := cx_column_resize_true cfg a c n c1 hwf hc1
      simp only
      obtain ⟨buf, hbuf⟩ := memcpy_some c1.buffer c1.offset (bytes.take n)
        (by rw [hsrc, hwf1.2.1, hoff1]; omega)
      rw [hbuf]
      refine ⟨{ c1 with buffer := buf, count := c1.count + 1, offset := c1.offset + n }, ?_⟩
      simp only [Bool.or_true]

/-! ### Columns made by `cx_column_new` -/

theorem cx_column_new_spec (cfg : Build) (a : Alloc) (t : cx_column_type)
    (e : cx_encoding_type) (c : cx_column) (h : cx_column_new cfg a t e = some c) :
    c.heap_wf ∧ c.count = 0 ∧ c.offset = 0 ∧ c.type = t ∧ c.encoding = e ∧
      c.size = 64 + CX_COLUMN_OVER_ALLOC cfg := by
  unfold cx_column_new cx_column_new_size cx_column_initial_size at h
  split at h
  · cases h
  · simp only [ne_eq, OfNat.ofNat_ne_zero, not_false_eq_true, if_true] at h
    injection h with h
    subst h
    refine ⟨⟨rfl, ?_, by simp, by simp, ?_⟩, rfl, rfl, rfl, rfl, rfl⟩
    · simp only
      split <;> simp [fresh_length]
    · simp only [CX_COLUMN_OVER_ALLOC, word_eq]
      split <;> omega

theorem cx_column_new_ok (cfg : Build) (a : Alloc) (t : cx_column_type)
    (e : cx_encoding_type) (h : a.ok = true) : ∃ c, cx_column_new cfg a t e = some c := by
  unfold cx_column_new cx_column_new_size cx_column_initial_size
  simp [h]

/-! ### The append functions -/

theorem c_strlen_bytes (s : List Nat) :
    (s ++ [0]).take (c_strlen s + 1) = s.takeWhile (fun b => b != 0) ++ [0] := by
  unfold c_strlen
  induction s with
  | nil => simp
  | cons b s ih =>
    by_cases hb : b = 0
    · subst hb; simp
    · simp only [List.cons_append, List.takeWhile_cons, bne_iff_ne, ne_eq, hb,
        not_false_eq_true, decide_True, if_true, List.length_cons, List.take_succ_cons]
      rw [ih]

theorem c_strlen_le (s : List Nat) : c_strlen s ≤ s.length := by
  unfold c_strlen
  exact (List.takeWhile_sublist _).length_le

theorem c_strlen_nul_free (s : List Nat) (h : ∀ b ∈ s, b ≠ 0) : c_strlen s = s.length := by
  unfold c_strlen
  congr 1
  rw [List.takeWhile_eq_self_iff]
  intro b hb
  simpa using h b hb

theorem bytes_nul_free (s : List Nat) (h : ∀ b ∈ s, b ≠ 0) :
    (PutCall.str s).bytes = s ++ [0] := by
  have : s.takeWhile (fun b => b != 0) = s := by
    rw [List.takeWhile_eq_self_iff]
    intro b hb
    simpa using h b hb
  simp only [PutCall.bytes, this]

theorem bytes_str_length (s : List Nat) : (PutCall.str s).bytes.length = c_strlen s + 1 := by
  simp [PutCall.bytes, c_strlen]

/-- Every append function other than the bit path inside a word is `cx_column_put`
of an object that starts with the encoded bytes, for the length of these. -/
theorem cx_column_put_call_eq (cfg : Build) (a : Alloc) (c : cx_column) (call : PutCall)
    (h : ∀ v, call = PutCall.bit v → c.count % 64 = 0) :
    ∃ bytes, call.bytes.length ≤ bytes.length ∧ bytes.take call.bytes.length = call.bytes ∧
      cx_column_put_call cfg a c call
        = cx_column_put cfg a c call.type (some bytes) call.bytes.length := by
  cases call with
  | bit v =>
    exact ⟨_, le_refl _, List.take_length _, by
      simp [cx_column_put_call, cx_column_put_bit, h v rfl, PutCall.type, PutCall.bytes,
        le_bytes_length]⟩
  | i32 v =>
    exact ⟨_, le_refl _, List.take_length _, by
      simp [cx_column_put_call, cx_column_put_i32, PutCall.type, PutCall.bytes,
        int_bytes_length]⟩
  | i64 v =>
    exact ⟨_, le_refl _, List.take_length _, by
      simp [cx_column_put_call, cx_column_put_i64, PutCall.type, PutCall.bytes,
        int_bytes_length]⟩
  | flt v =>
    exact ⟨_, le_refl _, List.take_length _, by
      simp [cx_column_put_call, cx_column_put_flt, PutCall.type, PutCall.bytes,
        le_bytes_length]⟩
  | dbl v =>
    exact ⟨_, le_refl _, List.take_length _, by
      simp [cx_column_put_call, cx_column_put_dbl, PutCall.type, PutCall.bytes,
        le_bytes_length]⟩
  | str s =>
    refine ⟨s ++ [0], ?_, ?_, ?_⟩
    · rw [bytes_str_length]
      have := c_strlen_le s
      simp only [List.length_append, List.length_singleton]
      omega
    · rw [bytes_str_length, c_strlen_bytes]; rfl
    · simp [cx_column_put_call, cx_column_put_str, PutCall.type, bytes_str_length]

theorem read_bytes_some (mem : List Nat) (p n : Nat) (h : p + n ≤ mem.length) :
    read_bytes mem p n = some ((mem.drop p).take n) := by
  unfold read_bytes
  rw [if_pos h]

theorem read_bytes_length (mem : List Nat) (p n : Nat) (out : List Nat)
    (h : read_bytes mem p n = some out) : out.length = n ∧ p + n ≤ mem.length := by
  unfold read_bytes at h
  split at h
  · rename_i hle
    injection h with h
    subst h
    exact ⟨by rw [List.length_take, List.length_drop]; omega, hle⟩
  · cases h

/-- The bit path inside a word (`count % 64 != 0`) on a well-formed bit column:
the call returns `true`, counts the row, keeps the offset, and ORs the shifted bit
into the last word when the value is true. -/
theorem cx_column_put_bit_inside (cfg : Build) (a : Alloc) (c : cx_column) (v : Bool)
    (hcnt : c.count % 64 ≠ 0) (hwf : c.heap_wf) (ht : c.type = cx_column_type.BIT)
    (h8 : 8 ≤ c.offset) :
    ∃ c', cx_column_put_bit cfg a c v = some (true, c') ∧ c'.count = c.count + 1 ∧
      c'.offset = c.offset ∧ c'.size = c.size ∧ c'.type = c.type ∧
      c'.encoding = c.encoding ∧ c'.heap_wf ∧
      c'.buffer.take (c.offset - 8) = c.buffer.take (c.offset - 8) ∧
      c'.buffer.drop c.offset = c.buffer.drop c.offset ∧
      (v = false → c'.buffer = c.buffer) ∧
      (v = true → read_bytes c'.buffer (c.offset - 8) 8
        = some (le_bytes 8 (le_value ((c.buffer.drop (c.offset - 8)).take 8)
            ||| shl64 cfg 1 c.count))) := by
  obtain ⟨hm, hlen, hoff, hpos, hword⟩ := hwf
  unfold cx_column_put_bit
  rw [if_neg hcnt, if_neg (by simp [ht, hm])]
  cases v with
  | false =>
    exact ⟨{ c with count := c.count + 1 }, by simp, rfl, rfl, rfl, rfl, rfl,
      ⟨hm, hlen, hoff, hpos, hword⟩, rfl, rfl, fun _ => rfl, fun h => by cases h⟩
  | true =>
    have hin : c.offset - 8 + 8 ≤ c.buffer.length := by omega
    rw [if_pos rfl, if_neg (by omega), read_bytes_some _ _ _ hin]
    dsimp only
    have hsrc : (le_bytes 8 (le_value ((c.buffer.drop (c.offset - 8)).take 8)
        ||| shl64 cfg 1 c.count)).length = 8 := le_bytes_length _ _
    obtain ⟨buf, hbuf⟩ := memcpy_some c.buffer (c.offset - 8)
      (le_bytes 8 (le_value ((c.buffer.drop (c.offset - 8)).take 8) ||| shl64 cfg 1 c.count))
      (by rw [hsrc]; exact hin)
    rw [hbuf]
    have hl := memcpy_length _ _ _ _ hbuf
    have ht := memcpy_take _ _ _ _ hbuf
    have hw := memcpy_written _ _ _ _ hbuf
    have hd := memcpy_drop_end _ _ _ _ hbuf
    rw [hsrc] at hw hd
    have h88 : c.offset - 8 + 8 = c.offset := by omega
    rw [h88] at hd
    refine ⟨{ c with buffer := buf, count := c.count + 1 }, rfl, rfl, rfl, rfl, rfl, rfl,
      ⟨hm, by simp [hl, hlen], hoff, hpos, hword⟩, ht, hd, (fun h => by cases h), fun _ => ?_⟩
    simp only
    rw [read_bytes_some _ _ _ (by omega), hw]

/-- C4 core: an append that returns `false` returns the column it was given. -/
theorem cx_column_put_call_false (cfg : Build) (a : Alloc) (c : cx_column) (call : PutCall)
    (c' : cx_column) (h : cx_column_put_call cfg a c call = some (false, c')) : c' = c := by
  cases call with
  | bit v =>
    simp only [cx_column_put_call] at h
    unfold cx_column_put_bit at h
    split at h
    · exact cx_column_put_false _ _ _ _ _ _ _ h
    · split at h
      · injection h with h
        injection h with _ h
        exact h.symm
      · split at h
        · split at h
          · cases h
          · split at h
            · cases h
            · split at h
              · cases h
              · injection h with h
                injection h with h _
                cases h
        · injection h with h
          injection h with h _
          cases h
  | i32 v => exact cx_column_put_false _ _ _ _ _ _ _ h
  | i64 v => exact cx_column_put_false _ _ _ _ _ _ _ h
  | flt v => exact cx_column_put_false _ _ _ _ _ _ _ h
  | dbl v => exact cx_column_put_false _ _ _ _ _ _ _ h
  | str v => exact cx_column_put_false _ _ _ _ _ _ _ h

/-- An append to an externally backed column, or to a column of another type,
returns `false`. -/
theorem cx_column_put_call_reject (cfg : Build) (a : Alloc) (c : cx_column) (call : PutCall)
    (h : c.mmapped = true ∨ c.type ≠ call.type) :
    cx_column_put_call cfg a c call = some (false, c) := by
  cases call with
  | bit v =>
    simp only [cx_column_put_call]
    unfold cx_column_put_bit
    split
    · exact cx_column_put_reject _ _ _ _ _ _ h
    · rw [if_pos]
      rcases h with h | h
      · simp [h]
      · simp only [PutCall.type] at h
        simp [h]
  | i32 v => exact cx_column_put_reject _ _ _ _ _ _ h
  | i64 v => exact cx_column_put_reject _ _ _ _ _ _ h
  | flt v => exact cx_column_put_reject _ _ _ _ _ _ h
  | dbl v => exact cx_column_put_reject _ _ _ _ _ _ h
  | str v => exact cx_column_put_reject _ _ _ _ _ _ h

/-- An accepted append that is `cx_column_put` of the encoded bytes: what the column
is afterwards. -/
theorem cx_column_put_call_true (cfg : Build) (a : Alloc) (c : cx_column) (call : PutCall)
    (c' : cx_column) (hwf : c.heap_wf)
    (hbit : ∀ v, call = PutCall.bit v → c.count % 64 = 0)
    (h : cx_column_put_call cfg a c call = some (true, c')) :
    c.type = call.type ∧ c'.heap_wf ∧ c'.count = c.count + 1 ∧
      c'.offset = c.offset + call.bytes.length ∧ c'.type = c.type ∧
      c'.encoding = c.encoding ∧
      c'.buffer.take c'.offset = c.buffer.take c.offset ++ call.bytes ∧
      c.size ≤ c'.size ∧ (c.offset + call.bytes.length ≤ c.size → c'.size = c.size) := by
  obtain ⟨bytes, hle, htake, heq⟩ := cx_column_put_call_eq cfg a c call hbit
  rw [heq] at h
  obtain ⟨h1, h2, h3, h4, h5, h6, _, h8, h9, h10⟩ :=
    cx_column_put_true cfg a c call.type bytes call.bytes.length c' hwf hle h
  rw [htake] at h8
  exact ⟨h1, h2, h3, h4, h5, h6, by rw [h4]; exact h8, h9, h10⟩

/-- An append to a well-formed heap column of the right type returns `true` when the
allocator does not fail and `offset + size + pad <= 2^63`. -/
theorem cx_column_put_call_accept (cfg : Build) (a : Alloc) (c : cx_column) (call : PutCall)
    (hwf : c.heap_wf) (hbwf : c.bit_wf) (htype : c.type = call.type) (hok : a.ok = true)
    (hreq : c.offset + call.bytes.length + CX_COLUMN_OVER_ALLOC cfg ≤ 2 ^ 63) :
    ∃ c', cx_column_put_call cfg a c call = some (true, c') ∧ c'.count = c.count + 1 := by
  by_cases hbit : ∀ v, call = PutCall.bit v → c.count % 64 = 0
  · obtain ⟨bytes, hle, htake, heq⟩ := cx_column_put_call_eq cfg a c call hbit
    obtain ⟨c', hc'⟩ := cx_column_put_returns cfg a c call.type bytes call.bytes.length hwf
      htype hle hreq
    rw [hok, Bool.or_true] at hc'
    rw [heq]
    exact ⟨c', hc', (cx_column_put_true cfg a c call.type bytes _ c' hwf hle hc').2.2.1⟩
  · push_neg at hbit
    obtain ⟨v, hv, hcnt⟩ := hbit
    subst hv
    have ht : c.type = cx_column_type.BIT := htype
    have h8 : 8 ≤ c.offset := by
      have := hbwf ht
      omega
    obtain ⟨c', h1, h2, _⟩ := cx_column_put_bit_inside cfg a c v hcnt hwf ht h8
    exact ⟨c', h1, h2⟩

/-- C3. For every column and every append function `cx_column_put_T` (bit, i32, i64,
str, and flt, dbl): the call returns `false`, the column as it was, when the column
is externally backed or of another type; on a well-formed heap column of type `T`,
when the allocator does not fail (and the sizes stay in the `size_t` range the
resize can double in), it returns `true` and `count` grows by exactly 1, and for
i32, i64 and str (flt, dbl) the encoded bytes, 4, 8 and `strlen + 1` of them, stand
at the old offset, the offset advanced by that many bytes. -/
theorem cx_column_put_contract (cfg : Build) (a : Alloc) (c : cx_column) (call : PutCall) :
    ((c.mmapped = true ∨ c.type ≠ call.type) →
      cx_column_put_call cfg a c call = some (false, c)) ∧
    (c.heap_wf → c.bit_wf → c.type = call.type → a.ok = true →
      c.offset + call.bytes.length + CX_COLUMN_OVER_ALLOC cfg ≤ 2 ^ 63 →
      ∃ c', cx_column_put_call cfg a c call = some (true, c') ∧ c'.count = c.count + 1 ∧
        ((∀ v, call ≠ PutCall.bit v) →
          c'.offset = c.offset + call.bytes.length ∧
          c'.buffer.take c'.offset = c.buffer.take c.offset ++ call.bytes)) ∧
    ((∀ v, (PutCall.i32 v).bytes.length = 4) ∧ (∀ v, (PutCall.i64 v).bytes.length = 8) ∧
      ∀ s, (PutCall.str s).bytes.length = c_strlen s + 1) := by
  refine ⟨cx_column_put_call_reject cfg a c call, ?_,
    fun v => int_bytes_length 4 v, fun v => int_bytes_length 8 v, bytes_str_length⟩
  intro hwf hbwf htype hok hreq
  obtain ⟨c', h1, h2⟩ := cx_column_put_call_accept cfg a c call hwf hbwf htype hok hreq
  refine ⟨c', h1, h2, ?_⟩
  intro hnb
  obtain ⟨_, _, _, h4, _, _, h7, _⟩ := cx_column_put_call_true cfg a c call c' hwf
    (fun v hv => absurd hv (hnb v)) h1
  exact ⟨h4, h7⟩

/-- Witness for C3: appending the int32 7 to a full 4-byte column whose allocator
succeeds, and appending a string to the same column. -/
theorem cx_column_put_contract_witness :
    cx_column_put_call ⟨false, none, true, false⟩ alloc_ok sample_i32_column (PutCall.str [97])
      = some (false, sample_i32_column) ∧
    ∃ c', cx_column_put_call ⟨false, none, true, false⟩ alloc_ok sample_i32_column (PutCall.i32 7)
        = some (true, c') ∧ c'.count = 2 ∧ c'.offset = 8 ∧
      c'.buffer.take c'.offset = [1, 0, 0, 0, 7, 0, 0, 0] := by
  have h := cx_column_put_contract ⟨false, none, true, false⟩ alloc_ok sample_i32_column
  refine ⟨(h (PutCall.str [97])).1 (Or.inr (by decide)), ?_⟩
  obtain ⟨c', h1, h2, h3⟩ := (h (PutCall.i32 7)).2.1 (by decide) (by decide) rfl rfl
    (by decide)
  obtain ⟨h4, h5⟩ := h3 (by intro v hv; cases hv)
  exact ⟨c', h1, h2, h4, h5⟩

theorem cx_column_put_all_cons (cfg : Build) (c : cx_column) (a : Alloc) (call : PutCall)
    (rest : List (Alloc × PutCall)) (rets : List Bool) (c' : cx_column)
    (h : cx_column_put_all cfg c ((a, call) :: rest) = some (rets, c')) :
    ∃ r c1 rs, cx_column_put_call cfg a c call = some (r, c1) ∧
      cx_column_put_all cfg c1 rest = some (rs, c') ∧ rets = r :: rs := by
  unfold cx_column_put_all at h
  split at h
  · cases h
  · rename_i r c1 h1
    split at h
    · cases h
    · rename_i rs c2 h2
      injection h with h
      injection h with h3 h4
      subst h4
      exact ⟨r, c1, rs, h1, h2, h3.symm⟩

/-- A property kept by every returning append holds after every returning sequence
of appends. -/
theorem cx_column_put_all_invariant (cfg : Build) (P : cx_column → Prop)
    (hstep : ∀ a c call r c', P c → cx_column_put_call cfg a c call = some (r, c') → P c')
    (calls : List (Alloc × PutCall)) (c : cx_column) (rets : List Bool) (c' : cx_column)
    (hc : P c) (h : cx_column_put_all cfg c calls = some (rets, c')) : P c' := by
  induction calls generalizing c rets with
  | nil =>
    simp only [cx_column_put_all, Option.some.injEq, Prod.mk.injEq] at h
    rw [← h.2]; exact hc
  | cons p rest ih =>
    obtain ⟨a, call⟩ := p
    obtain ⟨r, c1, rs, h1, h2, _⟩ := cx_column_put_all_cons cfg c a call rest rets c' h
    exact ih c1 rs (hstep a c call r c1 hc h1) h2

/-- A sequence of appends returns when each append returns on the columns that
satisfy an invariant the appends keep; `k` counts the calls made. -/
theorem cx_column_put_all_returns (cfg : Build) (N : Nat) (P : Nat → cx_column → Prop)
    (hstep : ∀ k a c call, k < N → P k c →
      ∃ r c', cx_column_put_call cfg a c call = some (r, c') ∧ P (k + 1) c')
    (calls : List (Alloc × PutCall)) (k : Nat) (c : cx_column)
    (hk : k + calls.length ≤ N) (hc : P k c) :
    ∃ rets c', cx_column_put_all cfg c calls = some (rets, c') := by
  induction calls generalizing c k with
  | nil => exact ⟨[], c, rfl⟩
  | cons p rest ih =>
    obtain ⟨a, call⟩ := p
    simp only [List.length_cons] at hk
    obtain ⟨r, c1, h1, hP⟩ := hstep k a c call (by omega) hc
    obtain ⟨rs, c', h2⟩ := ih (k + 1) c1 (by omega) hP
    exact ⟨r :: rs, c', by simp [cx_column_put_all, h1, h2]⟩

theorem fixed_width_bytes (call : PutCall) (sz : Nat)
    (h : call.type.fixed_width = some sz) : call.bytes.length = sz ∧ sz ≤ 8 ∧
      ∀ v, call ≠ PutCall.bit v := by
  cases call <;>
    simp_all [PutCall.type, cx_column_type.fixed_width, PutCall.bytes, int_bytes_length,
      le_bytes_length] <;> omega

/-- One append on a fixed-width column: it returns `false` and leaves the column, or
returns `true` and adds one element of `sz` bytes. -/
theorem fixed_width_step (cfg : Build) (sz : Nat) (a : Alloc) (c : cx_column)
    (call : PutCall) (r : Bool) (c' : cx_column) (hwf : c.heap_wf)
    (hsz : c.type.fixed_width = some sz)
    (h : cx_column_put_call cfg a c call = some (r, c')) :
    c'.heap_wf ∧ c'.type = c.type ∧
      ((r = false ∧ c' = c) ∨
       (r = true ∧ c'.count = c.count + 1 ∧ c'.offset = c.offset + sz)) := by
  cases r with
  | false =>
    have := cx_column_put_call_false cfg a c call c' h
    subst this
    exact ⟨hwf, rfl, Or.inl ⟨rfl, rfl⟩⟩
  | true =>
    by_cases hty : c.type = call.type
    · rw [hty] at hsz
      obtain ⟨hlen, _, hnb⟩ := fixed_width_bytes call sz hsz
      obtain ⟨_, h2, h3, h4, h5, _⟩ := cx_column_put_call_true cfg a c call c' hwf
        (fun v hv => absurd hv (hnb v)) h
      exact ⟨h2, h5, Or.inr ⟨rfl, h3, by rw [h4, hlen]⟩⟩
    · rw [cx_column_put_call_reject cfg a c call (Or.inr hty)] at h
      cases h

/-- C8. Fixed-width offset invariant: for every column created by `cx_column_new`
with type I32, I64, FLT or DBL and every sequence of append calls on it, successful
or failing, `offset == count * sizeof(T)` holds after the calls (so after each call,
every prefix being such a sequence); and every such sequence of calls returns as
long as the bytes appended stay in the range the resize can double in. -/
theorem cx_column_fixed_width_offset (cfg : Build) (a0 : Alloc) (t : cx_column_type)
    (e : cx_encoding_type) (c0 : cx_column) (sz : Nat) (hsz : t.fixed_width = some sz)
    (h0 : cx_column_new cfg a0 t e = some c0) (calls : List (Alloc × PutCall)) :
    (∀ rets c, cx_column_put_all cfg c0 calls = some (rets, c) →
      c.offset = c.count * sz) ∧
    (8 * calls.length + 24 ≤ 2 ^ 63 →
      ∃ rets c, cx_column_put_all cfg c0 calls = some (rets, c)) := by
  obtain ⟨hwf0, hcnt0, hoff0, hty0, _, _⟩ := cx_column_new_spec cfg a0 t e c0 h0
  constructor
  · intro rets c h
    have := cx_column_put_all_invariant cfg
      (fun c => c.heap_wf ∧ c.type = t ∧ c.offset = c.count * sz)
      (by
        intro a c call r c' ⟨hwf, hty, hinv⟩ hcall
        obtain ⟨h1, h2, h3⟩ := fixed_width_step cfg sz a c call r c' hwf (by rw [hty]; exact hsz)
          hcall
        refine ⟨h1, by rw [h2, hty], ?_⟩
        rcases h3 with ⟨_, h3⟩ | ⟨_, h3, h4⟩
        · rw [h3]; exact hinv
        · rw [h3, h4, hinv]; ring)
      calls c0 rets c ⟨hwf0, hty0, by rw [hoff0, hcnt0]; simp⟩ h
    exact this.2.2
  · intro hbound
    have hpad : CX_COLUMN_OVER_ALLOC cfg ≤ 16 := by
      unfold CX_COLUMN_OVER_ALLOC; split <;> omega
    apply cx_column_put_all_returns cfg calls.length
      (fun k c => c.heap_wf ∧ c.type = t ∧ c.offset ≤ 8 * k)
      ?_ calls 0 c0 (by omega) ⟨hwf0, hty0, by omega⟩
    intro k a c call hk ⟨hwf, hty, hoff⟩
    by_cases htc : c.type = call.type
    · have hsz' : call.type.fixed_width = some sz := by rw [← htc, hty]; exact hsz
      obtain ⟨hlen, hle8, hnb⟩ := fixed_width_bytes call sz hsz'
      obtain ⟨bytes, hle, htake, heq⟩ := cx_column_put_call_eq cfg a c call
        (fun v hv => absurd hv (hnb v))
      obtain ⟨c', hc'⟩ := cx_column_put_returns cfg a c call.type bytes call.bytes.length hwf
        htc hle (by omega)
      rw [← heq] at hc'
      obtain ⟨h1, h2, h3⟩ := fixed_width_step cfg sz a c call _ c' hwf (by rw [hty]; exact hsz)
        hc'
      refine ⟨_, c', hc', h1, by rw [h2, hty], ?_⟩
      rcases h3 with ⟨_, h3⟩ | ⟨_, _, h4⟩
      · rw [h3]; omega
      · rw [h4]; omega
    · exact ⟨false, c, cx_column_put_call_reject cfg a c call (Or.inr htc), hwf, hty,
        by omega⟩

/-- One append on a bit column: it returns `false` and leaves the column, or returns
`true`, counts the row and starts a new 8-byte word exactly when `count % 64 == 0`. -/
theorem bit_step (cfg : Build) (a : Alloc) (c : cx_column) (call : PutCall) (r : Bool)
    (c' : cx_column) (hwf : c.heap_wf) (hty : c.type = cx_column_type.BIT)
    (hinv : c.offset = (c.count + 63) / 64 * 8)
    (h : cx_column_put_call cfg a c call = some (r, c')) :
    c'.heap_wf ∧ c'.type = c.type ∧ c'.offset = (c'.count + 63) / 64 * 8 ∧
      ((r = false ∧ c' = c) ∨
       (r = true ∧ c'.count = c.count + 1 ∧
         c'.offset = c.offset + (if c.count % 64 = 0 then 8 else 0))) := by
  cases r with
  | false =>
    have := cx_column_put_call_false cfg a c call c' h
    subst this
    exact ⟨hwf, rfl, hinv, Or.inl ⟨rfl, rfl⟩⟩
  | true =>
    by_cases htc : c.type = call.type
    · by_cases hbit : ∀ v, call = PutCall.bit v → c.count % 64 = 0
      · obtain ⟨_, h2, h3, h4, h5, _⟩ := cx_column_put_call_true cfg a c call c' hwf hbit h
        have hlen : call.bytes.length = 8 := by
          cases call <;> simp_all [PutCall.type, PutCall.bytes, le_bytes_length]
        have hc0 : c.count % 64 = 0 := by
          cases call <;> simp_all [PutCall.type]
        rw [hlen] at h4
        refine ⟨h2, h5, by omega, Or.inr ⟨rfl, h3, by rw [if_pos hc0]; exact h4⟩⟩
      · push_neg at hbit
        obtain ⟨v, hv, hcnt⟩ := hbit
        subst hv
        have h8 : 8 ≤ c.offset := by omega
        obtain ⟨c'', h1, h2, h3, _, h5, _, h7, _⟩ :=
          cx_column_put_bit_inside cfg a c v hcnt hwf hty h8
        simp only [cx_column_put_call] at h
        rw [h1] at h
        injection h with h
        injection h with _ h
        subst h
        refine ⟨h7, h5, by omega, Or.inr ⟨rfl, h2, by rw [if_neg hcnt]; exact h3⟩⟩
    · rw [cx_column_put_call_reject cfg a c call (Or.inr htc)] at h
      cases h

/-- An append on a well-formed bit column returns when the sizes stay in range. -/
theorem bit_step_returns (cfg : Build) (a : Alloc) (c : cx_column) (call : PutCall)
    (hwf : c.heap_wf) (hty : c.type = cx_column_type.BIT)
    (hinv : c.offset = (c.count + 63) / 64 * 8)
    (hreq : c.offset + 8 + CX_COLUMN_OVER_ALLOC cfg ≤ 2 ^ 63) :
    ∃ r c', cx_column_put_call cfg a c call = some (r, c') := by
  by_cases htc : c.type = call.type
  · by_cases hbit : ∀ v, call = PutCall.bit v → c.count % 64 = 0
    · have hlen : call.bytes.length = 8 := by
        cases call <;> simp_all [PutCall.type, PutCall.bytes, le_bytes_length]
      obtain ⟨bytes, hle, htake, heq⟩ := cx_column_put_call_eq cfg a c call hbit
      obtain ⟨c', hc'⟩ := cx_column_put_returns cfg a c call.type bytes call.bytes.length hwf
        htc hle (by omega)
      exact ⟨_, c', by rw [heq]; exact hc'⟩
    · push_neg at hbit
      obtain ⟨v, hv, hcnt⟩ := hbit
      subst hv
      obtain ⟨c'', h1, _⟩ := cx_column_put_bit_inside cfg a c v hcnt hwf hty (by omega)
      exact ⟨true, c'', h1⟩
  · exact ⟨false, c, cx_column_put_call_reject cfg a c call (Or.inr htc)⟩

/-- C9. BIT offset invariant: for every column created by `cx_column_new(BIT)` and
every sequence of `cx_column_put_bit` calls on it (of any append calls, in fact),
`offset == ceil(count / 64) * 8` holds after the calls, so after each call; and every
such sequence returns as long as the words appended stay in the range the resize can
double in. -/
theorem cx_column_bit_offset (cfg : Build) (a0 : Alloc) (e : cx_encoding_type)
    (c0 : cx_column) (h0 : cx_column_new cfg a0 cx_column_type.BIT e = some c0)
    (calls : List (Alloc × PutCall)) :
    (∀ rets c, cx_column_put_all cfg c0 calls = some (rets, c) →
      c.offset = (c.count + 63) / 64 * 8) ∧
    (8 * calls.length + 24 ≤ 2 ^ 63 →
      ∃ rets c, cx_column_put_all cfg c0 calls = some (rets, c)) := by
  obtain ⟨hwf0, hcnt0, hoff0, hty0, _, _⟩ := cx_column_new_spec cfg a0 _ e c0 h0
  constructor
  · intro rets c h
    have := cx_column_put_all_invariant cfg
      (fun c => c.heap_wf ∧ c.type = cx_column_type.BIT ∧ c.offset = (c.count + 63) / 64 * 8)
      (by
        intro a c call r c' ⟨hwf, hty, hinv⟩ hcall
        obtain ⟨h1, h2, h3, _⟩ := bit_step cfg a c call r c' hwf hty hinv hcall
        exact ⟨h1, by rw [h2, hty], h3⟩)
      calls c0 rets c ⟨hwf0, hty0, by rw [hoff0, hcnt0]⟩ h
    exact this.2.2
  · intro hbound
    have hpad : CX_COLUMN_OVER_ALLOC cfg ≤ 16 := by
      unfold CX_COLUMN_OVER_ALLOC; split <;> omega
    apply cx_column_put_all_returns cfg calls.length
      (fun k c => c.heap_wf ∧ c.type = cx_column_type.BIT ∧
        c.offset = (c.count + 63) / 64 * 8 ∧ c.offset ≤ 8 * k)
      ?_ calls 0 c0 (by omega) ⟨hwf0, hty0, by rw [hoff0, hcnt0], by omega⟩
    intro k a c call hk ⟨hwf, hty, hinv, hoff⟩
    obtain ⟨r, c', hc'⟩ := bit_step_returns cfg a c call hwf hty hinv (by omega)
    obtain ⟨h1, h2, h3, h4⟩ := bit_step cfg a c call r c' hwf hty hinv hc'
    refine ⟨r, c', hc', h1, by rw [h2, hty], h3, ?_⟩
    rcases h4 with ⟨_, h4⟩ | ⟨_, _, h4⟩
    · rw [h4]; omega
    · rw [h4]; split <;> omega

/-- After a sequence of successful appends other than bit appends, the used bytes are
the used bytes before followed by the encoded values in order. -/
theorem cx_column_put_all_appended (cfg : Build) (calls : List (Alloc × PutCall))
    (c0 : cx_column) (rets : List Bool) (c : cx_column) (hwf : c0.heap_wf)
    (hnb : ∀ p ∈ calls, ∀ v, p.2 ≠ PutCall.bit v)
    (h : cx_column_put_all cfg c0 calls = some (rets, c)) (hall : ∀ r ∈ rets, r = true) :
    c.heap_wf ∧ c.type = c0.type ∧ c.encoding = c0.encoding ∧
      c.count = c0.count + calls.length ∧
      c.offset = c0.offset + ((calls.map (fun p => p.2.bytes)).flatten).length ∧
      c.buffer.take c.offset
        = c0.buffer.take c0.offset ++ (calls.map (fun p => p.2.bytes)).flatten ∧
      ∀ p ∈ calls, p.2.type = c0.type := by
  induction calls generalizing c0 rets with
  | nil =>
    simp only [cx_column_put_all, Option.some.injEq, Prod.mk.injEq] at h
    rw [← h.2]
    simp [hwf]
  | cons p rest ih =>
    obtain ⟨a, call⟩ := p
    obtain ⟨r, c1, rs, h1, h2, h3⟩ := cx_column_put_all_cons cfg c0 a call rest rets c h
    subst h3
    have hr : r = true := hall r (by simp)
    subst hr
    obtain ⟨g1, g2, g3, g4, g5, g6, g7, _⟩ := cx_column_put_call_true cfg a c0 call c1 hwf
      (fun v hv => absurd hv (hnb (a, call) (by simp) v)) h1
    obtain ⟨i1, i2, i3, i4, i5, i6, i7⟩ := ih c1 rs g2
      (fun q hq => hnb q (by simp [hq])) h2 (fun x hx => hall x (by simp [hx]))
    refine ⟨i1, by rw [i2, g5], by rw [i3, g6], ?_, ?_, ?_, ?_⟩
    · rw [i4, g3]; simp only [List.length_cons]; omega
    · rw [i5, g4]
      simp only [List.map_cons, List.flatten_cons, List.length_append]
      omega
    · rw [i6, g7]
      simp only [List.map_cons, List.flatten_cons, List.append_assoc]
    · intro q hq
      simp only [List.mem_cons] at hq
      rcases hq with rfl | hq
      · exact g1.symm
      · rw [i7 q hq, g5]

/-- C10. STR offset invariant: for every sequence of strings appended with
`cx_column_put_str` to a column created by `cx_column_new(STR)`, each append adds
exactly `strlen(s_i) + 1` bytes, the string followed by its NUL terminator, so that
`offset` is the sum of the `strlen(s_i) + 1` and `count` is `n`. -/
theorem cx_column_str_offset (cfg : Build) (a0 : Alloc) (e : cx_encoding_type)
    (c0 : cx_column) (h0 : cx_column_new cfg a0 cx_column_type.STR e = some c0)
    (ss : List (Alloc × List Nat)) (rets : List Bool) (c : cx_column)
    (h : cx_column_put_all cfg c0 (ss.map (fun p => (p.1, PutCall.str p.2)))
      = some (rets, c))
    (hall : ∀ r ∈ rets, r = true) :
    c.offset = (ss.map (fun p => c_strlen p.2 + 1)).sum ∧ c.count = ss.length ∧
      c.buffer.take c.offset
        = (ss.map (fun p => p.2.takeWhile (fun b => b != 0) ++ [0])).flatten := by
  obtain ⟨hwf0, hcnt0, hoff0, _, _, _⟩ := cx_column_new_spec cfg a0 _ e c0 h0
  obtain ⟨_, _, _, h4, h5, h6, _⟩ := cx_column_put_all_appended cfg _ c0 rets c hwf0
    (by
      intro p hp v
      simp only [List.mem_map] at hp
      obtain ⟨q, _, rfl⟩ := hp
      intro hv
      cases hv)
    h hall
  have hmap : (ss.map (fun p => (p.1, PutCall.str p.2))).map (fun p => p.2.bytes)
      = ss.map (fun p => p.2.takeWhile (fun b => b != 0) ++ [0]) := by
    rw [List.map_map]
    rfl
  rw [hmap] at h5 h6
  refine ⟨?_, by rw [h4, hcnt0]; simp, by rw [h6, hoff0]; simp⟩
  rw [h5, hoff0, List.length_flatten, List.map_map, Nat.zero_add]
  congr 1
  apply List.map_congr_left
  intro p _
  simp [c_strlen]

theorem sample_new_column_eq (t : cx_column_type) :
    cx_column_new ⟨false, none, true, false⟩ alloc_ok t cx_encoding_type.NONE
      = some (sample_new_column t) := by
  rfl

/-- Witness for C10: the strings "ab" and "" appended to a new column. -/
theorem cx_column_str_offset_witness :
    cx_column_new ⟨false, none, true, false⟩ alloc_ok cx_column_type.STR cx_encoding_type.NONE
      = some (sample_new_column cx_column_type.STR) ∧
    ∃ c, cx_column_put_all ⟨false, none, true, false⟩ (sample_new_column cx_column_type.STR)
        ([(alloc_ok, [97, 98]), (alloc_ok, [])].map (fun p => (p.1, PutCall.str p.2)))
        = some ([true, true], c) ∧
      c.offset = 4 ∧ c.count = 2 ∧ c.buffer.take c.offset = [97, 98, 0, 0] := by
  refine ⟨rfl, _, rfl, ?_⟩
  exact cx_column_str_offset ⟨false, none, true, false⟩ alloc_ok cx_encoding_type.NONE
    (sample_new_column cx_column_type.STR) rfl [(alloc_ok, [97, 98]), (alloc_ok, [])]
    [true, true] _ rfl (by decide)

/-- Witness for C8: two int32 appends and a rejected int64 append on a new I32
column. -/
theorem cx_column_fixed_width_offset_witness :
    (cx_column_type.I32.fixed_width = some 4 ∧
      cx_column_new ⟨false, none, true, false⟩ alloc_ok cx_column_type.I32 cx_encoding_type.NONE
        = some (sample_new_column cx_column_type.I32)) ∧
    ∃ c, cx_column_put_all ⟨false, none, true, false⟩ (sample_new_column cx_column_type.I32)
        [(alloc_ok, PutCall.i32 5), (alloc_fail, PutCall.i64 7), (alloc_ok, PutCall.i32 (-1))]
        = some ([true, false, true], c) ∧
      c.count = 2 ∧ c.offset = c.count * 4 := by
  refine ⟨⟨rfl, rfl⟩, _, rfl, rfl, ?_⟩
  exact (cx_column_fixed_width_offset ⟨false, none, true, false⟩ alloc_ok cx_column_type.I32
    cx_encoding_type.NONE (sample_new_column cx_column_type.I32) 4 rfl rfl
    [(alloc_ok, PutCall.i32 5), (alloc_fail, PutCall.i64 7),
      (alloc_ok, PutCall.i32 (-1))]).1 _ _ rfl

/-- Witness for C9: three bit appends on a new BIT column. -/
theorem cx_column_bit_offset_witness :
    cx_column_new ⟨false, none, true, false⟩ alloc_ok cx_column_type.BIT cx_encoding_type.NONE
        = some (sample_new_column cx_column_type.BIT) ∧
    ∃ c, cx_column_put_all ⟨false, none, true, false⟩ (sample_new_column cx_column_type.BIT)
        [(alloc_ok, PutCall.bit true), (alloc_ok, PutCall.bit false),
          (alloc_ok, PutCall.bit true)]
        = some ([true, true, true], c) ∧
      c.count = 3 ∧ c.offset = (c.count + 63) / 64 * 8 := by
  refine ⟨rfl, _, rfl, rfl, ?_⟩
  exact (cx_column_bit_offset ⟨false, none, true, false⟩ alloc_ok cx_encoding_type.NONE
    (sample_new_column cx_column_type.BIT) rfl
    [(alloc_ok, PutCall.bit true), (alloc_ok, PutCall.bit false),
      (alloc_ok, PutCall.bit true)]).1 _ _ rfl

/-! ### Views -/

theorem view_bytes_append (mem : List Nat) (sz p m j : Nat) :
    view_bytes mem sz p (m + j) =
      match view_bytes mem sz p m, view_bytes mem sz (p + sz * m) j with
      | some xs, some ys => some (xs ++ ys)
      | _, _ => none := by
  induction m generalizing p with
  | zero => simp only [Nat.zero_add, view_bytes, Nat.mul_zero, Nat.add_zero, List.nil_append]
            cases view_bytes mem sz p j <;> rfl
  | succ m ih =>
    have h1 : m + 1 + j = (m + j) + 1 := by omega
    have h2 : p + sz * (m + 1) = p + sz + sz * m := by ring
    rw [h1, view_bytes, view_bytes, ih (p + sz), h2]
    cases read_bytes mem p sz <;> cases view_bytes mem sz (p + sz) m <;>
      cases view_bytes mem sz (p + sz + sz * m) j <;> simp

/-- Memory that holds the chunks `xs` from address `p` on is viewed as `xs`. -/
theorem view_bytes_flatten (mem : List Nat) (sz : Nat) (hsz : 0 < sz)
    (xs : List (List Nat)) (p : Nat) (hx : ∀ x ∈ xs, x.length = sz)
    (hmem : (mem.drop p).take xs.flatten.length = xs.flatten) :
    view_bytes mem sz p xs.length = some xs := by
  induction xs generalizing p with
  | nil => rfl
  | cons x xs ih =>
    have hxl : x.length = sz := hx x (by simp)
    simp only [List.flatten_cons, List.length_append] at hmem
    have hlen : x.length + xs.flatten.length ≤ (mem.drop p).length := by
      have := congrArg List.length hmem
      simp only [List.length_take, List.length_append] at this
      omega
    rw [List.length_drop] at hlen
    have hfirst : (mem.drop p).take sz = x := by
      have := congrArg (List.take sz) hmem
      rw [List.take_take, List.take_left' hxl] at this
      have e : min sz (x.length + xs.flatten.length) = sz := by omega
      rw [e] at this
      exact this
    have hrest : (mem.drop (p + sz)).take xs.flatten.length = xs.flatten := by
      have := congrArg (List.drop sz) hmem
      rw [List.drop_left' hxl, List.drop_take, List.drop_drop] at this
      have e : x.length + xs.flatten.length - sz = xs.flatten.length := by omega
      rw [e] at this
      exact this
    simp only [List.length_cons, view_bytes]
    rw [read_bytes_some mem p sz (by omega), hfirst, ih (p + sz) (fun y hy => hx y (by simp [hy]))
      hrest]

theorem read_batches_map {α β : Type} (f : α → β) (view : Nat → Nat → Option (List α))
    (bs : List Batch) :
    read_batches (fun p n => (view p n).map (List.map f)) bs
      = (read_batches view bs).map (List.map f) := by
  induction bs with
  | nil => rfl
  | cons b bs ih =>
    simp only [read_batches, ih]
    cases view b.values b.available <;> cases read_batches view bs <;> simp

/-! ### Reading a fixed-width column -/

/-- A client draining a fixed-width cursor that has `k` elements of `sz` bytes left:
the calls return, every batch has between 1 and 64 elements, the batch sizes sum to
`k`, and the views read one after the other are the view of the `k` elements. -/
theorem drain_fixed_width (t : cx_column_type) (sz : Nat) (hsz : 0 < sz)
    (next : cx_column_cursor → Option (Batch × cx_column_cursor))
    (hnext : ∀ cur, next cur =
      match cx_column_cursor_skip cur t sz CX_BATCH_SIZE with
      | none => none
      | some (n, cur') => some (⟨cur.position, n⟩, cur'))
    (mem : List Nat) (fuel k : Nat) (cur : cx_column_cursor) (hty : cur.column.type = t)
    (hend : cur.end_ = cur.position + sz * k) (hfuel : k ≤ fuel) :
    ∃ batches, cx_column_cursor_drain next fuel cur = some batches ∧
      (∀ b ∈ batches, 0 < b.available ∧ b.available ≤ 64) ∧
      (batches.map (fun b => b.available)).sum = k ∧
      read_batches (view_bytes mem sz) batches = view_bytes mem sz cur.position k := by
  induction fuel generalizing k cur with
  | zero =>
    have hk : k = 0 := by omega
    subst hk
    refine ⟨[], ?_, by simp, by simp, by simp [read_batches, view_bytes]⟩
    simp [cx_column_cursor_drain, cx_column_cursor_valid, hend]
  | succ fuel ih =>
    rcases Nat.eq_zero_or_pos k with hk | hk
    · subst hk
      refine ⟨[], ?_, by simp, by simp, by simp [read_batches, view_bytes]⟩
      simp [cx_column_cursor_drain, cx_column_cursor_valid, hend]
    · have hvalid : cx_column_cursor_valid cur = true := by
        simp only [cx_column_cursor_valid, decide_eq_true_eq, hend]
        have : 0 < sz * k := Nat.mul_pos hsz hk
        omega
      have hrem : (cur.end_ - cur.position) / sz = k := by
        rw [hend, Nat.add_sub_cancel_left, Nat.mul_div_cancel_left k hsz]
      -- the batch the call returns
      obtain ⟨m, hm1, hm64, hmk, hskip⟩ : ∃ m, 0 < m ∧ m ≤ 64 ∧ m ≤ k ∧
          cx_column_cursor_skip cur t sz CX_BATCH_SIZE
            = some (m, { cur with position := cur.position + sz * m }) := by
        refine ⟨if k < 64 then k else 64, by split <;> omega, by split <;> omega,
          by split <;> omega, ?_⟩
        unfold cx_column_cursor_skip cx_column_cursor_advance
        rw [if_neg (by simp [hty]), hrem]
        simp only [CX_BATCH_SIZE]
        rw [if_pos]
        rw [hend]
        apply Nat.add_le_add_left
        apply Nat.mul_le_mul_left
        split <;> omega
      obtain ⟨bs, hbs, hall, hsum, hread⟩ := ih (k - m)
        { cur with position := cur.position + sz * m } hty
        (by simp only [hend]; rw [Nat.add_assoc, ← Nat.mul_add]; congr 2; omega) (by omega)
      refine ⟨⟨cur.position, m⟩ :: bs, ?_, ?_, ?_, ?_⟩
      · simp [cx_column_cursor_drain, hvalid, hnext, hskip, hbs]
      · intro b hb
        simp only [List.mem_cons] at hb
        rcases hb with rfl | hb
        · exact ⟨hm1, hm64⟩
        · exact hall b hb
      · simp only [List.map_cons, List.sum_cons, hsum]; omega
      · have hsplit : k = m + (k - m) := by omega
        simp only [read_batches, hread]
        conv_rhs => rw [hsplit, view_bytes_append]
        cases view_bytes mem sz cur.position m <;>
          cases view_bytes mem sz (cur.position + sz * m) (k - m) <;> rfl

theorem flatten_length_const (sz : Nat) (xs : List (List Nat))
    (hx : ∀ x ∈ xs, x.length = sz) : xs.flatten.length = sz * xs.length := by
  induction xs with
  | nil => simp
  | cons x xs ih =>
    simp only [List.flatten_cons, List.length_append, List.length_cons,
      hx x (by simp), ih (fun y hy => hx y (by simp [hy]))]
    ring

theorem cx_column_cursor_new_spec (a : Alloc) (madvise_ok : Bool) (c : cx_column)
    (cur : cx_column_cursor) (h : cx_column_cursor_new a madvise_ok c = some cur) :
    cur = { column := c, start := 0, end_ := c.offset, position := 0 } := by
  unfold cx_column_cursor_new at h
  split at h
  · cases h
  · split at h
    · cases h
    · injection h with h
      rw [← h]
      rfl

/-- A cursor over a column whose used bytes are the `sz`-byte chunks `xs` yields
these chunks, decoded. -/
theorem yields_fixed_width {α : Type} (t : cx_column_type) (sz : Nat) (hsz : 0 < sz)
    (next : cx_column_cursor → Option (Batch × cx_column_cursor))
    (hnext : ∀ cur, next cur =
      match cx_column_cursor_skip cur t sz CX_BATCH_SIZE with
      | none => none
      | some (n, cur') => some (⟨cur.position, n⟩, cur'))
    (dec : List Nat → α) (cur : cx_column_cursor) (xs : List (List Nat))
    (hty : cur.column.type = t) (hpos : cur.position = 0)
    (hx : ∀ x ∈ xs, x.length = sz)
    (hwin : cur.end_ ≤ cur.column.buffer.length)
    (hbuf : cur.column.buffer.take cur.end_ = xs.flatten) :
    Yields next (fun mem p n => (view_bytes mem sz p n).map (List.map dec)) cur
      (xs.map dec) := by
  intro fuel hfuel
  rw [List.length_map] at hfuel
  have hlen := flatten_length_const sz xs hx
  have hE : cur.end_ = xs.flatten.length := by
    have := congrArg List.length hbuf
    rw [List.length_take] at this
    omega
  obtain ⟨bs, h1, h2, _, h4⟩ := drain_fixed_width t sz hsz next hnext cur.column.buffer
    fuel xs.length cur hty (by rw [hpos, hE, hlen]; simp) hfuel
  refine ⟨bs, h1, fun b hb => (h2 b hb).2, ?_⟩
  rw [read_batches_map, h4, hpos,
    view_bytes_flatten _ sz hsz xs 0 hx (by rw [List.drop_zero, ← hE]; exact hbuf)]
  rfl

theorem next_batch_i32_eq (cur : cx_column_cursor) :
    cx_column_cursor_next_batch_i32 cur =
      match cx_column_cursor_skip cur cx_column_type.I32 4 CX_BATCH_SIZE with
      | none => none
      | some (n, cur') => some (⟨cur.position, n⟩, cur') := rfl

theorem next_batch_i64_eq (cur : cx_column_cursor) :
    cx_column_cursor_next_batch_i64 cur =
      match cx_column_cursor_skip cur cx_column_type.I64 8 CX_BATCH_SIZE with
      | none => none
      | some (n, cur') => some (⟨cur.position, n⟩, cur') := rfl

/-- A cursor over any column whose used bytes are the int32 values `vs` yields `vs`. -/
theorem yields_i32 (a : Alloc) (madvise_ok : Bool) (c : cx_column) (cur : cx_column_cursor)
    (vs : List Int) (hrange : ∀ v ∈ vs, -2 ^ 31 ≤ v ∧ v < 2 ^ 31)
    (hty : c.type = cx_column_type.I32) (hwin : c.offset ≤ c.buffer.length)
    (hbuf : c.buffer.take c.offset = (vs.map (int_bytes 4)).flatten)
    (hcur : cx_column_cursor_new a madvise_ok c = some cur) :
    Yields cx_column_cursor_next_batch_i32 view_i32 cur vs := by
  have hc := cx_column_cursor_new_spec a madvise_ok c cur hcur
  subst hc
  have h := yields_fixed_width cx_column_type.I32 4 (by norm_num)
    cx_column_cursor_next_batch_i32 next_batch_i32_eq (int_value 4)
    { column := c, start := 0, end_ := c.offset, position := 0 } (vs.map (int_bytes 4))
    hty rfl (by intro x hx; simp only [List.mem_map] at hx; obtain ⟨v, _, rfl⟩ := hx
                exact int_bytes_length 4 v) hwin hbuf
  have hdec : (vs.map (int_bytes 4)).map (int_value 4) = vs := by
    rw [List.map_map]
    conv_rhs => rw [← List.map_id vs]
    apply List.map_congr_left
    intro v hv
    simp only [Function.comp_apply, id_eq]
    exact int_value_int_bytes_4 v (hrange v hv).1 (hrange v hv).2
  rw [hdec] at h
  exact h

/-- A cursor over any column whose used bytes are the int64 values `vs` yields `vs`. -/
theorem yields_i64 (a : Alloc) (madvise_ok : Bool) (c : cx_column) (cur : cx_column_cursor)
    (vs : List Int) (hrange : ∀ v ∈ vs, -2 ^ 63 ≤ v ∧ v < 2 ^ 63)
    (hty : c.type = cx_column_type.I64) (hwin : c.offset ≤ c.buffer.length)
    (hbuf : c.buffer.take c.offset = (vs.map (int_bytes 8)).flatten)
    (hcur : cx_column_cursor_new a madvise_ok c = some cur) :
    Yields cx_column_cursor_next_batch_i64 view_i64 cur vs := by
  have hc := cx_column_cursor_new_spec a madvise_ok c cur hcur
  subst hc
  have h := yields_fixed_width cx_column_type.I64 8 (by norm_num)
    cx_column_cursor_next_batch_i64 next_batch_i64_eq (int_value 8)
    { column := c, start := 0, end_ := c.offset, position := 0 } (vs.map (int_bytes 8))
    hty rfl (by intro x hx; simp only [List.mem_map] at hx; obtain ⟨v, _, rfl⟩ := hx
                exact int_bytes_length 8 v) hwin hbuf
  have hdec : (vs.map (int_bytes 8)).map (int_value 8) = vs := by
    rw [List.map_map]
    conv_rhs => rw [← List.map_id vs]
    apply List.map_congr_left
    intro v hv
    simp only [Function.comp_apply, id_eq]
    exact int_value_int_bytes_8 v (hrange v hv).1 (hrange v hv).2
  rw [hdec] at h
  exact h

/-- What a column holds after the int32 values `vs` were appended to a new column. -/
theorem appended_i32 (cfg : Build) (a0 : Alloc) (e : cx_encoding_type) (c0 : cx_column)
    (vs : List (Alloc × Int)) (rets : List Bool) (c : cx_column)
    (h0 : cx_column_new cfg a0 cx_column_type.I32 e = some c0)
    (h : cx_column_put_all cfg c0 (vs.map (fun p => (p.1, PutCall.i32 p.2))) = some (rets, c))
    (hall : ∀ r ∈ rets, r = true) :
    c.heap_wf ∧ c.type = cx_column_type.I32 ∧ c.encoding = e ∧ c.count = vs.length ∧
      c.buffer.take c.offset = ((vs.map (fun p => p.2)).map (int_bytes 4)).flatten := by
  obtain ⟨hwf0, hcnt0, hoff0, hty0, he0, _⟩ := cx_column_new_spec cfg a0 _ e c0 h0
  obtain ⟨h1, h2, h3, h4, _, h6, _⟩ := cx_column_put_all_appended cfg _ c0 rets c hwf0
    (by
      intro p hp v
      simp only [List.mem_map] at hp
      obtain ⟨q, _, rfl⟩ := hp
      intro hv
      cases hv)
    h hall
  refine ⟨h1, by rw [h2, hty0], by rw [h3, he0], by rw [h4, hcnt0]; simp, ?_⟩
  rw [h6, hoff0, List.map_map, List.map_map]
  rfl

/-- What a column holds after the int64 values `vs` were appended to a new column. -/
theorem appended_i64 (cfg : Build) (a0 : Alloc) (e : cx_encoding_type) (c0 : cx_column)
    (vs : List (Alloc × Int)) (rets : List Bool) (c : cx_column)
    (h0 : cx_column_new cfg a0 cx_column_type.I64 e = some c0)
    (h : cx_column_put_all cfg c0 (vs.map (fun p => (p.1, PutCall.i64 p.2))) = some (rets, c))
    (hall : ∀ r ∈ rets, r = true) :
    c.heap_wf ∧ c.type = cx_column_type.I64 ∧ c.encoding = e ∧ c.count = vs.length ∧
      c.buffer.take c.offset = ((vs.map (fun p => p.2)).map (int_bytes 8)).flatten := by
  obtain ⟨hwf0, hcnt0, hoff0, hty0, he0, _⟩ := cx_column_new_spec cfg a0 _ e c0 h0
  obtain ⟨h1, h2, h3, h4, _, h6, _⟩ := cx_column_put_all_appended cfg _ c0 rets c hwf0
    (by
      intro p hp v
      simp only [List.mem_map] at hp
      obtain ⟨q, _, rfl⟩ := hp
      intro hv
      cases hv)
    h hall
  refine ⟨h1, by rw [h2, hty0], by rw [h3, he0], by rw [h4, hcnt0]; simp, ?_⟩
  rw [h6, hoff0, List.map_map, List.map_map]
  rfl

/-- C2. For every sequence of int32 (resp. int64) values appended with
`cx_column_put_i32` (resp. `_i64`) to a column created by `cx_column_new`, a cursor
created afterwards yields exactly these values in order: the successive
`cx_column_cursor_next_batch_i32` (resp. `_i64`) calls return, and their views, each
cut to its available count, concatenate to the values appended. -/
theorem cx_column_cursor_roundtrip (cfg : Build) (a0 : Alloc) (e : cx_encoding_type)
    (vs : List (Alloc × Int)) (ac : Alloc) (madvise_ok : Bool) :
    (∀ c0 rets c cur, (∀ p ∈ vs, -2 ^ 31 ≤ p.2 ∧ p.2 < 2 ^ 31) →
      cx_column_new cfg a0 cx_column_type.I32 e = some c0 →
      cx_column_put_all cfg c0 (vs.map (fun p => (p.1, PutCall.i32 p.2))) = some (rets, c) →
      (∀ r ∈ rets, r = true) →
      cx_column_cursor_new ac madvise_ok c = some cur →
      Yields cx_column_cursor_next_batch_i32 view_i32 cur (vs.map (fun p => p.2))) ∧
    (∀ c0 rets c cur, (∀ p ∈ vs, -2 ^ 63 ≤ p.2 ∧ p.2 < 2 ^ 63) →
      cx_column_new cfg a0 cx_column_type.I64 e = some c0 →
      cx_column_put_all cfg c0 (vs.map (fun p => (p.1, PutCall.i64 p.2))) = some (rets, c) →
      (∀ r ∈ rets, r = true) →
      cx_column_cursor_new ac madvise_ok c = some cur →
      Yields cx_column_cursor_next_batch_i64 view_i64 cur (vs.map (fun p => p.2))) := by
  constructor
  · intro c0 rets c cur hrange h0 h hall hcur
    obtain ⟨hwf, hty, _, _, hbuf⟩ := appended_i32 cfg a0 e c0 vs rets c h0 h hall
    exact yields_i32 ac madvise_ok c cur _
      (by intro v hv; simp only [List.mem_map] at hv; obtain ⟨p, hp, rfl⟩ := hv
          exact hrange p hp)
      hty (by rw [hwf.2.1]; exact hwf.2.2.1) hbuf hcur
  · intro c0 rets c cur hrange h0 h hall hcur
    obtain ⟨hwf, hty, _, _, hbuf⟩ := appended_i64 cfg a0 e c0 vs rets c h0 h hall
    exact yields_i64 ac madvise_ok c cur _
      (by intro v hv; simp only [List.mem_map] at hv; obtain ⟨p, hp, rfl⟩ := hv
          exact hrange p hp)
      hty (by rw [hwf.2.1]; exact hwf.2.2.1) hbuf hcur

/-- Witness for C2: the values 1, -2, 300 appended to a new I32 column and read back. -/
theorem cx_column_cursor_roundtrip_witness :
    ∃ c cur, cx_column_put_all ⟨false, none, true, false⟩ (sample_new_column cx_column_type.I32)
        ([(alloc_ok, 1), (alloc_ok, -2), (alloc_ok, 300)].map
          (fun p => (p.1, PutCall.i32 p.2)))
        = some ([true, true, true], c) ∧
      cx_column_cursor_new alloc_ok true c = some cur ∧
      Yields cx_column_cursor_next_batch_i32 view_i32 cur [1, -2, 300] := by
  refine ⟨_, _, rfl, rfl, ?_⟩
  exact (cx_column_cursor_roundtrip ⟨false, none, true, false⟩ alloc_ok cx_encoding_type.NONE
    [(alloc_ok, 1), (alloc_ok, -2), (alloc_ok, 300)] alloc_ok true).1
    (sample_new_column cx_column_type.I32) [true, true, true] _ _ (by decide) rfl rfl
    (by decide) rfl

/-! ### String lengths -/

theorem chunk_strlen (n : Nat) (l : List Nat) :
    (((List.range n).map (fun j => l.getD j 0)).takeWhile (fun b => b != 0)).length
      = min n (c_strlen l) := by
  induction n generalizing l with
  | zero => simp
  | succ n ih =>
    rw [List.range_succ_eq_map, List.map_cons, List.map_map]
    cases l with
    | nil => simp [c_strlen]
    | cons b l =>
      have hcomp : ((fun j => (b :: l).getD j 0) ∘ Nat.succ) = fun j => l.getD j 0 := by
        funext j; simp
      rw [hcomp]
      by_cases hb : b = 0
      · subst hb; simp [c_strlen]
      · have h0 : (b :: l).getD 0 0 = b := rfl
        rw [h0, List.takeWhile_cons_of_pos (by simpa using hb), List.length_cons, ih l]
        unfold c_strlen
        rw [List.takeWhile_cons_of_pos (by simpa using hb), List.length_cons]
        omega

theorem mm_cmpistri_null_eq (mem : List Nat) (p : Nat) :
    mm_cmpistri_null mem p = min 16 (c_strlen (mem.drop p)) := by
  unfold mm_cmpistri_null
  have : (fun j => mem_byte mem (p + j)) = fun j => (mem.drop p).getD j 0 := by
    funext j
    simp [mem_byte, List.getD_eq_getElem?_getD, List.getElem?_drop]
  rw [this]
  exact chunk_strlen 16 (mem.drop p)

theorem c_strlen_drop (l : List Nat) (k : Nat) (h : k ≤ c_strlen l) :
    c_strlen (l.drop k) = c_strlen l - k := by
  induction k generalizing l with
  | zero => simp
  | succ k ih =>
    cases l with
    | nil => simp [c_strlen] at h
    | cons b l =>
      by_cases hb : b = 0
      · subst hb; simp [c_strlen] at h
      · have hc : c_strlen (b :: l) = c_strlen l + 1 := by
          unfold c_strlen
          rw [List.takeWhile_cons_of_pos (by simpa using hb), List.length_cons]
        rw [hc] at h ⊢
        rw [List.drop_succ_cons, ih l (by omega)]
        omega

/-- The vectorised scan finds the length `strlen` finds. -/
theorem cx_strlen_sse42_eq (fuel : Nat) (mem : List Nat) (p len : Nat)
    (hfuel : c_strlen (mem.drop (p + len)) < 16 * fuel) :
    cx_strlen_sse42 fuel mem p len = some (len + c_strlen (mem.drop (p + len))) := by
  induction fuel generalizing len with
  | zero => omega
  | succ fuel ih =>
    unfold cx_strlen_sse42
    simp only [mm_cmpistri_null_eq]
    by_cases h16 : c_strlen (mem.drop (p + len)) < 16
    · have hmin : min 16 (c_strlen (mem.drop (p + len))) = c_strlen (mem.drop (p + len)) := by
        omega
      rw [hmin, if_pos h16]
    · have hmin : min 16 (c_strlen (mem.drop (p + len))) = 16 := by omega
      rw [hmin, if_neg (by omega)]
      have hd : c_strlen (mem.drop (p + (len + 16)))
          = c_strlen (mem.drop (p + len)) - 16 := by
        rw [← Nat.add_assoc, ← List.drop_drop]
        exact c_strlen_drop _ 16 (by omega)
      rw [ih (len + 16) (by rw [hd]; omega), hd]
      congr 1
      omega

theorem cx_strlen_eq (cfg : Build) (mem : List Nat) (p : Nat) :
    cx_strlen cfg mem p = some (c_strlen (mem.drop p)) := by
  unfold cx_strlen
  split
  · have hle : c_strlen (mem.drop p) ≤ mem.length := by
      have := c_strlen_le (mem.drop p)
      rw [List.length_drop] at this
      omega
    rw [cx_strlen_sse42_eq (mem.length + 1) mem p 0 (by simp only [Nat.add_zero]; omega)]
    simp
  · rfl

/-! ### Reading a string column -/

theorem str_bytes_cons (s : List Nat) (ss : List (List Nat)) :
    str_bytes (s :: ss) = s ++ [0] ++ str_bytes ss := by
  simp [str_bytes]

theorem str_records_append (p : Nat) (xs ys : List (List Nat)) :
    str_records p (xs ++ ys)
      = str_records p xs ++ str_records (p + (str_bytes xs).length) ys := by
  induction xs generalizing p with
  | nil => simp [str_records, str_bytes]
  | cons x xs ih =>
    have e : p + x.length + 1 + (str_bytes xs).length
        = p + (x.length + 1 + (str_bytes xs).length) := by omega
    show str_records p (x :: (xs ++ ys)) = str_records p (x :: xs) ++ _
    simp only [str_records, List.cons_append]
    rw [ih, str_bytes_cons, e]
    simp only [List.length_append, List.length_singleton]

theorem str_records_length (p : Nat) (xs : List (List Nat)) :
    (str_records p xs).length = xs.length := by
  induction xs generalizing p with
  | nil => rfl
  | cons x xs ih => simp [str_records, ih]

/-- Memory that holds `s`, its terminator and then `ss` from address `p`: `strlen`
at `p` is the length of `s`, the bytes there are `s`, and `ss` follows. -/
theorem str_head (mem : List Nat) (p : Nat) (s : List Nat) (ss : List (List Nat))
    (hnul : ∀ b ∈ s, b ≠ 0)
    (hmem : (mem.drop p).take (str_bytes (s :: ss)).length = str_bytes (s :: ss)) :
    c_strlen (mem.drop p) = s.length ∧ (mem.drop p).take s.length = s ∧
      p + s.length + 1 ≤ mem.length ∧
      (mem.drop (p + s.length + 1)).take (str_bytes ss).length = str_bytes ss := by
  rw [str_bytes_cons] at hmem
  have hlen : s.length + 1 + (str_bytes ss).length ≤ mem.length - p := by
    have := congrArg List.length hmem
    simp only [List.length_take, List.length_append, List.length_singleton,
      List.length_drop] at this
    omega
  have hsplit : mem.drop p = s ++ [0] ++ str_bytes ss ++
      (mem.drop p).drop (s ++ [0] ++ str_bytes ss).length := by
    conv_lhs => rw [← List.take_append_drop (s ++ [0] ++ str_bytes ss).length (mem.drop p)]
    rw [hmem]
  refine ⟨?_, ?_, by omega, ?_⟩
  · rw [hsplit]
    unfold c_strlen
    rw [List.append_assoc, List.append_assoc, List.takeWhile_append_of_pos
      (by intro b hb; simpa using hnul b hb)]
    simp
  · rw [hsplit, List.append_assoc, List.append_assoc, List.take_left' rfl]
  · have := congrArg (List.drop (s.length + 1)) hmem
    rw [List.drop_take, List.drop_drop, List.drop_left' (by simp)] at this
    have e : (s ++ [0] ++ str_bytes ss).length - (s.length + 1) = (str_bytes ss).length := by
      simp only [List.length_append, List.length_singleton]; omega
    rw [e] at this
    have e2 : p + s.length + 1 = p + (s.length + 1) := by omega
    rw [e2]
    exact this

/-- The loop of `cx_column_cursor_next_batch_str` over a window that holds the
strings `ss`: it records the first `fuel` of them and stops behind them. -/
theorem next_batch_str_loop_spec (cfg : Build) (fuel : Nat) (cur : cx_column_cursor)
    (acc : List cx_string) (ss : List (List Nat))
    (hnul : ∀ s ∈ ss, ∀ b ∈ s, b ≠ 0)
    (hend : cur.end_ = cur.position + (str_bytes ss).length)
    (hmem : (cur.column.buffer.drop cur.position).take (str_bytes ss).length = str_bytes ss) :
    cx_column_cursor_next_batch_str_loop cfg fuel cur acc
      = some (acc ++ str_records cur.position (ss.take fuel),
          { cur with position := cur.position + (str_bytes (ss.take fuel)).length }) := by
  induction fuel generalizing cur acc ss with
  | zero => simp [cx_column_cursor_next_batch_str_loop, str_records, str_bytes]
  | succ fuel ih =>
    cases ss with
    | nil =>
      have hinv : cx_column_cursor_valid cur = false := by
        simp [cx_column_cursor_valid, hend, str_bytes]
      simp [cx_column_cursor_next_batch_str_loop, hinv, str_records, str_bytes]
    | cons s ss =>
      have hvalid : cx_column_cursor_valid cur = true := by
        simp only [cx_column_cursor_valid, decide_eq_true_eq, hend, str_bytes_cons,
          List.length_append, List.length_singleton]
        omega
      obtain ⟨h1, _, _, h4⟩ := str_head cur.column.buffer cur.position s ss
        (hnul s (by simp)) hmem
      have hadv : cx_column_cursor_advance cur (s.length + 1)
          = some { cur with position := cur.position + (s.length + 1) } := by
        unfold cx_column_cursor_advance
        rw [if_pos]
        rw [hend, str_bytes_cons]
        simp only [List.length_append, List.length_singleton]
        omega
      unfold cx_column_cursor_next_batch_str_loop
      rw [if_pos hvalid, cx_strlen_eq, h1]
      simp only [hadv]
      have hrec := ih { cur with position := cur.position + (s.length + 1) }
        (acc ++ [{ ptr := cur.position, len := s.length }]) ss
        (fun x hx => hnul x (by simp [hx]))
        (by simp only [hend, str_bytes_cons, List.length_append, List.length_singleton]; omega)
        (by simpa [Nat.add_assoc] using h4)
      simp only at hrec
      rw [hrec]
      simp only [List.take_succ_cons, str_records, str_bytes_cons, List.length_append,
        List.length_singleton, List.append_assoc, List.singleton_append, Option.some.injEq,
        Prod.mk.injEq, cx_column_cursor.mk.injEq, true_and]
      refine ⟨by rw [Nat.add_assoc], by simp only [List.length_cons]; omega⟩

theorem str_bytes_append (xs ys : List (List Nat)) :
    str_bytes (xs ++ ys) = str_bytes xs ++ str_bytes ys := by
  simp [str_bytes]

theorem take_drop_window (mem : List Nat) (p : Nat) (A B : List Nat)
    (h : (mem.drop p).take (A ++ B).length = A ++ B) :
    (mem.drop (p + A.length)).take B.length = B := by
  have := congrArg (List.drop A.length) h
  rw [List.drop_take, List.drop_drop, List.drop_left' rfl] at this
  have e : (A ++ B).length - A.length = B.length := by
    simp only [List.length_append]; omega
  rw [e] at this
  exact this

/-- A client draining a string cursor whose window holds the strings `ss`: the calls
return, every batch has between 1 and 64 records, and the records in order are the
records of `ss`. -/
theorem drain_str (cfg : Build) (fuel : Nat) (cur : cx_column_cursor) (ss : List (List Nat))
    (hty : cur.column.type = cx_column_type.STR)
    (hnul : ∀ s ∈ ss, ∀ b ∈ s, b ≠ 0)
    (hend : cur.end_ = cur.position + (str_bytes ss).length)
    (hmem : (cur.column.buffer.drop cur.position).take (str_bytes ss).length = str_bytes ss)
    (hfuel : ss.length ≤ fuel) :
    ∃ batches, cx_column_cursor_drain (cx_column_cursor_next_batch_str cfg) fuel cur
        = some batches ∧
      (∀ b ∈ batches, 0 < b.length ∧ b.length ≤ 64) ∧
      batches.flatten = str_records cur.position ss := by
  induction fuel generalizing cur ss with
  | zero =>
    have hss : ss = [] := List.length_eq_zero.mp (by omega)
    subst hss
    refine ⟨[], ?_, by simp, by simp [str_records]⟩
    simp [cx_column_cursor_drain, cx_column_cursor_valid, hend, str_bytes]
  | succ fuel ih =>
    cases ss with
    | nil =>
      refine ⟨[], ?_, by simp, by simp [str_records]⟩
      simp [cx_column_cursor_drain, cx_column_cursor_valid, hend, str_bytes]
    | cons s rest =>
      have hvalid : cx_column_cursor_valid cur = true := by
        simp only [cx_column_cursor_valid, decide_eq_true_eq, hend, str_bytes_cons,
          List.length_append, List.length_singleton]
        omega
      have hnext : cx_column_cursor_next_batch_str cfg cur
          = some (str_records cur.position ((s :: rest).take 64),
              { cur with position := cur.position + (str_bytes ((s :: rest).take 64)).length }) := by
        unfold cx_column_cursor_next_batch_str
        rw [if_neg (by simp [hty])]
        have := next_batch_str_loop_spec cfg CX_BATCH_SIZE cur [] (s :: rest) hnul hend hmem
        simpa [CX_BATCH_SIZE] using this
      have hsplit : s :: rest = (s :: rest).take 64 ++ (s :: rest).drop 64 :=
        (List.take_append_drop 64 (s :: rest)).symm
      have hbytes : str_bytes (s :: rest)
          = str_bytes ((s :: rest).take 64) ++ str_bytes ((s :: rest).drop 64) := by
        rw [← str_bytes_append, ← hsplit]
      obtain ⟨bs, hbs, hall, hflat⟩ := ih
        { cur with position := cur.position + (str_bytes ((s :: rest).take 64)).length }
        ((s :: rest).drop 64) hty
        (fun x hx => hnul x (List.mem_of_mem_drop hx))
        (by
          simp only [hend]
          rw [hbytes, List.length_append]
          omega)
        (by
          apply take_drop_window
          rw [← hbytes]
          exact hmem)
        (by
          simp only [List.length_drop, List.length_cons] at hfuel ⊢
          omega)
      refine ⟨str_records cur.position ((s :: rest).take 64) :: bs, ?_, ?_, ?_⟩
      · rw [cx_column_cursor_drain, if_pos hvalid, hnext]
        dsimp only
        rw [hbs]
      · intro b hb
        simp only [List.mem_cons] at hb
        rcases hb with rfl | hb
        · rw [str_records_length]
          simp only [List.length_take, List.length_cons]
          omega
        · exact hall b hb
      · rw [List.flatten_cons, hflat]
        conv_rhs => rw [hsplit, str_records_append]

/-- The records of strings held in memory designate these strings. -/
theorem str_records_read (mem : List Nat) (ss : List (List Nat)) (p : Nat)
    (hnul : ∀ s ∈ ss, ∀ b ∈ s, b ≠ 0)
    (hmem : (mem.drop p).take (str_bytes ss).length = str_bytes ss) :
    List.Forall₂ (fun r s => r.len = c_strlen s ∧ read_string mem r = some s)
      (str_records p ss) ss := by
  induction ss generalizing p with
  | nil => exact List.Forall₂.nil
  | cons s ss ih =>
    obtain ⟨_, h2, h3, h4⟩ := str_head mem p s ss (hnul s (by simp)) hmem
    refine List.Forall₂.cons ⟨(c_strlen_nul_free s (hnul s (by simp))).symm, ?_⟩
      (ih (p + s.length + 1) (fun x hx => hnul x (by simp [hx])) h4)
    unfold read_string
    rw [read_bytes_some mem p s.length (by omega), h2]

/-- A cursor over any column whose used bytes are the NUL-free strings `ss`, each
with its terminator, yields `ss`. -/
theorem yields_str (cfg : Build) (a : Alloc) (madvise_ok : Bool) (c : cx_column)
    (cur : cx_column_cursor) (ss : List (List Nat))
    (hnul : ∀ s ∈ ss, ∀ b ∈ s, b ≠ 0)
    (hty : c.type = cx_column_type.STR)
    (hbuf : c.buffer.take c.offset = str_bytes ss) (hwin : c.offset ≤ c.buffer.length)
    (hcur : cx_column_cursor_new a madvise_ok c = some cur) :
    YieldsStr cfg cur ss := by
  have hc := cx_column_cursor_new_spec a madvise_ok c cur hcur
  subst hc
  have hoff : c.offset = (str_bytes ss).length := by
    have := congrArg List.length hbuf
    rw [List.length_take] at this
    omega
  have hmem : (c.buffer.drop 0).take (str_bytes ss).length = str_bytes ss := by
    rw [List.drop_zero, ← hoff]; exact hbuf
  intro fuel hfuel
  obtain ⟨bs, h1, h2, h3⟩ := drain_str cfg fuel
    { column := c, start := 0, end_ := c.offset, position := 0 } ss hty hnul
    (by simp [hoff]) hmem hfuel
  refine ⟨bs, h1, fun b hb => (h2 b hb).2, by rw [h3, str_records_length], ?_⟩
  rw [h3]
  exact str_records_read c.buffer ss 0 hnul hmem

/-- What a column holds after the NUL-free strings `ss` were appended to a new
column. -/
theorem appended_str (cfg : Build) (a0 : Alloc) (e : cx_encoding_type) (c0 : cx_column)
    (ss : List (Alloc × List Nat)) (rets : List Bool) (c : cx_column)
    (hnul : ∀ p ∈ ss, ∀ b ∈ p.2, b ≠ 0)
    (h0 : cx_column_new cfg a0 cx_column_type.STR e = some c0)
    (h : cx_column_put_all cfg c0 (ss.map (fun p => (p.1, PutCall.str p.2))) = some (rets, c))
    (hall : ∀ r ∈ rets, r = true) :
    c.heap_wf ∧ c.type = cx_column_type.STR ∧ c.encoding = e ∧ c.count = ss.length ∧
      c.buffer.take c.offset = str_bytes (ss.map (fun p => p.2)) := by
  obtain ⟨hwf0, hcnt0, hoff0, hty0, he0, _⟩ := cx_column_new_spec cfg a0 _ e c0 h0
  obtain ⟨h1, h2, h3, h4, _, h6, _⟩ := cx_column_put_all_appended cfg _ c0 rets c hwf0
    (by
      intro p hp v
      simp only [List.mem_map] at hp
      obtain ⟨q, _, rfl⟩ := hp
      intro hv
      cases hv)
    h hall
  refine ⟨h1, by rw [h2, hty0], by rw [h3, he0], by rw [h4, hcnt0]; simp, ?_⟩
  rw [h6, hoff0, List.map_map, str_bytes, List.map_map, List.take_zero, List.nil_append]
  congr 1
  apply List.map_congr_left
  intro p hp
  exact bytes_nul_free p.2 (hnul p hp)

/-- C6. For every sequence of NUL-free byte strings appended with `cx_column_put_str`
to a column created by `cx_column_new(STR)`, the successive
`cx_column_cursor_next_batch_str` calls on a fresh cursor return, at most 64 records
per call, records `{ptr, len}` of which the `k`-th overall has `len == strlen(s_k)`
and the `len` bytes at `ptr` equal to `s_k`; the records are `n` in all. -/
theorem cx_column_cursor_str_roundtrip (cfg : Build) (a0 : Alloc) (e : cx_encoding_type)
    (ss : List (Alloc × List Nat)) (c0 : cx_column) (rets : List Bool) (c : cx_column)
    (ac : Alloc) (madvise_ok : Bool) (cur : cx_column_cursor)
    (hnul : ∀ p ∈ ss, ∀ b ∈ p.2, b ≠ 0)
    (h0 : cx_column_new cfg a0 cx_column_type.STR e = some c0)
    (h : cx_column_put_all cfg c0 (ss.map (fun p => (p.1, PutCall.str p.2))) = some (rets, c))
    (hall : ∀ r ∈ rets, r = true)
    (hcur : cx_column_cursor_new ac madvise_ok c = some cur) :
    YieldsStr cfg cur (ss.map (fun p => p.2)) := by
  obtain ⟨hwf, hty, _, _, hbuf⟩ := appended_str cfg a0 e c0 ss rets c hnul h0 h hall
  exact yields_str cfg ac madvise_ok c cur _
    (by intro s hs; simp only [List.mem_map] at hs; obtain ⟨p, hp, rfl⟩ := hs
        exact hnul p hp)
    hty hbuf (by rw [hwf.2.1]; exact hwf.2.2.1) hcur

/-- Witness for C6: the strings "ab", "" and "c" appended to a new column and read
back. -/
theorem cx_column_cursor_str_roundtrip_witness :
    ∃ c cur, cx_column_put_all ⟨false, none, true, false⟩ (sample_new_column cx_column_type.STR)
        ([(alloc_ok, [97, 98]), (alloc_ok, []), (alloc_ok, [99])].map
          (fun p => (p.1, PutCall.str p.2)))
        = some ([true, true, true], c) ∧
      cx_column_cursor_new alloc_ok true c = some cur ∧
      YieldsStr ⟨false, none, true, false⟩ cur [[97, 98], [], [99]] := by
  refine ⟨_, _, rfl, rfl, ?_⟩
  exact cx_column_cursor_str_roundtrip ⟨false, none, true, false⟩ alloc_ok cx_encoding_type.NONE
    [(alloc_ok, [97, 98]), (alloc_ok, []), (alloc_ok, [99])]
    (sample_new_column cx_column_type.STR) [true, true, true] _ alloc_ok true _
    (by decide) rfl rfl (by decide) rfl

/-! ### Cursors over two columns that share their bytes -/

/-- Draining is the same for two cursors when each call treats them alike. -/
theorem drain_congr {β : Type} (next : cx_column_cursor → Option (β × cx_column_cursor))
    (swap : cx_column_cursor → cx_column_cursor)
    (hvalid : ∀ cur, cx_column_cursor_valid (swap cur) = cx_column_cursor_valid cur)
    (hnext : ∀ cur, next (swap cur) = (next cur).map (fun r => (r.1, swap r.2)))
    (fuel : Nat) (cur : cx_column_cursor) :
    cx_column_cursor_drain next fuel (swap cur) = cx_column_cursor_drain next fuel cur := by
  induction fuel generalizing cur with
  | zero => simp [cx_column_cursor_drain, hvalid]
  | succ fuel ih =>
    rw [cx_column_cursor_drain, cx_column_cursor_drain, hvalid, hnext]
    cases hn : next cur with
    | none => simp
    | some r =>
      obtain ⟨b, cur'⟩ := r
      simp only [Option.map_some', ih cur']

theorem skip_swap (col2 : cx_column) (cur : cx_column_cursor) (t : cx_column_type)
    (sz n : Nat) (hty : col2.type = cur.column.type) :
    cx_column_cursor_skip { cur with column := col2 } t sz n
      = (cx_column_cursor_skip cur t sz n).map
          (fun r => (r.1, { r.2 with column := col2 })) := by
  unfold cx_column_cursor_skip cx_column_cursor_advance
  simp only [hty]
  by_cases h1 : (cur.column.type != t) = true
  · simp [h1]
  · rw [if_neg h1, if_neg h1]
    generalize (if (cur.end_ - cur.position) / sz < n then
      (cur.end_ - cur.position) / sz else n) = cnt
    by_cases h2 : cur.position + sz * cnt ≤ cur.end_
    · rw [if_pos h2, if_pos h2]; rfl
    · rw [if_neg h2, if_neg h2]; rfl

theorem next_batch_i32_swap (col2 : cx_column) (cur : cx_column_cursor)
    (hty : col2.type = cur.column.type) :
    cx_column_cursor_next_batch_i32 { cur with column := col2 }
      = (cx_column_cursor_next_batch_i32 cur).map
          (fun r => (r.1, { r.2 with column := col2 })) := by
  unfold cx_column_cursor_next_batch_i32 cx_column_cursor_skip_i32
  rw [skip_swap col2 cur _ _ _ hty]
  cases cx_column_cursor_skip cur cx_column_type.I32 4 CX_BATCH_SIZE <;> rfl

theorem next_batch_i64_swap (col2 : cx_column) (cur : cx_column_cursor)
    (hty : col2.type = cur.column.type) :
    cx_column_cursor_next_batch_i64 { cur with column := col2 }
      = (cx_column_cursor_next_batch_i64 cur).map
          (fun r => (r.1, { r.2 with column := col2 })) := by
  unfold cx_column_cursor_next_batch_i64 cx_column_cursor_skip_i64
  rw [skip_swap col2 cur _ _ _ hty]
  cases cx_column_cursor_skip cur cx_column_type.I64 8 CX_BATCH_SIZE <;> rfl

theorem skip_column (cur : cx_column_cursor) (t : cx_column_type) (sz n k : Nat)
    (cur' : cx_column_cursor) (h : cx_column_cursor_skip cur t sz n = some (k, cur')) :
    cur'.column = cur.column := by
  unfold cx_column_cursor_skip cx_column_cursor_advance at h
  by_cases h1 : (cur.column.type != t) = true
  · rw [if_pos h1] at h; cases h
  · rw [if_neg h1] at h
    dsimp only at h
    generalize (if (cur.end_ - cur.position) / sz < n then
      (cur.end_ - cur.position) / sz else n) = cnt at h
    by_cases h2 : cur.position + sz * cnt ≤ cur.end_
    · rw [if_pos h2] at h
      simp only [Option.some.injEq, Prod.mk.injEq] at h
      rw [← h.2]
    · rw [if_neg h2] at h
      cases h

theorem next_batch_bit_swap (col2 : cx_column) (cur : cx_column_cursor)
    (hty : col2.type = cur.column.type) (hcnt : col2.count = cur.column.count) :
    cx_column_cursor_next_batch_bit { cur with column := col2 }
      = (cx_column_cursor_next_batch_bit cur).map
          (fun r => (r.1, { r.2 with column := col2 })) := by
  unfold cx_column_cursor_next_batch_bit cx_column_cursor_skip_bit
  simp only [CX_BATCH_SIZE]
  rw [if_neg (by decide), if_neg (by decide), skip_swap col2 cur _ _ _ hty]
  cases hs : cx_column_cursor_skip cur cx_column_type.BIT 8 (64 / 64) with
  | none => rfl
  | some r =>
    obtain ⟨k, cur'⟩ := r
    have hcol := skip_column cur _ _ _ k cur' hs
    simp only [Option.map_some', cx_column_cursor_valid, hcnt, hcol]
    by_cases hv : decide (cur'.position < cur'.end_) = true
    · simp [hv]
    · by_cases ht : cur.column.count % 64 = 0
      · simp [hv, ht]
      · simp [hv, ht]

theorem next_batch_str_loop_swap (cfg : Build) (col2 : cx_column) (fuel : Nat)
    (cur : cx_column_cursor) (acc : List cx_string)
    (hbuf : col2.buffer = cur.column.buffer) :
    cx_column_cursor_next_batch_str_loop cfg fuel { cur with column := col2 } acc
      = (cx_column_cursor_next_batch_str_loop cfg fuel cur acc).map
          (fun r => (r.1, { r.2 with column := col2 })) := by
  induction fuel generalizing cur acc with
  | zero => rfl
  | succ fuel ih =>
    rw [cx_column_cursor_next_batch_str_loop, cx_column_cursor_next_batch_str_loop]
    simp only [cx_column_cursor_valid, hbuf, cx_strlen_eq, cx_column_cursor_advance]
    by_cases hv : decide (cur.position < cur.end_) = true
    · rw [if_pos hv, if_pos hv]
      by_cases h2 : cur.position + (c_strlen (cur.column.buffer.drop cur.position) + 1)
          ≤ cur.end_
      · rw [if_pos h2, if_pos h2]
        exact ih { cur with position :=
          cur.position + (c_strlen (cur.column.buffer.drop cur.position) + 1) } _ hbuf
      · rw [if_neg h2, if_neg h2]; rfl
    · rw [if_neg hv, if_neg hv]; rfl

theorem next_batch_str_swap (cfg : Build) (col2 : cx_column) (cur : cx_column_cursor)
    (hty : col2.type = cur.column.type) (hbuf : col2.buffer = cur.column.buffer) :
    cx_column_cursor_next_batch_str cfg { cur with column := col2 }
      = (cx_column_cursor_next_batch_str cfg cur).map
          (fun r => (r.1, { r.2 with column := col2 })) := by
  unfold cx_column_cursor_next_batch_str
  simp only [hty]
  split
  · rfl
  · exact next_batch_str_loop_swap cfg col2 _ cur [] hbuf

/-! ### Reading a bit column -/

/-- One `cx_column_cursor_next_batch_bit` call with `k >= 1` words left: it returns
the word at the position and moves one word on; the count is 64, or the trailing
bits when the word is the last one and `count % 64 != 0`. -/
theorem next_batch_bit_step (cur : cx_column_cursor) (k : Nat) (hk : 0 < k)
    (hty : cur.column.type = cx_column_type.BIT)
    (hend : cur.end_ = cur.position + 8 * k) :
    cx_column_cursor_next_batch_bit cur
      = some (⟨cur.position,
            if k = 1 ∧ cur.column.count % 64 ≠ 0 then cur.column.count % 64 else 64⟩,
          { cur with position := cur.position + 8 }) := by
  have hrem : (cur.end_ - cur.position) / 8 = k := by
    rw [hend, Nat.add_sub_cancel_left, Nat.mul_div_cancel_left k (by norm_num)]
  have hskip : cx_column_cursor_skip cur cx_column_type.BIT 8 (64 / 64)
      = some (1, { cur with position := cur.position + 8 }) := by
    unfold cx_column_cursor_skip cx_column_cursor_advance
    rw [if_neg (by simp [hty]), hrem]
    have h1 : (if k < 64 / 64 then k else 64 / 64) = 1 := by
      rw [if_neg (by omega)]
    simp only [h1]
    rw [if_pos (by omega)]
  unfold cx_column_cursor_next_batch_bit cx_column_cursor_skip_bit
  simp only [CX_BATCH_SIZE]
  rw [if_neg (by decide), hskip]
  simp only [cx_column_cursor_valid, hend]
  by_cases h1 : k = 1
  · subst h1
    by_cases ht : cur.column.count % 64 = 0
    · simp [ht]
    · have hmod : (1 * 64 + WORD - (64 - cur.column.count % 64)) % WORD
          = cur.column.count % 64 := by
        rw [word_eq]; omega
      simp [ht, hmod]
  · have hv : cur.position + 8 < cur.position + 8 * k := by omega
    simp [hv, h1]

/-- A client draining a bit cursor that has `k` words left: the calls return one
word per batch, in order, every count at most 64; the counts sum to the rows of
these words. -/
theorem drain_bit (mem : List Nat) (fuel k : Nat) (cur : cx_column_cursor)
    (hty : cur.column.type = cx_column_type.BIT)
    (hend : cur.end_ = cur.position + 8 * k) (hfuel : k ≤ fuel) :
    ∃ batches, cx_column_cursor_drain cx_column_cursor_next_batch_bit fuel cur
        = some batches ∧
      batches.length = k ∧ (∀ b ∈ batches, 0 < b.available ∧ b.available ≤ 64) ∧
      (batches.map (fun b => b.available)).sum
        = (if k = 0 then 0 else 64 * (k - 1) +
            (if cur.column.count % 64 = 0 then 64 else cur.column.count % 64)) ∧
      read_batches (fun p _ => view_bytes mem 8 p 1) batches
        = view_bytes mem 8 cur.position k := by
  induction fuel generalizing k cur with
  | zero =>
    have hk : k = 0 := by omega
    subst hk
    refine ⟨[], ?_, rfl, by simp, by simp, by simp [read_batches, view_bytes]⟩
    simp [cx_column_cursor_drain, cx_column_cursor_valid, hend]
  | succ fuel ih =>
    rcases Nat.eq_zero_or_pos k with hk | hk
    · subst hk
      refine ⟨[], ?_, rfl, by simp, by simp, by simp [read_batches, view_bytes]⟩
      simp [cx_column_cursor_drain, cx_column_cursor_valid, hend]
    · have hvalid : cx_column_cursor_valid cur = true := by
        simp only [cx_column_cursor_valid, decide_eq_true_eq, hend]
        omega
      have hstep := next_batch_bit_step cur k hk hty hend
      obtain ⟨bs, hbs, hlen, hall, hsum, hread⟩ := ih (k - 1)
        { cur with position := cur.position + 8 } hty
        (by simp only [hend]; omega) (by omega)
      refine ⟨⟨cur.position,
          if k = 1 ∧ cur.column.count % 64 ≠ 0 then cur.column.count % 64 else 64⟩ :: bs,
        ?_, by simp only [List.length_cons, hlen]; omega, ?_, ?_, ?_⟩
      · rw [cx_column_cursor_drain, if_pos hvalid, hstep]
        dsimp only
        rw [hbs]
      · intro b hb
        simp only [List.mem_cons] at hb
        rcases hb with rfl | hb
        · dsimp only
          split <;> omega
        · exact hall b hb
      · simp only [List.map_cons, List.sum_cons, hsum]
        by_cases h1 : k = 1
        · subst h1
          simp
        · have h0 : k - 1 ≠ 0 := by omega
          have hk0 : k ≠ 0 := by omega
          simp only [h1, false_and, if_false, h0, hk0]
          omega
      · have hsplit : k = 1 + (k - 1) := by omega
        simp only [read_batches, hread]
        conv_rhs => rw [hsplit, view_bytes_append]
        simp only [Nat.mul_one]
        cases view_bytes mem 8 cur.position 1 <;>
          cases view_bytes mem 8 (cur.position + 8) (k - 1) <;> rfl

/-- Draining gives the same batches over two columns that a relation `R` ties, when
every call is blind to what `R` lets differ. -/
theorem drain_swap {β : Type} (next : cx_column_cursor → Option (β × cx_column_cursor))
    (R : cx_column → cx_column → Prop) (hrefl : ∀ col, R col col)
    (hswap : ∀ col2 cur, R col2 cur.column →
      next { cur with column := col2 }
        = (next cur).map (fun r => (r.1, { r.2 with column := col2 })))
    (fuel : Nat) (col2 : cx_column) (cur : cx_column_cursor) (hR : R col2 cur.column) :
    cx_column_cursor_drain next fuel { cur with column := col2 }
      = cx_column_cursor_drain next fuel cur := by
  induction fuel generalizing cur with
  | zero => simp [cx_column_cursor_drain, cx_column_cursor_valid]
  | succ fuel ih =>
    rw [cx_column_cursor_drain, cx_column_cursor_drain, hswap col2 cur hR]
    have hv : cx_column_cursor_valid { cur with column := col2 }
        = cx_column_cursor_valid cur := rfl
    rw [hv]
    cases hn : next cur with
    | none => simp
    | some r =>
      obtain ⟨b, cur'⟩ := r
      have hself := hswap cur.column cur (hrefl _)
      rw [hn] at hself
      have hcol : cur'.column = cur.column := by
        simp only [Option.map_some', Option.some.injEq, Prod.mk.injEq, true_and] at hself
        have := congrArg cx_column_cursor.column hself
        exact this
      simp only [Option.map_some']
      rw [ih cur' (by rw [hcol]; exact hR)]

/-- What a bit column satisfies after any returning sequence of appends. -/
theorem appended_bit (cfg : Build) (a0 : Alloc) (e : cx_encoding_type) (c0 : cx_column)
    (calls : List (Alloc × PutCall)) (rets : List Bool) (c : cx_column)
    (h0 : cx_column_new cfg a0 cx_column_type.BIT e = some c0)
    (h : cx_column_put_all cfg c0 calls = some (rets, c)) :
    c.heap_wf ∧ c.type = cx_column_type.BIT ∧ c.offset = (c.count + 63) / 64 * 8 := by
  obtain ⟨hwf0, hcnt0, hoff0, hty0, _, _⟩ := cx_column_new_spec cfg a0 _ e c0 h0
  exact cx_column_put_all_invariant cfg
    (fun c => c.heap_wf ∧ c.type = cx_column_type.BIT ∧ c.offset = (c.count + 63) / 64 * 8)
    (by
      intro a c call r c' ⟨hwf, hty, hinv⟩ hcall
      obtain ⟨h1, h2, h3, _⟩ := bit_step cfg a c call r c' hwf hty hinv hcall
      exact ⟨h1, by rw [h2, hty], h3⟩)
    calls c0 rets c ⟨hwf0, hty0, by rw [hoff0, hcnt0]⟩ h

theorem cx_column_new_mmapped_spec (cfg : Build) (a : Alloc) (t : cx_column_type)
    (e : cx_encoding_type) (ptr : List Nat) (size count : Nat) (m : cx_column)
    (h : cx_column_new_mmapped cfg a t e ptr size count = some m) :
    m = { buffer := ptr, count := count, offset := size, size := size, type := t,
          encoding := e, mmapped := true } := by
  unfold cx_column_new_mmapped cx_column_new_size at h
  split at h
  · cases h
  · rename_i col hcol
    split at hcol
    · cases hcol
    · simp only [ne_eq, not_true_eq_false, if_false] at hcol
      injection hcol with hcol
      injection h with h
      rw [← h, ← hcol]

theorem view_bytes_some (mem : List Nat) (sz p n : Nat) (h : p + sz * n ≤ mem.length) :
    ∃ xs, view_bytes mem sz p n = some xs := by
  induction n generalizing p with
  | zero => exact ⟨[], rfl⟩
  | succ n ih =>
    have h1 : p + sz ≤ mem.length := by
      have : sz * (n + 1) = sz + sz * n := by ring
      omega
    obtain ⟨xs, hxs⟩ := ih (p + sz) (by
      have : sz * (n + 1) = sz + sz * n := by ring
      omega)
    exact ⟨(mem.drop p).take sz :: xs, by
      simp only [view_bytes, read_bytes_some mem p sz h1, hxs]⟩

/-- A cursor over any bit column of `n` rows that keeps one word per 64 rows yields
the words of the column. -/
theorem yields_bits (a : Alloc) (madvise_ok : Bool) (c : cx_column) (cur : cx_column_cursor)
    (hty : c.type = cx_column_type.BIT) (hoff : c.offset = (c.count + 63) / 64 * 8)
    (hwin : c.offset ≤ c.buffer.length)
    (hcur : cx_column_cursor_new a madvise_ok c = some cur) :
    YieldsBits cur c.count := by
  have hc := cx_column_cursor_new_spec a madvise_ok c cur hcur
  subst hc
  intro fuel hfuel
  obtain ⟨bs, h1, _, h3, h4, h5⟩ := drain_bit c.buffer fuel ((c.count + 63) / 64)
    { column := c, start := 0, end_ := c.offset, position := 0 } hty
    (by simp only [hoff]; omega) hfuel
  obtain ⟨xs, hxs⟩ := view_bytes_some c.buffer 8 0 ((c.count + 63) / 64) (by omega)
  refine ⟨bs, xs.map le_value, h1, fun b hb => (h3 b hb).2, ?_, ?_, ?_⟩
  · rw [h4]
    dsimp only
    by_cases h0 : (c.count + 63) / 64 = 0
    · rw [if_pos h0]; omega
    · rw [if_neg h0]
      by_cases ht : c.count % 64 = 0
      · rw [if_pos ht]; omega
      · rw [if_neg ht]; omega
  · have := read_batches_map le_value (fun p _ => view_bytes c.buffer 8 p 1) bs
    simp only [view_u64]
    rw [this, h5]
    simp only at hxs ⊢
    rw [hxs]
    rfl
  · simp only [view_u64, hxs]
    rfl

/-- The part of C7 that holds on every target.  `cx_column_export(c)` returns the
buffer head and `size == c.offset`, the column being an input only; the column that
`cx_column_new_mmapped(type, encoding, bytes, size, cx_column_count(c))` builds from
the exported bytes has the bytes, offset, count and type of `c`, and its cursor
returns, call by call, the batches a cursor over `c` returns, for every batch
function; for an I32, I64 or STR column built by appends it therefore yields what
was appended, the int32 / int64 values and the strings.  For a bit column it yields
the words of the buffer with available counts that sum to the row count; whether
these words hold the appended rows depends on the shift of `cx_column_put_bit`
(`cx_column_export_roundtrip_masked`). -/
theorem cx_column_export_roundtrip (cfg : Build) (c m : cx_column) (a ac am : Alloc)
    (kc km : Bool) (cur_c cur_m : cx_column_cursor)
    (hm : cx_column_new_mmapped cfg a c.type c.encoding (cx_column_export c).1
      (cx_column_export c).2 (cx_column_count c) = some m)
    (hcc : cx_column_cursor_new ac kc c = some cur_c)
    (hcm : cx_column_cursor_new am km m = some cur_m) :
    cx_column_export c = (c.buffer, c.offset) ∧
    (m.buffer = c.buffer ∧ m.offset = c.offset ∧ m.count = c.count ∧ m.type = c.type ∧
      m.encoding = c.encoding ∧ m.mmapped = true) ∧
    (∀ fuel,
      cx_column_cursor_drain cx_column_cursor_next_batch_bit fuel cur_m
        = cx_column_cursor_drain cx_column_cursor_next_batch_bit fuel cur_c ∧
      cx_column_cursor_drain cx_column_cursor_next_batch_i32 fuel cur_m
        = cx_column_cursor_drain cx_column_cursor_next_batch_i32 fuel cur_c ∧
      cx_column_cursor_drain cx_column_cursor_next_batch_i64 fuel cur_m
        = cx_column_cursor_drain cx_column_cursor_next_batch_i64 fuel cur_c ∧
      cx_column_cursor_drain (cx_column_cursor_next_batch_str cfg) fuel cur_m
        = cx_column_cursor_drain (cx_column_cursor_next_batch_str cfg) fuel cur_c) ∧
    cur_m.column.buffer = cur_c.column.buffer ∧
    (∀ a0 e c0 (vs : List (Alloc × Int)) rets, (∀ p ∈ vs, -2 ^ 31 ≤ p.2 ∧ p.2 < 2 ^ 31) →
      cx_column_new cfg a0 cx_column_type.I32 e = some c0 →
      cx_column_put_all cfg c0 (vs.map (fun p => (p.1, PutCall.i32 p.2))) = some (rets, c) →
      (∀ r ∈ rets, r = true) →
      Yields cx_column_cursor_next_batch_i32 view_i32 cur_m (vs.map (fun p => p.2))) ∧
    (∀ a0 e c0 (vs : List (Alloc × Int)) rets, (∀ p ∈ vs, -2 ^ 63 ≤ p.2 ∧ p.2 < 2 ^ 63) →
      cx_column_new cfg a0 cx_column_type.I64 e = some c0 →
      cx_column_put_all cfg c0 (vs.map (fun p => (p.1, PutCall.i64 p.2))) = some (rets, c) →
      (∀ r ∈ rets, r = true) →
      Yields cx_column_cursor_next_batch_i64 view_i64 cur_m (vs.map (fun p => p.2))) ∧
    (∀ a0 e c0 (ss : List (Alloc × List Nat)) rets, (∀ p ∈ ss, ∀ b ∈ p.2, b ≠ 0) →
      cx_column_new cfg a0 cx_column_type.STR e = some c0 →
      cx_column_put_all cfg c0 (ss.map (fun p => (p.1, PutCall.str p.2))) = some (rets, c) →
      (∀ r ∈ rets, r = true) →
      YieldsStr cfg cur_m (ss.map (fun p => p.2))) ∧
    (∀ a0 e c0 calls rets,
      cx_column_new cfg a0 cx_column_type.BIT e = some c0 →
      cx_column_put_all cfg c0 calls = some (rets, c) →
      YieldsBits cur_m c.count) := by
  have hmeq := cx_column_new_mmapped_spec cfg a _ _ _ _ _ m hm
  simp only [cx_column_export, cx_column_count] at hmeq
  have hb : m.buffer = c.buffer := by rw [hmeq]
  have ho : m.offset = c.offset := by rw [hmeq]
  have hn : m.count = c.count := by rw [hmeq]
  have ht : m.type = c.type := by rw [hmeq]
  have he : m.encoding = c.encoding := by rw [hmeq]
  have hmm : m.mmapped = true := by rw [hmeq]
  have hc := cx_column_cursor_new_spec ac kc c cur_c hcc
  have hcm' := cx_column_cursor_new_spec am km m cur_m hcm
  have hswapped : cur_m = { cur_c with column := m } := by
    rw [hcm', hc, ho]
  refine ⟨rfl, ⟨hb, ho, hn, ht, he, hmm⟩, ?_, by rw [hcm', hc]; exact hb, ?_, ?_, ?_, ?_⟩
  · intro fuel
    rw [hswapped]
    have hcol : cur_c.column = c := by rw [hc]
    refine ⟨?_, ?_, ?_, ?_⟩
    · exact drain_swap _ (fun x y => x.type = y.type ∧ x.count = y.count)
        (fun _ => ⟨rfl, rfl⟩) (fun col2 cur h => next_batch_bit_swap col2 cur h.1 h.2)
        fuel m cur_c (by rw [hcol]; exact ⟨ht, hn⟩)
    · exact drain_swap _ (fun x y => x.type = y.type)
        (fun _ => rfl) (fun col2 cur h => next_batch_i32_swap col2 cur h)
        fuel m cur_c (by rw [hcol]; exact ht)
    · exact drain_swap _ (fun x y => x.type = y.type)
        (fun _ => rfl) (fun col2 cur h => next_batch_i64_swap col2 cur h)
        fuel m cur_c (by rw [hcol]; exact ht)
    · exact drain_swap _ (fun x y => x.type = y.type ∧ x.buffer = y.buffer)
        (fun _ => ⟨rfl, rfl⟩) (fun col2 cur h => next_batch_str_swap cfg col2 cur h.1 h.2)
        fuel m cur_c (by rw [hcol]; exact ⟨ht, hb⟩)
  · intro a0 e c0 vs rets hrange h0 h hall
    obtain ⟨hwf, hty, _, _, hbuf⟩ := appended_i32 cfg a0 e c0 vs rets c h0 h hall
    exact yields_i32 am km m cur_m _
      (by intro v hv; simp only [List.mem_map] at hv; obtain ⟨p, hp, rfl⟩ := hv
          exact hrange p hp)
      (by rw [ht, hty]) (by rw [ho, hb, hwf.2.1]; exact hwf.2.2.1)
      (by rw [ho, hb]; exact hbuf) hcm
  · intro a0 e c0 vs rets hrange h0 h hall
    obtain ⟨hwf, hty, _, _, hbuf⟩ := appended_i64 cfg a0 e c0 vs rets c h0 h hall
    exact yields_i64 am km m cur_m _
      (by intro v hv; simp only [List.mem_map] at hv; obtain ⟨p, hp, rfl⟩ := hv
          exact hrange p hp)
      (by rw [ht, hty]) (by rw [ho, hb, hwf.2.1]; exact hwf.2.2.1)
      (by rw [ho, hb]; exact hbuf) hcm
  · intro a0 e c0 ss rets hnul h0 h hall
    obtain ⟨hwf, hty, _, _, hbuf⟩ := appended_str cfg a0 e c0 ss rets c hnul h0 h hall
    exact yields_str cfg am km m cur_m _
      (by intro s hs; simp only [List.mem_map] at hs; obtain ⟨p, hp, rfl⟩ := hs
          exact hnul p hp)
      (by rw [ht, hty]) (by rw [ho, hb]; exact hbuf)
      (by rw [ho, hb, hwf.2.1]; exact hwf.2.2.1) hcm
  · intro a0 e c0 calls rets h0 h
    obtain ⟨hwf, hty, hoff⟩ := appended_bit cfg a0 e c0 calls rets c h0 h
    rw [← hn]
    exact yields_bits am km m cur_m (by rw [ht, hty]) (by rw [ho, hn]; exact hoff)
      (by rw [ho, hb, hwf.2.1]; exact hwf.2.2.1) hcm

/-- The export round trip of an I32 column holding 1 and -2, exported and mapped
back. -/
theorem cx_column_export_roundtrip_witness :
    cx_column_put_all ⟨false, none, true, false⟩ (sample_new_column cx_column_type.I32)
        ([(alloc_ok, 1), (alloc_ok, -2)].map (fun p => (p.1, PutCall.i32 p.2)))
        = some ([true, true], sample_i32_appended) ∧
      cx_column_new_mmapped ⟨false, none, true, false⟩ alloc_ok sample_i32_appended.type
        sample_i32_appended.encoding (cx_column_export sample_i32_appended).1
        (cx_column_export sample_i32_appended).2 (cx_column_count sample_i32_appended)
        = some sample_i32_mapped ∧
      cx_column_cursor_new alloc_ok true sample_i32_appended
        = some ⟨sample_i32_appended, 0, 8, 0⟩ ∧
      cx_column_cursor_new alloc_ok true sample_i32_mapped
        = some ⟨sample_i32_mapped, 0, 8, 0⟩ ∧
      cx_column_cursor_drain cx_column_cursor_next_batch_i32 2 ⟨sample_i32_mapped, 0, 8, 0⟩
        = cx_column_cursor_drain cx_column_cursor_next_batch_i32 2
            ⟨sample_i32_appended, 0, 8, 0⟩ ∧
      Yields cx_column_cursor_next_batch_i32 view_i32 ⟨sample_i32_mapped, 0, 8, 0⟩
        [1, -2] := by
  have h := cx_column_export_roundtrip ⟨false, none, true, false⟩ sample_i32_appended
    sample_i32_mapped alloc_ok alloc_ok alloc_ok true true ⟨sample_i32_appended, 0, 8, 0⟩
    ⟨sample_i32_mapped, 0, 8, 0⟩ rfl rfl rfl
  exact ⟨rfl, rfl, rfl, rfl, (h.2.2.1 2).2.1,
    h.2.2.2.2.1 alloc_ok cx_encoding_type.NONE (sample_new_column cx_column_type.I32)
      [(alloc_ok, 1), (alloc_ok, -2)] [true, true] (by decide) rfl rfl (by decide)⟩

/-- The defect behind C5 (and C7, C19): inside a word `cx_column_put_bit` shifts by
`count`, not by `count % 64`.  On a target whose shifter does not mask the count, a
true value appended at a row `>= 64` that does not start a word leaves the buffer as
it was: no bit is set. -/
theorem cx_column_put_bit_wide_shift (cfg : Build) (a : Alloc) (c : cx_column)
    (hmask : cfg.shift_masks = false) (hcnt : c.count % 64 ≠ 0) (h64 : 64 ≤ c.count)
    (hwf : c.heap_wf) (hty : c.type = cx_column_type.BIT) (h8 : 8 ≤ c.offset)
    (hbytes : ∀ b ∈ c.buffer, b < 256) :
    cx_column_put_bit cfg a c true = some (true, { c with count := c.count + 1 }) := by
  obtain ⟨hm, hlen, hoff, hpos, hword⟩ := hwf
  have hshl : shl64 cfg 1 c.count = 0 := by
    unfold shl64
    rw [hmask]
    simp only [Bool.false_eq_true, if_false, Nat.one_shiftLeft, WORD]
    exact Nat.mod_eq_zero_of_dvd (Nat.pow_dvd_pow 2 h64)
  have hin : c.offset - 8 + 8 ≤ c.buffer.length := by omega
  have hwlen : ((c.buffer.drop (c.offset - 8)).take 8).length = 8 := by
    rw [List.length_take, List.length_drop]; omega
  have hback : le_bytes 8 (le_value ((c.buffer.drop (c.offset - 8)).take 8) ||| 0)
      = (c.buffer.drop (c.offset - 8)).take 8 := by
    rw [Nat.or_zero]
    have := le_bytes_le_value ((c.buffer.drop (c.offset - 8)).take 8) (by
      intro b hb
      exact hbytes b (List.mem_of_mem_drop (List.mem_of_mem_take hb)))
    rw [hwlen] at this
    exact this
  unfold cx_column_put_bit
  rw [if_neg hcnt, if_neg (by simp [hty, hm]), if_pos rfl, if_neg (by omega),
    read_bytes_some _ _ _ hin]
  dsimp only
  rw [hshl, hback]
  unfold memcpy
  rw [hwlen, if_pos hin]
  dsimp only
  have hsame : c.buffer.take (c.offset - 8) ++ (c.buffer.drop (c.offset - 8)).take 8
      ++ c.buffer.drop (c.offset - 8 + 8) = c.buffer := by
    rw [List.append_assoc, ← List.drop_drop, List.take_append_drop, List.take_append_drop]
  rw [hsame]

/-- C5, the failing input: 66 bits appended to a new BIT column, only the last one
(row 65) true, on a target whose shifter does not mask the count.  Every call
returns `true`, the column counts 66 rows in two words, and both words are 0: bit 1
of word 1, which should hold row 65, is not set. -/
theorem cx_column_put_bit_row_65 :
    ∃ c, cx_column_put_all ⟨false, none, false, false⟩ (sample_new_column cx_column_type.BIT)
        ((List.range 66).map (fun i => (alloc_ok, PutCall.bit (decide (i = 65)))))
        = some (List.replicate 66 true, c) ∧
      c.count = 66 ∧ c.offset = 16 ∧ view_u64 c.buffer 0 2 = some [0, 0] := by
  refine ⟨_, rfl, rfl, rfl, rfl⟩

/-! ### Bit packing on a target that masks the shift count -/

theorem testBit_pack_bits (l : List Bool) (i : Nat) :
    (pack_bits l).testBit i = l.getD i false := by
  induction l generalizing i with
  | nil => simp [pack_bits]
  | cons b bs ih =>
    cases i with
    | zero =>
      rw [Nat.testBit_zero, List.getD_cons_zero]
      cases b <;> simp [pack_bits]
    | succ i =>
      rw [Nat.testBit_add_one, List.getD_cons_succ, ← ih i]
      congr 1
      cases b
      · simp [pack_bits]
      · simp only [pack_bits, if_true]; omega

theorem pack_bits_lt (l : List Bool) : pack_bits l < 2 ^ l.length := by
  induction l with
  | nil => simp [pack_bits]
  | cons b bs ih =>
    simp only [pack_bits, List.length_cons, pow_succ]
    cases b <;> simp <;> omega

theorem pack_bits_snoc (l : List Bool) (v : Bool) :
    pack_bits (l ++ [v]) = pack_bits l ||| (if v then 2 ^ l.length else 0) := by
  apply Nat.eq_of_testBit_eq
  intro i
  rw [Nat.testBit_or, testBit_pack_bits, testBit_pack_bits]
  rcases Nat.lt_trichotomy i l.length with h | h | h
  · rw [List.getD_append _ _ _ _ h]
    cases v
    · simp
    · have : ¬ l.length = i := by omega
      simp [Nat.testBit_two_pow, this]
  · subst h
    rw [List.getD_append_right _ _ _ _ (le_refl _), Nat.sub_self]
    have hl : l.getD l.length false = false := by
      rw [List.getD_eq_getElem?_getD, List.getElem?_eq_none (le_refl _)]
      rfl
    rw [hl]
    cases v <;> simp [Nat.testBit_two_pow]
  · rw [List.getD_append_right _ _ _ _ (by omega)]
    have hl : l.getD i false = false := by
      rw [List.getD_eq_getElem?_getD, List.getElem?_eq_none (by omega)]
      rfl
    have h1 : [v].getD (i - l.length) false = false := by
      rw [List.getD_eq_getElem?_getD, List.getElem?_eq_none (by simp; omega)]
      rfl
    have : ¬ l.length = i := by omega
    rw [h1, hl]
    cases v <;> simp [Nat.testBit_two_pow, this]

theorem le_value_le_bytes_pack (l : List Bool) (h : l.length ≤ 64) :
    le_value (le_bytes 8 (pack_bits l)) = pack_bits l := by
  rw [le_value_le_bytes]
  apply Nat.mod_eq_of_lt
  calc pack_bits l < 2 ^ l.length := pack_bits_lt l
    _ ≤ 2 ^ 64 := Nat.pow_le_pow_right (by norm_num) h
    _ = 256 ^ 8 := by norm_num

/-- Two memories that agree on their first `n` bytes agree on every window inside. -/
theorem window_eq (A B : List Nat) (n p k : Nat) (h : A.take n = B.take n)
    (hin : p + k ≤ n) : (A.drop p).take k = (B.drop p).take k := by
  have e : ∀ M : List Nat, (M.drop p).take k = ((M.take n).drop p).take k := by
    intro M
    rw [List.drop_take, List.take_take]
    congr 1
    omega
  rw [e A, e B, h]

theorem bits_window_snoc (bits : List Bool) (v : Bool) (j : Nat)
    (h : 64 * j + 64 ≤ bits.length) :
    ((bits ++ [v]).drop (64 * j)).take 64 = (bits.drop (64 * j)).take 64 := by
  rw [List.drop_append_of_le_length (by omega),
    List.take_append_of_le_length (by rw [List.length_drop]; omega)]

theorem bits_last_snoc (bits : List Bool) (v : Bool) (j : Nat)
    (h1 : 64 * j ≤ bits.length) (h2 : bits.length < 64 * j + 64) :
    ((bits ++ [v]).drop (64 * j)).take 64 = (bits.drop (64 * j)).take 64 ++ [v] ∧
      ((bits.drop (64 * j)).take 64).length = bits.length - 64 * j := by
  have hl : (bits.drop (64 * j)).length = bits.length - 64 * j := List.length_drop _ _
  rw [List.drop_append_of_le_length h1,
    List.take_of_length_le (by rw [List.length_append, hl]; simp; omega),
    List.take_of_length_le (by rw [hl]; omega)]
  exact ⟨rfl, hl⟩

theorem shl64_masked (cfg : Build) (hmask : cfg.shift_masks = true) (n : Nat) :
    shl64 cfg 1 n = 2 ^ (n % 64) := by
  unfold shl64
  rw [hmask, if_pos rfl, Nat.one_shiftLeft]
  apply Nat.mod_eq_of_lt
  exact Nat.pow_lt_pow_right (by norm_num) (Nat.mod_lt _ (by norm_num))

/-- On a target that masks the shift count, a successful `cx_column_put_bit` packs
the new row behind the rows the column holds. -/
theorem bit_packed_step (cfg : Build) (hmask : cfg.shift_masks = true) (a : Alloc)
    (c : cx_column) (v : Bool) (c' : cx_column) (bits : List Bool) (hwf : c.heap_wf)
    (hty : c.type = cx_column_type.BIT) (hoff : c.offset = (c.count + 63) / 64 * 8)
    (hp : bit_packed c bits)
    (h : cx_column_put_bit cfg a c v = some (true, c')) :
    bit_packed c' (bits ++ [v]) := by
  obtain ⟨hcnt, hwords⟩ := hp
  have hlen : c.buffer.length = c.size := hwf.2.1
  have hle : c.offset ≤ c.size := hwf.2.2.1
  by_cases h0 : c.count % 64 = 0
  · -- a new word
    have hcall : cx_column_put_call cfg a c (PutCall.bit v) = some (true, c') := h
    obtain ⟨_, _, g3, g4, _, _, g7, _⟩ := cx_column_put_call_true cfg a c (PutCall.bit v) c'
      hwf (fun _ _ => h0) hcall
    have hb8 : (PutCall.bit v).bytes.length = 8 := le_bytes_length _ _
    rw [hb8] at g4
    have htk : (c.buffer.take c.offset).length = c.offset := by
      rw [List.length_take]; omega
    have hpre : c'.buffer.take c.offset = c.buffer.take c.offset := by
      have := congrArg (List.take c.offset) g7
      rw [List.take_take, List.take_left' htk, g4] at this
      rw [← this]; congr 1; omega
    refine ⟨by rw [g3, hcnt]; simp, ?_⟩
    intro j hj
    simp only [List.length_append, List.length_singleton] at hj
    by_cases hjl : 64 * j + 64 ≤ bits.length
    · rw [bits_window_snoc bits v j hjl, ← hwords j (by omega)]
      exact window_eq c'.buffer c.buffer c.offset (8 * j) 8 hpre (by omega)
    · have hj0 : 64 * j = bits.length := by omega
      have hoj : 8 * j = c.offset := by omega
      have hnew : (c'.buffer.drop c.offset).take 8 = (PutCall.bit v).bytes := by
        have := congrArg (List.drop c.offset) g7
        rw [List.drop_take, List.drop_left' htk, g4] at this
        rw [← this]; congr 1; omega
      rw [hoj, hnew, hj0, List.drop_left' rfl]
      simp [PutCall.bytes, pack_bits]
  · -- inside the last word
    have h8 : 8 ≤ c.offset := by omega
    obtain ⟨c'', e1, e2, _, _, _, _, _, e8, e9, e10, e11⟩ :=
      cx_column_put_bit_inside cfg a c v h0 hwf hty h8
    rw [e1] at h
    injection h with h
    injection h with _ h
    subst h
    refine ⟨by rw [e2, hcnt]; simp, ?_⟩
    intro j hj
    simp only [List.length_append, List.length_singleton] at hj
    have hlast : c.offset - 8 = 8 * (c.count / 64) := by omega
    by_cases hjl : 64 * j + 64 ≤ bits.length
    · rw [bits_window_snoc bits v j hjl, ← hwords j (by omega)]
      exact window_eq c''.buffer c.buffer (c.offset - 8) (8 * j) 8 e8 (by omega)
    · have hj0 : j = c.count / 64 := by omega
      subst hj0
      obtain ⟨hsn, hln⟩ := bits_last_snoc bits v (c.count / 64) (by omega) (by omega)
      have hold := hwords (c.count / 64) (by omega)
      rw [hsn, pack_bits_snoc, hln]
      cases v with
      | false =>
        rw [e10 rfl, hold]
        simp
      | true =>
        have hrd := e11 rfl
        rw [hlast] at hrd
        have hin : 8 * (c.count / 64) + 8 ≤ c''.buffer.length := by
          unfold read_bytes at hrd
          split at hrd
          · assumption
          · cases hrd
        rw [read_bytes_some _ _ _ hin] at hrd
        injection hrd with hrd
        rw [hrd, hold, le_value_le_bytes_pack _ (by rw [List.length_take]; omega),
          shl64_masked cfg hmask]
        simp only [if_true]
        congr 3
        omega

theorem view_bytes_windows (mem : List Nat) (sz n p : Nat) (h : p + sz * n ≤ mem.length) :
    view_bytes mem sz p n
      = some ((List.range n).map (fun j => (mem.drop (p + sz * j)).take sz)) := by
  induction n generalizing p with
  | zero => rfl
  | succ n ih =>
    have hmul : sz * (n + 1) = sz + sz * n := by ring
    rw [view_bytes, read_bytes_some mem p sz (by omega), ih (p + sz) (by omega),
      List.range_succ_eq_map, List.map_cons, List.map_map]
    simp only [Nat.mul_zero, Nat.add_zero]
    congr 2
    apply List.map_congr_left
    intro j _
    simp only [Function.comp_apply, Nat.succ_eq_add_one]
    congr 2
    ring

/-- On a target that masks the shift count, successful bit appends keep the column
packed. -/
theorem bit_packed_run (cfg : Build) (hmask : cfg.shift_masks = true)
    (bs : List (Alloc × Bool)) (c : cx_column) (rets : List Bool) (c' : cx_column)
    (bits : List Bool) (hwf : c.heap_wf) (hty : c.type = cx_column_type.BIT)
    (hoff : c.offset = (c.count + 63) / 64 * 8) (hp : bit_packed c bits)
    (h : cx_column_put_all cfg c (bs.map (fun p => (p.1, PutCall.bit p.2))) = some (rets, c'))
    (hall : ∀ r ∈ rets, r = true) :
    c'.heap_wf ∧ c'.type = cx_column_type.BIT ∧ c'.offset = (c'.count + 63) / 64 * 8 ∧
      bit_packed c' (bits ++ bs.map (fun p => p.2)) := by
  induction bs generalizing c rets bits with
  | nil =>
    simp only [List.map_nil, cx_column_put_all, Option.some.injEq, Prod.mk.injEq] at h
    rw [← h.2]
    simpa using ⟨hwf, hty, hoff, hp⟩
  | cons p rest ih =>
    obtain ⟨a, v⟩ := p
    obtain ⟨r, c1, rs, h1, h2, h3⟩ := cx_column_put_all_cons cfg c a (PutCall.bit v) _ rets c' h
    subst h3
    have hr : r = true := hall r (by simp)
    subst hr
    obtain ⟨g1, g2, g3, _⟩ := bit_step cfg a c (PutCall.bit v) true c1 hwf hty hoff h1
    have g4 := bit_packed_step cfg hmask a c v c1 bits hwf hty hoff hp h1
    have := ih c1 rs (bits ++ [v]) g1 (by rw [g2, hty]) g3 g4 h2
      (fun x hx => hall x (by simp [hx]))
    simpa using this

theorem getD_window (bits : List Bool) (i : Nat) :
    ((bits.drop (64 * (i / 64))).take 64).getD (i % 64) false = bits.getD i false := by
  have hi : 64 * (i / 64) + i % 64 = i := Nat.div_add_mod i 64
  have hlt : i % 64 < 64 := Nat.mod_lt _ (by norm_num)
  simp only [List.getD_eq_getElem?_getD, List.getElem?_take, hlt, if_true,
    List.getElem?_drop, hi]

/-- The rows read off the packed words are the rows packed, and zero past them. -/
theorem testBit_packed_words (bits : List Bool) (i : Nat) :
    ((packed_words bits).getD (i / 64) 0).testBit (i % 64) = bits.getD i false := by
  unfold packed_words
  by_cases h : i / 64 < (bits.length + 63) / 64
  · rw [List.getD_eq_getElem?_getD, List.getElem?_map, List.getElem?_range h]
    simp only [Option.map_some', Option.getD_some]
    rw [testBit_pack_bits, getD_window]
  · have hout : bits.length ≤ i := by omega
    rw [List.getD_eq_getElem?_getD, List.getElem?_eq_none (by simp; omega)]
    simp only [Option.getD_none, Nat.zero_testBit]
    rw [List.getD_eq_getElem?_getD, List.getElem?_eq_none hout]
    rfl

/-- The words of a packed column, viewed as `uint64_t`, are the packed words. -/
theorem view_u64_packed (c : cx_column) (bits : List Bool) (hp : bit_packed c bits)
    (hwin : (bits.length + 63) / 64 * 8 ≤ c.buffer.length) :
    view_u64 c.buffer 0 ((bits.length + 63) / 64) = some (packed_words bits) := by
  unfold view_u64 packed_words
  rw [view_bytes_windows c.buffer 8 _ 0 (by omega)]
  simp only [Option.map_some', List.map_map, Option.some.injEq]
  apply List.map_congr_left
  intro j hj
  simp only [List.mem_range] at hj
  simp only [Function.comp_apply, Nat.zero_add]
  rw [hp.2 j hj, le_value_le_bytes_pack _ (by rw [List.length_take]; omega)]

/-- C5 on a target that masks the shift count (x86-64, AArch64): for every sequence
of booleans appended with `cx_column_put_bit` to a column created by
`cx_column_new(BIT)`, the buffer holds `ceil(N / 64)` words in which bit `i mod 64`
of word `i div 64` is `b_i` for `i < N` and every bit past `N` is zero, and the
cursor returns these words in order with available counts that sum to `N`. -/
theorem cx_column_bit_roundtrip_masked (cfg : Build) (hmask : cfg.shift_masks = true)
    (a0 : Alloc) (e : cx_encoding_type) (c0 : cx_column) (bs : List (Alloc × Bool))
    (rets : List Bool) (c : cx_column)
    (h0 : cx_column_new cfg a0 cx_column_type.BIT e = some c0)
    (h : cx_column_put_all cfg c0 (bs.map (fun p => (p.1, PutCall.bit p.2))) = some (rets, c))
    (hall : ∀ r ∈ rets, r = true) :
    c.count = bs.length ∧
    view_u64 c.buffer 0 ((bs.length + 63) / 64) = some (packed_words (bs.map (fun p => p.2))) ∧
    (packed_words (bs.map (fun p => p.2))).length = (bs.length + 63) / 64 ∧
    (∀ i, ((packed_words (bs.map (fun p => p.2))).getD (i / 64) 0).testBit (i % 64)
      = (bs.map (fun p => p.2)).getD i false) ∧
    (∀ ac k cur, cx_column_cursor_new ac k c = some cur → YieldsBits cur bs.length) := by
  obtain ⟨hwf0, hcnt0, hoff0, hty0, _, _⟩ := cx_column_new_spec cfg a0 _ e c0 h0
  obtain ⟨hwf, hty, hoff, hp⟩ := bit_packed_run cfg hmask bs c0 rets c [] hwf0 hty0
    (by rw [hoff0, hcnt0]) ⟨by rw [hcnt0]; rfl, by intro j hj; simp at hj⟩ h hall
  rw [List.nil_append] at hp
  have hN : c.count = bs.length := by rw [hp.1]; simp
  have hwin : c.offset ≤ c.buffer.length := by rw [hwf.2.1]; exact hwf.2.2.1
  refine ⟨hN, ?_, by simp [packed_words], testBit_packed_words _, ?_⟩
  · have := view_u64_packed c _ hp (by simp only [List.length_map]; omega)
    simpa using this
  · intro ac k cur hcur
    rw [← hN]
    exact yields_bits ac k c cur hty hoff hwin hcur

/-- The rows true, false, true appended on a masking target pack to the word 5. -/
theorem cx_column_bit_roundtrip_masked_witness :
    ∃ c, cx_column_put_all ⟨false, none, true, false⟩ (sample_new_column cx_column_type.BIT)
        ([(alloc_ok, true), (alloc_ok, false), (alloc_ok, true)].map
          (fun p => (p.1, PutCall.bit p.2)))
        = some ([true, true, true], c) ∧
      c.count = 3 ∧ view_u64 c.buffer 0 1 = some [5] := by
  refine ⟨_, rfl, ?_⟩
  have h := cx_column_bit_roundtrip_masked ⟨false, none, true, false⟩ rfl alloc_ok
    cx_encoding_type.NONE (sample_new_column cx_column_type.BIT)
    [(alloc_ok, true), (alloc_ok, false), (alloc_ok, true)] [true, true, true] _ rfl rfl
    (by decide)
  exact ⟨h.1, h.2.1⟩

/-! ### The numeric kernels on batches longer than the scanned prefix -/

/-- The scalar loop stops at the first index outside the batch. -/
theorem naive_none (op : MatchOp) (batch : List Int) (cmp : Int) (n : Nat)
    (hn : batch.length < n) (h64 : n ≤ 64) :
    (List.range n).foldlM (naive_step op batch cmp) 0 = none := by
  induction n with
  | zero => omega
  | succ n ih =>
    rw [List.range_succ, List.foldlM_append]
    rcases Nat.lt_or_ge batch.length n with h | h
    · rw [ih h (by omega)]; rfl
    · have hlen : batch.length = n := by omega
      obtain ⟨m, hm, _⟩ := naive_scan op batch cmp n (by omega) (by omega)
      rw [hm]
      have hget : batch[n]? = none := List.getElem?_eq_none (by omega)
      simp [naive_step, hget]

/-- The first SIMD loop stops at the first chunk that does not lie in the batch. -/
theorem simd_masks_none (op : MatchOp) (batch : List Int) (cmp : Int) (L n : Nat)
    (hn : batch.length < n * L) :
    cx_simd_masks op batch cmp L n = none := by
  induction n with
  | zero => simp at hn
  | succ n ih =>
    have hmul : (n + 1) * L = n * L + L := by ring
    have hload : cx_simd_load batch (n * L) L = none := by
      unfold cx_simd_load; rw [if_neg (by omega)]
    simp only [cx_simd_masks, hload]
    cases cx_simd_masks op batch cmp L n <;> rfl

/-- A mask is determined by its bits. -/
theorem mask_eq_of_bits (p : Nat → Bool) (m1 m2 : Nat)
    (h1 : ∀ i, m1.testBit i = p i) (h2 : ∀ i, m2.testBit i = p i) : m1 = m2 :=
  Nat.eq_of_testBit_eq (fun i => by rw [h1, h2])

/-- The SIMD variant and the scalar variant on 64 elements return the same. -/
theorem simd_eq_naive (width sz : Nat) (hw : width = 16 ∨ width = 32 ∨ width = 64)
    (hsz : sz = 4 ∨ sz = 8) (op : MatchOp) (batch : List Int) (cmp : Int) :
    cx_match_simd width sz op batch cmp = cx_match_naive op 64 batch cmp := by
  have key : 64 / width * sz * (width / sz) = 64 := by
    rcases hw with rfl | rfl | rfl <;> rcases hsz with rfl | rfl <;> rfl
  unfold cx_match_naive
  rw [if_pos (le_refl 64)]
  rcases Nat.lt_or_ge batch.length 64 with h | h
  · rw [naive_none op batch cmp 64 h (le_refl 64)]
    unfold cx_match_simd
    rw [simd_masks_none op batch cmp (width / sz) (64 / width * sz) (by omega)]
  · obtain ⟨m, hm, hbits⟩ := naive_scan op batch cmp 64 h (le_refl 64)
    obtain ⟨masks, hmasks, _, hget⟩ := simd_masks_spec op batch cmp (width / sz)
      (64 / width * sz) (by omega)
    rw [hm]
    unfold cx_match_simd
    rw [hmasks]
    simp only
    congr 1
    apply mask_eq_of_bits (fun i => decide (i < 64) && op.test (batch.getD i 0) cmp) _ _ _ hbits
    intro b
    rw [simd_scan op batch cmp (width / sz) (64 / width * sz) masks (by omega) (by omega)
      hget (64 / width * sz) (le_refl _) b, key]

/-- The dispatching kernel returns what the scalar variant returns. -/
theorem cx_match_eq_naive (cfg : Build) (hcfg : cfg.valid) (sz : Nat) (hsz : sz = 4 ∨ sz = 8)
    (op : MatchOp) (size : Nat) (batch : List Int) (cmp : Int) :
    cx_match cfg sz op size batch cmp = cx_match_naive op size batch cmp := by
  unfold cx_match
  rcases hcfg with h | h | h | h <;> rw [h] <;> simp only
  all_goals
    by_cases h64 : size = 64
    · rw [if_pos h64, h64]; exact simd_eq_naive _ sz (by simp) hsz op batch cmp
    · rw [if_neg h64]

/-- The bits of the mask a kernel returns for a batch that has at least `size` elements. -/
theorem cx_match_bits (cfg : Build) (hcfg : cfg.valid) (sz : Nat) (hsz : sz = 4 ∨ sz = 8)
    (op : MatchOp) (size : Nat) (batch : List Int) (cmp : Int)
    (hsize : size ≤ 64) (hlen : size ≤ batch.length) :
    ∃ mask, cx_match cfg sz op size batch cmp = some mask ∧
      ∀ i, mask.testBit i = (decide (i < size) && op.test (batch.getD i 0) cmp) := by
  rw [cx_match_eq_naive cfg hcfg sz hsz]
  unfold cx_match_naive
  rw [if_pos hsize]
  exact naive_scan op batch cmp size hlen hsize

/-- C16. SIMD and scalar kernels agree.  For each vector width `W` of 16, 32 or 64
bytes and each element size of 4 or 8 bytes, the SIMD variant (`64 / W * sizeof(T)`
chunks of `W / sizeof(T)` lanes, the lane mask of chunk `i` shifted left by
`i * (W / sizeof(T))` and OR-ed in, the per-chunk primitive giving the lane mask of
`chunk[j] op cmp`) returns for every batch exactly what the naive variant returns on 64
elements; hence in every build the dispatching `cx_match_T_op` (SIMD when
`size == 64`, naive otherwise) returns what the naive kernel returns, for every
size.  On a batch of at least `size <= 64` elements that is a mask. -/
theorem cx_match_simd_agrees (cfg : Build) (hcfg : cfg.valid) (sz : Nat)
    (hsz : sz = 4 ∨ sz = 8) (op : MatchOp) (batch : List Int) (cmp : Int) :
    (∀ width, width = 16 ∨ width = 32 ∨ width = 64 →
      cx_match_simd width sz op batch cmp = cx_match_naive op 64 batch cmp) ∧
    (∀ size, cx_match cfg sz op size batch cmp = cx_match_naive op size batch cmp) ∧
    (∀ size, size ≤ 64 → size ≤ batch.length →
      ∃ mask, cx_match_naive op size batch cmp = some mask ∧
        cx_match cfg sz op size batch cmp = some mask) := by
  refine ⟨fun width hw => simd_eq_naive width sz hw hsz op batch cmp,
    fun size => cx_match_eq_naive cfg hcfg sz hsz op size batch cmp, ?_⟩
  intro size hsize hlen
  obtain ⟨m, hm, _⟩ := cx_match_bits cfg hcfg sz hsz op size batch cmp hsize hlen
  exact ⟨m, by rw [← cx_match_eq_naive cfg hcfg sz hsz]; exact hm, hm⟩

/-- Witness for C16: an AVX-512 build on a full batch of int32 values. -/
theorem cx_match_simd_agrees_witness :
    (Build.valid ⟨false, some 64, true, false⟩ ∧ ((4 : Nat) = 4 ∨ (4 : Nat) = 8)) ∧
    cx_match_simd 64 4 MatchOp.gt ((List.range 64).map (fun i => (i : Int))) 61
      = cx_match_naive MatchOp.gt 64 ((List.range 64).map (fun i => (i : Int))) 61 ∧
    cx_match_naive MatchOp.gt 64 ((List.range 64).map (fun i => (i : Int))) 61
      = some (2 ^ 62 + 2 ^ 63) :=
  ⟨⟨by decide, Or.inl rfl⟩,
    (cx_match_simd_agrees ⟨false, some 64, true, false⟩ (by decide) 4 (Or.inl rfl) MatchOp.gt
      ((List.range 64).map (fun i => (i : Int))) 61).1 64 (Or.inr (Or.inr rfl)),
    rfl⟩

/-! ### Index pruning against the row kernels -/

/-- C11. Index NONE is sound for the row kernels.  For both element types (4 and 8
bytes), every build, every `size <= 64` and every batch of at least `size` elements
all lying in `[min, max]`: whenever the index rule answers NONE for `CMP(op, v)` (EQ
with `v < min` or `v > max`, LT with `v <= min`, GT with `v >= max`), the kernels
`cx_match_i32_op(size, batch, v)` and `cx_match_i64_op(size, batch, v)` return the
mask 0. -/
theorem cx_index_none_sound (cfg : Build) (hcfg : cfg.valid) (op : MatchOp) (size : Nat)
    (batch : List Int) (min max v : Int) (hsize : size ≤ 64) (hlen : size ≤ batch.length)
    (hrange : ∀ x ∈ batch, min ≤ x ∧ x ≤ max)
    (hrule : cx_index_match_cmp op min max v = cx_index_match.NONE) :
    cx_match cfg 4 op size batch v = some 0 ∧ cx_match cfg 8 op size batch v = some 0 := by
  have hfalse : ∀ i, i < size → op.test (batch.getD i 0) v = false := by
    intro i hi
    have hi' : i < batch.length := by omega
    rw [List.getD_eq_getElem batch 0 hi']
    obtain ⟨h1, h2⟩ := hrange batch[i] (List.getElem_mem hi')
    cases op
    · simp only [cx_index_match_cmp] at hrule
      by_cases hc : v < min ∨ v > max
      · simp only [MatchOp.test, decide_eq_false_iff_not]; omega
      · rw [if_neg hc] at hrule
        split at hrule <;> cases hrule
    · simp only [cx_index_match_cmp] at hrule
      by_cases hc : v > max
      · rw [if_pos hc] at hrule; cases hrule
      · rw [if_neg hc] at hrule
        by_cases hc2 : v ≤ min
        · simp only [MatchOp.test, decide_eq_false_iff_not]; omega
        · rw [if_neg hc2] at hrule; cases hrule
    · simp only [cx_index_match_cmp] at hrule
      by_cases hc : v < min
      · rw [if_pos hc] at hrule; cases hrule
      · rw [if_neg hc] at hrule
        by_cases hc2 : v ≥ max
        · simp only [MatchOp.test, decide_eq_false_iff_not]; omega
        · rw [if_neg hc2] at hrule; cases hrule
  have hzero : ∀ sz, sz = 4 ∨ sz = 8 → cx_match cfg sz op size batch v = some 0 := by
    intro sz hsz
    obtain ⟨m, hm, hb⟩ := cx_match_bits cfg hcfg sz hsz op size batch v hsize hlen
    rw [hm]
    congr 1
    apply Nat.eq_of_testBit_eq
    intro i
    rw [hb, Nat.zero_testBit]
    by_cases hi : i < size
    · rw [hfalse i hi, Bool.and_false]
    · simp [hi]
  exact ⟨hzero 4 (Or.inl rfl), hzero 8 (Or.inr rfl)⟩

/-- Witness for C11: `col < 1` over the values 1, 5, 3, whose index is `[1, 5]`. -/
theorem cx_index_none_sound_witness :
    (Build.valid ⟨false, some 32, true, false⟩ ∧ 3 ≤ 64 ∧ 3 ≤ [(1 : Int), 5, 3].length ∧
      (∀ x ∈ [(1 : Int), 5, 3], 1 ≤ x ∧ x ≤ 5) ∧
      cx_index_match_cmp MatchOp.lt 1 5 1 = cx_index_match.NONE) ∧
    cx_match_i32_lt ⟨false, some 32, true, false⟩ 3 [1, 5, 3] 1 = some 0 :=
  ⟨⟨by decide, by decide, by decide, by decide, rfl⟩,
    (cx_index_none_sound ⟨false, some 32, true, false⟩ (by decide) MatchOp.lt 3 [1, 5, 3] 1 5 1
      (by decide) (by decide) (by decide) rfl).1⟩

/-- The bits of the full batch mask `(1 << size) - 1`. -/
theorem testBit_full_mask (size i : Nat) : (2 ^ size - 1).testBit i = decide (i < size) :=
  Nat.testBit_two_pow_sub_one size i

/-- C12. Index ALL is sound for the row kernels.  For both element types (4 and 8
bytes), every build, every `size <= 64` and every batch of at least `size` elements
all lying in `[min, max]`: whenever the index rule answers ALL for `CMP(op, v)` (EQ
with `min == max == v`, LT with `v > max`, GT with `v < min`), the kernels
`cx_match_i32_op(size, batch, v)` and `cx_match_i64_op(size, batch, v)` return the
full batch mask `2^size - 1`: exactly the low `size` bits set, all 64 bits when
`size == 64`. -/
theorem cx_index_all_sound (cfg : Build) (hcfg : cfg.valid) (op : MatchOp) (size : Nat)
    (batch : List Int) (min max v : Int) (hsize : size ≤ 64) (hlen : size ≤ batch.length)
    (hrange : ∀ x ∈ batch, min ≤ x ∧ x ≤ max)
    (hrule : cx_index_match_cmp op min max v = cx_index_match.ALL) :
    cx_match cfg 4 op size batch v = some (2 ^ size - 1) ∧
    cx_match cfg 8 op size batch v = some (2 ^ size - 1) ∧
    (∀ i, (2 ^ size - 1).testBit i = decide (i < size)) := by
  have htrue : ∀ i, i < size → op.test (batch.getD i 0) v = true := by
    intro i hi
    have hi' : i < batch.length := by omega
    rw [List.getD_eq_getElem batch 0 hi']
    obtain ⟨h1, h2⟩ := hrange batch[i] (List.getElem_mem hi')
    cases op
    · simp only [cx_index_match_cmp] at hrule
      by_cases hc : v < min ∨ v > max
      · rw [if_pos hc] at hrule; cases hrule
      · rw [if_neg hc] at hrule
        by_cases hc2 : min = max ∧ max = v
        · simp only [MatchOp.test, decide_eq_true_eq]; omega
        · rw [if_neg hc2] at hrule; cases hrule
    · simp only [cx_index_match_cmp] at hrule
      by_cases hc : v > max
      · simp only [MatchOp.test, decide_eq_true_eq]; omega
      · rw [if_neg hc] at hrule
        split at hrule <;> cases hrule
    · simp only [cx_index_match_cmp] at hrule
      by_cases hc : v < min
      · simp only [MatchOp.test, decide_eq_true_eq]; omega
      · rw [if_neg hc] at hrule
        split at hrule <;> cases hrule
  have hfull : ∀ sz, sz = 4 ∨ sz = 8 →
      cx_match cfg sz op size batch v = some (2 ^ size - 1) := by
    intro sz hsz
    obtain ⟨m, hm, hb⟩ := cx_match_bits cfg hcfg sz hsz op size batch v hsize hlen
    rw [hm]
    congr 1
    apply Nat.eq_of_testBit_eq
    intro i
    rw [hb, testBit_full_mask]
    by_cases hi : i < size
    · rw [htrue i hi, Bool.and_true]
    · simp [hi]
  exact ⟨hfull 4 (Or.inl rfl), hfull 8 (Or.inr rfl), testBit_full_mask size⟩

/-- Witness for C12: `col == 5` over a full batch of fives in an AVX2 build, all 64
bits set. -/
theorem cx_index_all_sound_witness :
    (Build.valid ⟨false, some 32, true, false⟩ ∧ 64 ≤ 64 ∧
      64 ≤ (List.replicate 64 (5 : Int)).length ∧
      (∀ x ∈ List.replicate 64 (5 : Int), 5 ≤ x ∧ x ≤ 5) ∧
      cx_index_match_cmp MatchOp.eq 5 5 5 = cx_index_match.ALL) ∧
    cx_match_i64_eq ⟨false, some 32, true, false⟩ 64 (List.replicate 64 5) 5
      = some (2 ^ 64 - 1) :=
  ⟨⟨by decide, by decide, by decide, by decide, rfl⟩,
    (cx_index_all_sound ⟨false, some 32, true, false⟩ (by decide) MatchOp.eq 64
      (List.replicate 64 5) 5 5 5 (by decide) (by decide) (by decide) rfl).2.1⟩

/-! ### What the cursor calls leave alone -/

theorem advance_window (cur : cx_column_cursor) (n : Nat) (cur' : cx_column_cursor)
    (h : cx_column_cursor_advance cur n = some cur') : cur.same_window cur' := by
  unfold cx_column_cursor_advance at h
  split at h
  · injection h with h; rw [← h]; exact ⟨rfl, rfl, rfl⟩
  · cases h

theorem same_window_refl (cur : cx_column_cursor) : cur.same_window cur := ⟨rfl, rfl, rfl⟩

theorem same_window_trans (a b c : cx_column_cursor) (h1 : a.same_window b)
    (h2 : b.same_window c) : a.same_window c :=
  ⟨h2.1.trans h1.1, h2.2.1.trans h1.2.1, h2.2.2.trans h1.2.2⟩

theorem skip_window (cur : cx_column_cursor) (t : cx_column_type) (sz n k : Nat)
    (cur' : cx_column_cursor) (h : cx_column_cursor_skip cur t sz n = some (k, cur')) :
    cur.same_window cur' := by
  unfold cx_column_cursor_skip at h
  split at h
  · cases h
  · dsimp only at h
    split at h
    · cases h
    · rename_i c hc
      simp only [Option.some.injEq, Prod.mk.injEq] at h
      rw [← h.2]
      exact advance_window _ _ _ hc

theorem skip_bit_window (cur : cx_column_cursor) (n k : Nat) (cur' : cx_column_cursor)
    (h : cx_column_cursor_skip_bit cur n = some (k, cur')) : cur.same_window cur' := by
  unfold cx_column_cursor_skip_bit at h
  split at h
  · cases h
  · split at h
    · cases h
    · rename_i s c hc
      have hw := skip_window _ _ _ _ _ _ hc
      dsimp only at h
      split at h
      · split at h <;>
        · simp only [Option.some.injEq, Prod.mk.injEq] at h
          rw [← h.2]; exact hw
      · simp only [Option.some.injEq, Prod.mk.injEq] at h
        rw [← h.2]; exact hw

theorem skip_str_loop_window (cfg : Build) (fuel : Nat) (cur : cx_column_cursor) (s k : Nat)
    (cur' : cx_column_cursor)
    (h : cx_column_cursor_skip_str_loop cfg fuel cur s = some (k, cur')) :
    cur.same_window cur' := by
  induction fuel generalizing cur s with
  | zero =>
    simp only [cx_column_cursor_skip_str_loop, Option.some.injEq, Prod.mk.injEq] at h
    rw [← h.2]; exact same_window_refl cur
  | succ fuel ih =>
    unfold cx_column_cursor_skip_str_loop at h
    split at h
    · split at h
      · cases h
      · split at h
        · cases h
        · rename_i len _ c hc
          exact same_window_trans _ _ _ (advance_window _ _ _ hc) (ih c _ h)
    · simp only [Option.some.injEq, Prod.mk.injEq] at h
      rw [← h.2]; exact same_window_refl cur

theorem next_batch_str_loop_window (cfg : Build) (fuel : Nat) (cur : cx_column_cursor)
    (acc out : List cx_string) (cur' : cx_column_cursor)
    (h : cx_column_cursor_next_batch_str_loop cfg fuel cur acc = some (out, cur')) :
    cur.same_window cur' := by
  induction fuel generalizing cur acc with
  | zero =>
    simp only [cx_column_cursor_next_batch_str_loop, Option.some.injEq, Prod.mk.injEq] at h
    rw [← h.2]; exact same_window_refl cur
  | succ fuel ih =>
    unfold cx_column_cursor_next_batch_str_loop at h
    split at h
    · split at h
      · cases h
      · split at h
        · cases h
        · rename_i len _ c hc
          exact same_window_trans _ _ _ (advance_window _ _ _ hc) (ih c _ h)
    · simp only [Option.some.injEq, Prod.mk.injEq] at h
      rw [← h.2]; exact same_window_refl cur

theorem next_batch_window (t : cx_column_type) (sz : Nat) (cur : cx_column_cursor)
    (b : Batch) (cur' : cx_column_cursor)
    (h : (match cx_column_cursor_skip cur t sz CX_BATCH_SIZE with
      | none => none
      | some (n, c) => some ((⟨cur.position, n⟩ : Batch), c)) = some (b, cur')) :
    cur.same_window cur' := by
  split at h
  · cases h
  · rename_i n c hc
    simp only [Option.some.injEq, Prod.mk.injEq] at h
    rw [← h.2]; exact skip_window _ _ _ _ _ _ hc

/-- No call of the interface changes the column or the window of a cursor. -/
theorem cx_column_cursor_call_window (cfg : Build) (cur : cx_column_cursor)
    (call : CursorCall) (cur' : cx_column_cursor)
    (h : cx_column_cursor_call cfg cur call = some cur') : cur.same_window cur' := by
  cases call <;> simp only [cx_column_cursor_call, Option.map_eq_some', Prod.exists,
    exists_eq_right, Option.some.injEq] at h
  · obtain ⟨b, h⟩ := h
    unfold cx_column_cursor_next_batch_bit at h
    split at h
    · cases h
    · rename_i n c hc
      simp only [Option.some.injEq, Prod.mk.injEq] at h
      rw [← h.2]; exact skip_bit_window _ _ _ _ hc
  · obtain ⟨b, h⟩ := h
    exact next_batch_window _ _ _ _ _ h
  · obtain ⟨b, h⟩ := h
    exact next_batch_window _ _ _ _ _ h
  · obtain ⟨b, h⟩ := h
    unfold cx_column_cursor_next_batch_str at h
    split at h
    · cases h
    · exact next_batch_str_loop_window _ _ _ _ _ _ h
  · obtain ⟨k, h⟩ := h
    exact skip_bit_window _ _ _ _ h
  · obtain ⟨k, h⟩ := h
    exact skip_window _ _ _ _ _ _ h
  · obtain ⟨k, h⟩ := h
    exact skip_window _ _ _ _ _ _ h
  · obtain ⟨k, h⟩ := h
    exact skip_window _ _ _ _ _ _ h
  · obtain ⟨k, h⟩ := h
    exact skip_window _ _ _ _ _ _ h
  · obtain ⟨k, h⟩ := h
    unfold cx_column_cursor_skip_str at h
    split at h
    · cases h
    · exact skip_str_loop_window _ _ _ _ _ _ h
  · rw [← h]; exact ⟨rfl, rfl, rfl⟩

theorem cx_column_cursor_calls_window (cfg : Build) (calls : List CursorCall)
    (cur cur' : cx_column_cursor)
    (h : cx_column_cursor_calls cfg cur calls = some cur') : cur.same_window cur' := by
  induction calls generalizing cur with
  | nil =>
    simp only [cx_column_cursor_calls, Option.some.injEq] at h
    rw [← h]; exact same_window_refl cur
  | cons call rest ih =>
    unfold cx_column_cursor_calls at h
    split at h
    · cases h
    · rename_i c hc
      exact same_window_trans _ _ _ (cx_column_cursor_call_window cfg cur call c hc) (ih c h)

/-- C17. Rewind resets a cursor.  For every cursor made by `cx_column_cursor_new` and
every sequence of `next_batch` / `skip` (and `rewind`) calls that were made on it:
after `cx_column_cursor_rewind` the position equals the start, the cursor is the one
`cx_column_cursor_new` returned, and it is the cursor any new `cx_column_cursor_new`
over the same column returns, so that every client reading it (whatever `next_batch`
function, however many calls) gets the same batches, values and available counts,
as from a freshly created cursor; and rewinding twice is rewinding once. -/
theorem cx_column_cursor_rewind_resets (cfg : Build) (a : Alloc) (madvise_ok : Bool)
    (column : cx_column) (cursor0 cursor : cx_column_cursor) (calls : List CursorCall)
    (hnew : cx_column_cursor_new a madvise_ok column = some cursor0)
    (hcalls : cx_column_cursor_calls cfg cursor0 calls = some cursor) :
    (cx_column_cursor_rewind cursor).position = (cx_column_cursor_rewind cursor).start ∧
    cx_column_cursor_rewind cursor = cursor0 ∧
    (∀ a1 ok1 cursor1, cx_column_cursor_new a1 ok1 cursor.column = some cursor1 →
      cx_column_cursor_rewind cursor = cursor1 ∧
      (∀ (β : Type) (next_batch : cx_column_cursor → Option (β × cx_column_cursor)) k,
        cx_column_cursor_take next_batch k (cx_column_cursor_rewind cursor)
          = cx_column_cursor_take next_batch k cursor1 ∧
        cx_column_cursor_drain next_batch k (cx_column_cursor_rewind cursor)
          = cx_column_cursor_drain next_batch k cursor1)) ∧
    cx_column_cursor_rewind (cx_column_cursor_rewind cursor)
      = cx_column_cursor_rewind cursor := by
  have h0 := cx_column_cursor_new_spec a madvise_ok column cursor0 hnew
  obtain ⟨hc, hs, he⟩ := cx_column_cursor_calls_window cfg calls cursor0 cursor hcalls
  have hrew : cx_column_cursor_rewind cursor = cursor0 := by
    rw [h0] at hc hs he ⊢
    cases cursor
    simp only at hc hs he
    simp only [cx_column_cursor_rewind, hc, hs, he]
  refine ⟨rfl, hrew, ?_, rfl⟩
  intro a1 ok1 cursor1 h1
  have h1' := cx_column_cursor_new_spec a1 ok1 _ cursor1 h1
  have heq : cx_column_cursor_rewind cursor = cursor1 := by
    rw [hrew, h1', hc, h0]
  exact ⟨heq, fun β next_batch k => by rw [heq]; exact ⟨rfl, rfl⟩⟩

/-- Witness for C17: a cursor over a column of two int32 values, read and skipped to
its end, then rewound. -/
theorem cx_column_cursor_rewind_resets_witness :
    (cx_column_cursor_new alloc_ok true sample_i32_appended
        = some ⟨sample_i32_appended, 0, 8, 0⟩ ∧
      cx_column_cursor_calls ⟨false, none, true, false⟩ ⟨sample_i32_appended, 0, 8, 0⟩
        [CursorCall.next_batch_i32, CursorCall.skip_i32 5]
        = some ⟨sample_i32_appended, 0, 8, 8⟩) ∧
    cx_column_cursor_rewind ⟨sample_i32_appended, 0, 8, 8⟩
      = ⟨sample_i32_appended, 0, 8, 0⟩ :=
  ⟨⟨rfl, rfl⟩,
    (cx_column_cursor_rewind_resets ⟨false, none, true, false⟩ alloc_ok true
      sample_i32_appended ⟨sample_i32_appended, 0, 8, 0⟩ ⟨sample_i32_appended, 0, 8, 8⟩
      [CursorCall.next_batch_i32, CursorCall.skip_i32 5] rfl rfl).2.1⟩

/-! ### Batches of a fixed-width cursor -/

/-- One `skip` of up to 64 elements on a cursor that stands at element `m` of `n`. -/
theorem skip_at (t : cx_column_type) (sz : Nat) (hsz : 0 < sz) (cur : cx_column_cursor)
    (hty : cur.column.type = t) (n m : Nat) (hm : m ≤ n) (hend : cur.end_ = sz * n)
    (hpos : cur.position = sz * m) :
    cx_column_cursor_skip cur t sz CX_BATCH_SIZE
      = some (min 64 (n - m), { cur with position := sz * min (m + 64) n }) := by
  have hrem : (cur.end_ - cur.position) / sz = n - m := by
    rw [hend, hpos, ← Nat.mul_sub, Nat.mul_div_cancel_left _ hsz]
  have hcnt : (if n - m < 64 then n - m else 64) = min 64 (n - m) := by
    split <;> omega
  have hnext : sz * m + sz * min 64 (n - m) = sz * min (m + 64) n := by
    rw [← Nat.mul_add]; congr 1; omega
  have hle : sz * min (m + 64) n ≤ sz * n := Nat.mul_le_mul_left sz (by omega)
  unfold cx_column_cursor_skip cx_column_cursor_advance
  rw [if_neg (by simp [hty])]
  simp only [hrem, CX_BATCH_SIZE, hcnt]
  rw [hpos, hnext, hend, if_pos hle]

theorem range_succ_map {β : Type} (f : Nat → β) (k : Nat) :
    (List.range (k + 1)).map f = f 0 :: (List.range k).map (fun j => f (j + 1)) := by
  rw [List.range_succ_eq_map, List.map_cons, List.map_map]
  rfl

/-- The first `k` calls of a client on a cursor that stands at element `m` of `n`. -/
theorem take_fixed_width (t : cx_column_type) (sz : Nat) (hsz : 0 < sz)
    (next : cx_column_cursor → Option (Batch × cx_column_cursor))
    (hnext : ∀ cur, next cur =
      match cx_column_cursor_skip cur t sz CX_BATCH_SIZE with
      | none => none
      | some (n, cur') => some (⟨cur.position, n⟩, cur'))
    (n k m : Nat) (cur : cx_column_cursor) (hty : cur.column.type = t) (hm : m ≤ n)
    (hend : cur.end_ = sz * n) (hpos : cur.position = sz * m) :
    cx_column_cursor_take next k cur
      = some ((List.range k).map
          (fun j => (⟨sz * min (m + 64 * j) n, min 64 (n - (m + 64 * j))⟩ : Batch)),
        { cur with position := sz * min (m + 64 * k) n }) := by
  induction k generalizing m cur with
  | zero =>
    simp only [cx_column_cursor_take, List.range_zero, List.map_nil, Nat.mul_zero,
      Nat.add_zero, Nat.min_eq_left hm, ← hpos]
  | succ k ih =>
    have h1 := skip_at t sz hsz cur hty n m hm hend hpos
    have h2 := ih (min (m + 64) n) { cur with position := sz * min (m + 64) n } hty
      (by omega) hend rfl
    rw [cx_column_cursor_take, hnext, h1]
    simp only
    rw [h2, range_succ_map]
    simp only [Nat.mul_zero, Nat.add_zero, Nat.min_eq_left hm, hpos]
    congr 2
    · congr 1
      apply List.map_congr_left
      intro j _
      have e1 : min (min (m + 64) n + 64 * j) n = min (m + 64 * (j + 1)) n := by omega
      have e2 : n - (min (m + 64) n + 64 * j) = n - (m + 64 * (j + 1)) := by omega
      rw [e1, e2]
    · have e3 : min (min (m + 64) n + 64 * k) n = min (m + 64 * (k + 1)) n := by omega
      rw [e3]

/-- The loop `while valid: next_batch` on a cursor that stands at element `m` of `n`. -/
theorem drain_fixed_width_batches (t : cx_column_type) (sz : Nat) (hsz : 0 < sz)
    (next : cx_column_cursor → Option (Batch × cx_column_cursor))
    (hnext : ∀ cur, next cur =
      match cx_column_cursor_skip cur t sz CX_BATCH_SIZE with
      | none => none
      | some (n, cur') => some (⟨cur.position, n⟩, cur'))
    (n fuel m : Nat) (cur : cx_column_cursor) (hty : cur.column.type = t) (hm : m ≤ n)
    (hend : cur.end_ = sz * n) (hpos : cur.position = sz * m)
    (hfuel : (n - m + 63) / 64 ≤ fuel) :
    cx_column_cursor_drain next fuel cur
      = some ((List.range ((n - m + 63) / 64)).map
          (fun j => (⟨sz * (m + 64 * j), min 64 (n - (m + 64 * j))⟩ : Batch))) := by
  induction fuel generalizing m cur with
  | zero =>
    have hmn : m = n := by omega
    have hz : (n - m + 63) / 64 = 0 := by omega
    rw [hz]
    simp [cx_column_cursor_drain, cx_column_cursor_valid, hend, hpos, hmn]
  | succ fuel ih =>
    rcases Nat.lt_or_ge m n with hlt | hge
    · have hvalid : cx_column_cursor_valid cur = true := by
        simp only [cx_column_cursor_valid, decide_eq_true_eq, hend, hpos]
        exact Nat.mul_lt_mul_of_pos_left hlt hsz
      have h1 := skip_at t sz hsz cur hty n m hm hend hpos
      have h2 := ih (min (m + 64) n) { cur with position := sz * min (m + 64) n } hty
        (by omega) hend rfl (by omega)
      have hcount : (n - m + 63) / 64 = (n - min (m + 64) n + 63) / 64 + 1 := by omega
      rw [cx_column_cursor_drain, if_pos hvalid, hnext, h1]
      simp only
      rw [h2, hcount, range_succ_map]
      simp only [Nat.mul_zero, Nat.add_zero, hpos]
      congr 2
      apply List.map_congr_left
      intro j hj
      have hj' : j < (n - min (m + 64) n + 63) / 64 := List.mem_range.mp hj
      have e1 : min (m + 64) n + 64 * j = m + 64 * (j + 1) := by omega
      rw [e1]
    · have hmn : m = n := by omega
      have hz : (n - m + 63) / 64 = 0 := by omega
      rw [hz]
      simp [cx_column_cursor_drain, cx_column_cursor_valid, hend, hpos, hmn]

/-- The batches of a new cursor over a column of `n` elements of `sz` bytes. -/
theorem batch_yield_fixed_width (t : cx_column_type) (sz : Nat) (hsz : 0 < sz)
    (next : cx_column_cursor → Option (Batch × cx_column_cursor))
    (hnext : ∀ cur, next cur =
      match cx_column_cursor_skip cur t sz CX_BATCH_SIZE with
      | none => none
      | some (n, cur') => some (⟨cur.position, n⟩, cur'))
    (a : Alloc) (madvise_ok : Bool) (c : cx_column) (cur : cx_column_cursor) (n : Nat)
    (hty : c.type = t) (hoff : c.offset = sz * n)
    (hcur : cx_column_cursor_new a madvise_ok c = some cur) :
    BatchYield next sz cur n := by
  have h0 := cx_column_cursor_new_spec a madvise_ok c cur hcur
  have hty' : cur.column.type = t := by rw [h0]; exact hty
  have hend : cur.end_ = sz * n := by rw [h0]; exact hoff
  have hpos : cur.position = sz * 0 := by rw [h0]; rfl
  refine ⟨?_, ?_, ?_, ?_, ?_⟩
  · intro k
    have h := take_fixed_width t sz hsz next hnext n k 0 cur hty' (Nat.zero_le n) hend hpos
    simp only [Nat.zero_add] at h
    refine ⟨_, h, rfl, ?_⟩
    simp only [cx_column_cursor_valid, decide_eq_true_eq, hend]
    constructor
    · intro hlt
      exact Nat.lt_of_mul_lt_mul_left hlt
    · intro hlt
      exact Nat.mul_lt_mul_of_pos_left hlt hsz
  · intro fuel hfuel
    have h := drain_fixed_width_batches t sz hsz next hnext n fuel 0 cur hty' (Nat.zero_le n)
      hend hpos (by simpa using hfuel)
    simpa only [Nat.zero_add, Nat.sub_zero] using h
  · intro j hj; omega
  · intro j hj; omega
  · intro h; omega

theorem offset_of_used_bytes (c : cx_column) (hwf : c.heap_wf) (sz : Nat) (xs : List (List Nat))
    (hx : ∀ x ∈ xs, x.length = sz) (hbuf : c.buffer.take c.offset = xs.flatten) :
    c.offset = sz * xs.length := by
  have h := congrArg List.length hbuf
  rw [List.length_take, flatten_length_const sz xs hx, hwf.2.1] at h
  have := hwf.2.2.1
  omega

/-- C18. Batch yield.  For a new cursor over a column to which `n` int32 (resp.
int64) values were appended: each `next_batch` call returns the view at the position
before the call, reports `min(remaining values, 64)` and advances the position by
that many elements; so the counts are 64 for every batch but possibly the last,
which is `n mod 64` when that is non-zero, the loop `while valid: next_batch` makes
exactly `ceil(n / 64)` calls, none for an empty batch, batch `j` covering the rows
from `64 j` on, and `cx_column_cursor_valid` is true iff fewer than `n` values have
been consumed. -/
theorem cx_column_cursor_batch_yield (cfg : Build) (a0 : Alloc) (e : cx_encoding_type)
    (vs : List (Alloc × Int)) (ac : Alloc) (madvise_ok : Bool) :
    (∀ c0 rets c cur,
      cx_column_new cfg a0 cx_column_type.I32 e = some c0 →
      cx_column_put_all cfg c0 (vs.map (fun p => (p.1, PutCall.i32 p.2))) = some (rets, c) →
      (∀ r ∈ rets, r = true) →
      cx_column_cursor_new ac madvise_ok c = some cur →
      BatchYield cx_column_cursor_next_batch_i32 4 cur vs.length) ∧
    (∀ c0 rets c cur,
      cx_column_new cfg a0 cx_column_type.I64 e = some c0 →
      cx_column_put_all cfg c0 (vs.map (fun p => (p.1, PutCall.i64 p.2))) = some (rets, c) →
      (∀ r ∈ rets, r = true) →
      cx_column_cursor_new ac madvise_ok c = some cur →
      BatchYield cx_column_cursor_next_batch_i64 8 cur vs.length) := by
  constructor
  · intro c0 rets c cur h0 h hall hcur
    obtain ⟨hwf, hty, _, _, hbuf⟩ := appended_i32 cfg a0 e c0 vs rets c h0 h hall
    have hoff := offset_of_used_bytes c hwf 4 _
      (by intro x hx; simp only [List.mem_map] at hx; obtain ⟨v, _, rfl⟩ := hx
          exact int_bytes_length 4 v) hbuf
    simp only [List.length_map] at hoff
    exact batch_yield_fixed_width cx_column_type.I32 4 (by norm_num) _ next_batch_i32_eq
      ac madvise_ok c cur vs.length hty hoff hcur
  · intro c0 rets c cur h0 h hall hcur
    obtain ⟨hwf, hty, _, _, hbuf⟩ := appended_i64 cfg a0 e c0 vs rets c h0 h hall
    have hoff := offset_of_used_bytes c hwf 8 _
      (by intro x hx; simp only [List.mem_map] at hx; obtain ⟨v, _, rfl⟩ := hx
          exact int_bytes_length 8 v) hbuf
    simp only [List.length_map] at hoff
    exact batch_yield_fixed_width cx_column_type.I64 8 (by norm_num) _ next_batch_i64_eq
      ac madvise_ok c cur vs.length hty hoff hcur

/-- Witness for C18: the values 1, -2, 300 appended to a new I32 column, then read. -/
theorem cx_column_cursor_batch_yield_witness :
    ∃ c cur, cx_column_put_all ⟨false, none, true, false⟩ (sample_new_column cx_column_type.I32)
        ([(alloc_ok, 1), (alloc_ok, -2), (alloc_ok, 300)].map
          (fun p => (p.1, PutCall.i32 p.2)))
        = some ([true, true, true], c) ∧
      cx_column_cursor_new alloc_ok true c = some cur ∧
      BatchYield cx_column_cursor_next_batch_i32 4 cur 3 := by
  refine ⟨_, _, rfl, rfl, ?_⟩
  exact (cx_column_cursor_batch_yield ⟨false, none, true, false⟩ alloc_ok
    cx_encoding_type.NONE [(alloc_ok, 1), (alloc_ok, -2), (alloc_ok, 300)] alloc_ok true).1
    (sample_new_column cx_column_type.I32) [true, true, true] _ _ rfl rfl
    (by decide) rfl

/-! ### One bit append at a row past the first word -/

/-- C19, the failing input: a BIT column of 65 rows (all false; it is what 65 appends
to a new column leave), to which `cx_column_put_bit(column, true)` appends row 65 on
a target whose shifter does not mask the count.  The call returns `true` and counts
the row, the offset stays 16, but the last word (at byte 8) is 0 before and 0 after:
the whole buffer is unchanged, where the step should leave `0 | (1 << (65 mod 64))`,
that is 2, in the last word. -/
theorem cx_column_put_bit_step_row_65 :
    cx_column_put_all ⟨false, none, false, false⟩ (sample_new_column cx_column_type.BIT)
        (List.replicate 65 (alloc_ok, PutCall.bit false))
      = some (List.replicate 65 true, sample_bit_column_65) ∧
    sample_bit_column_65.count % 64 ≠ 0 ∧
    view_u64 sample_bit_column_65.buffer 8 1 = some [0] ∧
    cx_column_put_bit ⟨false, none, false, false⟩ alloc_ok sample_bit_column_65 true
      = some (true, { sample_bit_column_65 with count := 66 }) ∧
    (0 ||| 1 <<< (65 % 64)) = 2 := by
  refine ⟨rfl, by decide, rfl, rfl, rfl⟩

/-- The step of C19 where the shift is in range: on a target that masks the shift
count, or for a row below 64.  A bit appended inside a word keeps the offset, counts
the row, leaves every byte outside the last word alone, and the last word becomes
the old word OR `1 << (count mod 64)` for a true value and stays as it is for a
false one. -/
theorem cx_column_put_bit_step_in_range (cfg : Build) (a : Alloc) (c : cx_column) (v : Bool)
    (hshift : cfg.shift_masks = true ∨ c.count < 64)
    (hcnt : c.count % 64 ≠ 0) (hwf : c.heap_wf) (ht : c.type = cx_column_type.BIT)
    (h8 : 8 ≤ c.offset) :
    ∃ c', cx_column_put_bit cfg a c v = some (true, c') ∧ c'.count = c.count + 1 ∧
      c'.offset = c.offset ∧
      c'.buffer.take (c.offset - 8) = c.buffer.take (c.offset - 8) ∧
      c'.buffer.drop c.offset = c.buffer.drop c.offset ∧
      (v = false → c'.buffer = c.buffer) ∧
      (v = true → read_bytes c'.buffer (c.offset - 8) 8
        = some (le_bytes 8 (le_value ((c.buffer.drop (c.offset - 8)).take 8)
            ||| 2 ^ (c.count % 64)))) := by
  have hshl : shl64 cfg 1 c.count = 2 ^ (c.count % 64) := by
    rcases hshift with h | h
    · exact shl64_masked cfg h c.count
    · unfold shl64
      have hpow : (2:Nat) ^ c.count < 2 ^ 64 := Nat.pow_lt_pow_right (by norm_num) h
      rw [Nat.mod_eq_of_lt h]
      simp only [ite_self, Nat.one_shiftLeft, WORD]
      exact Nat.mod_eq_of_lt hpow
  obtain ⟨c', h1, h2, h3, _, _, _, _, h7, h8', h9, h10⟩ :=
    cx_column_put_bit_inside cfg a c v hcnt hwf ht h8
  rw [hshl] at h10
  exact ⟨c', h1, h2, h3, h7, h8', h9, h10⟩

/-! ### Growth of the capacity -/

/-- What `cx_column_put` does to the capacity of a heap column. -/
theorem cx_column_put_growth (cfg : Build) (a : Alloc) (c : cx_column) (t : cx_column_type)
    (value : Option (List Nat)) (n : Nat) (r : Bool) (c' : cx_column) (hwf : c.heap_wf)
    (h : cx_column_put cfg a c t value n = some (r, c')) :
    c.size ≤ c'.size ∧ (c.offset + n ≤ c.size → c'.size = c.size) ∧
    (r = true → c.size < c.offset + n →
      ∃ k, 1 ≤ k ∧ c'.size = c.size * 2 ^ k ∧
        c.offset + n + CX_COLUMN_OVER_ALLOC cfg ≤ c.size * 2 ^ k ∧
        ∀ j, j < k → c.size * 2 ^ j < c.offset + n + CX_COLUMN_OVER_ALLOC cfg) := by
  cases r with
  | false =>
    have := cx_column_put_false cfg a c t value n c' h
    rw [this]
    exact ⟨le_refl _, fun _ => rfl, fun h => by cases h⟩
  | true =>
    unfold cx_column_put at h
    split at h
    · cases h
    · by_cases hfit : c.offset + n > c.size
      · rw [if_pos hfit] at h
        dsimp only at h
        split at h
        · cases h
        · cases h
        · rename_i c1 hres
          obtain ⟨_, _, hreq, hle, _, _, _, _, _, _, k, hk, hleast⟩ :=
            cx_column_resize_true cfg a c n c1 hwf hres
          split at h
          · cases h
          · simp only [Option.some.injEq, Prod.mk.injEq, true_and] at h
            rw [← h]
            refine ⟨hle, fun hf => by omega, fun _ _ => ⟨k, ?_, hk, by rw [← hk]; exact hreq,
              hleast⟩⟩
            rcases Nat.eq_zero_or_pos k with h0 | h0
            · rw [h0, pow_zero, Nat.mul_one] at hk
              omega
            · exact h0
      · rw [if_neg hfit] at h
        dsimp only at h
        split at h
        · cases h
        · simp only [Option.some.injEq, Prod.mk.injEq, true_and] at h
          rw [← h]
          exact ⟨le_refl _, fun _ => rfl, fun _ hlt => absurd hlt hfit⟩

/-- Every append call that returns leaves a heap column a heap column, of a capacity
that is not smaller. -/
theorem cx_column_put_call_size (cfg : Build) (a : Alloc) (c : cx_column) (call : PutCall)
    (r : Bool) (c' : cx_column) (hwf : c.heap_wf)
    (h : cx_column_put_call cfg a c call = some (r, c')) :
    c'.heap_wf ∧ c.size ≤ c'.size := by
  cases r with
  | false =>
    rw [cx_column_put_call_false cfg a c call c' h]
    exact ⟨hwf, le_refl _⟩
  | true =>
    by_cases hbit : ∀ v, call = PutCall.bit v → c.count % 64 = 0
    · obtain ⟨_, h2, _, _, _, _, _, h8, _⟩ := cx_column_put_call_true cfg a c call c' hwf hbit h
      exact ⟨h2, h8⟩
    · push_neg at hbit
      obtain ⟨v, hv, hcnt⟩ := hbit
      subst hv
      obtain ⟨hm, hlen, hoff, hpos, hword⟩ := hwf
      simp only [cx_column_put_call, cx_column_put_bit] at h
      rw [if_neg hcnt] at h
      split at h
      · cases h
      · split at h
        · split at h
          · cases h
          · split at h
            · cases h
            · split at h
              · cases h
              · rename_i buf hbuf
                simp only [Option.some.injEq, Prod.mk.injEq, true_and] at h
                rw [← h]
                have hl := memcpy_length _ _ _ _ hbuf
                exact ⟨⟨hm, by simp only; rw [hl]; exact hlen, hoff, hpos, hword⟩, le_refl _⟩
        · simp only [Option.some.injEq, Prod.mk.injEq, true_and] at h
          rw [← h]
          exact ⟨⟨hm, hlen, hoff, hpos, hword⟩, le_refl _⟩

/-- C20. Growth policy.  A column made by `cx_column_new` starts with a capacity of 64
bytes plus the over-allocation pad (0, or 16 when over-allocation is enabled).  An
append of `needed` bytes to a heap column that fits (`offset + needed <= capacity`)
leaves the capacity as it is; a successful append that does not fit replaces the
capacity by `capacity * 2^k` for the least `k >= 1` with
`offset + needed + pad <= capacity * 2^k`, and such an append does succeed when the
allocator serves it and `offset + needed + pad <= 2^63`.  No append call, and no
sequence of append calls on a new column, makes the capacity smaller. -/
theorem cx_column_growth_policy (cfg : Build) :
    (cx_column_initial_size = 64 ∧
      (CX_COLUMN_OVER_ALLOC cfg = 0 ∨ CX_COLUMN_OVER_ALLOC cfg = 16) ∧
      ∀ a t e c0, cx_column_new cfg a t e = some c0 →
        c0.size = 64 + CX_COLUMN_OVER_ALLOC cfg) ∧
    (∀ a c t bytes needed r c', c.heap_wf →
      cx_column_put cfg a c t (some bytes) needed = some (r, c') →
      (c.offset + needed ≤ c.size → c'.size = c.size) ∧
      (r = true → c.size < c.offset + needed →
        ∃ k, 1 ≤ k ∧ c'.size = c.size * 2 ^ k ∧
          c.offset + needed + CX_COLUMN_OVER_ALLOC cfg ≤ c.size * 2 ^ k ∧
          ∀ j, j < k → c.size * 2 ^ j < c.offset + needed + CX_COLUMN_OVER_ALLOC cfg) ∧
      c.size ≤ c'.size) ∧
    (∀ a c t bytes needed, c.heap_wf → c.type = t → needed ≤ bytes.length →
      c.offset + needed + CX_COLUMN_OVER_ALLOC cfg ≤ 2 ^ 63 → a.ok = true →
      ∃ c', cx_column_put cfg a c t (some bytes) needed = some (true, c')) ∧
    (∀ a c call r c', c.heap_wf → cx_column_put_call cfg a c call = some (r, c') →
      c.size ≤ c'.size) ∧
    (∀ a t e c0 calls rets c, cx_column_new cfg a t e = some c0 →
      cx_column_put_all cfg c0 calls = some (rets, c) →
      64 + CX_COLUMN_OVER_ALLOC cfg ≤ c.size) := by
  refine ⟨⟨rfl, ?_, ?_⟩, ?_, ?_, ?_, ?_⟩
  · unfold CX_COLUMN_OVER_ALLOC; cases cfg.sse42 <;> simp
  · intro a t e c0 h
    exact (cx_column_new_spec cfg a t e c0 h).2.2.2.2.2
  · intro a c t bytes needed r c' hwf h
    obtain ⟨h1, h2, h3⟩ := cx_column_put_growth cfg a c t (some bytes) needed r c' hwf h
    exact ⟨h2, h3, h1⟩
  · intro a c t bytes needed hwf hty hbytes hreq hok
    obtain ⟨c', h⟩ := cx_column_put_returns cfg a c t bytes needed hwf hty hbytes hreq
    rw [hok, Bool.or_true] at h
    exact ⟨c', h⟩
  · intro a c call r c' hwf h
    exact (cx_column_put_call_size cfg a c call r c' hwf h).2
  · intro a t e c0 calls rets c h0 h
    obtain ⟨hwf0, _, _, _, _, hsz0⟩ := cx_column_new_spec cfg a t e c0 h0
    have := cx_column_put_all_invariant cfg
      (fun x => x.heap_wf ∧ 64 + CX_COLUMN_OVER_ALLOC cfg ≤ x.size)
      (fun a c call r c' hc hcall => by
        obtain ⟨h1, h2⟩ := cx_column_put_call_size cfg a c call r c' hc.1 hcall
        exact ⟨h1, le_trans hc.2 h2⟩)
      calls c0 rets c ⟨hwf0, by rw [hsz0]⟩ h
    exact this.2

/-- Witness for C20: an int32 appended to a full heap column of capacity 4 doubles the
capacity once. -/
theorem cx_column_growth_policy_witness :
    (sample_i32_column.heap_wf ∧
      cx_column_put ⟨false, none, true, false⟩ alloc_ok sample_i32_column cx_column_type.I32
        (some (int_bytes 4 7)) 4
        = some (true, { sample_i32_column with
            buffer := [1, 0, 0, 0, 7, 0, 0, 0], count := 2, offset := 8, size := 8 }) ∧
      sample_i32_column.size < sample_i32_column.offset + 4) ∧
    ∃ k, 1 ≤ k ∧ 8 = sample_i32_column.size * 2 ^ k ∧
      sample_i32_column.offset + 4 + CX_COLUMN_OVER_ALLOC ⟨false, none, true, false⟩
        ≤ sample_i32_column.size * 2 ^ k ∧
      ∀ j, j < k → sample_i32_column.size * 2 ^ j
        < sample_i32_column.offset + 4 + CX_COLUMN_OVER_ALLOC ⟨false, none, true, false⟩ :=
  ⟨⟨by decide, rfl, by decide⟩,
    ((cx_column_growth_policy ⟨false, none, true, false⟩).2.1 alloc_ok sample_i32_column
      cx_column_type.I32 (int_bytes 4 7) 4 true _ (by decide) rfl).2.1 rfl (by decide)⟩

/-! ### C strings in memory -/

theorem strAt_bound (mem : List Nat) (p : Nat) (x : List Nat) (h : StrAt mem p x) :
    p + x.length < mem.length := by
  have := congrArg List.length h.2
  simp only [List.length_take, List.length_drop, List.length_append, List.length_singleton]
    at this
  omega

theorem strAt_window (mem : List Nat) (p : Nat) (x : List Nat) (h : StrAt mem p x) (i : Nat)
    (hi : i ≤ x.length) : mem[p + i]? = (x ++ [0])[i]? := by
  have := congrArg (fun l => l[i]?) h.2
  simp only [List.getElem?_take, List.getElem?_drop] at this
  rw [if_pos (by omega)] at this
  exact this

theorem strAt_get (mem : List Nat) (p : Nat) (x : List Nat) (h : StrAt mem p x) (i : Nat)
    (hi : i < x.length) : mem[p + i]? = some x[i] := by
  rw [strAt_window mem p x h i (by omega), List.getElem?_append_left hi,
    List.getElem?_eq_getElem hi]

theorem strAt_nul (mem : List Nat) (p : Nat) (x : List Nat) (h : StrAt mem p x) :
    mem[p + x.length]? = some 0 := by
  rw [strAt_window mem p x h x.length (le_refl _),
    List.getElem?_append_right (le_refl _), Nat.sub_self]
  rfl

theorem strAt_drop (mem : List Nat) (p : Nat) (x : List Nat) (h : StrAt mem p x) (k : Nat)
    (hk : k ≤ x.length) : StrAt mem (p + k) (x.drop k) := by
  refine ⟨fun b hb => h.1 b (List.mem_of_mem_drop hb), ?_⟩
  have := congrArg (List.drop k) h.2
  rw [List.drop_take, List.drop_drop, List.drop_append_of_le_length hk] at this
  rw [List.length_drop]
  have e : x.length - k + 1 = x.length + 1 - k := by omega
  rw [e]
  exact this

theorem strAt_cons (mem : List Nat) (p a : Nat) (x : List Nat) (h : StrAt mem p (a :: x)) :
    mem[p]? = some a ∧ a ≠ 0 ∧ StrAt mem (p + 1) x :=
  ⟨by simpa using strAt_get mem p (a :: x) h 0 (by simp), h.1 a (List.mem_cons_self a x),
    by simpa using strAt_drop mem p (a :: x) h 1 (by simp)⟩

theorem strAt_nil (mem : List Nat) (p : Nat) (h : StrAt mem p []) : mem[p]? = some 0 := by
  simpa using strAt_nul mem p [] h

theorem strAt_read (mem : List Nat) (p : Nat) (x : List Nat) (h : StrAt mem p x) (n : Nat)
    (hn : n ≤ x.length) : read_bytes mem p n = some (x.take n) := by
  have hb := strAt_bound mem p x h
  unfold read_bytes
  rw [if_pos (by omega)]
  congr 1
  have := congrArg (List.take n) h.2
  rw [List.take_take, Nat.min_eq_left (by omega), List.take_append_of_le_length hn] at this
  exact this

theorem strAt_split (mem : List Nat) (p : Nat) (x : List Nat) (h : StrAt mem p x) :
    mem.drop p = x ++ 0 :: mem.drop (p + x.length + 1) := by
  have := List.take_append_drop (x.length + 1) (mem.drop p)
  rw [h.2, List.drop_drop, List.append_assoc] at this
  rw [← this]
  simp [Nat.add_assoc]

theorem strAt_c_strlen (mem : List Nat) (p : Nat) (x : List Nat) (h : StrAt mem p x) :
    c_strlen (mem.drop p) = x.length := by
  rw [strAt_split mem p x h]
  unfold c_strlen
  have hx : ∀ b ∈ x, (fun b => b != 0) b = true := by
    intro b hb; simpa using h.1 b hb
  rw [List.takeWhile_append_of_pos hx]
  simp

theorem strAt_c_string (mem : List Nat) (p : Nat) (x : List Nat) (h : StrAt mem p x) :
    c_string mem p = some x := by
  have hb := strAt_bound mem p x h
  unfold c_string
  rw [strAt_c_strlen mem p x h, if_pos hb]
  congr 1
  have := congrArg (List.take x.length) h.2
  rw [List.take_take, Nat.min_eq_left (by omega), List.take_left' rfl] at this
  exact this

theorem strAt_map (f : Nat → Nat) (hf : ∀ b, f b = 0 ↔ b = 0) (mem : List Nat) (p : Nat)
    (x : List Nat) (h : StrAt mem p x) : StrAt (mem.map f) p (x.map f) := by
  refine ⟨?_, ?_⟩
  · intro b hb
    simp only [List.mem_map] at hb
    obtain ⟨c, hc, rfl⟩ := hb
    exact fun h0 => h.1 c hc ((hf c).mp h0)
  · have := congrArg (List.map f) h.2
    rw [List.map_take, List.map_drop, List.map_append] at this
    rw [List.length_map, this]
    simp [(hf 0).mpr rfl]

theorem c_tolower_zero (b : Nat) : c_tolower b = 0 ↔ b = 0 := by
  unfold c_tolower
  split <;> omega

theorem c_tolower_idem (b : Nat) : c_tolower (c_tolower b) = c_tolower b := by
  unfold c_tolower
  split_ifs <;> omega

/-! ### The scan of CX_STR_MATCH -/

/-- A scan over the first `n` records whose tests all return: it succeeds, and bit
`i` of its result is `i < n && hit i`. -/
theorem str_scan (test : cx_string → Option Bool) (strings : List cx_string)
    (hit : Nat → Bool) (n : Nat) (hn : n ≤ strings.length) (h64 : n ≤ 64)
    (htest : ∀ i (h : i < strings.length), i < n → test strings[i] = some (hit i)) :
    ∃ mask, (List.range n).foldlM (str_match_step test strings) 0 = some mask ∧
      ∀ i, mask.testBit i = (decide (i < n) && hit i) := by
  induction n with
  | zero => exact ⟨0, rfl, by simp⟩
  | succ n ih =>
    obtain ⟨m, hm, hbits⟩ := ih (by omega) (by omega) (fun i h hi => htest i h (by omega))
    have hlt : n < strings.length := by omega
    have hpow : (2:Nat) ^ n < 2 ^ 64 := Nat.pow_lt_pow_right (by norm_num) (by omega)
    have hmod : (1 <<< n) % WORD = 2 ^ n := by
      rw [Nat.one_shiftLeft]; exact Nat.mod_eq_of_lt hpow
    refine ⟨if hit n = true then m ||| 2 ^ n else m, ?_, ?_⟩
    · rw [List.range_succ, List.foldlM_append, hm]
      simp [str_match_step, List.getElem?_eq_getElem hlt, htest n hlt (by omega), hmod]
    · intro i
      exact testBit_step m n i hit _ (hbits i) rfl

/-- A kernel whose test on record `i` decides `rel (x i) y` returns the mask of `rel`. -/
theorem isStrMask_of_tests (name name_ci : List Nat → cx_string → cx_string → Option Bool)
    (mem : List Nat) (size : Nat) (strings : List cx_string) (cmp : cx_string)
    (cs : Bool) (rel : List Nat → List Nat → Prop) (x : Nat → List Nat) (y : List Nat)
    (hsize : size ≤ 64) (hlen : size ≤ strings.length)
    (htest : ∀ i (h : i < strings.length), i < size →
      ∃ hit, (if cs then name mem strings[i] cmp else name_ci mem strings[i] cmp) = some hit ∧
        (hit = true ↔ rel (x i) y)) :
    IsStrMask rel size x y (CX_STR_MATCH name name_ci mem size strings cmp cs) := by
  classical
  have htest' : ∀ i (h : i < strings.length), i < size →
      (if cs then name mem strings[i] cmp else name_ci mem strings[i] cmp)
        = some (decide (rel (x i) y)) := by
    intro i h hi
    obtain ⟨hit, h1, h2⟩ := htest i h hi
    rw [h1]
    congr 1
    rw [Bool.eq_iff_iff, h2]
    simp
  have key : ∃ mask, CX_STR_MATCH name name_ci mem size strings cmp cs = some mask ∧
      ∀ i, mask.testBit i = (decide (i < size) && decide (rel (x i) y)) := by
    unfold CX_STR_MATCH
    rw [if_pos hsize]
    cases cs with
    | true =>
      simp only [if_true]
      exact str_scan _ strings _ size hlen hsize (fun i h hi => by simpa using htest' i h hi)
    | false =>
      simp only [Bool.false_eq_true, if_false]
      exact str_scan _ strings _ size hlen hsize (fun i h hi => by simpa using htest' i h hi)
  obtain ⟨mask, hr, hb⟩ := key
  have hz : ∀ i, size ≤ i → mask.testBit i = false := by
    intro i hi
    have : ¬ i < size := by omega
    simp [hb, this]
  refine ⟨mask, hr, Nat.lt_pow_two_of_testBit mask (fun i hi => hz i (by omega)), ?_, hz⟩
  intro i hi
  rw [hb]
  simp [hi]

/-- Two results that are both the mask of one relation are equal. -/
theorem isStrMask_unique (rel : List Nat → List Nat → Prop) (size : Nat)
    (x : Nat → List Nat) (y : List Nat) (r1 r2 : Option Nat)
    (h1 : IsStrMask rel size x y r1) (h2 : IsStrMask rel size x y r2) : r1 = r2 := by
  obtain ⟨m1, e1, _, b1, z1⟩ := h1
  obtain ⟨m2, e2, _, b2, z2⟩ := h2
  rw [e1, e2]
  congr 1
  apply Nat.eq_of_testBit_eq
  intro i
  rcases Nat.lt_or_ge i size with hi | hi
  · rw [Bool.eq_iff_iff, b1 i hi, b2 i hi]
  · rw [z1 i hi, z2 i hi]

/-! ### The libc comparisons on C strings -/

theorem lex_cons_ne (a b : Nat) (l1 l2 : List Nat) (h : a ≠ b) :
    List.Lex (· < ·) (a :: l1) (b :: l2) ↔ a < b := by
  constructor
  · intro hl
    cases hl with
    | cons _ => exact absurd rfl h
    | rel hab => exact hab
  · exact fun hab => List.Lex.rel hab

theorem lex_cons_same (a : Nat) (l1 l2 : List Nat) :
    List.Lex (· < ·) (a :: l1) (a :: l2) ↔ List.Lex (· < ·) l1 l2 := by
  constructor
  · intro hl
    cases hl with
    | cons h => exact h
    | rel hab => exact absurd hab (Nat.lt_irrefl a)
  · exact fun h => List.Lex.cons h

/-- The loop of `strcmp` / `strcasecmp` on two C strings returns, and the sign of its
result is the lexicographic order of the two strings under `f`. -/
theorem str_cmp_loop_sign (f : Nat → Nat) (hf : ∀ b, f b = 0 ↔ b = 0) (mem : List Nat)
    (x y : List Nat) (p q fuel : Nat) (hx : StrAt mem p x) (hy : StrAt mem q y)
    (hfuel : x.length < fuel) :
    ∃ r, str_cmp_loop f mem fuel p q = some r ∧
      (r < 0 ↔ List.Lex (· < ·) (x.map f) (y.map f)) ∧
      (0 < r ↔ List.Lex (· < ·) (y.map f) (x.map f)) ∧
      (r = 0 ↔ x.map f = y.map f) := by
  have hf0 : f 0 = 0 := (hf 0).mpr rfl
  induction x generalizing y p q fuel with
  | nil =>
    obtain ⟨fuel, rfl⟩ : ∃ k, fuel = k + 1 := ⟨fuel - 1, by simp at hfuel; omega⟩
    have hp := strAt_nil mem p hx
    cases y with
    | nil =>
      have hq := strAt_nil mem q hy
      refine ⟨0, by simp [str_cmp_loop, hp, hq], ?_, ?_, ?_⟩
      · simp only [List.map_nil, lt_self_iff_false, false_iff]
        exact fun h => by cases h
      · simp only [List.map_nil, lt_self_iff_false, false_iff]
        exact fun h => by cases h
      · simp
    | cons b y =>
      obtain ⟨hq, hb, _⟩ := strAt_cons mem q b y hy
      have hfb : f b ≠ 0 := fun h => hb ((hf b).mp h)
      have hpos : 0 < f b := Nat.pos_of_ne_zero hfb
      refine ⟨(f 0 : Int) - (f b : Int), ?_, ?_, ?_, ?_⟩
      · simp only [str_cmp_loop, hp, hq]
        rw [if_pos (by rw [hf0]; exact fun h => hfb h.symm)]
      · rw [hf0]
        simp only [List.map_nil, List.map_cons]
        constructor
        · exact fun _ => List.Lex.nil
        · intro _; omega
      · rw [hf0]
        simp only [List.map_nil, List.map_cons]
        constructor
        · intro h; omega
        · exact fun h => by cases h
      · rw [hf0]
        simp only [List.map_nil, List.map_cons]
        constructor
        · intro h; omega
        · exact fun h => by cases h
  | cons a x ih =>
    obtain ⟨fuel, rfl⟩ : ∃ k, fuel = k + 1 := ⟨fuel - 1, by simp at hfuel; omega⟩
    obtain ⟨hp, ha, hx'⟩ := strAt_cons mem p a x hx
    have hfa : f a ≠ 0 := fun h => ha ((hf a).mp h)
    have hposa : 0 < f a := Nat.pos_of_ne_zero hfa
    cases y with
    | nil =>
      have hq := strAt_nil mem q hy
      refine ⟨(f a : Int) - (f 0 : Int), ?_, ?_, ?_, ?_⟩
      · simp only [str_cmp_loop, hp, hq]
        rw [if_pos (by rw [hf0]; exact hfa)]
      · rw [hf0]
        simp only [List.map_nil, List.map_cons]
        constructor
        · intro h; omega
        · exact fun h => by cases h
      · rw [hf0]
        simp only [List.map_nil, List.map_cons]
        constructor
        · exact fun _ => List.Lex.nil
        · intro _; omega
      · rw [hf0]
        simp only [List.map_nil, List.map_cons]
        constructor
        · intro h; omega
        · exact fun h => by cases h
    | cons b y =>
      obtain ⟨hq, hb, hy'⟩ := strAt_cons mem q b y hy
      by_cases hab : f a = f b
      · obtain ⟨r, hr, h1, h2, h3⟩ := ih y (p + 1) (q + 1) fuel hx' hy'
          (by simp at hfuel; omega)
        refine ⟨r, ?_, ?_, ?_, ?_⟩
        · simp only [str_cmp_loop, hp, hq]
          rw [if_neg (by simp [hab]), if_neg ha]
          exact hr
        · simp only [List.map_cons, hab, lex_cons_same]; exact h1
        · simp only [List.map_cons, hab, lex_cons_same]; exact h2
        · simp only [List.map_cons, hab, List.cons.injEq, true_and]; exact h3
      · refine ⟨(f a : Int) - (f b : Int), ?_, ?_, ?_, ?_⟩
        · simp only [str_cmp_loop, hp, hq]
          rw [if_pos hab]
        · simp only [List.map_cons]
          rw [lex_cons_ne _ _ _ _ hab]
          omega
        · simp only [List.map_cons]
          rw [lex_cons_ne _ _ _ _ (fun h => hab h.symm)]
          omega
        · simp only [List.map_cons, List.cons.injEq]
          constructor
          · intro h; exact absurd (by omega) hab
          · intro h; exact absurd h.1 hab

theorem cmp_bytes_eq_zero (x y : List Nat) (h : x.length = y.length) :
    cmp_bytes x y = 0 ↔ x = y := by
  induction x generalizing y with
  | nil =>
    cases y with
    | nil => simp [cmp_bytes]
    | cons b y => simp at h
  | cons a x ih =>
    cases y with
    | nil => simp at h
    | cons b y =>
      simp only [List.length_cons, Nat.add_right_cancel_iff] at h
      by_cases hab : a = b
      · subst hab
        simp [cmp_bytes, ih y h]
      · simp only [cmp_bytes, List.cons.injEq, hab, false_and, iff_false, if_false]
        omega

/-- The function `memcmp` over the first `n` bytes of two C strings that long. -/
theorem memcmp_strings (mem : List Nat) (p q : Nat) (x y : List Nat) (n : Nat)
    (hx : StrAt mem p x) (hy : StrAt mem q y) (hnx : n ≤ x.length) (hny : n ≤ y.length) :
    (memcmp mem p q n).map (fun r => decide (r = 0)) = some (decide (x.take n = y.take n)) := by
  unfold memcmp
  rw [strAt_read mem p x hx n hnx, strAt_read mem q y hy n hny]
  simp only [Option.map_some', Option.some.injEq]
  have := cmp_bytes_eq_zero (x.take n) (y.take n) (by simp [hnx, hny])
  simp only [this]

/-- The function `strncasecmp` over `n` characters of two C strings that long. -/
theorem strncasecmp_strings (mem : List Nat) (x y : List Nat) (p q n : Nat)
    (hx : StrAt mem p x) (hy : StrAt mem q y) (hnx : n ≤ x.length) (hny : n ≤ y.length) :
    (strncasecmp mem p q n).map (fun r => decide (r = 0))
      = some (decide ((x.take n).map c_tolower = (y.take n).map c_tolower)) := by
  induction n generalizing x y p q with
  | zero => simp [strncasecmp]
  | succ n ih =>
    cases x with
    | nil => simp at hnx
    | cons a x =>
      cases y with
      | nil => simp at hny
      | cons b y =>
        obtain ⟨hp, ha, hx'⟩ := strAt_cons mem p a x hx
        obtain ⟨hq, hb, hy'⟩ := strAt_cons mem q b y hy
        simp only [List.length_cons, Nat.add_le_add_iff_right] at hnx hny
        simp only [strncasecmp, hp, hq, List.take_succ_cons, List.map_cons, List.cons.injEq]
        by_cases hab : c_tolower a = c_tolower b
        · rw [if_neg (by simp [hab]), if_neg ha, ih x y (p + 1) (q + 1) hx' hy' hnx hny]
          simp [hab]
        · rw [if_pos hab]
          simp only [Option.map_some', Option.some.injEq, hab, false_and, decide_False,
            decide_eq_false_iff_not]
          omega

/-! ### Prefixes, suffixes and substrings -/

theorem prefix_iff_getD (x y : List Nat) :
    y <+: x ↔ y.length ≤ x.length ∧ ∀ i, i < y.length → x.getD i 0 = y.getD i 0 := by
  constructor
  · rintro ⟨t, rfl⟩
    refine ⟨by simp, fun i hi => ?_⟩
    rw [List.getD_append _ _ _ _ hi]
  · rintro ⟨hlen, h⟩
    rw [List.prefix_iff_eq_take]
    apply List.ext_getElem
    · simp [hlen]
    · intro i h1 h2
      have := h i h1
      rw [List.getD_eq_getElem _ _ h1, List.getD_eq_getElem _ _ (by omega)] at this
      rw [List.getElem_take]
      exact this.symm

theorem getD_drop (x : List Nat) (j i : Nat) : (x.drop j).getD i 0 = x.getD (j + i) 0 := by
  simp [List.getD_eq_getElem?_getD, List.getElem?_drop]

theorem infix_iff_prefix_drop (x y : List Nat) :
    y <:+: x ↔ ∃ j, j ≤ x.length ∧ y <+: x.drop j := by
  constructor
  · rintro ⟨s, t, rfl⟩
    refine ⟨s.length, by simp, t, ?_⟩
    rw [List.append_assoc, List.drop_left]
  · rintro ⟨j, _, h⟩
    exact List.IsInfix.trans h.isInfix (List.drop_suffix j x).isInfix

theorem infix_iff_getD (x y : List Nat) :
    y <:+: x ↔ ∃ j, j + y.length ≤ x.length ∧
      ∀ i, i < y.length → x.getD (j + i) 0 = y.getD i 0 := by
  rw [infix_iff_prefix_drop]
  constructor
  · rintro ⟨j, hj, h⟩
    rw [prefix_iff_getD] at h
    refine ⟨j, ?_, fun i hi => ?_⟩
    · have := h.1; rw [List.length_drop] at this; omega
    · rw [← getD_drop]; exact h.2 i hi
  · rintro ⟨j, hj, h⟩
    refine ⟨j, by omega, ?_⟩
    rw [prefix_iff_getD]
    refine ⟨by rw [List.length_drop]; omega, fun i hi => ?_⟩
    rw [getD_drop]; exact h i hi

theorem suffix_iff_drop (x y : List Nat) :
    y <:+ x ↔ x.drop (x.length - y.length) = y := by
  rw [List.suffix_iff_eq_drop]
  exact ⟨fun h => h.symm, fun h => h.symm⟩

/-- The search of `strstr` finds the needle iff it is a substring. -/
theorem find_sub_isSome (needle hay : List Nat) (j : Nat) :
    (find_sub needle hay j).isSome = true ↔ needle <:+: hay := by
  induction hay generalizing j with
  | nil =>
    rw [List.infix_nil]
    cases needle <;> simp [find_sub]
  | cons h hs ih =>
    rw [List.infix_cons_iff]
    by_cases hp : needle <+: h :: hs
    · have : needle.isPrefixOf (h :: hs) = true := List.isPrefixOf_iff_prefix.mpr hp
      simp [find_sub, this, hp]
    · have : ¬ needle.isPrefixOf (h :: hs) = true := fun hc =>
        hp (List.isPrefixOf_iff_prefix.mp hc)
      rw [find_sub, if_neg this, ih (j + 1)]
      simp [hp]

/-- The function `strstr` on two C strings: not NULL iff the second is a substring of the
first. -/
theorem strstr_strings (mem : List Nat) (p q : Nat) (x y : List Nat)
    (hx : StrAt mem p x) (hy : StrAt mem q y) :
    (strstr mem p q).map (fun r => r.isSome) = some (decide (y <:+: x)) := by
  unfold strstr
  rw [strAt_c_string mem p x hx, strAt_c_string mem q y hy]
  simp only [Option.map_some', Option.isSome_map', Option.some.injEq]
  rw [Bool.eq_iff_iff, find_sub_isSome]
  simp

theorem strcasestr_strings (mem : List Nat) (p q : Nat) (x y : List Nat)
    (hx : StrAt mem p x) (hy : StrAt mem q y) :
    (strcasestr mem p q).map (fun r => r.isSome)
      = some (decide (y.map c_tolower <:+: x.map c_tolower)) := by
  unfold strcasestr
  rw [strAt_c_string mem p x hx, strAt_c_string mem q y hy]
  simp only [Option.map_some', Option.isSome_map', Option.some.injEq]
  rw [Bool.eq_iff_iff, find_sub_isSome]
  simp

/-! ### The 16-byte compare on C strings -/

theorem load_len (mem : List Nat) (p : Nat) (x : List Nat) (h : StrAt mem p x) :
    pcmpistr_len (mm_loadu_si128 mem p) = min 16 x.length := by
  have := mm_cmpistri_null_eq mem p
  rw [strAt_c_strlen mem p x h] at this
  exact this

theorem load_getD (mem : List Nat) (p : Nat) (x : List Nat) (h : StrAt mem p x) (i : Nat)
    (hi : i < 16) (hx : i < x.length) : (mm_loadu_si128 mem p).getD i 0 = x.getD i 0 := by
  unfold mm_loadu_si128
  rw [List.getD_eq_getElem?_getD, List.getElem?_map, List.getElem?_range hi]
  simp only [Option.map_some', Option.getD_some, mem_byte]
  rw [List.getD_eq_getElem?_getD, strAt_get mem p x h i hx, List.getD_eq_getElem _ _ hx]
  rfl

/-- Bit 0 of the equal-ordered compare of a needle shorter than 16 bytes against a
string at least as long: set iff the needle is a prefix of the string. -/
theorem cmpistro_ordered (mem : List Nat) (p q : Nat) (x y : List Nat)
    (hx : StrAt mem p x) (hy : StrAt mem q y) (h16 : y.length < 16)
    (hle : y.length ≤ x.length) :
    mm_cmpistro (mm_loadu_si128 mem q) (mm_loadu_si128 mem p) SiddCmp.EQUAL_ORDERED
      = decide (y <+: x) := by
  rw [Bool.eq_iff_iff]
  simp only [mm_cmpistro, pcmpistr_intres2, List.all_eq_true, List.mem_range,
    load_len mem p x hx, load_len mem q y hy, decide_eq_true_eq, Nat.sub_zero, Nat.zero_add]
  rw [prefix_iff_getD]
  constructor
  · intro h
    refine ⟨hle, fun i hi => ?_⟩
    have := h i (by omega)
    rw [if_pos (by omega)] at this
    simp only [Bool.and_eq_true, decide_eq_true_eq, beq_iff_eq] at this
    rw [load_getD mem p x hx i (by omega) (by omega),
      load_getD mem q y hy i (by omega) hi] at this
    exact this.2
  · rintro ⟨_, h⟩ i hi
    by_cases hiy : i < min 16 y.length
    · rw [if_pos hiy]
      simp only [Bool.and_eq_true, decide_eq_true_eq, beq_iff_eq]
      rw [load_getD mem p x hx i (by omega) (by omega),
        load_getD mem q y hy i (by omega) (by omega)]
      exact ⟨by omega, h i (by omega)⟩
    · rw [if_neg hiy]

/-- The carry flag of the equal-ordered compare of a needle against a string, both
shorter than 16 bytes: set iff the needle is a substring of the string. -/
theorem cmpistrc_ordered (mem : List Nat) (p q : Nat) (x y : List Nat)
    (hx : StrAt mem p x) (hy : StrAt mem q y) (hx16 : x.length < 16) (hy16 : y.length < 16) :
    mm_cmpistrc (mm_loadu_si128 mem q) (mm_loadu_si128 mem p) SiddCmp.EQUAL_ORDERED
      = decide (y <:+: x) := by
  rw [Bool.eq_iff_iff]
  simp only [mm_cmpistrc, pcmpistr_intres2, List.any_eq_true, List.all_eq_true, List.mem_range,
    load_len mem p x hx, load_len mem q y hy, decide_eq_true_eq]
  rw [infix_iff_getD]
  constructor
  · rintro ⟨j, hj, h⟩
    rcases Nat.eq_zero_or_pos y.length with h0 | hpos
    · exact ⟨0, by omega, fun i hi => by omega⟩
    · -- the first character matches at `j`, so `j` lies in the string
      have hjx : j < x.length := by
        have := h 0 (by omega)
        rw [if_pos (by omega)] at this
        simp only [Bool.and_eq_true, decide_eq_true_eq] at this
        omega
      -- the needle does not run past the 16 bytes
      have hfit : j + y.length ≤ 16 := by
        by_contra hc
        have := h (15 - j) (by omega)
        rw [if_pos (by omega)] at this
        simp only [Bool.and_eq_true, decide_eq_true_eq] at this
        omega
      have hall : ∀ i, i < y.length → j + i < x.length ∧ x.getD (j + i) 0 = y.getD i 0 := by
        intro i hi
        have := h i (by omega)
        rw [if_pos (by omega)] at this
        simp only [Bool.and_eq_true, decide_eq_true_eq, beq_iff_eq] at this
        rw [load_getD mem p x hx (j + i) (by omega) (by omega),
          load_getD mem q y hy i (by omega) hi] at this
        exact ⟨by omega, this.2⟩
      refine ⟨j, ?_, fun i hi => (hall i hi).2⟩
      have := (hall (y.length - 1) (by omega)).1
      omega
  · rintro ⟨j, hj, h⟩
    refine ⟨j, by omega, fun i hi => ?_⟩
    by_cases hiy : i < min 16 y.length
    · rw [if_pos hiy]
      simp only [Bool.and_eq_true, decide_eq_true_eq, beq_iff_eq]
      rw [load_getD mem p x hx (j + i) (by omega) (by omega),
        load_getD mem q y hy i (by omega) (by omega)]
      exact ⟨by omega, h i (by omega)⟩
    · rw [if_neg hiy]

/-- Bit 0 of the equal-each compare of two non-empty strings: set iff their first
bytes are equal, whatever follows. -/
theorem cmpistro_each (mem : List Nat) (p q : Nat) (a b : Nat) (x y : List Nat)
    (hx : StrAt mem p (a :: x)) (hy : StrAt mem q (b :: y)) :
    mm_cmpistro (mm_loadu_si128 mem q) (mm_loadu_si128 mem p) SiddCmp.EQUAL_EACH
      = decide (b = a) := by
  simp only [mm_cmpistro, pcmpistr_intres2, load_len mem p _ hx, load_len mem q _ hy,
    List.length_cons]
  rw [if_pos (by omega), load_getD mem p _ hx 0 (by omega) (by simp),
    load_getD mem q _ hy 0 (by omega) (by simp)]
  have : 0 < min 16 (x.length + 1) := by omega
  rw [Bool.eq_iff_iff]
  simp [this]

/-! ### The tests of the string kernels -/

theorem cx_str_cmp_sign (f : Nat → Nat) (hf : ∀ b, f b = 0 ↔ b = 0) (mem : List Nat)
    (a b : cx_string) (x y : List Nat) (hx : a.holds mem x) (hy : b.holds mem y) :
    ∃ r, str_cmp_loop f mem (mem.length + 1) a.ptr b.ptr = some r ∧
      (r < 0 ↔ List.Lex (· < ·) (x.map f) (y.map f)) ∧
      (0 < r ↔ List.Lex (· < ·) (y.map f) (x.map f)) ∧
      (r = 0 ↔ x.map f = y.map f) :=
  str_cmp_loop_sign f hf mem x y a.ptr b.ptr (mem.length + 1) hx.2 hy.2
    (by have := strAt_bound mem a.ptr x hx.2; omega)

theorem cx_str_lt_spec (mem : List Nat) (a b : cx_string) (x y : List Nat)
    (hx : a.holds mem x) (hy : b.holds mem y) :
    ∃ hit, cx_str_lt mem a b = some hit ∧ (hit = true ↔ List.Lex (· < ·) x y) := by
  obtain ⟨r, hr, h1, _, _⟩ := cx_str_cmp_sign (fun b => b) (fun _ => Iff.rfl) mem a b x y hx hy
  simp only [List.map_id'] at h1
  exact ⟨decide (r < 0), by simp [cx_str_lt, strcmp, hr], by simp [h1]⟩

theorem cx_str_gt_spec (mem : List Nat) (a b : cx_string) (x y : List Nat)
    (hx : a.holds mem x) (hy : b.holds mem y) :
    ∃ hit, cx_str_gt mem a b = some hit ∧ (hit = true ↔ List.Lex (· < ·) y x) := by
  obtain ⟨r, hr, _, h2, _⟩ := cx_str_cmp_sign (fun b => b) (fun _ => Iff.rfl) mem a b x y hx hy
  simp only [List.map_id'] at h2
  exact ⟨decide (r > 0), by simp [cx_str_gt, strcmp, hr], by simp [h2]⟩

theorem cx_str_lt_ci_spec (mem : List Nat) (a b : cx_string) (x y : List Nat)
    (hx : a.holds mem x) (hy : b.holds mem y) :
    ∃ hit, cx_str_lt_ci mem a b = some hit ∧
      (hit = true ↔ List.Lex (· < ·) (x.map c_tolower) (y.map c_tolower)) := by
  obtain ⟨r, hr, h1, _, _⟩ := cx_str_cmp_sign c_tolower c_tolower_zero mem a b x y hx hy
  exact ⟨decide (r < 0), by simp [cx_str_lt_ci, strcasecmp, hr], by simp [h1]⟩

theorem cx_str_gt_ci_spec (mem : List Nat) (a b : cx_string) (x y : List Nat)
    (hx : a.holds mem x) (hy : b.holds mem y) :
    ∃ hit, cx_str_gt_ci mem a b = some hit ∧
      (hit = true ↔ List.Lex (· < ·) (y.map c_tolower) (x.map c_tolower)) := by
  obtain ⟨r, hr, _, h2, _⟩ := cx_str_cmp_sign c_tolower c_tolower_zero mem a b x y hx hy
  exact ⟨decide (r > 0), by simp [cx_str_gt_ci, strcasecmp, hr], by simp [h2]⟩

/-- The scalar path of `cx_str_eq` decides equality. -/
theorem cx_str_eq_spec (cfg : Build) (mem : List Nat) (a b : cx_string) (x y : List Nat)
    (hscalar : cfg.pcmpistrm = false ∨ 16 ≤ a.len)
    (hx : a.holds mem x) (hy : b.holds mem y) :
    ∃ hit, cx_str_eq cfg mem a b = some hit ∧ (hit = true ↔ x = y) := by
  unfold cx_str_eq
  by_cases hlen : a.len = b.len
  · rw [if_neg (by simp [hlen])]
    have hfast : (cfg.pcmpistrm && decide (a.len < 16)) = false := by
      rcases hscalar with h | h
      · simp [h]
      · simp; intro _; omega
    rw [hfast]
    simp only [Bool.false_eq_true, if_false]
    have hxy : x.length = y.length := by rw [← hx.1, ← hy.1, hlen]
    rw [hx.1, memcmp_strings mem a.ptr b.ptr x y x.length hx.2 hy.2 (le_refl _) (by omega)]
    refine ⟨_, rfl, ?_⟩
    conv_lhs => rw [List.take_length, hxy, List.take_length]
    simp
  · rw [if_pos hlen]
    refine ⟨false, rfl, ?_⟩
    simp only [Bool.false_eq_true, false_iff]
    intro h
    exact hlen (by rw [hx.1, hy.1, h])

/-- The 16-byte path of `cx_str_eq` on two non-empty strings of one length compares
their first bytes only. -/
theorem cx_str_eq_fast (cfg : Build) (mem : List Nat) (a b : cx_string) (c d : Nat)
    (x y : List Nat) (hfast : cfg.pcmpistrm = true) (h16 : a.len < 16)
    (hlen : a.len = b.len) (hx : a.holds mem (c :: x)) (hy : b.holds mem (d :: y)) :
    cx_str_eq cfg mem a b = some (decide (d = c)) := by
  unfold cx_str_eq
  rw [if_neg (by simp [hlen]), hfast]
  simp only [Bool.true_and, decide_eq_true_eq, if_pos h16]
  rw [cmpistro_each mem a.ptr b.ptr c d x y hx.2 hy.2]

theorem cx_str_eq_ci_spec (mem : List Nat) (a b : cx_string) (x y : List Nat)
    (hx : a.holds mem x) (hy : b.holds mem y) :
    ∃ hit, cx_str_eq_ci mem a b = some hit ∧
      (hit = true ↔ x.map c_tolower = y.map c_tolower) := by
  unfold cx_str_eq_ci
  by_cases hlen : a.len = b.len
  · rw [if_pos hlen]
    obtain ⟨r, hr, _, _, h3⟩ := cx_str_cmp_sign c_tolower c_tolower_zero mem a b x y hx hy
    exact ⟨decide (r = 0), by simp [strcasecmp, hr], by simp [h3]⟩
  · rw [if_neg hlen]
    refine ⟨false, rfl, ?_⟩
    simp only [Bool.false_eq_true, false_iff]
    intro h
    have := congrArg List.length h
    simp only [List.length_map] at this
    exact hlen (by rw [hx.1, hy.1, this])

theorem take_eq_iff_prefix (x y : List Nat) :
    x.take y.length = y.take y.length ↔ y <+: x := by
  rw [List.take_length, List.prefix_iff_eq_take]
  exact ⟨fun h => h.symm, fun h => h.symm⟩

/-- The function `cx_str_contains_start` decides "is a prefix", on both of its paths. -/
theorem cx_str_contains_start_spec (cfg : Build) (mem : List Nat) (a b : cx_string)
    (x y : List Nat) (hx : a.holds mem x) (hy : b.holds mem y) :
    ∃ hit, cx_str_contains_start cfg mem a b = some hit ∧ (hit = true ↔ y <+: x) := by
  unfold cx_str_contains_start
  by_cases hlen : a.len < b.len
  · rw [if_pos hlen]
    refine ⟨false, rfl, ?_⟩
    simp only [Bool.false_eq_true, false_iff]
    intro h
    have := h.length_le
    rw [hx.1, hy.1] at hlen
    omega
  · rw [if_neg hlen]
    have hle : y.length ≤ x.length := by rw [← hx.1, ← hy.1]; omega
    by_cases hfast : (cfg.pcmpistrm && decide (b.len < 16)) = true
    · rw [if_pos hfast]
      simp only [Bool.and_eq_true, decide_eq_true_eq] at hfast
      refine ⟨_, rfl, ?_⟩
      rw [cmpistro_ordered mem a.ptr b.ptr x y hx.2 hy.2 (by rw [← hy.1]; exact hfast.2) hle]
      simp
    · rw [if_neg hfast, hy.1,
        memcmp_strings mem a.ptr b.ptr x y y.length hx.2 hy.2 hle (le_refl _)]
      refine ⟨_, rfl, ?_⟩
      rw [decide_eq_true_eq]
      exact take_eq_iff_prefix x y

theorem cx_str_contains_start_ci_spec (mem : List Nat) (a b : cx_string)
    (x y : List Nat) (hx : a.holds mem x) (hy : b.holds mem y) :
    ∃ hit, cx_str_contains_start_ci mem a b = some hit ∧
      (hit = true ↔ y.map c_tolower <+: x.map c_tolower) := by
  unfold cx_str_contains_start_ci
  by_cases hlen : a.len ≥ b.len
  · rw [if_pos hlen]
    have hle : y.length ≤ x.length := by rw [← hx.1, ← hy.1]; omega
    rw [hy.1, strncasecmp_strings mem x y a.ptr b.ptr y.length hx.2 hy.2 hle (le_refl _)]
    refine ⟨_, rfl, ?_⟩
    rw [decide_eq_true_eq, ← take_eq_iff_prefix _ _]
    simp only [List.length_map, List.map_take]
  · rw [if_neg hlen]
    refine ⟨false, rfl, ?_⟩
    simp only [Bool.false_eq_true, false_iff]
    intro h
    have := h.length_le
    simp only [List.length_map] at this
    rw [hx.1, hy.1] at hlen
    omega

theorem prefix_drop_iff_suffix (x y : List Nat) (h : y.length ≤ x.length) :
    y <+: x.drop (x.length - y.length) ↔ y <:+ x := by
  rw [suffix_iff_drop]
  constructor
  · intro hp
    exact (List.IsPrefix.eq_of_length hp (by rw [List.length_drop]; omega)).symm
  · intro he
    rw [he]

theorem end_ptr (a b : cx_string) (x y : List Nat) (mem : List Nat)
    (hx : a.holds mem x) (hy : b.holds mem y) (hle : y.length ≤ x.length) :
    a.ptr + a.len - b.len = a.ptr + (x.length - y.length) := by
  rw [hx.1, hy.1]; omega

/-- The function `cx_str_contains_end` decides "is a suffix", on both of its paths. -/
theorem cx_str_contains_end_spec (cfg : Build) (mem : List Nat) (a b : cx_string)
    (x y : List Nat) (hx : a.holds mem x) (hy : b.holds mem y) :
    ∃ hit, cx_str_contains_end cfg mem a b = some hit ∧ (hit = true ↔ y <:+ x) := by
  unfold cx_str_contains_end
  by_cases hlen : a.len < b.len
  · rw [if_pos hlen]
    refine ⟨false, rfl, ?_⟩
    simp only [Bool.false_eq_true, false_iff]
    intro h
    have := h.length_le
    rw [hx.1, hy.1] at hlen
    omega
  · rw [if_neg hlen]
    have hle : y.length ≤ x.length := by rw [← hx.1, ← hy.1]; omega
    have htail := strAt_drop mem a.ptr x hx.2 (x.length - y.length) (by omega)
    have hdl : (x.drop (x.length - y.length)).length = y.length := by
      rw [List.length_drop]; omega
    rw [end_ptr a b x y mem hx hy hle]
    by_cases hfast : (cfg.pcmpistrm && decide (b.len < 16)) = true
    · rw [if_pos hfast]
      simp only [Bool.and_eq_true, decide_eq_true_eq] at hfast
      refine ⟨_, rfl, ?_⟩
      rw [cmpistro_ordered mem _ b.ptr _ y htail hy.2 (by rw [← hy.1]; exact hfast.2)
        (by omega)]
      rw [decide_eq_true_eq]
      exact prefix_drop_iff_suffix x y hle
    · rw [if_neg hfast, hy.1,
        memcmp_strings mem _ b.ptr _ y y.length htail hy.2 (by omega) (le_refl _)]
      refine ⟨_, rfl, ?_⟩
      rw [decide_eq_true_eq, take_eq_iff_prefix _ y]
      exact prefix_drop_iff_suffix x y hle

theorem cx_str_contains_end_ci_spec (mem : List Nat) (a b : cx_string)
    (x y : List Nat) (hx : a.holds mem x) (hy : b.holds mem y) :
    ∃ hit, cx_str_contains_end_ci mem a b = some hit ∧
      (hit = true ↔ y.map c_tolower <:+ x.map c_tolower) := by
  unfold cx_str_contains_end_ci
  by_cases hlen : a.len ≥ b.len
  · rw [if_pos hlen]
    have hle : y.length ≤ x.length := by rw [← hx.1, ← hy.1]; omega
    have htail := strAt_drop mem a.ptr x hx.2 (x.length - y.length) (by omega)
    have hdl : (x.drop (x.length - y.length)).length = y.length := by
      rw [List.length_drop]; omega
    rw [end_ptr a b x y mem hx hy hle, hy.1,
      strncasecmp_strings mem _ y _ b.ptr y.length htail hy.2 (by omega) (le_refl _)]
    refine ⟨_, rfl, ?_⟩
    rw [decide_eq_true_eq, ← prefix_drop_iff_suffix _ _ (by simpa using hle),
      ← take_eq_iff_prefix _ _]
    simp only [List.length_map, List.map_take, List.map_drop]
  · rw [if_neg hlen]
    refine ⟨false, rfl, ?_⟩
    simp only [Bool.false_eq_true, false_iff]
    intro h
    have := h.length_le
    simp only [List.length_map] at this
    rw [hx.1, hy.1] at hlen
    omega

/-- The function `cx_str_contains_any` decides "is a substring", on both of its paths. -/
theorem cx_str_contains_any_spec (cfg : Build) (mem : List Nat) (a b : cx_string)
    (x y : List Nat) (hx : a.holds mem x) (hy : b.holds mem y) :
    ∃ hit, cx_str_contains_any cfg mem a b = some hit ∧ (hit = true ↔ y <:+: x) := by
  unfold cx_str_contains_any
  by_cases hlen : a.len < b.len
  · rw [if_pos hlen]
    refine ⟨false, rfl, ?_⟩
    simp only [Bool.false_eq_true, false_iff]
    intro h
    have := h.length_le
    rw [hx.1, hy.1] at hlen
    omega
  · rw [if_neg hlen]
    by_cases hfast : (cfg.pcmpistrm && decide (a.len < 16 ∧ b.len < 16)) = true
    · rw [if_pos hfast]
      simp only [Bool.and_eq_true, decide_eq_true_eq] at hfast
      refine ⟨_, rfl, ?_⟩
      rw [cmpistrc_ordered mem a.ptr b.ptr x y hx.2 hy.2 (by rw [← hx.1]; exact hfast.2.1)
        (by rw [← hy.1]; exact hfast.2.2)]
      simp
    · rw [if_neg hfast, strstr_strings mem a.ptr b.ptr x y hx.2 hy.2]
      exact ⟨_, rfl, by simp⟩

theorem cx_str_contains_any_ci_spec (mem : List Nat) (a b : cx_string)
    (x y : List Nat) (hx : a.holds mem x) (hy : b.holds mem y) :
    ∃ hit, cx_str_contains_any_ci mem a b = some hit ∧
      (hit = true ↔ y.map c_tolower <:+: x.map c_tolower) := by
  unfold cx_str_contains_any_ci
  by_cases hlen : a.len ≥ b.len
  · rw [if_pos hlen, strcasestr_strings mem a.ptr b.ptr x y hx.2 hy.2]
    exact ⟨_, rfl, by simp⟩
  · rw [if_neg hlen]
    refine ⟨false, rfl, ?_⟩
    simp only [Bool.false_eq_true, false_iff]
    intro h
    have := h.length_le
    simp only [List.length_map] at this
    rw [hx.1, hy.1] at hlen
    omega

/-! ### The string kernels -/

theorem holds_map (f : Nat → Nat) (hf : ∀ b, f b = 0 ↔ b = 0) (mem : List Nat)
    (a : cx_string) (x : List Nat) (h : a.holds mem x) : a.holds (mem.map f) (x.map f) :=
  ⟨by rw [List.length_map]; exact h.1, strAt_map f hf mem a.ptr x h.2⟩

/-- A kernel whose test decides `rel` on the strings seen through `g` returns the
mask of `rel` on the batch seen through `g`. -/
theorem str_kernel_mask (name name_ci : List Nat → cx_string → cx_string → Option Bool)
    (cs : Bool) (rel : List Nat → List Nat → Prop) (g : List Nat → List Nat)
    (mem : List Nat) (size : Nat) (strings : List cx_string) (cmp : cx_string)
    (x : Nat → List Nat) (y : List Nat) (hsize : size ≤ 64) (hlen : size ≤ strings.length)
    (hx : ∀ i (h : i < strings.length), i < size → strings[i].holds mem (x i))
    (hy : cmp.holds mem y)
    (htest : ∀ a b x y, a.holds mem x → b.holds mem y →
      ∃ hit, (if cs then name mem a b else name_ci mem a b) = some hit ∧
        (hit = true ↔ rel (g x) (g y))) :
    IsStrMask rel size (fun i => g (x i)) (g y)
      (CX_STR_MATCH name name_ci mem size strings cmp cs) :=
  isStrMask_of_tests name name_ci mem size strings cmp cs rel _ _ hsize hlen
    (fun i h hi => htest strings[i] cmp (x i) y (hx i h hi) hy)

/-- C14. For every build, every `size <= 64`, every batch of at least `size`
well-formed records (record `i` holding the string `x i`, `len` its NUL-terminated
length) and every well-formed needle `y`, the case-sensitive `cx_match_str_contains`
returns a 64-bit mask whose bit `i < size` is set iff `y` is a prefix of `x i` when
the location is START, a suffix of `x i` when it is END, and a contiguous substring
of `x i` when it is ANY; the bits from `size` up are zero. -/
theorem cx_match_str_contains_spec (cfg : Build) (mem : List Nat) (size : Nat)
    (strings : List cx_string) (cmp : cx_string) (x : Nat → List Nat) (y : List Nat)
    (hsize : size ≤ 64) (hlen : size ≤ strings.length)
    (hx : ∀ i (h : i < strings.length), i < size → strings[i].holds mem (x i))
    (hy : cmp.holds mem y) :
    IsStrMask (fun x y => y <+: x) size x y
      (cx_match_str_contains cfg mem size strings cmp true cx_str_location.START) ∧
    IsStrMask (fun x y => y <:+ x) size x y
      (cx_match_str_contains cfg mem size strings cmp true cx_str_location.END) ∧
    IsStrMask (fun x y => y <:+: x) size x y
      (cx_match_str_contains cfg mem size strings cmp true cx_str_location.ANY) := by
  refine ⟨?_, ?_, ?_⟩
  · exact str_kernel_mask (cx_str_contains_start cfg) cx_str_contains_start_ci true
      (fun x y => y <+: x) (fun l => l) mem size strings cmp x y hsize hlen hx hy
      (fun a b x y ha hb => by
        simpa using cx_str_contains_start_spec cfg mem a b x y ha hb)
  · exact str_kernel_mask (cx_str_contains_end cfg) cx_str_contains_end_ci true
      (fun x y => y <:+ x) (fun l => l) mem size strings cmp x y hsize hlen hx hy
      (fun a b x y ha hb => by
        simpa using cx_str_contains_end_spec cfg mem a b x y ha hb)
  · exact str_kernel_mask (cx_str_contains_any cfg) cx_str_contains_any_ci true
      (fun x y => y <:+: x) (fun l => l) mem size strings cmp x y hsize hlen hx hy
      (fun a b x y ha hb => by
        simpa using cx_str_contains_any_spec cfg mem a b x y ha hb)

/-- Witness for C14: the needle "b" against "ab", "ac" and "abcdefghijklmnop" in a
build with the 16-byte compare paths. -/
theorem cx_match_str_contains_spec_witness :
    ((3 ≤ 64 ∧ 3 ≤ [(⟨0, 2⟩ : cx_string), ⟨3, 2⟩, ⟨12, 16⟩].length) ∧
      (∀ i (h : i < [(⟨0, 2⟩ : cx_string), ⟨3, 2⟩, ⟨12, 16⟩].length), i < 3 →
        [(⟨0, 2⟩ : cx_string), ⟨3, 2⟩, ⟨12, 16⟩][i].holds sample_str_mem
          (([[97, 98], [97, 99], (sample_str_mem.drop 12).take 16] : List (List Nat)).getD i
            [])) ∧
      (⟨9, 1⟩ : cx_string).holds sample_str_mem [98]) ∧
    IsStrMask (fun x y => y <:+: x) 3
      (fun i => ([[97, 98], [97, 99], (sample_str_mem.drop 12).take 16]
        : List (List Nat)).getD i []) [98]
      (cx_match_str_contains ⟨false, none, true, true⟩ sample_str_mem 3
        [⟨0, 2⟩, ⟨3, 2⟩, ⟨12, 16⟩] ⟨9, 1⟩ true cx_str_location.ANY) ∧
    cx_match_str_contains ⟨false, none, true, true⟩ sample_str_mem 3
      [⟨0, 2⟩, ⟨3, 2⟩, ⟨12, 16⟩] ⟨9, 1⟩ true cx_str_location.ANY = some 5 :=
  have hx : ∀ i (h : i < [(⟨0, 2⟩ : cx_string), ⟨3, 2⟩, ⟨12, 16⟩].length), i < 3 →
      [(⟨0, 2⟩ : cx_string), ⟨3, 2⟩, ⟨12, 16⟩][i].holds sample_str_mem
        (([[97, 98], [97, 99], (sample_str_mem.drop 12).take 16] : List (List Nat)).getD i
          []) := fun i h _ =>
    match i, h with
    | 0, _ => (by decide : (⟨0, 2⟩ : cx_string).holds sample_str_mem [97, 98])
    | 1, _ => (by decide : (⟨3, 2⟩ : cx_string).holds sample_str_mem [97, 99])
    | 2, _ => (by decide : (⟨12, 16⟩ : cx_string).holds sample_str_mem
        ((sample_str_mem.drop 12).take 16))
  ⟨⟨⟨by decide, by decide⟩, hx, by decide⟩,
    (cx_match_str_contains_spec ⟨false, none, true, true⟩ sample_str_mem 3
      [⟨0, 2⟩, ⟨3, 2⟩, ⟨12, 16⟩] ⟨9, 1⟩ _ [98] (by decide) (by decide) hx (by decide)).2.2,
    by decide⟩

/-- C13, the failing input: the batch holding the one string "ab", compared with
"ac", both records well-formed.  In a build with `CX_PCMPISTRM` the case-sensitive
`cx_match_str_eq` returns the mask 1, bit 0 set although the strings differ in their
second byte; without the 16-byte path it returns 0.  The kernels `cx_match_str_lt`
and `cx_match_str_gt` return 1 and 0 in both builds ("ab" precedes "ac"). -/
theorem cx_match_str_eq_first_byte :
    ((⟨0, 2⟩ : cx_string).holds sample_str_mem [97, 98] ∧
      (⟨3, 2⟩ : cx_string).holds sample_str_mem [97, 99] ∧ ([97, 98] : List Nat) ≠ [97, 99]) ∧
    cx_match_str_eq ⟨false, none, true, true⟩ sample_str_mem 1 [⟨0, 2⟩] ⟨3, 2⟩ true = some 1 ∧
    cx_match_str_eq ⟨false, none, true, false⟩ sample_str_mem 1 [⟨0, 2⟩] ⟨3, 2⟩ true = some 0 ∧
    cx_match_str_lt sample_str_mem 1 [⟨0, 2⟩] ⟨3, 2⟩ true = some 1 ∧
    cx_match_str_gt sample_str_mem 1 [⟨0, 2⟩] ⟨3, 2⟩ true = some 0 := by
  decide

/-- The case-sensitive kernels where C13 holds.  For every `size <= 64`, every batch
of at least `size` well-formed records (record `i` holding the string `x i`) and
every well-formed `cmp` holding `y`: in every build, bit `i < size` of
`cx_match_str_lt` is set iff `x i` precedes `y` in the byte-wise lexicographic order
and bit `i` of `cx_match_str_gt` iff `x i` follows `y`; in a build without
`CX_PCMPISTRM`, bit `i` of `cx_match_str_eq` is set iff `x i` and `y` are equal byte
for byte.  The bits from `size` up are zero. -/
theorem cx_match_str_cmp_scalar (cfg : Build) (mem : List Nat) (size : Nat)
    (strings : List cx_string) (cmp : cx_string) (x : Nat → List Nat) (y : List Nat)
    (hsize : size ≤ 64) (hlen : size ≤ strings.length)
    (hx : ∀ i (h : i < strings.length), i < size → strings[i].holds mem (x i))
    (hy : cmp.holds mem y) :
    IsStrMask (fun x y => List.Lex (· < ·) x y) size x y
      (cx_match_str_lt mem size strings cmp true) ∧
    IsStrMask (fun x y => List.Lex (· < ·) y x) size x y
      (cx_match_str_gt mem size strings cmp true) ∧
    (cfg.pcmpistrm = false →
      IsStrMask (fun x y => x = y) size x y
        (cx_match_str_eq cfg mem size strings cmp true)) := by
  refine ⟨?_, ?_, ?_⟩
  · exact str_kernel_mask cx_str_lt cx_str_lt_ci true (fun x y => List.Lex (· < ·) x y)
      (fun l => l) mem size strings cmp x y hsize hlen hx hy
      (fun a b x y ha hb => by simpa using cx_str_lt_spec mem a b x y ha hb)
  · exact str_kernel_mask cx_str_gt cx_str_gt_ci true (fun x y => List.Lex (· < ·) y x)
      (fun l => l) mem size strings cmp x y hsize hlen hx hy
      (fun a b x y ha hb => by simpa using cx_str_gt_spec mem a b x y ha hb)
  · intro hscalar
    exact str_kernel_mask (cx_str_eq cfg) cx_str_eq_ci true (fun x y => x = y)
      (fun l => l) mem size strings cmp x y hsize hlen hx hy
      (fun a b x y ha hb => by
        simpa using cx_str_eq_spec cfg mem a b x y (Or.inl hscalar) ha hb)

/-- C15, the failing input: the batch holding the one string "ab", compared with
"ac", in a build with `CX_PCMPISTRM`.  With `case_sensitive == false`
`cx_match_str_eq` returns the mask 0; on the folded memory (which holds the same two
strings, already lower case) with `case_sensitive == true` it returns the mask 1. -/
theorem cx_match_str_eq_fold_first_byte :
    ((⟨0, 2⟩ : cx_string).holds (sample_str_mem.map c_tolower) [97, 98] ∧
      (⟨3, 2⟩ : cx_string).holds (sample_str_mem.map c_tolower) [97, 99]) ∧
    cx_match_str_eq ⟨false, none, true, true⟩ sample_str_mem 1 [⟨0, 2⟩] ⟨3, 2⟩ false
      = some 0 ∧
    cx_match_str_eq ⟨false, none, true, true⟩ (sample_str_mem.map c_tolower) 1 [⟨0, 2⟩]
      ⟨3, 2⟩ true = some 1 := by
  decide

/-- Case-insensitive matching is ASCII case folding, where C15 holds.  For every
batch of at least `size <= 64` well-formed records and every well-formed `cmp`, the
mask returned with `case_sensitive == false` is the mask returned with
`case_sensitive == true` on the memory in which every byte `'A'..'Z'` is replaced by
its lower-case counterpart: in every build for `lt`, `gt`, `contains_start`,
`contains_end` and `contains_any`, and in a build without `CX_PCMPISTRM` for `eq`. -/
theorem cx_match_str_case_fold (cfg : Build) (mem : List Nat) (size : Nat)
    (strings : List cx_string) (cmp : cx_string) (x : Nat → List Nat) (y : List Nat)
    (hsize : size ≤ 64) (hlen : size ≤ strings.length)
    (hx : ∀ i (h : i < strings.length), i < size → strings[i].holds mem (x i))
    (hy : cmp.holds mem y) :
    cx_match_str_lt mem size strings cmp false
      = cx_match_str_lt (mem.map c_tolower) size strings cmp true ∧
    cx_match_str_gt mem size strings cmp false
      = cx_match_str_gt (mem.map c_tolower) size strings cmp true ∧
    (∀ location, cx_match_str_contains cfg mem size strings cmp false location
      = cx_match_str_contains cfg (mem.map c_tolower) size strings cmp true location) ∧
    (cfg.pcmpistrm = false →
      cx_match_str_eq cfg mem size strings cmp false
        = cx_match_str_eq cfg (mem.map c_tolower) size strings cmp true) := by
  have hx' : ∀ i (h : i < strings.length), i < size →
      strings[i].holds (mem.map c_tolower) ((x i).map c_tolower) :=
    fun i h hi => holds_map c_tolower c_tolower_zero mem _ _ (hx i h hi)
  have hy' := holds_map c_tolower c_tolower_zero mem _ _ hy
  refine ⟨?_, ?_, ?_, ?_⟩
  · exact isStrMask_unique (fun x y => List.Lex (· < ·) x y) size
      (fun i => (x i).map c_tolower) (y.map c_tolower) _ _
      (str_kernel_mask cx_str_lt cx_str_lt_ci false _ (fun l => l.map c_tolower) mem size
        strings cmp x y hsize hlen hx hy
        (fun a b x y ha hb => by simpa using cx_str_lt_ci_spec mem a b x y ha hb))
      (str_kernel_mask cx_str_lt cx_str_lt_ci true _ (fun l => l) _ size
        strings cmp _ _ hsize hlen hx' hy'
        (fun a b x y ha hb => by simpa using cx_str_lt_spec _ a b x y ha hb))
  · exact isStrMask_unique (fun x y => List.Lex (· < ·) y x) size
      (fun i => (x i).map c_tolower) (y.map c_tolower) _ _
      (str_kernel_mask cx_str_gt cx_str_gt_ci false _ (fun l => l.map c_tolower) mem size
        strings cmp x y hsize hlen hx hy
        (fun a b x y ha hb => by simpa using cx_str_gt_ci_spec mem a b x y ha hb))
      (str_kernel_mask cx_str_gt cx_str_gt_ci true _ (fun l => l) _ size
        strings cmp _ _ hsize hlen hx' hy'
        (fun a b x y ha hb => by simpa using cx_str_gt_spec _ a b x y ha hb))
  · intro location
    cases location
    · exact isStrMask_unique (fun x y => y <+: x) size
        (fun i => (x i).map c_tolower) (y.map c_tolower) _ _
        (str_kernel_mask (cx_str_contains_start cfg) cx_str_contains_start_ci false _
          (fun l => l.map c_tolower) mem size strings cmp x y hsize hlen hx hy
          (fun a b x y ha hb => by
            simpa using cx_str_contains_start_ci_spec mem a b x y ha hb))
        (str_kernel_mask (cx_str_contains_start cfg) cx_str_contains_start_ci true _
          (fun l => l) _ size strings cmp _ _ hsize hlen hx' hy'
          (fun a b x y ha hb => by
            simpa using cx_str_contains_start_spec cfg _ a b x y ha hb))
    · exact isStrMask_unique (fun x y => y <:+ x) size
        (fun i => (x i).map c_tolower) (y.map c_tolower) _ _
        (str_kernel_mask (cx_str_contains_end cfg) cx_str_contains_end_ci false _
          (fun l => l.map c_tolower) mem size strings cmp x y hsize hlen hx hy
          (fun a b x y ha hb => by
            simpa using cx_str_contains_end_ci_spec mem a b x y ha hb))
        (str_kernel_mask (cx_str_contains_end cfg) cx_str_contains_end_ci true _
          (fun l => l) _ size strings cmp _ _ hsize hlen hx' hy'
          (fun a b x y ha hb => by
            simpa using cx_str_contains_end_spec cfg _ a b x y ha hb))
    · exact isStrMask_unique (fun x y => y <:+: x) size
        (fun i => (x i).map c_tolower) (y.map c_tolower) _ _
        (str_kernel_mask (cx_str_contains_any cfg) cx_str_contains_any_ci false _
          (fun l => l.map c_tolower) mem size strings cmp x y hsize hlen hx hy
          (fun a b x y ha hb => by
            simpa using cx_str_contains_any_ci_spec mem a b x y ha hb))
        (str_kernel_mask (cx_str_contains_any cfg) cx_str_contains_any_ci true _
          (fun l => l) _ size strings cmp _ _ hsize hlen hx' hy'
          (fun a b x y ha hb => by
            simpa using cx_str_contains_any_spec cfg _ a b x y ha hb))
  · intro hscalar
    exact isStrMask_unique (fun x y => x = y) size
      (fun i => (x i).map c_tolower) (y.map c_tolower) _ _
      (str_kernel_mask (cx_str_eq cfg) cx_str_eq_ci false _ (fun l => l.map c_tolower) mem
        size strings cmp x y hsize hlen hx hy
        (fun a b x y ha hb => by simpa using cx_str_eq_ci_spec mem a b x y ha hb))
      (str_kernel_mask (cx_str_eq cfg) cx_str_eq_ci true _ (fun l => l) _ size
        strings cmp _ _ hsize hlen hx' hy'
        (fun a b x y ha hb => by
          simpa using cx_str_eq_spec cfg _ a b x y (Or.inl hscalar) ha hb))

/-! ### Trichotomy of the numeric kernels -/

/-- C23. Comparison trichotomy of the numeric kernels.  For both element types (4 and
8 bytes), every build, every `size <= 64`, every batch of at least `size` elements
and every `cmp`, the kernels `cx_match_T_eq`, `cx_match_T_lt` and `cx_match_T_gt`
return masks that are pairwise disjoint and whose bitwise OR is exactly the low
`size` bits, `2^size - 1`; equivalently the complement of the eq mask within the low
`size` bits is `lt OR gt`. -/
theorem cx_match_trichotomy (cfg : Build) (hcfg : cfg.valid) (sz : Nat)
    (hsz : sz = 4 ∨ sz = 8) (size : Nat) (batch : List Int) (cmp : Int)
    (hsize : size ≤ 64) (hlen : size ≤ batch.length) :
    ∃ e l g, cx_match cfg sz MatchOp.eq size batch cmp = some e ∧
      cx_match cfg sz MatchOp.lt size batch cmp = some l ∧
      cx_match cfg sz MatchOp.gt size batch cmp = some g ∧
      e &&& l = 0 ∧ e &&& g = 0 ∧ l &&& g = 0 ∧
      e ||| l ||| g = 2 ^ size - 1 ∧
      (2 ^ size - 1) ^^^ e = l ||| g := by
  obtain ⟨e, he, hbe⟩ := cx_match_bits cfg hcfg sz hsz MatchOp.eq size batch cmp hsize hlen
  obtain ⟨l, hl, hbl⟩ := cx_match_bits cfg hcfg sz hsz MatchOp.lt size batch cmp hsize hlen
  obtain ⟨g, hg, hbg⟩ := cx_match_bits cfg hcfg sz hsz MatchOp.gt size batch cmp hsize hlen
  refine ⟨e, l, g, he, hl, hg, ?_, ?_, ?_, ?_, ?_⟩
  all_goals
    apply Nat.eq_of_testBit_eq
    intro i
    have e1 := hbe i
    have e2 := hbl i
    have e3 := hbg i
    generalize batch.getD i 0 = v at e1 e2 e3
    simp only [Nat.testBit_and, Nat.testBit_or, Nat.testBit_xor, Nat.zero_testBit,
      testBit_full_mask, e1, e2, e3, MatchOp.test]
    by_cases hi : i < size
    · rcases lt_trichotomy v cmp with h | h | h
      · have h1 : ¬ v = cmp := by omega
        have h2 : ¬ v > cmp := by omega
        simp [hi, h, h1, h2]
      · have h1 : ¬ v < cmp := by omega
        have h2 : ¬ v > cmp := by omega
        simp [hi, h, h1, h2]
      · have h1 : ¬ v = cmp := by omega
        have h2 : ¬ v < cmp := by omega
        simp [hi, h, h1, h2]
    · simp [hi]

/-- Witness for C23: the values 0 to 9 against 3 in an AVX2 build; the negated-equality
mask is `0x3F7`. -/
theorem cx_match_trichotomy_witness :
    (Build.valid ⟨false, some 32, true, false⟩ ∧ ((4 : Nat) = 4 ∨ (4 : Nat) = 8) ∧ 10 ≤ 64 ∧
      10 ≤ [(0 : Int), 1, 2, 3, 4, 5, 6, 7, 8, 9].length) ∧
    (∃ e l g,
      cx_match_i32_eq ⟨false, some 32, true, false⟩ 10 [0, 1, 2, 3, 4, 5, 6, 7, 8, 9] 3
        = some e ∧
      cx_match_i32_lt ⟨false, some 32, true, false⟩ 10 [0, 1, 2, 3, 4, 5, 6, 7, 8, 9] 3
        = some l ∧
      cx_match_i32_gt ⟨false, some 32, true, false⟩ 10 [0, 1, 2, 3, 4, 5, 6, 7, 8, 9] 3
        = some g ∧
      e &&& l = 0 ∧ e &&& g = 0 ∧ l &&& g = 0 ∧ e ||| l ||| g = 2 ^ 10 - 1 ∧
      (2 ^ 10 - 1) ^^^ e = l ||| g) ∧
    cx_match_i32_eq ⟨false, some 32, true, false⟩ 10 [0, 1, 2, 3, 4, 5, 6, 7, 8, 9] 3
      = some 8 ∧
    (2 ^ 10 - 1) ^^^ 8 = 0x3F7 :=
  ⟨⟨by decide, Or.inl rfl, by decide, by decide⟩,
    cx_match_trichotomy ⟨false, some 32, true, false⟩ (by decide) 4 (Or.inl rfl) 10
      [0, 1, 2, 3, 4, 5, 6, 7, 8, 9] 3 (by decide) (by decide),
    by decide, by decide⟩

/-! ### The 16-byte path of `cx_str_eq` -/

/-- C22, the failing input: the NUL-terminated strings "ab" and "ac", of equal length 2.
With `CX_PCMPISTRM` the 16-byte path of `cx_str_eq` (`_mm_cmpistro` with
`_SIDD_UBYTE_OPS | _SIDD_CMP_EQUAL_EACH | _SIDD_BIT_MASK`) returns true, the scalar
`memcmp` path returns false, and the strings are not equal byte for byte; so
`cx_match_str_eq` returns the mask 1 with the fast path and 0 without.  The flag the
intrinsic returns is bit 0 of the compare, the equality of the first bytes. -/
theorem cx_str_eq_fast_path_differs :
    ((⟨0, 2⟩ : cx_string).holds sample_str_mem [97, 98] ∧
      (⟨3, 2⟩ : cx_string).holds sample_str_mem [97, 99] ∧ ([97, 98] : List Nat) ≠ [97, 99]) ∧
    cx_str_eq ⟨false, none, true, true⟩ sample_str_mem ⟨0, 2⟩ ⟨3, 2⟩ = some true ∧
    cx_str_eq ⟨false, none, true, false⟩ sample_str_mem ⟨0, 2⟩ ⟨3, 2⟩ = some false ∧
    mm_cmpistro (mm_loadu_si128 sample_str_mem 3) (mm_loadu_si128 sample_str_mem 0)
      SiddCmp.EQUAL_EACH = true ∧
    (memcmp sample_str_mem 0 3 2).map (fun r => decide (r = 0)) = some false ∧
    cx_match_str_eq ⟨false, none, true, true⟩ sample_str_mem 2 [⟨0, 2⟩, ⟨3, 2⟩] ⟨3, 2⟩ true
      = some 3 ∧
    cx_match_str_eq ⟨false, none, true, false⟩ sample_str_mem 2 [⟨0, 2⟩, ⟨3, 2⟩] ⟨3, 2⟩ true
      = some 2 := by
  decide

/-! ### The empty needle -/

theorem isStrMask_full (rel : List Nat → List Nat → Prop) (size : Nat) (x : Nat → List Nat)
    (y : List Nat) (r : Option Nat) (h : IsStrMask rel size x y r)
    (hall : ∀ i, i < size → rel (x i) y) : r = some (2 ^ size - 1) := by
  obtain ⟨mask, hr, _, hb, hz⟩ := h
  rw [hr]
  congr 1
  apply Nat.eq_of_testBit_eq
  intro i
  rw [testBit_full_mask]
  rcases Nat.lt_or_ge i size with hi | hi
  · rw [(hb i hi).mpr (hall i hi)]
    simp [hi]
  · rw [hz i hi]
    have : ¬ i < size := by omega
    simp [this]

/-- C24. Empty needle matches every row.  For every build, every `size <= 64`, every
batch of at least `size` well-formed records, both values of `case_sensitive` and
every location (START, END, ANY), `cx_match_str_contains` with a well-formed needle
of length 0 returns `2^size - 1`: exactly the low `size` bits set. -/
theorem cx_match_str_contains_empty (cfg : Build) (mem : List Nat) (size : Nat)
    (strings : List cx_string) (cmp : cx_string) (x : Nat → List Nat)
    (case_sensitive : Bool) (location : cx_str_location)
    (hsize : size ≤ 64) (hlen : size ≤ strings.length)
    (hx : ∀ i (h : i < strings.length), i < size → strings[i].holds mem (x i))
    (hy : cmp.holds mem []) :
    cx_match_str_contains cfg mem size strings cmp case_sensitive location
      = some (2 ^ size - 1) ∧
    ∀ i, (2 ^ size - 1).testBit i = decide (i < size) := by
  refine ⟨?_, testBit_full_mask size⟩
  cases case_sensitive <;> cases location
  · exact isStrMask_full (fun x y => y <+: x) size _ _ _
      (str_kernel_mask (cx_str_contains_start cfg) cx_str_contains_start_ci false _
        (fun l => l.map c_tolower) mem size strings cmp x [] hsize hlen hx hy
        (fun a b x y ha hb => by
          simpa using cx_str_contains_start_ci_spec mem a b x y ha hb))
      (fun i _ => List.nil_prefix)
  · exact isStrMask_full (fun x y => y <:+ x) size _ _ _
      (str_kernel_mask (cx_str_contains_end cfg) cx_str_contains_end_ci false _
        (fun l => l.map c_tolower) mem size strings cmp x [] hsize hlen hx hy
        (fun a b x y ha hb => by
          simpa using cx_str_contains_end_ci_spec mem a b x y ha hb))
      (fun i _ => List.nil_suffix)
  · exact isStrMask_full (fun x y => y <:+: x) size _ _ _
      (str_kernel_mask (cx_str_contains_any cfg) cx_str_contains_any_ci false _
        (fun l => l.map c_tolower) mem size strings cmp x [] hsize hlen hx hy
        (fun a b x y ha hb => by
          simpa using cx_str_contains_any_ci_spec mem a b x y ha hb))
      (fun i _ => List.nil_infix)
  · exact isStrMask_full (fun x y => y <+: x) size _ _ _
      (str_kernel_mask (cx_str_contains_start cfg) cx_str_contains_start_ci true _
        (fun l => l) mem size strings cmp x [] hsize hlen hx hy
        (fun a b x y ha hb => by
          simpa using cx_str_contains_start_spec cfg mem a b x y ha hb))
      (fun i _ => List.nil_prefix)
  · exact isStrMask_full (fun x y => y <:+ x) size _ _ _
      (str_kernel_mask (cx_str_contains_end cfg) cx_str_contains_end_ci true _
        (fun l => l) mem size strings cmp x [] hsize hlen hx hy
        (fun a b x y ha hb => by
          simpa using cx_str_contains_end_spec cfg mem a b x y ha hb))
      (fun i _ => List.nil_suffix)
  · exact isStrMask_full (fun x y => y <:+: x) size _ _ _
      (str_kernel_mask (cx_str_contains_any cfg) cx_str_contains_any_ci true _
        (fun l => l) mem size strings cmp x [] hsize hlen hx hy
        (fun a b x y ha hb => by
          simpa using cx_str_contains_any_spec cfg mem a b x y ha hb))
      (fun i _ => List.nil_infix)

/-- Witness for C24: the empty needle against "ab" and "abcdefghijklmnop", case
insensitive at END, in a build with the 16-byte compare paths. -/
theorem cx_match_str_contains_empty_witness :
    ((2 ≤ 64 ∧ 2 ≤ [(⟨0, 2⟩ : cx_string), ⟨12, 16⟩].length) ∧
      (∀ i (h : i < [(⟨0, 2⟩ : cx_string), ⟨12, 16⟩].length), i < 2 →
        [(⟨0, 2⟩ : cx_string), ⟨12, 16⟩][i].holds sample_str_mem
          (([[97, 98], (sample_str_mem.drop 12).take 16] : List (List Nat)).getD i [])) ∧
      (⟨11, 0⟩ : cx_string).holds sample_str_mem []) ∧
    cx_match_str_contains ⟨false, none, true, true⟩ sample_str_mem 2
      [⟨0, 2⟩, ⟨12, 16⟩] ⟨11, 0⟩ false cx_str_location.END = some 3 :=
  have hx : ∀ i (h : i < [(⟨0, 2⟩ : cx_string), ⟨12, 16⟩].length), i < 2 →
      [(⟨0, 2⟩ : cx_string), ⟨12, 16⟩][i].holds sample_str_mem
        (([[97, 98], (sample_str_mem.drop 12).take 16] : List (List Nat)).getD i []) :=
    fun i h _ =>
    match i, h with
    | 0, _ => (by decide : (⟨0, 2⟩ : cx_string).holds sample_str_mem [97, 98])
    | 1, _ => (by decide : (⟨12, 16⟩ : cx_string).holds sample_str_mem
        ((sample_str_mem.drop 12).take 16))
  ⟨⟨⟨by decide, by decide⟩, hx, by decide⟩,
    (cx_match_str_contains_empty ⟨false, none, true, true⟩ sample_str_mem 2
      [⟨0, 2⟩, ⟨12, 16⟩] ⟨11, 0⟩ _ false cx_str_location.END (by decide) (by decide) hx
      (by decide)).1⟩

/-! ### Termination of the doubling loop -/

/-- C29. Resize terminates without overflow.  For every column with capacity at
least 1 (a `size_t`) and every `alloc_size` with `offset + alloc_size + pad <= 2^63`:
the doubling loop of `cx_column_resize` terminates, after some `k <= 63` iterations
and whatever the bound on iterations from 64 up; at every iteration its assertion
`size * 2 > size` holds in 64-bit wrap-around arithmetic; the size it ends with is
`capacity * 2^k`, at least `offset + alloc_size + pad` and below `2^64`; and on a
heap column `cx_column_resize` returns what the allocator answers, with a capacity
of at least `offset + alloc_size + pad` when the allocator succeeds and the column
unchanged when it fails. -/
theorem cx_column_resize_terminates (cfg : Build) (a : Alloc) (c : cx_column)
    (alloc_size : Nat) (hpos : 1 ≤ c.size) (hword : c.size < WORD)
    (hreq : c.offset + alloc_size + CX_COLUMN_OVER_ALLOC cfg ≤ 2 ^ 63) :
    ∃ k, k ≤ 63 ∧
      (∀ fuel, 64 ≤ fuel →
        resize_loop fuel c.size (c.offset + alloc_size + CX_COLUMN_OVER_ALLOC cfg)
          = some (c.size * 2 ^ k)) ∧
      (∀ j, j < k → c.size * 2 ^ j < c.offset + alloc_size + CX_COLUMN_OVER_ALLOC cfg ∧
        c.size * 2 ^ j * 2 % WORD > c.size * 2 ^ j) ∧
      c.offset + alloc_size + CX_COLUMN_OVER_ALLOC cfg ≤ c.size * 2 ^ k ∧
      c.size * 2 ^ k < WORD ∧
      (c.heap_wf → ∃ c', cx_column_resize cfg a c alloc_size = some (a.ok, c') ∧
        (a.ok = true → c'.size = c.size * 2 ^ k ∧
          c.offset + alloc_size + CX_COLUMN_OVER_ALLOC cfg ≤ c'.size) ∧
        (a.ok = false → c' = c)) := by
  have hbig : c.offset + alloc_size + CX_COLUMN_OVER_ALLOC cfg ≤ c.size * 2 ^ 64 := by
    have : 2 ^ 63 ≤ c.size * 2 ^ 64 := by
      calc 2 ^ 63 ≤ 1 * 2 ^ 64 := by norm_num
        _ ≤ c.size * 2 ^ 64 := Nat.mul_le_mul_right _ hpos
    omega
  obtain ⟨s, hs⟩ := resize_loop_total 64 c.size _ (by omega) hreq hbig
  obtain ⟨k, hk, hle, hlt, hleast⟩ := resize_loop_spec 64 c.size _ s hword hs
  subst hk
  have hassert : ∀ j, j < k → c.size * 2 ^ j * 2 % WORD > c.size * 2 ^ j := by
    intro j hj
    have h1 := hleast j hj
    have h2 : 1 ≤ c.size * 2 ^ j := Nat.mul_pos (by omega) (Nat.pow_pos (by norm_num))
    have h3 : c.size * 2 ^ j * 2 < WORD := by rw [word_eq]; omega
    rw [Nat.mod_eq_of_lt h3]
    omega
  have hk63 : k ≤ 63 := by
    by_contra hc
    have h1 := hleast 63 (by omega)
    have h2 : 2 ^ 63 ≤ c.size * 2 ^ 63 := by
      calc 2 ^ 63 = 1 * 2 ^ 63 := by norm_num
        _ ≤ c.size * 2 ^ 63 := Nat.mul_le_mul_right _ hpos
    omega
  refine ⟨k, hk63, ?_, fun j hj => ⟨hleast j hj, hassert j hj⟩, hle, hlt, ?_⟩
  · intro fuel hfuel
    rw [resize_loop_fuel fuel c.size _ hword hfuel]
    exact hs
  · intro hwf
    obtain ⟨c', hc'⟩ := cx_column_resize_returns cfg a c alloc_size hwf hreq
    refine ⟨c', hc', ?_, ?_⟩
    · intro hok
      rw [hok] at hc'
      have hsize : c'.size = c.size * 2 ^ k := by
        unfold cx_column_resize at hc'
        simp only [hs] at hc'
        split at hc'
        · cases hc'
        · split at hc'
          · split at hc'
            · cases hc'
            · simp only [Option.some.injEq, Prod.mk.injEq, true_and] at hc'
              rw [← hc']
          · simp only [Option.some.injEq, Prod.mk.injEq, true_and] at hc'
            rw [← hc']
      exact ⟨hsize, by rw [hsize]; exact hle⟩
    · intro hok
      rw [hok] at hc'
      exact cx_column_resize_false cfg a c alloc_size c' hc'

/-- Witness for C29: an int32 to be appended to a full heap column of capacity 4. -/
theorem cx_column_resize_terminates_witness :
    (1 ≤ sample_i32_column.size ∧ sample_i32_column.size < WORD ∧
      sample_i32_column.offset + 4 + CX_COLUMN_OVER_ALLOC ⟨false, none, true, false⟩
        ≤ 2 ^ 63) ∧
    resize_loop 64 sample_i32_column.size 8 = some 8 ∧
    ∃ k, k ≤ 63 ∧
      (∀ fuel, 64 ≤ fuel →
        resize_loop fuel sample_i32_column.size
          (sample_i32_column.offset + 4 + CX_COLUMN_OVER_ALLOC ⟨false, none, true, false⟩)
          = some (sample_i32_column.size * 2 ^ k)) :=
  ⟨⟨by decide, by decide, by decide⟩, by decide,
    (cx_column_resize_terminates ⟨false, none, true, false⟩ alloc_ok sample_i32_column 4
      (by decide) (by decide) (by decide)).imp (fun _ h => ⟨h.1, h.2.1⟩)⟩

/-! ### The over-allocation pad -/

/-- C21, the failing input: a build with over-allocation (`CX_COLUMN_OVER_ALLOC == 16`),
a column from `cx_column_new(CX_COLUMN_I32, CX_ENCODING_NONE)`, which has capacity
80, and int32 values appended to it, every append returning true.  After 17 appends
the offset is 68 and the capacity still 80, so only 12 bytes follow the used region;
after 20 appends the offset is 80, the capacity itself, and no byte follows it:
`offset + 16 <= capacity` fails.  `cx_column_put` grows the buffer only when
`offset + size > column->size`, a test that leaves the pad out. -/
theorem cx_column_over_alloc_consumed :
    CX_COLUMN_OVER_ALLOC ⟨true, none, true, false⟩ = 16 ∧
    ∃ c0 c17 c20,
      cx_column_new ⟨true, none, true, false⟩ alloc_ok cx_column_type.I32
        cx_encoding_type.NONE = some c0 ∧ c0.size = 80 ∧
      cx_column_put_all ⟨true, none, true, false⟩ c0
        (List.replicate 17 (alloc_ok, PutCall.i32 7)) = some (List.replicate 17 true, c17) ∧
      c17.offset = 68 ∧ c17.size = 80 ∧ ¬ (c17.offset + 16 ≤ c17.size) ∧
      cx_column_put_all ⟨true, none, true, false⟩ c0
        (List.replicate 20 (alloc_ok, PutCall.i32 7)) = some (List.replicate 20 true, c20) ∧
      c20.offset = 80 ∧ c20.size = 80 ∧ ¬ (c20.offset + 16 ≤ c20.size) := by
  refine ⟨rfl, _, _, _, rfl, rfl, rfl, rfl, rfl, by decide, rfl, rfl, rfl, by decide⟩

theorem memcpy_zero_tail (mem : List Nat) (p : Nat) (src out : List Nat) (n : Nat)
    (h : memcpy mem p src = some out) (hn : src.length ≤ n)
    (hz : mem.drop p = List.replicate (mem.length - p) 0) :
    out.drop (p + n) = List.replicate (mem.length - (p + n)) 0 := by
  have e : p + n = (p + src.length) + (n - src.length) := by omega
  rw [e, ← List.drop_drop, memcpy_drop_end mem p src out h, List.drop_drop, ← e,
    ← List.drop_drop, hz, List.drop_replicate]
  congr 1
  omega

/-- With over-allocation, a successful `cx_column_put` on a heap column whose tail is
zero leaves a column whose tail is zero. -/
theorem cx_column_put_zero_tail (cfg : Build) (hs : cfg.sse42 = true) (a : Alloc)
    (c : cx_column) (t : cx_column_type) (value : Option (List Nat)) (n : Nat)
    (c' : cx_column) (hwf : c.heap_wf) (hz : c.zero_tail)
    (h : cx_column_put cfg a c t value n = some (true, c')) : c'.zero_tail := by
  unfold cx_column_put at h
  split at h
  · cases h
  · have hstep : ∀ c1 : cx_column, c1.heap_wf → c1.zero_tail →
        (match memcpy c1.buffer c1.offset ((value.getD []).take n) with
          | none => none
          | some buffer =>
            some (true, { c1 with buffer := buffer, count := c1.count + 1,
                                  offset := c1.offset + n })) = some (true, c') →
        c'.zero_tail := by
      intro c1 hwf1 hz1 h1
      split at h1
      · cases h1
      · rename_i buf hbuf
        simp only [Option.some.injEq, Prod.mk.injEq, true_and] at h1
        rw [← h1]
        unfold cx_column.zero_tail at hz1 ⊢
        have := memcpy_zero_tail _ _ _ _ n hbuf (List.length_take_le n _)
          (by rw [hwf1.2.1]; exact hz1)
        rw [hwf1.2.1] at this
        exact this
    by_cases hfit : c.offset + n > c.size
    · rw [if_pos hfit] at h
      dsimp only at h
      split at h
      · cases h
      · cases h
      · rename_i c1 hres
        obtain ⟨_, hwf1, _, _, _, _, hoff1, _, _, hzero, _⟩ :=
          cx_column_resize_true cfg a c n c1 hwf hres
        exact hstep c1 hwf1 (by unfold cx_column.zero_tail; rw [hoff1]; exact hzero hs) h
    · rw [if_neg hfit] at h
      exact hstep c hwf hz h

/-- A bit append inside a word (`count % 64 != 0`) that returns true: it adds no
bytes, and writes only within the last word. -/
theorem cx_column_put_bit_in_word (cfg : Build) (a : Alloc) (c : cx_column) (v : Bool)
    (c' : cx_column) (hcnt : c.count % 64 ≠ 0)
    (h : cx_column_put_bit cfg a c v = some (true, c')) :
    c'.offset = c.offset ∧ c'.size = c.size ∧ c'.count = c.count + 1 ∧
      c'.buffer.length = c.buffer.length ∧
      c'.buffer.take (c.offset - 8) = c.buffer.take (c.offset - 8) ∧
      c'.buffer.drop c.offset = c.buffer.drop c.offset ∧
      (v = true → 8 ≤ c.offset) ∧ (v = false → c'.buffer = c.buffer) := by
  unfold cx_column_put_bit at h
  rw [if_neg hcnt] at h
  split at h
  · cases h
  · split at h
    · rename_i hv
      split at h
      · cases h
      · rename_i h8
        split at h
        · cases h
        · split at h
          · cases h
          · rename_i buf hbuf
            simp only [Option.some.injEq, Prod.mk.injEq, true_and] at h
            rw [← h]
            have hl := memcpy_length _ _ _ _ hbuf
            have ht := memcpy_take _ _ _ _ hbuf
            have hd := memcpy_drop_end _ _ _ _ hbuf
            rw [le_bytes_length] at hd
            have h88 : c.offset - 8 + 8 = c.offset := by omega
            rw [h88] at hd
            exact ⟨rfl, rfl, rfl, hl, ht, hd, fun _ => by omega, fun h => by
              rw [hv] at h; cases h⟩
    · rename_i hv
      simp only [Option.some.injEq, Prod.mk.injEq, true_and] at h
      rw [← h]
      exact ⟨rfl, rfl, rfl, rfl, rfl, rfl, fun h => absurd h hv, fun _ => rfl⟩

/-- With over-allocation, every append call that returns leaves the tail of a heap
column zero. -/
theorem cx_column_put_call_zero_tail (cfg : Build) (hs : cfg.sse42 = true) (a : Alloc)
    (c : cx_column) (call : PutCall) (r : Bool) (c' : cx_column) (hwf : c.heap_wf)
    (hz : c.zero_tail) (h : cx_column_put_call cfg a c call = some (r, c')) :
    c'.zero_tail := by
  cases r with
  | false => rw [cx_column_put_call_false cfg a c call c' h]; exact hz
  | true =>
    cases call with
    | bit v =>
      simp only [cx_column_put_call] at h
      by_cases hcnt : c.count % 64 = 0
      · unfold cx_column_put_bit at h
        rw [if_pos hcnt] at h
        exact cx_column_put_zero_tail cfg hs a c _ _ _ c' hwf hz h
      · obtain ⟨h1, h2, _, _, _, h6, _, _⟩ := cx_column_put_bit_in_word cfg a c v c' hcnt h
        unfold cx_column.zero_tail at hz ⊢
        rw [h1, h2, h6]
        exact hz
    | i32 v => exact cx_column_put_zero_tail cfg hs a c _ _ _ c' hwf hz h
    | i64 v => exact cx_column_put_zero_tail cfg hs a c _ _ _ c' hwf hz h
    | flt v => exact cx_column_put_zero_tail cfg hs a c _ _ _ c' hwf hz h
    | dbl v => exact cx_column_put_zero_tail cfg hs a c _ _ _ c' hwf hz h
    | str v => exact cx_column_put_zero_tail cfg hs a c _ _ _ c' hwf hz h

theorem cx_column_new_zero_tail (cfg : Build) (hs : cfg.sse42 = true) (a : Alloc)
    (t : cx_column_type) (e : cx_encoding_type) (c : cx_column)
    (h : cx_column_new cfg a t e = some c) : c.zero_tail := by
  unfold cx_column_new cx_column_new_size at h
  split at h
  · cases h
  · rw [if_pos (by decide)] at h
    simp only [hs, if_true, Option.some.injEq] at h
    rw [← h]
    unfold cx_column.zero_tail
    simp

/-- The part of C21 that holds.  With over-allocation, for every column made by
`cx_column_new` and every sequence of append calls, the used region lies inside the
capacity, the buffer has the capacity recorded, and every byte in `[offset, capacity)`
is zero.  How many such bytes there are is not bounded below by 16. -/
theorem cx_column_over_alloc_zero_tail (cfg : Build) (hs : cfg.sse42 = true) (a0 : Alloc)
    (t : cx_column_type) (e : cx_encoding_type) (c0 : cx_column)
    (calls : List (Alloc × PutCall)) (rets : List Bool) (c : cx_column)
    (h0 : cx_column_new cfg a0 t e = some c0)
    (h : cx_column_put_all cfg c0 calls = some (rets, c)) :
    c.offset ≤ c.size ∧ c.buffer.length = c.size ∧
      c.buffer.drop c.offset = List.replicate (c.size - c.offset) 0 := by
  have hwf0 := (cx_column_new_spec cfg a0 t e c0 h0).1
  have := cx_column_put_all_invariant cfg (fun x => x.heap_wf ∧ x.zero_tail)
    (fun a c call r c' hc hcall =>
      ⟨(cx_column_put_call_size cfg a c call r c' hc.1 hcall).1,
        cx_column_put_call_zero_tail cfg hs a c call r c' hc.1 hc.2 hcall⟩)
    calls c0 rets c ⟨hwf0, cx_column_new_zero_tail cfg hs a0 t e c0 h0⟩ h
  exact ⟨this.1.2.2.1, this.1.2.1, this.2⟩

/-! ### Where an append writes -/

/-- A successful `cx_column_put` that fits leaves the bytes past the value as they were. -/
theorem cx_column_put_tail (cfg : Build) (a : Alloc) (c : cx_column) (t : cx_column_type)
    (bytes : List Nat) (n : Nat) (c' : cx_column) (hn : n ≤ bytes.length)
    (hfit : c.offset + n ≤ c.size)
    (h : cx_column_put cfg a c t (some bytes) n = some (true, c')) :
    c'.buffer.drop (c.offset + n) = c.buffer.drop (c.offset + n) := by
  unfold cx_column_put at h
  split at h
  · cases h
  · rw [if_neg (by omega)] at h
    dsimp only at h
    split at h
    · cases h
    · rename_i buf hbuf
      simp only [Option.some.injEq, Prod.mk.injEq, true_and] at h
      rw [← h]
      have := memcpy_drop_end _ _ _ _ hbuf
      simp only [Option.getD_some, List.length_take, Nat.min_eq_left hn] at this
      exact this

/-- C27, as stated, fails: a bit append inside a word writes below the old offset.
Two true bits appended to a new BIT column: the second append returns true and adds
no bytes (the offset stays 8, so `[old offset, old offset + needed)` is empty), yet
byte 0 of the buffer changes from 1 to 3. -/
theorem cx_column_put_bit_writes_last_word :
    ∃ c1 c2,
      cx_column_put_call ⟨false, none, true, false⟩ alloc_ok
        (sample_new_column cx_column_type.BIT) (PutCall.bit true) = some (true, c1) ∧
      cx_column_put_call ⟨false, none, true, false⟩ alloc_ok c1 (PutCall.bit true)
        = some (true, c2) ∧
      c1.offset = 8 ∧ c2.offset = 8 ∧ c1.buffer[0]? = some 1 ∧ c2.buffer[0]? = some 3 :=
  ⟨_, _, rfl, rfl, rfl, rfl, rfl, rfl⟩

/-- C27, amended.  For every column made by `cx_column_new` and every sequence of put
calls, `offset <= capacity` holds and the buffer has the capacity recorded; and for
one more put call on it that returns: `offset <= capacity` holds again; a call that
returns false leaves the column as it was; a successful append that adds bytes
(every one but a bit append inside a word) moves the offset by `needed`, with
`old offset + needed` inside the possibly grown capacity, writes the bytes of the
value at `[old offset, old offset + needed)`, and leaves every byte of the buffer
below the old offset, and every byte of the old block from `old offset + needed` on,
as it was; a successful bit append inside a word (`count % 64 != 0`) adds no bytes and
writes only within the last word `[offset - 8, offset)`, which lies in the buffer. -/
theorem cx_column_put_writes_inside (cfg : Build) (a0 : Alloc) (t : cx_column_type)
    (e : cx_encoding_type) (c0 : cx_column) (calls : List (Alloc × PutCall))
    (rets : List Bool) (c : cx_column)
    (h0 : cx_column_new cfg a0 t e = some c0)
    (h : cx_column_put_all cfg c0 calls = some (rets, c)) :
    c.offset ≤ c.size ∧ c.buffer.length = c.size ∧
    ∀ a call r c', cx_column_put_call cfg a c call = some (r, c') →
      c'.offset ≤ c'.size ∧ c'.buffer.length = c'.size ∧
      (r = false → c' = c) ∧
      (r = true → (∀ v, call = PutCall.bit v → c.count % 64 = 0) →
        c'.offset = c.offset + call.bytes.length ∧
        c.offset + call.bytes.length ≤ c'.size ∧
        c'.buffer.take c.offset = c.buffer.take c.offset ∧
        (c'.buffer.drop c.offset).take call.bytes.length = call.bytes ∧
        ∀ i, c.offset + call.bytes.length ≤ i → i < c.size →
          c'.buffer[i]? = c.buffer[i]?) ∧
      (r = true → ∀ v, call = PutCall.bit v → c.count % 64 ≠ 0 →
        c'.offset = c.offset ∧ c'.size = c.size ∧ (v = true → 8 ≤ c.offset) ∧
        c'.buffer.take (c.offset - 8) = c.buffer.take (c.offset - 8) ∧
        c'.buffer.drop c.offset = c.buffer.drop c.offset ∧
        (v = false → c'.buffer = c.buffer)) := by
  have hwf0 := (cx_column_new_spec cfg a0 t e c0 h0).1
  have hwf : c.heap_wf := cx_column_put_all_invariant cfg (fun x => x.heap_wf)
    (fun a c call r c' hc hcall => (cx_column_put_call_size cfg a c call r c' hc hcall).1)
    calls c0 rets c hwf0 h
  refine ⟨hwf.2.2.1, hwf.2.1, ?_⟩
  intro a call r c' hcall
  have hwf' := (cx_column_put_call_size cfg a c call r c' hwf hcall).1
  refine ⟨hwf'.2.2.1, hwf'.2.1, ?_, ?_, ?_⟩
  · intro hr
    rw [hr] at hcall
    exact cx_column_put_call_false cfg a c call c' hcall
  · intro hr hbit
    rw [hr] at hcall
    obtain ⟨_, _, _, hoff, _, _, hbuf, _, _⟩ :=
      cx_column_put_call_true cfg a c call c' hwf hbit hcall
    have hle : c.offset ≤ c'.buffer.length := by
      rw [hwf'.2.1]; have := hwf'.2.2.1; omega
    have hlen0 : (c.buffer.take c.offset).length = c.offset := by
      rw [List.length_take, hwf.2.1]; exact Nat.min_eq_left hwf.2.2.1
    refine ⟨hoff, by rw [← hoff]; exact hwf'.2.2.1, ?_, ?_, ?_⟩
    · have := congrArg (List.take c.offset) hbuf
      rw [List.take_take, hoff, Nat.min_eq_left (by omega),
        List.take_append_of_le_length (by rw [hlen0]), List.take_take,
        Nat.min_self] at this
      exact this
    · have := congrArg (List.drop c.offset) hbuf
      rw [List.drop_take, hoff, Nat.add_sub_cancel_left] at this
      rw [this]
      exact List.drop_left' hlen0
    · intro i hi1 hi2
      obtain ⟨bytes, hb1, _, hb3⟩ := cx_column_put_call_eq cfg a c call hbit
      rw [hb3] at hcall
      have := cx_column_put_tail cfg a c _ bytes _ c' hb1 (by omega) hcall
      have h2 := congrArg (fun l => l[i - (c.offset + call.bytes.length)]?) this
      simp only [List.getElem?_drop] at h2
      have e : c.offset + call.bytes.length + (i - (c.offset + call.bytes.length)) = i := by
        omega
      rw [e] at h2
      exact h2
  · intro hr v hv hcnt
    rw [hr, hv] at hcall
    simp only [cx_column_put_call] at hcall
    obtain ⟨h1, h2, _, _, h5, h6, h7, h8⟩ := cx_column_put_bit_in_word cfg a c v c' hcnt hcall
    exact ⟨h1, h2, h7, h5, h6, h8⟩

/-- Witness for C27: a new I32 column after two appends, and a third append to it. -/
theorem cx_column_put_writes_inside_witness :
    (cx_column_new ⟨false, none, true, false⟩ alloc_ok cx_column_type.I32
        cx_encoding_type.NONE = some (sample_new_column cx_column_type.I32) ∧
      cx_column_put_all ⟨false, none, true, false⟩ (sample_new_column cx_column_type.I32)
        [(alloc_ok, PutCall.i32 1), (alloc_ok, PutCall.i32 (-2))]
        = some ([true, true], sample_i32_appended)) ∧
    sample_i32_appended.offset ≤ sample_i32_appended.size ∧
    sample_i32_appended.buffer.length = sample_i32_appended.size :=
  ⟨⟨rfl, rfl⟩,
    (cx_column_put_writes_inside ⟨false, none, true, false⟩ alloc_ok cx_column_type.I32
      cx_encoding_type.NONE (sample_new_column cx_column_type.I32)
      [(alloc_ok, PutCall.i32 1), (alloc_ok, PutCall.i32 (-2))] [true, true]
      sample_i32_appended rfl (by rfl)).1,
    (cx_column_put_writes_inside ⟨false, none, true, false⟩ alloc_ok cx_column_type.I32
      cx_encoding_type.NONE (sample_new_column cx_column_type.I32)
      [(alloc_ok, PutCall.i32 1), (alloc_ok, PutCall.i32 (-2))] [true, true]
      sample_i32_appended rfl (by rfl)).2.1⟩

/-! ### Cursors at the end of their window -/

/-- A `skip` on a cursor inside its window returns: it moves over the smaller of the
requested count and the whole elements left, and stays inside the window. -/
theorem skip_total (cur : cx_column_cursor) (t : cx_column_type) (sz count : Nat)
    (hty : cur.column.type = t) (hpos : cur.position ≤ cur.end_) :
    cx_column_cursor_skip cur t sz count
        = some (min count ((cur.end_ - cur.position) / sz),
            { cur with
              position := cur.position + sz * min count ((cur.end_ - cur.position) / sz) }) ∧
      cur.position + sz * min count ((cur.end_ - cur.position) / sz) ≤ cur.end_ := by
  have hle : sz * min count ((cur.end_ - cur.position) / sz) ≤ cur.end_ - cur.position :=
    le_trans (Nat.mul_le_mul_left sz (Nat.min_le_right _ _)) (Nat.mul_div_le _ _)
  have hcnt : (if (cur.end_ - cur.position) / sz < count then (cur.end_ - cur.position) / sz
      else count) = min count ((cur.end_ - cur.position) / sz) := by
    split <;> omega
  have hin : cur.position + sz * min count ((cur.end_ - cur.position) / sz) ≤ cur.end_ := by
    omega
  refine ⟨?_, hin⟩
  unfold cx_column_cursor_skip cx_column_cursor_advance
  rw [if_neg (by simp [hty])]
  simp only [hcnt]
  rw [if_pos hin]

/-- The loop of `cx_column_cursor_skip_str` skips at most `fuel` strings. -/
theorem skip_str_loop_le (cfg : Build) (fuel : Nat) (cur : cx_column_cursor) (s k : Nat)
    (cur' : cx_column_cursor)
    (h : cx_column_cursor_skip_str_loop cfg fuel cur s = some (k, cur')) :
    k ≤ s + fuel := by
  induction fuel generalizing cur s with
  | zero =>
    simp only [cx_column_cursor_skip_str_loop, Option.some.injEq, Prod.mk.injEq] at h
    omega
  | succ fuel ih =>
    unfold cx_column_cursor_skip_str_loop at h
    split at h
    · split at h
      · cases h
      · split at h
        · cases h
        · have := ih _ _ h
          omega
    · simp only [Option.some.injEq, Prod.mk.injEq] at h
      omega

/-- C26, code at the failing input.  A BIT column of one row (one `true` appended to
a new column) and a cursor over it: the first `next_batch` reports the row and leaves
the cursor at the end, not valid.  A further `next_batch` there, or a skip of 64 or of
0 rows, leaves the position unchanged but reports `2^64 - 63` values, not 0: the
`size_t` subtraction `skipped -= 64 - trailing_bits` wraps from 0. -/
theorem cx_column_cursor_skip_bit_past_end :
    ∃ c cur cur1,
      cx_column_put_call ⟨false, none, true, false⟩ alloc_ok
        (sample_new_column cx_column_type.BIT) (PutCall.bit true) = some (true, c) ∧
      c.count = 1 ∧
      cx_column_cursor_new alloc_ok true c = some cur ∧
      cx_column_cursor_next_batch_bit cur = some (⟨0, 1⟩, cur1) ∧
      cx_column_cursor_valid cur1 = false ∧ cur1.position = cur1.end_ ∧
      cx_column_cursor_next_batch_bit cur1 = some (⟨8, 18446744073709551553⟩, cur1) ∧
      cx_column_cursor_skip_bit cur1 64 = some (18446744073709551553, cur1) ∧
      cx_column_cursor_skip_bit cur1 0 = some (18446744073709551553, cur1) ∧
      18446744073709551553 = 2 ^ 64 - 63 :=
  ⟨_, _, _, rfl, rfl, rfl, rfl, rfl, rfl, rfl, rfl, rfl, by norm_num⟩

/-- The part of C26 that holds.  On a cursor at the end of its window
(`position == end`): a skip of a fixed-width cursor, with any requested count, and a
`next_batch` of an I32 or I64 cursor report 0 values and leave the cursor as it was;
so do a skip and a `next_batch` of a string cursor; and so do a skip (of a multiple
of 64 rows) and a `next_batch` of a bit cursor when the row count of the column is a
multiple of 64.  On every cursor, a skip of a fixed-width or string cursor that
returns reports at most the requested count. -/
theorem cx_column_cursor_past_end (cfg : Build) (cur : cx_column_cursor)
    (hend : cur.position = cur.end_) :
    (∀ t sz count, cur.column.type = t →
      cx_column_cursor_skip cur t sz count = some (0, cur)) ∧
    (cur.column.type = cx_column_type.I32 →
      cx_column_cursor_next_batch_i32 cur = some (⟨cur.position, 0⟩, cur)) ∧
    (cur.column.type = cx_column_type.I64 →
      cx_column_cursor_next_batch_i64 cur = some (⟨cur.position, 0⟩, cur)) ∧
    (cur.column.type = cx_column_type.STR →
      (∀ count, cx_column_cursor_skip_str cfg cur count = some (0, cur)) ∧
      cx_column_cursor_next_batch_str cfg cur = some ([], cur)) ∧
    (cur.column.type = cx_column_type.BIT → cur.column.count % 64 = 0 →
      (∀ count, count % 64 = 0 → cx_column_cursor_skip_bit cur count = some (0, cur)) ∧
      cx_column_cursor_next_batch_bit cur = some (⟨cur.position, 0⟩, cur)) ∧
    (∀ (other : cx_column_cursor) t sz count k next,
      cx_column_cursor_skip other t sz count = some (k, next) → k ≤ count) ∧
    (∀ (other : cx_column_cursor) count k next,
      cx_column_cursor_skip_str cfg other count = some (k, next) → k ≤ count) := by
  have hskip : ∀ t sz count, cur.column.type = t →
      cx_column_cursor_skip cur t sz count = some (0, cur) := by
    intro t sz count hty
    rw [(skip_total cur t sz count hty (le_of_eq hend)).1]
    obtain ⟨col, st, en, pos⟩ := cur
    simp only at hend
    subst hend
    simp
  have hinv : cx_column_cursor_valid cur = false := by
    simp [cx_column_cursor_valid, hend]
  refine ⟨hskip, ?_, ?_, ?_, ?_, ?_, ?_⟩
  · intro hty
    simp [cx_column_cursor_next_batch_i32, cx_column_cursor_skip_i32, hskip _ 4 _ hty]
  · intro hty
    simp [cx_column_cursor_next_batch_i64, cx_column_cursor_skip_i64, hskip _ 8 _ hty]
  · intro hty
    refine ⟨?_, ?_⟩
    · intro count
      unfold cx_column_cursor_skip_str
      rw [if_neg (by simp [hty])]
      cases count <;> simp [cx_column_cursor_skip_str_loop, hinv]
    · unfold cx_column_cursor_next_batch_str
      rw [if_neg (by simp [hty])]
      simp [CX_BATCH_SIZE, cx_column_cursor_next_batch_str_loop, hinv]
  · intro hty hcnt
    have hbit : ∀ count, count % 64 = 0 →
        cx_column_cursor_skip_bit cur count = some (0, cur) := by
      intro count hc
      unfold cx_column_cursor_skip_bit
      rw [if_neg (by simp [hc]), hskip _ 8 _ hty]
      simp [hinv, hcnt]
    refine ⟨hbit, ?_⟩
    simp [cx_column_cursor_next_batch_bit, hbit CX_BATCH_SIZE (by decide)]
  · intro other t sz count k next h
    unfold cx_column_cursor_skip at h
    split at h
    · cases h
    · dsimp only at h
      split at h
      · cases h
      · simp only [Option.some.injEq, Prod.mk.injEq] at h
        rw [← h.1]
        split <;> omega
  · intro other count k next h
    unfold cx_column_cursor_skip_str at h
    split at h
    · cases h
    · have := skip_str_loop_le cfg count other 0 k next h
      omega

/-! ### Progress of a fixed-width cursor -/

theorem fixed_width_pos (t : cx_column_type) (sz : Nat) (hfw : t.fixed_width = some sz) :
    0 < sz := by
  cases t <;> simp [cx_column_type.fixed_width] at hfw <;> omega

/-- A `skip` of any count on a cursor that stands at element `m` of `n`. -/
theorem skip_aligned (t : cx_column_type) (sz : Nat) (hsz : 0 < sz) (cur : cx_column_cursor)
    (hty : cur.column.type = t) (n m : Nat) (hm : m ≤ n) (hend : cur.end_ = sz * n)
    (hpos : cur.position = sz * m) (count : Nat) :
    cx_column_cursor_skip cur t sz count
      = some (min count (n - m), { cur with position := sz * min (m + count) n }) := by
  have hrem : (cur.end_ - cur.position) / sz = n - m := by
    rw [hend, hpos, ← Nat.mul_sub, Nat.mul_div_cancel_left _ hsz]
  have hle : cur.position ≤ cur.end_ := by
    rw [hend, hpos]; exact Nat.mul_le_mul_left sz hm
  have e : m + min count (n - m) = min (m + count) n := by omega
  rw [(skip_total cur t sz count hty hle).1, hrem, hpos, ← Nat.mul_add, e]

theorem skip_other_type (cur : cx_column_cursor) (t : cx_column_type) (sz count : Nat)
    (hty : cur.column.type ≠ t) : cx_column_cursor_skip cur t sz count = none := by
  unfold cx_column_cursor_skip
  rw [if_pos (by simpa using hty)]

/-- A `skip` made for the type `T` on a cursor over a column of the fixed-width type
`t` that stands on an element boundary returns only when `T` is `t`, and leaves the
cursor on an element boundary. -/
theorem skip_call_aligned (t : cx_column_type) (sz : Nat) (hfw : t.fixed_width = some sz)
    (cur : cx_column_cursor) (hty : cur.column.type = t) (n m : Nat) (hm : m ≤ n)
    (hend : cur.end_ = sz * n) (hpos : cur.position = sz * m)
    (T : cx_column_type) (S count k : Nat) (cur' : cx_column_cursor)
    (hS : T.fixed_width = some S ∨ T.fixed_width = none)
    (h : cx_column_cursor_skip cur T S count = some (k, cur')) :
    ∃ m', m' ≤ n ∧ cur'.position = sz * m' := by
  by_cases hT : cur.column.type = T
  · have htT : t = T := by rw [← hty, hT]
    subst htT
    rcases hS with hS | hS
    · rw [hfw] at hS
      injection hS with hS
      subst hS
      rw [skip_aligned t sz (fixed_width_pos t sz hfw) cur hty n m hm hend hpos count] at h
      simp only [Option.some.injEq, Prod.mk.injEq] at h
      exact ⟨min (m + count) n, by omega, by rw [← h.2]⟩
    · rw [hfw] at hS
      cases hS
  · rw [skip_other_type cur T S count hT] at h
    cases h

/-- One call on a cursor over a fixed-width column that stands on an element
boundary leaves it on an element boundary. -/
theorem call_aligned (cfg : Build) (t : cx_column_type) (sz : Nat)
    (hfw : t.fixed_width = some sz) (cur : cx_column_cursor) (hty : cur.column.type = t)
    (hstart : cur.start = 0) (n m : Nat) (hm : m ≤ n) (hend : cur.end_ = sz * n)
    (hpos : cur.position = sz * m) (call : CursorCall) (cur' : cx_column_cursor)
    (h : cx_column_cursor_call cfg cur call = some cur') :
    ∃ m', m' ≤ n ∧ cur'.position = sz * m' := by
  have hnb : cur.column.type ≠ cx_column_type.BIT := by
    rw [hty]; intro hb; rw [hb] at hfw; cases hfw
  have hns : cur.column.type ≠ cx_column_type.STR := by
    rw [hty]; intro hb; rw [hb] at hfw; cases hfw
  have key := skip_call_aligned t sz hfw cur hty n m hm hend hpos
  cases call with
  | next_batch_bit =>
    simp [cx_column_cursor_call, cx_column_cursor_next_batch_bit, cx_column_cursor_skip_bit,
      CX_BATCH_SIZE, skip_other_type cur _ _ _ hnb] at h
  | skip_bit count =>
    simp only [cx_column_cursor_call, cx_column_cursor_skip_bit,
      skip_other_type cur _ _ _ hnb] at h
    split at h <;> cases h
  | next_batch_str =>
    simp [cx_column_cursor_call, cx_column_cursor_next_batch_str, hns] at h
  | skip_str count =>
    simp [cx_column_cursor_call, cx_column_cursor_skip_str, hns] at h
  | rewind =>
    simp only [cx_column_cursor_call, Option.some.injEq] at h
    exact ⟨0, Nat.zero_le n, by rw [← h]; simp [cx_column_cursor_rewind, hstart]⟩
  | next_batch_i32 =>
    cases hs : cx_column_cursor_skip cur cx_column_type.I32 4 CX_BATCH_SIZE with
    | none =>
      simp [cx_column_cursor_call, cx_column_cursor_next_batch_i32,
        cx_column_cursor_skip_i32, hs] at h
    | some r =>
      obtain ⟨k, c⟩ := r
      simp only [cx_column_cursor_call, cx_column_cursor_next_batch_i32,
        cx_column_cursor_skip_i32, hs, Option.map_some', Option.some.injEq] at h
      subst h
      exact key cx_column_type.I32 4 _ _ _ (Or.inl rfl) hs
  | next_batch_i64 =>
    cases hs : cx_column_cursor_skip cur cx_column_type.I64 8 CX_BATCH_SIZE with
    | none =>
      simp [cx_column_cursor_call, cx_column_cursor_next_batch_i64,
        cx_column_cursor_skip_i64, hs] at h
    | some r =>
      obtain ⟨k, c⟩ := r
      simp only [cx_column_cursor_call, cx_column_cursor_next_batch_i64,
        cx_column_cursor_skip_i64, hs, Option.map_some', Option.some.injEq] at h
      subst h
      exact key cx_column_type.I64 8 _ _ _ (Or.inl rfl) hs
  | skip_i32 count =>
    simp only [cx_column_cursor_call, cx_column_cursor_skip_i32, Option.map_eq_some',
      Prod.exists, exists_eq_right] at h
    obtain ⟨k, hs⟩ := h
    exact key cx_column_type.I32 4 _ _ _ (Or.inl rfl) hs
  | skip_i64 count =>
    simp only [cx_column_cursor_call, cx_column_cursor_skip_i64, Option.map_eq_some',
      Prod.exists, exists_eq_right] at h
    obtain ⟨k, hs⟩ := h
    exact key cx_column_type.I64 8 _ _ _ (Or.inl rfl) hs
  | skip_flt count =>
    simp only [cx_column_cursor_call, cx_column_cursor_skip_flt, Option.map_eq_some',
      Prod.exists, exists_eq_right] at h
    obtain ⟨k, hs⟩ := h
    exact key cx_column_type.FLT 4 _ _ _ (Or.inl rfl) hs
  | skip_dbl count =>
    simp only [cx_column_cursor_call, cx_column_cursor_skip_dbl, Option.map_eq_some',
      Prod.exists, exists_eq_right] at h
    obtain ⟨k, hs⟩ := h
    exact key cx_column_type.DBL 8 _ _ _ (Or.inl rfl) hs

/-- Any sequence of calls that returns leaves a cursor over a fixed-width column on
an element boundary of the same window. -/
theorem calls_aligned (cfg : Build) (t : cx_column_type) (sz : Nat)
    (hfw : t.fixed_width = some sz) (n : Nat) (calls : List CursorCall)
    (cur cur' : cx_column_cursor) (hty : cur.column.type = t) (hstart : cur.start = 0)
    (hend : cur.end_ = sz * n) (m : Nat) (hm : m ≤ n) (hpos : cur.position = sz * m)
    (h : cx_column_cursor_calls cfg cur calls = some cur') :
    cur'.column.type = t ∧ cur'.end_ = sz * n ∧ ∃ m', m' ≤ n ∧ cur'.position = sz * m' := by
  induction calls generalizing cur m with
  | nil =>
    simp only [cx_column_cursor_calls, Option.some.injEq] at h
    subst h
    exact ⟨hty, hend, m, hm, hpos⟩
  | cons call rest ih =>
    unfold cx_column_cursor_calls at h
    cases hc : cx_column_cursor_call cfg cur call with
    | none => rw [hc] at h; cases h
    | some c1 =>
      rw [hc] at h
      obtain ⟨w1, w2, w3⟩ := cx_column_cursor_call_window cfg cur call c1 hc
      obtain ⟨m1, hm1, hp1⟩ := call_aligned cfg t sz hfw cur hty hstart n m hm hend hpos
        call c1 hc
      exact ih c1 (by rw [w1, hty]) (by rw [w2, hstart]) (by rw [w3, hend]) m1 hm1 hp1 h

/-- Progress of a cursor over a fixed-width column whose used bytes are `n` whole
elements, after any calls. -/
theorem progress_fixed_width (cfg : Build) (t : cx_column_type) (sz : Nat)
    (hfw : t.fixed_width = some sz)
    (next : cx_column_cursor → Option (Batch × cx_column_cursor))
    (hnext : ∀ cur, next cur =
      match cx_column_cursor_skip cur t sz CX_BATCH_SIZE with
      | none => none
      | some (n, cur') => some (⟨cur.position, n⟩, cur'))
    (a : Alloc) (madvise_ok : Bool) (c : cx_column) (n : Nat)
    (cur0 cur : cx_column_cursor) (calls : List CursorCall)
    (hty : c.type = t) (hoff : c.offset = sz * n)
    (hnew : cx_column_cursor_new a madvise_ok c = some cur0)
    (hcalls : cx_column_cursor_calls cfg cur0 calls = some cur) :
    (cx_column_cursor_valid cur = true →
      ∃ b cur', next cur = some (b, cur') ∧ 1 ≤ b.available ∧
        b.available ≤ CX_BATCH_SIZE ∧ cur'.position = cur.position + sz * b.available ∧
        cur.position < cur'.position ∧ cur'.position ≤ cur'.end_) ∧
    (∀ fuel, (n + 63) / 64 ≤ fuel →
      ∃ batches, cx_column_cursor_drain next fuel cur = some batches ∧
        ∀ b ∈ batches, 1 ≤ b.available) := by
  have hsz := fixed_width_pos t sz hfw
  have h0 := cx_column_cursor_new_spec a madvise_ok c cur0 hnew
  obtain ⟨hty', hend, m, hm, hpos⟩ := calls_aligned cfg t sz hfw n calls cur0 cur
    (by rw [h0]; exact hty) (by rw [h0]) (by rw [h0]; exact hoff) 0 (Nat.zero_le n)
    (by rw [h0]; rfl) hcalls
  constructor
  · intro hv
    have hlt : m < n := by
      simp only [cx_column_cursor_valid, decide_eq_true_eq, hend, hpos] at hv
      exact Nat.lt_of_mul_lt_mul_left hv
    rw [hnext, skip_at t sz hsz cur hty' n m hm hend hpos]
    refine ⟨_, _, rfl, ?_, ?_, ?_, ?_, ?_⟩
    · show 1 ≤ min 64 (n - m)
      omega
    · show min 64 (n - m) ≤ CX_BATCH_SIZE
      simp only [CX_BATCH_SIZE]; omega
    · show sz * min (m + 64) n = cur.position + sz * min 64 (n - m)
      rw [hpos, ← Nat.mul_add]
      congr 1; omega
    · show cur.position < sz * min (m + 64) n
      rw [hpos]
      exact Nat.mul_lt_mul_of_pos_left (by omega) hsz
    · show sz * min (m + 64) n ≤ cur.end_
      rw [hend]
      exact Nat.mul_le_mul_left sz (by omega)
  · intro fuel hfuel
    have h := drain_fixed_width_batches t sz hsz next hnext n fuel m cur hty' hm hend hpos
      (by omega)
    refine ⟨_, h, ?_⟩
    intro b hb
    simp only [List.mem_map, List.mem_range] at hb
    obtain ⟨j, hj, rfl⟩ := hb
    show 1 ≤ min 64 (n - (m + 64 * j))
    omega

/-- A cursor that is valid and that `next_batch` leaves where it is never gets to
the end: the loop `while valid: next_batch` does not terminate. -/
theorem drain_stalls {β : Type} (next : cx_column_cursor → Option (β × cx_column_cursor))
    (cur : cx_column_cursor) (b : β) (hv : cx_column_cursor_valid cur = true)
    (hn : next cur = some (b, cur)) (fuel : Nat) :
    cx_column_cursor_drain next fuel cur = none := by
  induction fuel with
  | zero => simp [cx_column_cursor_drain, hv]
  | succ fuel ih => simp [cx_column_cursor_drain, hv, hn, ih]

/-- A cursor that one `next_batch` call brings to a position where it stalls. -/
theorem drain_stalls_after {β : Type}
    (next : cx_column_cursor → Option (β × cx_column_cursor))
    (cur cur1 : cx_column_cursor) (b b1 : β) (hv : cx_column_cursor_valid cur = true)
    (hn : next cur = some (b, cur1)) (hv1 : cx_column_cursor_valid cur1 = true)
    (hn1 : next cur1 = some (b1, cur1)) (fuel : Nat) :
    cx_column_cursor_drain next fuel cur = none := by
  cases fuel with
  | zero => simp [cx_column_cursor_drain, hv]
  | succ fuel =>
    simp [cx_column_cursor_drain, hv, hn, drain_stalls next cur1 b1 hv1 hn1 fuel]

/-- C25, as stated, fails for an externally backed column whose byte size is not a
multiple of the element size.  `cx_column_new_mmapped(I32, NONE, ptr, 6, 1)` over six
bytes: the first `next_batch_i32` reports one value and moves to byte 4; there the
cursor is valid (4 < 6), yet the next call reports 0 values and does not move, and
the loop `while valid: next_batch` never exhausts the cursor, whatever the number of
calls. -/
theorem cx_column_cursor_mmapped_stalls :
    ∃ c cur cur1,
      cx_column_new_mmapped ⟨false, none, true, false⟩ alloc_ok cx_column_type.I32
        cx_encoding_type.NONE [1, 0, 0, 0, 2, 0] 6 1 = some c ∧
      cx_column_cursor_new alloc_ok true c = some cur ∧
      cx_column_cursor_next_batch_i32 cur = some (⟨0, 1⟩, cur1) ∧
      cx_column_cursor_valid cur1 = true ∧
      cx_column_cursor_next_batch_i32 cur1 = some (⟨4, 0⟩, cur1) ∧
      ∀ fuel, cx_column_cursor_drain cx_column_cursor_next_batch_i32 fuel cur = none := by
  refine ⟨_, _, _, rfl, rfl, rfl, rfl, rfl, ?_⟩
  intro fuel
  refine drain_stalls_after cx_column_cursor_next_batch_i32 _
    { column := { buffer := [1, 0, 0, 0, 2, 0], count := 1, offset := 6, size := 6,
                  type := cx_column_type.I32, encoding := cx_encoding_type.NONE,
                  mmapped := true },
      start := 0, end_ := 6, position := 4 } ⟨0, 1⟩ ⟨4, 0⟩ ?_ ?_ ?_ ?_ fuel <;> rfl

/-- C25, amended.  For every I32 or I64 column, heap or externally backed, whose used
byte size is a multiple of the element size (`offset == sizeof(T) * n`), and every
cursor over it after any calls that returned: whenever `cx_column_cursor_valid` is
true the next `next_batch` call returns, reports between 1 and 64 values and moves the
position forward by `sizeof(T) * available`, inside the window; and the loop
`while valid: next_batch` terminates within `ceil(n / 64)` calls, none of them for an
empty batch. -/
theorem cx_column_cursor_progress (cfg : Build) (a : Alloc) (madvise_ok : Bool)
    (c : cx_column) (n : Nat) (cur0 cur : cx_column_cursor) (calls : List CursorCall)
    (hnew : cx_column_cursor_new a madvise_ok c = some cur0)
    (hcalls : cx_column_cursor_calls cfg cur0 calls = some cur) :
    (c.type = cx_column_type.I32 → c.offset = 4 * n →
      (cx_column_cursor_valid cur = true →
        ∃ b cur', cx_column_cursor_next_batch_i32 cur = some (b, cur') ∧
          1 ≤ b.available ∧ b.available ≤ CX_BATCH_SIZE ∧
          cur'.position = cur.position + 4 * b.available ∧
          cur.position < cur'.position ∧ cur'.position ≤ cur'.end_) ∧
      (∀ fuel, (n + 63) / 64 ≤ fuel →
        ∃ batches, cx_column_cursor_drain cx_column_cursor_next_batch_i32 fuel cur
            = some batches ∧ ∀ b ∈ batches, 1 ≤ b.available)) ∧
    (c.type = cx_column_type.I64 → c.offset = 8 * n →
      (cx_column_cursor_valid cur = true →
        ∃ b cur', cx_column_cursor_next_batch_i64 cur = some (b, cur') ∧
          1 ≤ b.available ∧ b.available ≤ CX_BATCH_SIZE ∧
          cur'.position = cur.position + 8 * b.available ∧
          cur.position < cur'.position ∧ cur'.position ≤ cur'.end_) ∧
      (∀ fuel, (n + 63) / 64 ≤ fuel →
        ∃ batches, cx_column_cursor_drain cx_column_cursor_next_batch_i64 fuel cur
            = some batches ∧ ∀ b ∈ batches, 1 ≤ b.available)) :=
  ⟨fun hty hoff => progress_fixed_width cfg cx_column_type.I32 4 rfl
      cx_column_cursor_next_batch_i32 next_batch_i32_eq a madvise_ok c n cur0 cur calls
      hty hoff hnew hcalls,
   fun hty hoff => progress_fixed_width cfg cx_column_type.I64 8 rfl
      cx_column_cursor_next_batch_i64 next_batch_i64_eq a madvise_ok c n cur0 cur calls
      hty hoff hnew hcalls⟩

/-- C25 at a concrete input: the externally backed column over the eight bytes of two
int32 values, a cursor over it after a skip of one value. -/
theorem cx_column_cursor_progress_witness :
    (cx_column_cursor_new alloc_ok true sample_i32_mapped
        = some { column := sample_i32_mapped, start := 0, end_ := 8, position := 0 } ∧
      cx_column_cursor_calls ⟨false, none, true, false⟩
        { column := sample_i32_mapped, start := 0, end_ := 8, position := 0 }
        [CursorCall.skip_i32 1]
        = some { column := sample_i32_mapped, start := 0, end_ := 8, position := 4 } ∧
      sample_i32_mapped.type = cx_column_type.I32 ∧ sample_i32_mapped.offset = 4 * 2 ∧
      sample_i32_mapped.mmapped = true) ∧
    (cx_column_cursor_valid
        { column := sample_i32_mapped, start := 0, end_ := 8, position := 4 } = true →
      ∃ b cur', cx_column_cursor_next_batch_i32
          { column := sample_i32_mapped, start := 0, end_ := 8, position := 4 }
            = some (b, cur') ∧
        1 ≤ b.available ∧ b.available ≤ CX_BATCH_SIZE ∧
        cur'.position = 4 + 4 * b.available ∧ 4 < cur'.position ∧
        cur'.position ≤ cur'.end_) ∧
    (∀ fuel, (2 + 63) / 64 ≤ fuel →
      ∃ batches, cx_column_cursor_drain cx_column_cursor_next_batch_i32 fuel
          { column := sample_i32_mapped, start := 0, end_ := 8, position := 4 }
          = some batches ∧ ∀ b ∈ batches, 1 ≤ b.available) :=
  ⟨⟨rfl, rfl, rfl, rfl, rfl⟩,
    (cx_column_cursor_progress ⟨false, none, true, false⟩ alloc_ok true sample_i32_mapped 2
      { column := sample_i32_mapped, start := 0, end_ := 8, position := 0 }
      { column := sample_i32_mapped, start := 0, end_ := 8, position := 4 }
      [CursorCall.skip_i32 1] (by rfl) (by rfl)).1 (by rfl) (by rfl)⟩

/-! ### Cursor bounds -/

/-- The loop of `cx_column_cursor_skip_str` on a window that holds the strings `ss`
from the position on: it skips `min fuel (length ss)` of them. -/
theorem skip_str_loop_spec (cfg : Build) (fuel : Nat) (cur : cx_column_cursor)
    (k : Nat) (ss : List (List Nat))
    (hnul : ∀ s ∈ ss, ∀ b ∈ s, b ≠ 0)
    (hend : cur.end_ = cur.position + (str_bytes ss).length)
    (hmem : (cur.column.buffer.drop cur.position).take (str_bytes ss).length = str_bytes ss) :
    cx_column_cursor_skip_str_loop cfg fuel cur k
      = some (k + min fuel ss.length,
          { cur with position := cur.position + (str_bytes (ss.take fuel)).length }) := by
  induction fuel generalizing cur k ss with
  | zero => simp [cx_column_cursor_skip_str_loop, str_bytes]
  | succ fuel ih =>
    cases ss with
    | nil =>
      have hinv : cx_column_cursor_valid cur = false := by
        simp [cx_column_cursor_valid, hend, str_bytes]
      simp [cx_column_cursor_skip_str_loop, hinv, str_bytes]
    | cons s ss =>
      have hvalid : cx_column_cursor_valid cur = true := by
        simp only [cx_column_cursor_valid, decide_eq_true_eq, hend, str_bytes_cons,
          List.length_append, List.length_singleton]
        omega
      obtain ⟨h1, _, _, h4⟩ := str_head cur.column.buffer cur.position s ss
        (hnul s (by simp)) hmem
      have hadv : cx_column_cursor_advance cur (s.length + 1)
          = some { cur with position := cur.position + (s.length + 1) } := by
        unfold cx_column_cursor_advance
        rw [if_pos]
        rw [hend, str_bytes_cons]
        simp only [List.length_append, List.length_singleton]
        omega
      unfold cx_column_cursor_skip_str_loop
      rw [if_pos hvalid, cx_strlen_eq, h1]
      simp only [hadv]
      have hrec := ih { cur with position := cur.position + (s.length + 1) }
        (k + 1) ss
        (fun x hx => hnul x (by simp [hx]))
        (by simp only [hend, str_bytes_cons, List.length_append, List.length_singleton]; omega)
        (by simpa [Nat.add_assoc] using h4)
      simp only at hrec
      rw [hrec]
      simp only [List.take_succ_cons, str_bytes_cons, List.length_append,
        List.length_singleton, Option.some.injEq,
        Prod.mk.injEq, cx_column_cursor.mk.injEq, true_and, List.length_cons]
      refine ⟨by omega, by simp only [List.length_nil]; omega⟩

/-- The strings from the position of a string cursor on a record boundary. -/
theorem at_record_window (cur : cx_column_cursor) (pre post : List (List Nat))
    (hpos : cur.position = (str_bytes pre).length)
    (hend : cur.end_ = (str_bytes (pre ++ post)).length)
    (hbuf : cur.column.buffer.take cur.end_ = str_bytes (pre ++ post)) :
    cur.end_ = cur.position + (str_bytes post).length ∧
      (cur.column.buffer.drop cur.position).take (str_bytes post).length
        = str_bytes post := by
  rw [str_bytes_append] at hend hbuf
  refine ⟨by rw [hend, hpos, List.length_append], ?_⟩
  have := take_drop_window cur.column.buffer 0 (str_bytes pre) (str_bytes post)
    (by rw [List.drop_zero, ← hend]; exact hbuf)
  rw [Nat.zero_add] at this
  rw [hpos]
  exact this

/-- Moving a string cursor on a record boundary over the next `k` strings leaves it
on a record boundary, inside the window. -/
theorem at_record_move (cur : cx_column_cursor) (pre post : List (List Nat)) (k : Nat)
    (hnul : ∀ s ∈ pre ++ post, ∀ b ∈ s, b ≠ 0)
    (hpos : cur.position = (str_bytes pre).length)
    (hend : cur.end_ = (str_bytes (pre ++ post)).length)
    (hbuf : cur.column.buffer.take cur.end_ = str_bytes (pre ++ post)) :
    ({ cur with position := cur.position + (str_bytes (post.take k)).length } :
        cx_column_cursor).at_record ∧
      cur.position + (str_bytes (post.take k)).length ≤ cur.end_ := by
  have e : pre ++ post.take k ++ post.drop k = pre ++ post := by
    rw [List.append_assoc, List.take_append_drop]
  refine ⟨⟨pre ++ post.take k, post.drop k, ?_, ?_, ?_, ?_⟩, ?_⟩
  · rw [e]; exact hnul
  · simp only [str_bytes_append, List.length_append, hpos]
  · rw [e]; exact hend
  · rw [e]; exact hbuf
  · rw [hend, hpos]
    conv_rhs => rw [← List.take_append_drop k post]
    simp only [str_bytes_append, List.length_append]
    omega

/-- A bit skip of a multiple of 64 rows on a bit cursor inside its window returns,
and leaves the cursor inside the window. -/
theorem skip_bit_total (cur : cx_column_cursor) (count : Nat)
    (hty : cur.column.type = cx_column_type.BIT) (hpos : cur.position ≤ cur.end_)
    (hc : count % 64 = 0) :
    ∃ k, cx_column_cursor_skip_bit cur count
      = some (k, { cur with
          position := cur.position + 8 * min (count / 64) ((cur.end_ - cur.position) / 8) }) := by
  unfold cx_column_cursor_skip_bit
  rw [if_neg (by simp [hc]), (skip_total cur _ 8 (count / 64) hty hpos).1]
  simp only
  split
  · split
    · exact ⟨_, rfl⟩
    · exact ⟨_, rfl⟩
  · exact ⟨_, rfl⟩

/-- A call that the assertions admit, on a well-formed cursor, returns and leaves the
cursor well-formed. -/
theorem call_fits_returns (cfg : Build) (t : cx_column_type) (cur : cx_column_cursor)
    (call : CursorCall) (hwf : cur.wf t) (hfit : call.fits t) :
    ∃ cur', cx_column_cursor_call cfg cur call = some cur' ∧ cur'.wf t := by
  obtain ⟨hty, hstart, hpos, hstr⟩ := hwf
  have hfixed : ∀ (T : cx_column_type) (S count : Nat), t = T → T ≠ cx_column_type.STR →
      ∃ k cur', cx_column_cursor_skip cur T S count = some (k, cur') ∧ cur'.wf t := by
    intro T S count hT hne
    obtain ⟨h1, h2⟩ := skip_total cur T S count (by rw [hty, hT]) hpos
    exact ⟨_, _, h1, hty, hstart, h2, fun h => absurd (hT ▸ h) hne⟩
  have hbit : ∀ count, t = cx_column_type.BIT → count % 64 = 0 →
      ∃ k cur', cx_column_cursor_skip_bit cur count = some (k, cur') ∧ cur'.wf t := by
    intro count hT hc
    obtain ⟨k, h1⟩ := skip_bit_total cur count (by rw [hty, hT]) hpos hc
    have h2 := (skip_total cur cx_column_type.BIT 8 (count / 64) (by rw [hty, hT]) hpos).2
    exact ⟨_, _, h1, hty, hstart, h2, fun h => by rw [hT] at h; cases h⟩
  cases call with
  | next_batch_bit =>
    obtain ⟨k, c, h1, h2⟩ := hbit CX_BATCH_SIZE hfit (by decide)
    exact ⟨c, by simp [cx_column_cursor_call, cx_column_cursor_next_batch_bit, h1], h2⟩
  | skip_bit count =>
    obtain ⟨k, c, h1, h2⟩ := hbit count hfit.1 hfit.2
    exact ⟨c, by simp [cx_column_cursor_call, h1], h2⟩
  | next_batch_i32 =>
    obtain ⟨k, c, h1, h2⟩ := hfixed cx_column_type.I32 4 CX_BATCH_SIZE hfit (by decide)
    exact ⟨c, by simp [cx_column_cursor_call, cx_column_cursor_next_batch_i32,
      cx_column_cursor_skip_i32, h1], h2⟩
  | next_batch_i64 =>
    obtain ⟨k, c, h1, h2⟩ := hfixed cx_column_type.I64 8 CX_BATCH_SIZE hfit (by decide)
    exact ⟨c, by simp [cx_column_cursor_call, cx_column_cursor_next_batch_i64,
      cx_column_cursor_skip_i64, h1], h2⟩
  | skip_i32 count =>
    obtain ⟨k, c, h1, h2⟩ := hfixed cx_column_type.I32 4 count hfit (by decide)
    exact ⟨c, by simp [cx_column_cursor_call, cx_column_cursor_skip_i32, h1], h2⟩
  | skip_i64 count =>
    obtain ⟨k, c, h1, h2⟩ := hfixed cx_column_type.I64 8 count hfit (by decide)
    exact ⟨c, by simp [cx_column_cursor_call, cx_column_cursor_skip_i64, h1], h2⟩
  | skip_flt count =>
    obtain ⟨k, c, h1, h2⟩ := hfixed cx_column_type.FLT 4 count hfit (by decide)
    exact ⟨c, by simp [cx_column_cursor_call, cx_column_cursor_skip_flt, h1], h2⟩
  | skip_dbl count =>
    obtain ⟨k, c, h1, h2⟩ := hfixed cx_column_type.DBL 8 count hfit (by decide)
    exact ⟨c, by simp [cx_column_cursor_call, cx_column_cursor_skip_dbl, h1], h2⟩
  | rewind =>
    refine ⟨_, rfl, hty, hstart, ?_, ?_⟩
    · show cur.start ≤ cur.end_
      rw [hstart]; exact Nat.zero_le _
    · intro h
      obtain ⟨pre, post, hnul, _, hend, hbuf⟩ := hstr h
      exact ⟨[], pre ++ post, by simpa using hnul,
        by show cur.start = _; rw [hstart]; simp [str_bytes], by simpa using hend,
        by simpa using hbuf⟩
  | next_batch_str =>
    have hT : t = cx_column_type.STR := hfit
    obtain ⟨pre, post, hnul, hp, hend, hbuf⟩ := hstr hT
    obtain ⟨w1, w2⟩ := at_record_window cur pre post hp hend hbuf
    obtain ⟨m1, m2⟩ := at_record_move cur pre post CX_BATCH_SIZE hnul hp hend hbuf
    have hrun := next_batch_str_loop_spec cfg CX_BATCH_SIZE cur [] post
      (fun s hs => hnul s (by simp [hs])) w1 w2
    refine ⟨{ cur with
      position := cur.position + (str_bytes (post.take CX_BATCH_SIZE)).length },
      ?_, hty, hstart, m2, fun _ => m1⟩
    simp only [cx_column_cursor_call, cx_column_cursor_next_batch_str]
    rw [if_neg (by simp [hty, hT]), hrun]
    rfl
  | skip_str count =>
    have hT : t = cx_column_type.STR := hfit
    obtain ⟨pre, post, hnul, hp, hend, hbuf⟩ := hstr hT
    obtain ⟨w1, w2⟩ := at_record_window cur pre post hp hend hbuf
    obtain ⟨m1, m2⟩ := at_record_move cur pre post count hnul hp hend hbuf
    have hrun := skip_str_loop_spec cfg count cur 0 post
      (fun s hs => hnul s (by simp [hs])) w1 w2
    refine ⟨{ cur with position := cur.position + (str_bytes (post.take count)).length },
      ?_, hty, hstart, m2, fun _ => m1⟩
    simp only [cx_column_cursor_call, cx_column_cursor_skip_str]
    rw [if_neg (by simp [hty, hT]), hrun]
    rfl

/-- A call returns only when the assertions admit it: a call for another type, and a
bit skip of a count that is not a multiple of 64, do not return. -/
theorem call_returns_fits (cfg : Build) (t : cx_column_type) (cur : cx_column_cursor)
    (call : CursorCall) (cur' : cx_column_cursor) (hty : cur.column.type = t)
    (h : cx_column_cursor_call cfg cur call = some cur') : call.fits t := by
  have hskip : ∀ (T : cx_column_type) (S count : Nat) (r : Nat × cx_column_cursor),
      cx_column_cursor_skip cur T S count = some r → t = T := by
    intro T S count r hs
    by_contra hne
    rw [skip_other_type cur T S count (by rw [hty]; exact hne)] at hs
    cases hs
  have hbit : ∀ (count : Nat) (r : Nat × cx_column_cursor),
      cx_column_cursor_skip_bit cur count = some r →
        t = cx_column_type.BIT ∧ count % 64 = 0 := by
    intro count r hs
    unfold cx_column_cursor_skip_bit at hs
    split at hs
    · cases hs
    · rename_i hc
      cases hk : cx_column_cursor_skip cur cx_column_type.BIT 8 (count / 64) with
      | none => rw [hk] at hs; cases hs
      | some q => exact ⟨hskip _ _ _ q hk, by omega⟩
  have hstrT : cur.column.type ≠ cx_column_type.STR → t ≠ cx_column_type.STR := by
    rw [hty]; exact id
  cases call with
  | next_batch_bit =>
    cases hs : cx_column_cursor_skip_bit cur CX_BATCH_SIZE with
    | none => simp [cx_column_cursor_call, cx_column_cursor_next_batch_bit, hs] at h
    | some r => exact (hbit _ r hs).1
  | skip_bit count =>
    cases hs : cx_column_cursor_skip_bit cur count with
    | none => simp [cx_column_cursor_call, hs] at h
    | some r => exact hbit _ r hs
  | next_batch_i32 =>
    cases hs : cx_column_cursor_skip cur cx_column_type.I32 4 CX_BATCH_SIZE with
    | none =>
      simp [cx_column_cursor_call, cx_column_cursor_next_batch_i32,
        cx_column_cursor_skip_i32, hs] at h
    | some r => exact hskip _ _ _ r hs
  | next_batch_i64 =>
    cases hs : cx_column_cursor_skip cur cx_column_type.I64 8 CX_BATCH_SIZE with
    | none =>
      simp [cx_column_cursor_call, cx_column_cursor_next_batch_i64,
        cx_column_cursor_skip_i64, hs] at h
    | some r => exact hskip _ _ _ r hs
  | skip_i32 count =>
    cases hs : cx_column_cursor_skip cur cx_column_type.I32 4 count with
    | none => simp [cx_column_cursor_call, cx_column_cursor_skip_i32, hs] at h
    | some r => exact hskip _ _ _ r hs
  | skip_i64 count =>
    cases hs : cx_column_cursor_skip cur cx_column_type.I64 8 count with
    | none => simp [cx_column_cursor_call, cx_column_cursor_skip_i64, hs] at h
    | some r => exact hskip _ _ _ r hs
  | skip_flt count =>
    cases hs : cx_column_cursor_skip cur cx_column_type.FLT 4 count with
    | none => simp [cx_column_cursor_call, cx_column_cursor_skip_flt, hs] at h
    | some r => exact hskip _ _ _ r hs
  | skip_dbl count =>
    cases hs : cx_column_cursor_skip cur cx_column_type.DBL 8 count with
    | none => simp [cx_column_cursor_call, cx_column_cursor_skip_dbl, hs] at h
    | some r => exact hskip _ _ _ r hs
  | rewind => exact True.intro
  | next_batch_str =>
    show t = cx_column_type.STR
    by_contra hne
    simp [cx_column_cursor_call, cx_column_cursor_next_batch_str, hty, hne] at h
  | skip_str count =>
    show t = cx_column_type.STR
    by_contra hne
    simp [cx_column_cursor_call, cx_column_cursor_skip_str, hty, hne] at h

/-- Any calls that return leave a well-formed cursor well-formed. -/
theorem calls_wf (cfg : Build) (t : cx_column_type) (calls : List CursorCall)
    (cur cur' : cx_column_cursor) (hwf : cur.wf t)
    (h : cx_column_cursor_calls cfg cur calls = some cur') : cur'.wf t := by
  induction calls generalizing cur with
  | nil =>
    simp only [cx_column_cursor_calls, Option.some.injEq] at h
    rw [← h]; exact hwf
  | cons call rest ih =>
    unfold cx_column_cursor_calls at h
    cases hc : cx_column_cursor_call cfg cur call with
    | none => rw [hc] at h; cases h
    | some c1 =>
      rw [hc] at h
      obtain ⟨c2, h2, hwf2⟩ := call_fits_returns cfg t cur call hwf
        (call_returns_fits cfg t cur call c1 hwf.1 hc)
      rw [hc] at h2
      injection h2 with h2
      subst h2
      exact ih c1 hwf2 h

/-- Any calls that the assertions admit return, from a well-formed cursor. -/
theorem calls_fit_return (cfg : Build) (t : cx_column_type) (calls : List CursorCall)
    (cur : cx_column_cursor) (hwf : cur.wf t) (hfit : ∀ call ∈ calls, call.fits t) :
    ∃ cur', cx_column_cursor_calls cfg cur calls = some cur' := by
  induction calls generalizing cur with
  | nil => exact ⟨cur, rfl⟩
  | cons call rest ih =>
    obtain ⟨c1, h1, hwf1⟩ := call_fits_returns cfg t cur call hwf (hfit call (by simp))
    obtain ⟨c2, h2⟩ := ih c1 hwf1 (fun x hx => hfit x (by simp [hx]))
    exact ⟨c2, by unfold cx_column_cursor_calls; rw [h1]; exact h2⟩

/-- Every append call that returns leaves the type of a heap column as it is. -/
theorem cx_column_put_call_type (cfg : Build) (a : Alloc) (c : cx_column) (call : PutCall)
    (r : Bool) (c' : cx_column) (hwf : c.heap_wf)
    (h : cx_column_put_call cfg a c call = some (r, c')) : c'.type = c.type := by
  cases r with
  | false => rw [cx_column_put_call_false cfg a c call c' h]
  | true =>
    by_cases hbit : ∀ v, call = PutCall.bit v → c.count % 64 = 0
    · obtain ⟨_, _, _, _, h5, _⟩ := cx_column_put_call_true cfg a c call c' hwf hbit h
      exact h5
    · push_neg at hbit
      obtain ⟨v, hv, hcnt⟩ := hbit
      subst hv
      simp only [cx_column_put_call, cx_column_put_bit] at h
      rw [if_neg hcnt] at h
      split at h
      · cases h
      · split at h
        · split at h
          · cases h
          · split at h
            · cases h
            · split at h
              · cases h
              · simp only [Option.some.injEq, Prod.mk.injEq, true_and] at h
                rw [← h]
        · simp only [Option.some.injEq, Prod.mk.injEq, true_and] at h
          rw [← h]

/-- An append call that returns leaves the used bytes of a string column a sequence
of NUL-free strings, each followed by its terminator. -/
theorem str_step (cfg : Build) (a : Alloc) (c : cx_column) (call : PutCall) (r : Bool)
    (c' : cx_column) (hwf : c.heap_wf) (hty : c.type = cx_column_type.STR)
    (hrec : ∃ ss : List (List Nat), (∀ s ∈ ss, ∀ b ∈ s, b ≠ 0) ∧
      c.buffer.take c.offset = str_bytes ss)
    (h : cx_column_put_call cfg a c call = some (r, c')) :
    ∃ ss : List (List Nat), (∀ s ∈ ss, ∀ b ∈ s, b ≠ 0) ∧
      c'.buffer.take c'.offset = str_bytes ss := by
  cases r with
  | false =>
    rw [cx_column_put_call_false cfg a c call c' h]
    exact hrec
  | true =>
    by_cases hbit : ∀ v, call = PutCall.bit v → c.count % 64 = 0
    · obtain ⟨g1, _, _, _, _, _, g7, _⟩ := cx_column_put_call_true cfg a c call c' hwf hbit h
      obtain ⟨ss, hnul, hbuf⟩ := hrec
      rw [hty] at g1
      cases call with
      | str s =>
        refine ⟨ss ++ [s.takeWhile (fun b => b != 0)], ?_, ?_⟩
        · intro x hx b hb
          rw [List.mem_append] at hx
          rcases hx with hx | hx
          · exact hnul x hx b hb
          · rw [List.mem_singleton] at hx
            subst hx
            have := List.mem_takeWhile_imp hb
            simpa using this
        · rw [g7, hbuf, str_bytes_append, str_bytes_cons]
          simp [PutCall.bytes, str_bytes]
      | bit v => cases g1
      | i32 v => cases g1
      | i64 v => cases g1
      | flt v => cases g1
      | dbl v => cases g1
    · push_neg at hbit
      obtain ⟨v, hv, hcnt⟩ := hbit
      subst hv
      simp [cx_column_put_call, cx_column_put_bit, hcnt, hty] at h

/-- A fresh cursor over a column built by appends is well-formed. -/
theorem put_all_cursor_wf (cfg : Build) (a0 a : Alloc) (madvise_ok : Bool)
    (t : cx_column_type) (e : cx_encoding_type) (c0 c : cx_column)
    (puts : List (Alloc × PutCall)) (rets : List Bool) (cur0 : cx_column_cursor)
    (h0 : cx_column_new cfg a0 t e = some c0)
    (h : cx_column_put_all cfg c0 puts = some (rets, c))
    (hcur : cx_column_cursor_new a madvise_ok c = some cur0) : cur0.wf t := by
  obtain ⟨hwf0, _, hoff0, hty0, _, _⟩ := cx_column_new_spec cfg a0 t e c0 h0
  obtain ⟨hwf, hty, hrec⟩ := cx_column_put_all_invariant cfg
    (fun c => c.heap_wf ∧ c.type = t ∧ (t = cx_column_type.STR →
      ∃ ss : List (List Nat), (∀ s ∈ ss, ∀ b ∈ s, b ≠ 0) ∧
        c.buffer.take c.offset = str_bytes ss))
    (by
      intro a c call r c' ⟨hwf, hty, hrec⟩ hcall
      refine ⟨(cx_column_put_call_size cfg a c call r c' hwf hcall).1,
        by rw [cx_column_put_call_type cfg a c call r c' hwf hcall, hty], ?_⟩
      intro hs
      exact str_step cfg a c call r c' hwf (by rw [hty, hs]) (hrec hs) hcall)
    puts c0 rets c
    ⟨hwf0, hty0, fun _ => ⟨[], by simp, by rw [hoff0]; simp [str_bytes]⟩⟩ h
  have hc := cx_column_cursor_new_spec a madvise_ok c cur0 hcur
  subst hc
  refine ⟨hty, rfl, Nat.zero_le _, ?_⟩
  intro hs
  obtain ⟨ss, hnul, hbuf⟩ := hrec hs
  obtain ⟨_, hlen, hle, _, _⟩ := hwf
  have hoff : c.offset = (str_bytes ss).length := by
    have := congrArg List.length hbuf
    rw [List.length_take] at this
    omega
  exact ⟨[], ss, by simpa using hnul, by simp [str_bytes], by simpa using hoff,
    by simpa using hbuf⟩

/-- C28. Cursor bounds.  For every column made by `cx_column_new`, of any type, and
grown by any sequence of append calls that return (successful ones, and failed ones,
which leave the column as it was), and a cursor over it: every sequence of
`next_batch`, `skip` and `rewind` calls that the assertions on the column type and on
the bit count admit returns, and `start <= position <= end` holds after each call
(after every prefix `take k` of the sequence); so the assertion `position <= end` of
`cx_column_cursor_advance` never fails.  Conversely, after any calls that returned
the bounds hold, and a further call fails to return exactly when it is not admitted:
a call for another column type, or a bit skip of a count that is not a multiple of
64. -/
theorem cx_column_cursor_bounds (cfg : Build) (a0 a : Alloc) (madvise_ok : Bool)
    (t : cx_column_type) (e : cx_encoding_type) (c0 c : cx_column)
    (puts : List (Alloc × PutCall)) (rets : List Bool) (cur0 : cx_column_cursor)
    (h0 : cx_column_new cfg a0 t e = some c0)
    (h : cx_column_put_all cfg c0 puts = some (rets, c))
    (hcur : cx_column_cursor_new a madvise_ok c = some cur0) :
    (∀ calls : List CursorCall, (∀ call ∈ calls, call.fits t) →
      ∀ k, ∃ cur, cx_column_cursor_calls cfg cur0 (calls.take k) = some cur ∧
        cur.start ≤ cur.position ∧ cur.position ≤ cur.end_) ∧
    (∀ calls cur, cx_column_cursor_calls cfg cur0 calls = some cur →
      cur.start ≤ cur.position ∧ cur.position ≤ cur.end_ ∧
      ∀ call, cx_column_cursor_call cfg cur call = none ↔ ¬ call.fits t) := by
  have hwf0 := put_all_cursor_wf cfg a0 a madvise_ok t e c0 c puts rets cur0 h0 h hcur
  constructor
  · intro calls hfit k
    obtain ⟨cur, hc⟩ := calls_fit_return cfg t (calls.take k) cur0 hwf0
      (fun x hx => hfit x (List.mem_of_mem_take hx))
    obtain ⟨_, hs, hp, _⟩ := calls_wf cfg t (calls.take k) cur0 cur hwf0 hc
    exact ⟨cur, hc, by rw [hs]; exact Nat.zero_le _, hp⟩
  · intro calls cur hc
    have hwf := calls_wf cfg t calls cur0 cur hwf0 hc
    refine ⟨by rw [hwf.2.1]; exact Nat.zero_le _, hwf.2.2.1, ?_⟩
    intro call
    constructor
    · intro hnone hfit
      obtain ⟨c1, h1, _⟩ := call_fits_returns cfg t cur call hwf hfit
      rw [hnone] at h1
      cases h1
    · intro hnf
      cases hcall : cx_column_cursor_call cfg cur call with
      | none => rfl
      | some c1 => exact absurd (call_returns_fits cfg t cur call c1 hwf.1 hcall) hnf

/-- C28 at a concrete input: the I32 column of the values 1 and -2, a cursor over
it, and the calls `next_batch`, `skip(5)`, `rewind`, `skip(1)`. -/
theorem cx_column_cursor_bounds_witness :
    (cx_column_new ⟨false, none, true, false⟩ alloc_ok cx_column_type.I32
        cx_encoding_type.NONE = some (sample_new_column cx_column_type.I32) ∧
      cx_column_put_all ⟨false, none, true, false⟩ (sample_new_column cx_column_type.I32)
        [(alloc_ok, PutCall.i32 1), (alloc_ok, PutCall.i32 (-2))]
        = some ([true, true], sample_i32_appended) ∧
      cx_column_cursor_new alloc_ok true sample_i32_appended
        = some { column := sample_i32_appended, start := 0, end_ := 8, position := 0 } ∧
      ∀ call ∈ [CursorCall.next_batch_i32, CursorCall.skip_i32 5, CursorCall.rewind,
          CursorCall.skip_i32 1], call.fits cx_column_type.I32) ∧
    ∃ cur, cx_column_cursor_calls ⟨false, none, true, false⟩
        { column := sample_i32_appended, start := 0, end_ := 8, position := 0 }
        ([CursorCall.next_batch_i32, CursorCall.skip_i32 5, CursorCall.rewind,
          CursorCall.skip_i32 1].take 4) = some cur ∧
      cur.start ≤ cur.position ∧ cur.position ≤ cur.end_ :=
  ⟨⟨rfl, by rfl, rfl, by decide⟩,
    (cx_column_cursor_bounds ⟨false, none, true, false⟩ alloc_ok alloc_ok true
      cx_column_type.I32 cx_encoding_type.NONE (sample_new_column cx_column_type.I32)
      sample_i32_appended [(alloc_ok, PutCall.i32 1), (alloc_ok, PutCall.i32 (-2))]
      [true, true] { column := sample_i32_appended, start := 0, end_ := 8, position := 0 }
      (by rfl) (by rfl) (by rfl)).1
      [CursorCall.next_batch_i32, CursorCall.skip_i32 5, CursorCall.rewind,
        CursorCall.skip_i32 1] (by decide) 4⟩

/-! ### Export of a bit column -/

/-- C7, code at the failing input: the input of C5, exported and mapped back.  66
bits are appended to a new BIT column, only the last one (row 65) true, on a target
whose shifter does not mask the count; the column is exported and
`cx_column_new_mmapped` builds a column from the exported bytes and the row count.
The cursor over the mapped column returns the batches of the cursor over the
original, 64 rows at byte 0 and then 2 rows at byte 8, but the words it reads are
`[0, 0]`, while the appended rows pack to `[0, 2]`: row 65 is lost, so the cursor
does not yield the appended sequence. -/
theorem cx_column_export_roundtrip_row_65 :
    ∃ c m cur_c cur_m,
      cx_column_put_all ⟨false, none, false, false⟩ (sample_new_column cx_column_type.BIT)
        ((List.range 66).map (fun i => (alloc_ok, PutCall.bit (decide (i = 65)))))
        = some (List.replicate 66 true, c) ∧
      cx_column_export c = (c.buffer, 16) ∧
      cx_column_new_mmapped ⟨false, none, false, false⟩ alloc_ok c.type c.encoding
        (cx_column_export c).1 (cx_column_export c).2 (cx_column_count c) = some m ∧
      cx_column_cursor_new alloc_ok true c = some cur_c ∧
      cx_column_cursor_new alloc_ok true m = some cur_m ∧
      cx_column_cursor_drain cx_column_cursor_next_batch_bit 2 cur_c
        = some [⟨0, 64⟩, ⟨8, 2⟩] ∧
      cx_column_cursor_drain cx_column_cursor_next_batch_bit 2 cur_m
        = some [⟨0, 64⟩, ⟨8, 2⟩] ∧
      read_batches (fun p _ => view_u64 cur_m.column.buffer p 1) [⟨0, 64⟩, ⟨8, 2⟩]
        = some [0, 0] ∧
      packed_words ((List.range 66).map (fun i => decide (i = 65))) = [0, 2] :=
  ⟨_, _, _, _, rfl, rfl, rfl, rfl, rfl, rfl, rfl, rfl, by decide⟩

/-- The bit part of C7 on a target that masks the shift count (x86-64, AArch64): for
every sequence of booleans appended with `cx_column_put_bit` to a column created by
`cx_column_new(BIT)`, the cursor over the column that `cx_column_new_mmapped` builds
from the export yields the appended rows: the calls return, at most 64 rows each,
the available counts sum to `N`, and the words read in order are the rows packed 64
to a word, bit `i mod 64` of word `i div 64` being row `i`. -/
theorem cx_column_export_roundtrip_masked (cfg : Build) (hmask : cfg.shift_masks = true)
    (a0 a am : Alloc) (km : Bool) (e : cx_encoding_type) (c0 : cx_column)
    (bs : List (Alloc × Bool)) (rets : List Bool) (c m : cx_column)
    (cur_m : cx_column_cursor)
    (h0 : cx_column_new cfg a0 cx_column_type.BIT e = some c0)
    (h : cx_column_put_all cfg c0 (bs.map (fun p => (p.1, PutCall.bit p.2))) = some (rets, c))
    (hall : ∀ r ∈ rets, r = true)
    (hm : cx_column_new_mmapped cfg a c.type c.encoding (cx_column_export c).1
      (cx_column_export c).2 (cx_column_count c) = some m)
    (hcm : cx_column_cursor_new am km m = some cur_m) :
    (∀ fuel, (bs.length + 63) / 64 ≤ fuel →
      ∃ batches,
        cx_column_cursor_drain cx_column_cursor_next_batch_bit fuel cur_m = some batches ∧
        (∀ b ∈ batches, b.available ≤ CX_BATCH_SIZE) ∧
        (batches.map (fun b => b.available)).sum = bs.length ∧
        read_batches (fun p _ => view_u64 cur_m.column.buffer p 1) batches
          = some (packed_words (bs.map (fun p => p.2)))) ∧
    (∀ i, ((packed_words (bs.map (fun p => p.2))).getD (i / 64) 0).testBit (i % 64)
      = (bs.map (fun p => p.2)).getD i false) := by
  obtain ⟨hwf0, hcnt0, hoff0, hty0, _, _⟩ := cx_column_new_spec cfg a0 _ e c0 h0
  obtain ⟨hwf, hty, hoff, hp⟩ := bit_packed_run cfg hmask bs c0 rets c [] hwf0 hty0
    (by rw [hoff0, hcnt0]) ⟨by rw [hcnt0]; rfl, by intro j hj; simp at hj⟩ h hall
  rw [List.nil_append] at hp
  have hN : c.count = bs.length := by rw [hp.1]; simp
  have hwin : c.offset ≤ c.buffer.length := by rw [hwf.2.1]; exact hwf.2.2.1
  have hmeq := cx_column_new_mmapped_spec cfg a _ _ _ _ _ m hm
  simp only [cx_column_export, cx_column_count] at hmeq
  have hb : m.buffer = c.buffer := by rw [hmeq]
  have ho : m.offset = c.offset := by rw [hmeq]
  have hn : m.count = c.count := by rw [hmeq]
  have ht : m.type = c.type := by rw [hmeq]
  have hview := view_u64_packed c _ hp (by simp only [List.length_map]; omega)
  simp only [List.length_map] at hview
  have hy := yields_bits am km m cur_m (by rw [ht, hty]) (by rw [ho, hn]; exact hoff)
    (by rw [ho, hb]; exact hwin) hcm
  have hcb : cur_m.column.buffer = c.buffer := by
    rw [cx_column_cursor_new_spec am km m cur_m hcm]; exact hb
  refine ⟨?_, testBit_packed_words _⟩
  intro fuel hfuel
  obtain ⟨batches, words, h1, h2, h3, h4, h5⟩ := hy fuel (by rw [hn, hN]; exact hfuel)
  rw [hn, hN] at h3 h5
  rw [hcb, hview] at h5
  injection h5 with h5
  exact ⟨batches, h1, h2, h3, by rw [h4, h5]⟩

/-- The rows true, false, true appended on a masking target, exported and mapped
back: the cursor over the mapped column reads one batch of 3 rows, the word 5. -/
theorem cx_column_export_roundtrip_masked_witness :
    ∃ c m cur_m,
      cx_column_put_all ⟨false, none, true, false⟩ (sample_new_column cx_column_type.BIT)
        ([(alloc_ok, true), (alloc_ok, false), (alloc_ok, true)].map
          (fun p => (p.1, PutCall.bit p.2)))
        = some ([true, true, true], c) ∧
      cx_column_new_mmapped ⟨false, none, true, false⟩ alloc_ok c.type c.encoding
        (cx_column_export c).1 (cx_column_export c).2 (cx_column_count c) = some m ∧
      cx_column_cursor_new alloc_ok true m = some cur_m ∧
      ∃ batches,
        cx_column_cursor_drain cx_column_cursor_next_batch_bit 1 cur_m = some batches ∧
        (∀ b ∈ batches, b.available ≤ CX_BATCH_SIZE) ∧
        (batches.map (fun b => b.available)).sum = 3 ∧
        read_batches (fun p _ => view_u64 cur_m.column.buffer p 1) batches
          = some (packed_words [true, false, true]) :=
  ⟨_, _, _, rfl, rfl, rfl,
    (cx_column_export_roundtrip_masked ⟨false, none, true, false⟩ rfl alloc_ok alloc_ok
      alloc_ok true cx_encoding_type.NONE (sample_new_column cx_column_type.BIT)
      [(alloc_ok, true), (alloc_ok, false), (alloc_ok, true)] [true, true, true] _ _ _
      rfl rfl (by decide) rfl rfl).1 1 (by decide)⟩

end Columnix
